import Mathlib

/-!
# SOM-SD: a verification development

Shallow embedding of the core of `somsd` (`common.h`, `common.c`, `data.c`,
`fileio.c`, `train.c`, `utils.c`).

Conventions of the embedding.

* A graph is an arena: `Graph.nodes` is the array `gptr->nodes`, and a pointer
  to a node is the index of that node in the array.  A `NULL` child pointer is
  `none`.  `numnodes` is `nodes.length` and `numparents` is `parents.length`.
* `UNSIGNED` (a C `int` holding counts and indices) is `Nat`; grid coordinates
  (`int x, y`) are `Int`.
* `FLOAT` has two embeddings.  In the first it is idealised as a linearly
  ordered field `K` (the rationals in every concrete evaluation): rounding is
  not modelled, so every equation between `FLOAT` values is an equation of
  exact arithmetic.  The constant `FLT_MAX` keeps its exact value.  The library
  functions `expf`, `sqrtf` and `drand48` and the cast of a `FLOAT` to `int`
  are arguments.
* In the second embedding, in the namespace `Fp`, `FLOAT` is the C type `float`
  of the default configuration of `common.h`: a value is a `Fl`, that is a
  rational number, an infinity or NaN, and every operation is the exact
  operation followed by rounding to the nearest number of the format, ties to
  even, with overflow to an infinity.  `binary32` is `float` and `binary64` is
  `double`, in which the source evaluates `0.5`, `0.75`, `100.0`, `4.0`, `-2.0`
  and every product with them.  Zero has no sign and an expression keeps no
  precision beyond its type.  The statements that depend on rounding or
  overflow (the winner search, the adaptation of a codebook, the threshold of
  the bubble neighbourhood and the learning rates) are made in this embedding.
* The level array of the reverse trace is a list in the first place; in the
  namespace `Arr` it has its `int` counters and a memory of bounded size.
* An array is a list.  A read outside an array gives a default value and a
  write outside an array is dropped; the statements assume the indices valid
  wherever that matters.
* Out-arguments are results: a C function that mutates its arguments returns
  them.  A local that the C code reads before it writes it is an argument.
* Loops that need not terminate carry a fuel argument and return `none` when
  the fuel runs out.
* An `int` whose overflow matters (the counter of `GetMaxPathLength`) wraps
  modulo `2^32`.  A C string is a `String`, compared as a list of characters;
  a `NULL` string is `none`.
* A linked list of graphs is the array of its `next` links with the index of
  its head.
-/

set_option autoImplicit false

namespace Somsd

/-! ## Data model (`common.h`) -/

/-- Graph node, `struct Node`. -/
structure Node (K : Type) where
  points : List K
  nnum : Nat
  depth : Nat
  mu : List K
  x : Int
  y : Int
  label : Nat
  parents : List Nat
  children : List (Option Nat)

/-- Graph, `struct Graph` (the `next` link is left to the caller). -/
structure Graph (K : Type) where
  nodes : List (Node K)
  ldim : Nat
  dimension : Nat
  FanOut : Nat
  FanIn : Nat
  tdim : Nat
  depth : Nat

/-- Codebook entry, `struct Codebook`; the two members of its union are kept
as separate fields. -/
structure Codebook (K : Type) where
  points : List K
  x : Int
  y : Int
  a : K
  b : K
  label : Nat

/-- Map, `struct Map`. -/
structure Map (K : Type) where
  codes : List (Codebook K)
  dim : Nat
  xdim : Nat
  ydim : Nat
  iter : Nat
  topology : Nat
  neighborhood : Nat

/-- Best matching codebook, `struct Winner`. -/
structure Winner (K : Type) where
  codeno : Nat
  diff : K

/-- Topology tag `TOPOL_VQ`. -/
def TOPOL_VQ : Nat := 4

/-- The value of `FLT_MAX`, `(2 - 2^(-23)) * 2^127`. -/
def FLT_MAX {K : Type} [LinearOrderedField K] : K := 340282346638528859811704183484516925440

/-- Node read through a pointer that is not a node of the graph. -/
def emptyNode {K : Type} : Node K :=
  { points := [], nnum := 0, depth := 0, mu := [], x := 0, y := 0, label := 0,
    parents := [], children := [] }

/-- The node `nodes[i]`. -/
def nodeAt {K : Type} (nodes : List (Node K)) (i : Nat) : Node K := nodes.getD i emptyNode

/-- The pointer `node->children[i]`. -/
def childAt {K : Type} (node : Node K) (i : Nat) : Option Nat := node.children.getD i none

/-- Codebook read through an index that is not a codebook of the map. -/
def emptyCodebook {K : Type} [LinearOrderedField K] : Codebook K :=
  { points := [], x := 0, y := 0, a := 0, b := 0, label := 0 }

/-- The codebook `map->codes[n]`. -/
def codeAt {K : Type} [LinearOrderedField K] (map : Map K) (n : Nat) : Codebook K :=
  map.codes.getD n emptyCodebook

/-- The assignment `nodes[n]->depth = d`. -/
def setDepth {K : Type} (nodes : List (Node K)) (n d : Nat) : List (Node K) :=
  nodes.set n { nodeAt nodes n with depth := d }

/-- The assignment of a new `points` vector to node `n`. -/
def setPoints {K : Type} (nodes : List (Node K)) (n : Nat) (pts : List K) : List (Node K) :=
  nodes.set n { nodeAt nodes n with points := pts }

/-- The assignment `nodes[n]->x = x; nodes[n]->y = y`. -/
def setPos {K : Type} (nodes : List (Node K)) (n : Nat) (x y : Int) : List (Node K) :=
  nodes.set n { nodeAt nodes n with x := x, y := y }

/-! ## Depth assignment (`data.c`) -/

/-- `GetNumChildren`: the number of non-null children among the first `FanOut`
slots. -/
def GetNumChildren {K : Type} (node : Node K) (FanOut : Nat) : Nat :=
  (List.range FanOut).foldl (fun num i => if (childAt node i).isSome then num + 1 else num) 0

/-- `GetMaxPathLength`, with the counter `maxiter` as a natural number and a
ghost flag that records whether the branch `--maxiter <= 0` was taken anywhere
in the call tree. -/
def GetMaxPathLengthT {K : Type} (nodes : List (Node K)) (FanOut : Nat) :
    Nat → Nat → Nat × Bool
  | 0, node =>
    if (nodeAt nodes node).depth ≠ 0 ∨ GetNumChildren (nodeAt nodes node) FanOut = 0 then
      ((nodeAt nodes node).depth, false)
    else (0, true)
  | maxiter + 1, node =>
    if (nodeAt nodes node).depth ≠ 0 ∨ GetNumChildren (nodeAt nodes node) FanOut = 0 then
      ((nodeAt nodes node).depth, false)
    else if maxiter = 0 then (0, true)
    else
      (List.range FanOut).foldl
        (fun acc i =>
          match childAt (nodeAt nodes node) i with
          | none => acc
          | some c =>
            let r := GetMaxPathLengthT nodes FanOut maxiter c
            (if r.1 + 1 > acc.1 then r.1 + 1 else acc.1, acc.2 || r.2))
        (0, false)

/-- `GetMaxPathLength(node, FanOut, maxiter)` for any `int maxiter`. -/
def GetMaxPathLength {K : Type} (nodes : List (Node K)) (FanOut : Nat) (maxiter : Int)
    (node : Nat) : Nat :=
  (GetMaxPathLengthT nodes FanOut maxiter.toNat node).1

/-- One turn of the node loop of `SetNodeDepthRecursively`; the state is the
node array, `max` and the ghost guard flag. -/
def recStep {K : Type} (FanOut numnodes : Nat) (st : List (Node K) × Nat × Bool) (n : Nat) :
    List (Node K) × Nat × Bool :=
  let r := GetMaxPathLengthT st.1 FanOut numnodes n
  (setDepth st.1 n r.1, (if st.2.1 < r.1 then r.1 else st.2.1), (st.2.2 || r.2))

/-- `SetNodeDepthRecursively` on one graph, with the ghost guard flag. -/
def SetNodeDepthRecursivelyT {K : Type} (g : Graph K) : Graph K × Bool :=
  if g.nodes.length ≤ 1 then (g, false)
  else
    let st := (List.range g.nodes.length).foldl (recStep g.FanOut g.nodes.length)
      (g.nodes, 0, false)
    ({ g with nodes := st.1, depth := st.2.1 }, st.2.2)

/-- `SetNodeDepthRecursively` on one graph. -/
def SetNodeDepthRecursively {K : Type} (g : Graph K) : Graph K :=
  (SetNodeDepthRecursivelyT g).1

/-- The largest depth among the non-null children of `node`, as computed by the
inner loop of `SetNodeDepthIteratively`. -/
def maxChildDepthLoop {K : Type} (nodes : List (Node K)) (FanOut : Nat) (node : Node K) : Nat :=
  (List.range FanOut).foldl
    (fun depth i =>
      match childAt node i with
      | none => depth
      | some c => if (nodeAt nodes c).depth > depth then (nodeAt nodes c).depth else depth)
    0

/-- One turn of the node loop of `SetNodeDepthIteratively`; the state is the
node array, `flags`, `max` and `changes`. -/
def iterStep {K : Type} (FanOut : Nat) (st : List (Node K) × List Nat × Nat × Nat) (n : Nat) :
    List (Node K) × List Nat × Nat × Nat :=
  if st.2.1.getD n 0 = 0 then st
  else
    let flags := st.2.1.set n 0
    let node := nodeAt st.1 n
    if GetNumChildren node FanOut = 0 then (setDepth st.1 n 0, flags, st.2.2.1, st.2.2.2)
    else
      let depth := maxChildDepthLoop st.1 FanOut node
      if node.depth ≠ depth + 1 then
        (setDepth st.1 n (depth + 1), flags.set n 1, depth + 1, st.2.2.2 + 1)
      else (st.1, flags, st.2.2.1, st.2.2.2)

/-- The `do ... while (changes > 0)` loop of `SetNodeDepthIteratively`. -/
def iterLoop {K : Type} (FanOut numnodes : Nat) :
    Nat → List (Node K) → List Nat → Nat → Option (List (Node K) × Nat)
  | 0, _, _, _ => none
  | fuel + 1, nodes, flags, max =>
    let st := (List.range numnodes).foldl (iterStep FanOut) (nodes, flags, max, 0)
    if st.2.2.2 > 0 then iterLoop FanOut numnodes fuel st.1 st.2.1 st.2.2.1
    else some (st.1, st.2.2.1)

/-- `SetNodeDepthIteratively` on one graph.  `memset(flags, 1, ...)` fills every
byte with 1, so every flag starts as `0x01010101`. -/
def SetNodeDepthIteratively {K : Type} (fuel : Nat) (g : Graph K) : Option (Graph K) :=
  if g.nodes.length ≤ 1 then some g
  else
    match iterLoop g.FanOut g.nodes.length fuel g.nodes
        (List.replicate g.nodes.length 16843009) 0 with
    | none => none
    | some r => some { g with nodes := r.1, depth := r.2 }

/-- The body of the `while (num > 0)` loop of `SetNodeDepth_UsingReverseTrace`:
every parent of every node of `onlevel` gets `depth` and is appended to the new
level. -/
def traceLevel {K : Type} (nodes : List (Node K)) (onlevel : List Nat) (depth : Nat) :
    List (Node K) × List Nat :=
  onlevel.foldl
    (fun st n =>
      (nodeAt st.1 n).parents.foldl (fun st p => (setDepth st.1 p depth, st.2 ++ [p])) st)
    (nodes, [])

/-- The `while (num > 0)` loop of `SetNodeDepth_UsingReverseTrace`. -/
def traceLoop {K : Type} :
    Nat → List (Node K) → List Nat → Nat → Option (List (Node K) × Nat)
  | 0, _, _, _ => none
  | fuel + 1, nodes, onlevel, depth =>
    if onlevel.length > 0 then
      let st := traceLevel nodes onlevel depth
      traceLoop fuel st.1 st.2 (depth + 1)
    else some (nodes, depth)

/-- The leaf frontier collected by `SetNodeDepth_UsingReverseTrace`. -/
def leafLevel {K : Type} (g : Graph K) : List Nat :=
  (List.range g.nodes.length).filter
    (fun n => GetNumChildren (nodeAt g.nodes n) g.FanOut = 0)

/-- `SetNodeDepth_UsingReverseTrace` on one graph. -/
def SetNodeDepth_UsingReverseTrace {K : Type} (fuel : Nat) (g : Graph K) : Option (Graph K) :=
  match traceLoop fuel g.nodes (leafLevel g) 1 with
  | none => none
  | some r => some { g with nodes := r.1, depth := r.2 - 1 }

/-! ## Winner search (`train.c`) -/

/-- The inner loop of `FindWinnerEucledian`: `k` is the number of features still
to visit, `i` the current feature and `difference` the partial sum; the loop is
left as soon as the partial sum exceeds `diffsf`. -/
def diffLoop {K : Type} [LinearOrderedField K] (codebook sample mu : List K) (diffsf : K) :
    Nat → Nat → K → K
  | 0, _, difference => difference
  | k + 1, i, difference =>
    let diff := codebook.getD i 0 - sample.getD i 0
    let difference := difference + diff * diff * mu.getD i 0
    if difference > diffsf then difference
    else diffLoop codebook sample mu diffsf k (i + 1) difference

/-- One turn of the codebook loop of `FindWinnerEucledian`; the state is
`winner->codeno` and `diffsf`. -/
def findWinnerStep {K : Type} [LinearOrderedField K] (map : Map K) (node : Node K)
    (vdim : Nat) (st : Nat × K) (n : Nat) : Nat × K :=
  let difference := diffLoop (codeAt map n).points node.points node.mu st.2 vdim 0 0
  if difference < st.2 then (n, difference) else st

/-- `FindWinnerEucledian`.  The structure `winner` is an in/out argument:
`codeno` is written only when a codebook beats the running minimum. -/
def FindWinnerEucledian {K : Type} [LinearOrderedField K] (map : Map K) (node : Node K)
    (gptr : Graph K) (winner : Winner K) : Winner K :=
  let st := (List.range (map.xdim * map.ydim)).foldl
    (findWinnerStep map node gptr.dimension) (winner.codeno, FLT_MAX)
  { codeno := st.1, diff := st.2 }

/-! ## State encoding and K-step approximation (`data.c`) -/

/-- The child-state loop shared by the state encoders: slot `i` of the
child-state segment receives the position of child `i` when it is non-null. -/
def encodeChildren {K : Type} [LinearOrderedField K] (gptr : Graph K) (node : Node K)
    (pts : List K) : List K :=
  (List.range gptr.FanOut).foldl
    (fun pts i =>
      match childAt node i with
      | none => pts
      | some c =>
        (pts.set (gptr.ldim + i * 2) ((nodeAt gptr.nodes c).x : K)).set
          (gptr.ldim + i * 2 + 1) ((nodeAt gptr.nodes c).y : K))
    pts

/-- The parent-state loop of `UpdateChildrenAndParentLocation`. -/
def encodeParents {K : Type} [LinearOrderedField K] (gptr : Graph K) (node : Node K)
    (pts : List K) : List K :=
  (List.range node.parents.length).foldl
    (fun pts i =>
      (pts.set (gptr.ldim + 2 * gptr.FanOut + i * 2)
          ((nodeAt gptr.nodes (node.parents.getD i 0)).x : K)).set
        (gptr.ldim + 2 * gptr.FanOut + i * 2 + 1)
        ((nodeAt gptr.nodes (node.parents.getD i 0)).y : K))
    pts

/-- `UpdateChildrensLocation(gptr, gptr->nodes[n])`. -/
def UpdateChildrensLocation {K : Type} [LinearOrderedField K] (gptr : Graph K) (n : Nat) :
    Graph K :=
  { gptr with
    nodes := setPoints gptr.nodes n
      (encodeChildren gptr (nodeAt gptr.nodes n) (nodeAt gptr.nodes n).points) }

/-- `UpdateChildrenAndParentLocation(gptr, gptr->nodes[n])`. -/
def UpdateChildrenAndParentLocation {K : Type} [LinearOrderedField K] (gptr : Graph K)
    (n : Nat) : Graph K :=
  { gptr with
    nodes := setPoints gptr.nodes n
      (encodeParents gptr (nodeAt gptr.nodes n)
        (encodeChildren gptr (nodeAt gptr.nodes n) (nodeAt gptr.nodes n).points)) }

/-- The state encoder chosen by `K_Step_Approximation` on a map that is not in
VQ mode. -/
def UpdateStates {K : Type} [LinearOrderedField K] (mode : Int) (gptr : Graph K) (n : Nat) :
    Graph K :=
  if mode = 1 then UpdateChildrenAndParentLocation gptr n else UpdateChildrensLocation gptr n

/-- State of one round of `K_Step_Approximation`. -/
structure RoundState (K : Type) where
  gptr : Graph K
  winner : Winner K
  xstates : List Int
  ystates : List Int
  gpr_qerror : K

/-- One turn of the first node loop of a round: encode the state of node
`nnum`, search its winner and buffer the winner's coordinates. -/
def kStepNode {K : Type} [LinearOrderedField K] (map : Map K) (mode : Int)
    (st : RoundState K) (nnum : Nat) : RoundState K :=
  let gptr := UpdateStates mode st.gptr nnum
  let winner := FindWinnerEucledian map (nodeAt gptr.nodes nnum) gptr st.winner
  { gptr := gptr,
    winner := winner,
    xstates := st.xstates.set nnum (codeAt map winner.codeno).x,
    ystates := st.ystates.set nnum (codeAt map winner.codeno).y,
    gpr_qerror := st.gpr_qerror + winner.diff }

/-- The second node loop of a round: commit the buffered positions. -/
def kStepCommit {K : Type} (gptr : Graph K) (xstates ystates : List Int) : Graph K :=
  { gptr with
    nodes := (List.range gptr.nodes.length).foldl
      (fun nodes nnum => setPos nodes nnum (xstates.getD nnum 0) (ystates.getD nnum 0))
      gptr.nodes }

/-- One round of `K_Step_Approximation` on one graph (one turn of the loop over
`iter`). -/
def kStepRound {K : Type} [LinearOrderedField K] (map : Map K) (mode : Int)
    (st : RoundState K) : RoundState K :=
  let st1 := (List.range st.gptr.nodes.length).foldl (kStepNode map mode)
    { st with gpr_qerror := 0 }
  { st1 with gptr := kStepCommit st1.gptr st1.xstates st1.ystates }

/-- The rounds `iter = 0 .. rounds - 1`. -/
def kStepRounds {K : Type} [LinearOrderedField K] (map : Map K) (mode : Int) :
    Nat → RoundState K → RoundState K
  | 0, st => st
  | rounds + 1, st => kStepRounds map mode rounds (kStepRound map mode st)

/-- The final pass over a graph: the point vector of every node is encoded once
more. -/
def kStepFinal {K : Type} [LinearOrderedField K] (mode : Int) (gptr : Graph K) : Graph K :=
  (List.range gptr.nodes.length).foldl (UpdateStates mode) gptr

/-- The body of the graph loop of `K_Step_Approximation`: `gptr->depth + 1`
rounds, then the final pass. -/
def kStepGraph {K : Type} [LinearOrderedField K] (map : Map K) (mode : Int)
    (st : RoundState K) : RoundState K :=
  let st1 := kStepRounds map mode (st.gptr.depth + 1) st
  { st1 with gptr := kStepFinal mode st1.gptr }

/-- The graph loop of `K_Step_Approximation`; the state is the list of graphs
already processed, the scratch state and `qerror`. -/
def kStepGraphs {K : Type} [LinearOrderedField K] (map : Map K) (mode : Int) :
    List (Graph K) → List (Graph K) × RoundState K × K → List (Graph K) × RoundState K × K
  | [], acc => acc
  | gptr :: rest, acc =>
    let st := kStepGraph map mode { acc.2.1 with gptr := gptr }
    kStepGraphs map mode rest (acc.1 ++ [st.gptr], st, acc.2.2 + st.gpr_qerror)

/-- `K_Step_Approximation(map, graph, mode)` on a linked list of graphs.  The
local `winner` is not initialised by the function, so its first content is an
argument; the buffers `xstates` and `ystates` are written before they are read.
In VQ mode the function exits the program, which is the result `none`.  The
result is the list of graphs as mutated and the returned error `qerror / n`. -/
def K_Step_Approximation {K : Type} [LinearOrderedField K] (map : Map K)
    (graph : List (Graph K)) (mode : Int) (winner : Winner K) :
    Option (List (Graph K) × K) :=
  if map.topology = TOPOL_VQ then none
  else
    let n : Nat := graph.foldl (fun n gptr => n + gptr.nodes.length) 0
    let nmax : Nat := graph.foldl
      (fun nmax gptr => if nmax < gptr.nodes.length then gptr.nodes.length else nmax) 0
    let r := kStepGraphs map mode graph
      ([], { gptr := { nodes := [], ldim := 0, dimension := 0, FanOut := 0, FanIn := 0,
                       tdim := 0, depth := 0 },
             winner := winner,
             xstates := List.replicate nmax 0,
             ystates := List.replicate nmax 0,
             gpr_qerror := 0 }, 0)
    some (r.1, r.2.2 / (n : K))

/-! ## Codebook adaptation (`train.c`) -/

/-- `ComputeHexaDistance`: the squared distance of two cells of the hexagonal
grid.  `dx & 1` is the test that `dx` is odd. -/
def ComputeHexaDistance {K : Type} [LinearOrderedField K] (bx byy tx ty : Int) : K :=
  let dx : Int := bx - tx
  let dy : K := ((byy - ty : Int) : K)
  let dy : K := if dx % 2 ≠ 0 then (if tx % 2 ≠ 0 then dy + 1 / 2 else dy - 1 / 2) else dy
  dy * dy + 3 / 4 * (dx : K) * (dx : K)

/-- `AdaptVector`: `codebook[i] += alpha * (sample[i] - codebook[i])` for
`i < dim`. -/
def AdaptVector {K : Type} [LinearOrderedField K] (codebook sample : List K) (dim : Nat)
    (alpha : K) : List K :=
  (List.range dim).foldl
    (fun cb i => cb.set i (cb.getD i 0 + alpha * (sample.getD i 0 - cb.getD i 0)))
    codebook

/-- The codebook array after `AdaptVector(codes[n].points, sample, dim, alpha)`. -/
def adaptCode {K : Type} [LinearOrderedField K] (codes : List (Codebook K)) (n : Nat)
    (sample : List K) (dim : Nat) (alpha : K) : List (Codebook K) :=
  codes.set n
    { codes.getD n emptyCodebook with
      points := AdaptVector (codes.getD n emptyCodebook).points sample dim alpha }

/-- `BubbleAdapt`: the result is the map and the node as mutated. -/
def BubbleAdapt {K : Type} [LinearOrderedField K] (_gptr : Graph K) (map : Map K)
    (node : Node K) (winner : Winner K) (radius alpha : K) : Map K × Node K :=
  let noc := map.xdim * map.ydim
  let node := { node with x := (codeAt map winner.codeno).x, y := (codeAt map winner.codeno).y }
  let radius := radius * radius
  let codes := (List.range noc).foldl
    (fun codes n =>
      let dist : K := ComputeHexaDistance node.x node.y
        (codes.getD n emptyCodebook).x (codes.getD n emptyCodebook).y
      if dist ≤ radius then adaptCode codes n node.points map.dim alpha else codes)
    map.codes
  ({ map with codes := codes }, node)

/-- `GaussianAdapt`: the result is the map and the node as mutated.  The
library function `expf` is an argument. -/
def GaussianAdapt {K : Type} [LinearOrderedField K] (expf : K → K) (_gptr : Graph K)
    (map : Map K) (node : Node K) (winner : Winner K) (radius alpha : K) : Map K × Node K :=
  let noc := map.xdim * map.ydim
  let node := { node with x := (codeAt map winner.codeno).x, y := (codeAt map winner.codeno).y }
  let codes := (List.range noc).foldl
    (fun codes n =>
      let dist : K := ComputeHexaDistance node.x node.y
        (codes.getD n emptyCodebook).x (codes.getD n emptyCodebook).y
      adaptCode codes n node.points map.dim (alpha * expf (dist / (-2 * radius * radius))))
    map.codes
  ({ map with codes := codes }, node)

/-! ## Vocabulary of the statements: graphs -/

/-- The non-null children of a node, in slot order. -/
def liveChildren {K : Type} (node : Node K) (FanOut : Nat) : List Nat :=
  (List.range FanOut).filterMap (childAt node)

/-- Node `c` is a non-null child of node `v` of the graph. -/
def IsChild {K : Type} (g : Graph K) (c v : Nat) : Prop :=
  v < g.nodes.length ∧ c ∈ liveChildren (nodeAt g.nodes v) g.FanOut

/-- No node reaches itself along child links. -/
def Acyclic {K : Type} (g : Graph K) : Prop :=
  ∀ v, ¬ Relation.TransGen (IsChild g) v v

/-- Every child pointer points to a node of the graph. -/
def WellLinked {K : Type} (g : Graph K) : Prop :=
  ∀ c v, IsChild g c v → c < g.nodes.length

/-- The parent lists are the inverse of the child links. -/
def ParentsConsistent {K : Type} (g : Graph K) : Prop :=
  ∀ c p, c < g.nodes.length → (p ∈ (nodeAt g.nodes c).parents ↔ IsChild g c p)

/-- Every child and parent pointer of a node of the graph points to a node of
the graph. -/
def PointersValid {K : Type} (g : Graph K) : Prop :=
  ∀ v, v < g.nodes.length →
    (∀ c, c ∈ liveChildren (nodeAt g.nodes v) g.FanOut → c < g.nodes.length) ∧
    (∀ p, p ∈ (nodeAt g.nodes v).parents → p < g.nodes.length)

instance {K : Type} (g : Graph K) : Decidable (PointersValid g) := by
  unfold PointersValid; infer_instance

/-- The depth of every node is 0. -/
def DepthsZero {K : Type} (g : Graph K) : Prop :=
  ∀ v, v < g.nodes.length → (nodeAt g.nodes v).depth = 0

/-- The largest value of `d` over a list of children (0 for the empty list). -/
def maxOver (d : Nat → Nat) (cs : List Nat) : Nat :=
  cs.foldl (fun m c => max m (d c)) 0

/-- The depth function `d` is the longest-path depth on the links of `g`: a
node without non-null child has depth 0, every other node has 1 plus the
largest depth of its non-null children. -/
def IsLongestPathDepth {K : Type} (g : Graph K) (d : Nat → Nat) : Prop :=
  ∀ v, v < g.nodes.length →
    d v = if liveChildren (nodeAt g.nodes v) g.FanOut = [] then 0
          else 1 + maxOver d (liveChildren (nodeAt g.nodes v) g.FanOut)

instance {K : Type} (g : Graph K) (d : Nat → Nat) : Decidable (IsLongestPathDepth g d) := by
  unfold IsLongestPathDepth; infer_instance

/-- The depth stored in node `v`. -/
def depthOf {K : Type} (g : Graph K) (v : Nat) : Nat := (nodeAt g.nodes v).depth

/-- The links of the graph are unchanged: same number of nodes, and every node
keeps its child and parent pointers. -/
def SameLinks {K : Type} (g g' : Graph K) : Prop :=
  g'.nodes.length = g.nodes.length ∧ g'.FanOut = g.FanOut ∧
  ∀ v, (nodeAt g'.nodes v).children = (nodeAt g.nodes v).children ∧
       (nodeAt g'.nodes v).parents = (nodeAt g.nodes v).parents

/-- The depths stored in the nodes, in array order. -/
def nodeDepths {K : Type} (g : Graph K) : List Nat := g.nodes.map (fun n => n.depth)

/-- The positions stored in the nodes, in array order. -/
def nodePositions {K : Type} (g : Graph K) : List (Int × Int) := g.nodes.map (fun n => (n.x, n.y))

/-- The logical number and the position of every node, in array order. -/
def nodePlaces {K : Type} (g : Graph K) : List (Nat × Int × Int) :=
  g.nodes.map (fun n => (n.nnum, n.x, n.y))

/-- One relaxation step: 0 for the empty list, otherwise 1 plus the largest
value of `d` over the list. -/
def heightStep (d : Nat → Nat) (cs : List Nat) : Nat :=
  cs.foldl (fun m c => max m (d c + 1)) 0

/-- The length of the longest path of at most `fuel` links that starts at `v`. -/
def heightF {K : Type} (g : Graph K) : Nat → Nat → Nat
  | 0, _ => 0
  | fuel + 1, v => heightStep (heightF g fuel) (liveChildren (nodeAt g.nodes v) g.FanOut)

/-- The assignment of `d` to the depth of every node of the list `ps`, in order. -/
def setDepths {K : Type} (nodes : List (Node K)) (ps : List Nat) (d : Nat) : List (Node K) :=
  ps.foldl (fun ns p => setDepth ns p d) nodes

/-- The `k`-th level of the reverse trace: the leaf frontier for `k = 0`, and
the parents of the nodes of the previous level otherwise. -/
def levelOf {K : Type} (g : Graph K) : Nat → List Nat
  | 0 => leafLevel g
  | k + 1 => (levelOf g k).flatMap (fun n => (nodeAt g.nodes n).parents)

/-- Decidable check that `r` decreases along every child link and that every
child pointer is a node of the graph. -/
def rankCheck {K : Type} (g : Graph K) (r : Nat → Nat) : Prop :=
  ∀ v, v ∈ List.range g.nodes.length →
    ∀ c, c ∈ liveChildren (nodeAt g.nodes v) g.FanOut → r c < r v ∧ c < g.nodes.length

instance {K : Type} (g : Graph K) (r : Nat → Nat) : Decidable (rankCheck g r) := by
  unfold rankCheck; infer_instance

/-- Decidable check that the parent lists are the inverse of the child links. -/
def parentsCheck {K : Type} (g : Graph K) : Prop :=
  ∀ c, c ∈ List.range g.nodes.length →
    (∀ p, p ∈ (nodeAt g.nodes c).parents →
      p < g.nodes.length ∧ c ∈ liveChildren (nodeAt g.nodes p) g.FanOut) ∧
    (∀ p, p ∈ List.range g.nodes.length →
      c ∈ liveChildren (nodeAt g.nodes p) g.FanOut → p ∈ (nodeAt g.nodes c).parents)

instance {K : Type} (g : Graph K) : Decidable (parentsCheck g) := by
  unfold parentsCheck; infer_instance

/-- Decidable form of `DepthsZero`. -/
def depthsZeroCheck {K : Type} (g : Graph K) : Prop :=
  ∀ v, v ∈ List.range g.nodes.length → (nodeAt g.nodes v).depth = 0

instance {K : Type} (g : Graph K) : Decidable (depthsZeroCheck g) := by
  unfold depthsZeroCheck; infer_instance

/-! ## Vocabulary of the statements: maps and distances -/

/-- The weighted squared distance `Σ_{i < dim} mu[i] * (codebook[i] - sample[i])^2`. -/
def weightedDist {K : Type} [LinearOrderedField K] (codebook sample mu : List K) (dim : Nat) : K :=
  ((List.range dim).map
    (fun i => mu.getD i 0 * (codebook.getD i 0 - sample.getD i 0) ^ 2)).sum

/-- The distance of the sample `node->points` to codebook `n`. -/
def nodeDist {K : Type} [LinearOrderedField K] (map : Map K) (node : Node K) (gptr : Graph K)
    (n : Nat) : K :=
  weightedDist (codeAt map n).points node.points node.mu gptr.dimension

/-- One turn of the exhaustive scan: the full distance is computed, and the
candidate replaces the best so far when it is strictly closer. -/
def exhaustiveStep {K : Type} [LinearOrderedField K] (map : Map K) (node : Node K)
    (vdim : Nat) (st : Nat × K) (n : Nat) : Nat × K :=
  let difference := weightedDist (codeAt map n).points node.points node.mu vdim
  if difference < st.2 then (n, difference) else st

/-- The winner search without pruning. -/
def exhaustiveWinner {K : Type} [LinearOrderedField K] (map : Map K) (node : Node K)
    (gptr : Graph K) (winner : Winner K) : Winner K :=
  let st := (List.range (map.xdim * map.ydim)).foldl
    (exhaustiveStep map node gptr.dimension) (winner.codeno, FLT_MAX)
  { codeno := st.1, diff := st.2 }

/-- The map has `xdim * ydim` codebooks, each with a vector of `dim` entries. -/
def WellFormedMap {K : Type} [LinearOrderedField K] (map : Map K) : Prop :=
  map.codes.length = map.xdim * map.ydim ∧
  ∀ n, n < map.xdim * map.ydim → (codeAt map n).points.length = map.dim

/-- No two codebooks of the map share a grid cell. -/
def DistinctCells {K : Type} [LinearOrderedField K] (map : Map K) : Prop :=
  ∀ m, m < map.xdim * map.ydim → ∀ n, n < map.xdim * map.ydim →
    (codeAt map m).x = (codeAt map n).x → (codeAt map m).y = (codeAt map n).y → m = n

/-! ## A functional description of the rounds of the K-step approximation -/

/-- A list of array writes `pts[w.1] = w.2`, applied in order. -/
def applyWrites {K : Type} (ws : List (Nat × K)) (pts : List K) : List K :=
  ws.foldl (fun p w => p.set w.1 w.2) pts

/-- The writes of the child-state loop: the position of every non-null child. -/
def childWrites {K : Type} [LinearOrderedField K] (gptr : Graph K) (node : Node K) :
    List (Nat × K) :=
  (List.range gptr.FanOut).flatMap
    (fun i =>
      match childAt node i with
      | none => []
      | some c =>
        [(gptr.ldim + i * 2, ((nodeAt gptr.nodes c).x : K)),
         (gptr.ldim + i * 2 + 1, ((nodeAt gptr.nodes c).y : K))])

/-- The writes of the parent-state loop: the position of every parent. -/
def parentWrites {K : Type} [LinearOrderedField K] (gptr : Graph K) (node : Node K) :
    List (Nat × K) :=
  (List.range node.parents.length).flatMap
    (fun i =>
      [(gptr.ldim + 2 * gptr.FanOut + i * 2,
          ((nodeAt gptr.nodes (node.parents.getD i 0)).x : K)),
       (gptr.ldim + 2 * gptr.FanOut + i * 2 + 1,
          ((nodeAt gptr.nodes (node.parents.getD i 0)).y : K))])

/-- The writes of the state encoder selected by `mode`. -/
def stateWrites {K : Type} [LinearOrderedField K] (mode : Int) (gptr : Graph K)
    (node : Node K) : List (Nat × K) :=
  if mode = 1 then childWrites gptr node ++ parentWrites gptr node else childWrites gptr node

/-- The point vector of node `n` after the state encoder. -/
def encPoints {K : Type} [LinearOrderedField K] (mode : Int) (gptr : Graph K) (n : Nat) :
    List K :=
  applyWrites (stateWrites mode gptr (nodeAt gptr.nodes n)) (nodeAt gptr.nodes n).points

/-- The winner search of node `n` in a round that starts from `gptr`, entered
with a zeroed `winner`. -/
def roundWinner {K : Type} [LinearOrderedField K] (map : Map K) (mode : Int) (gptr : Graph K)
    (n : Nat) : Winner K :=
  FindWinnerEucledian map { nodeAt gptr.nodes n with points := encPoints mode gptr n } gptr
    { codeno := 0, diff := 0 }

/-- Node `n` after a round that starts from `gptr`: its vector is encoded from
the positions in `gptr` and its position is the cell of its winner. -/
def roundNode {K : Type} [LinearOrderedField K] (map : Map K) (mode : Int) (gptr : Graph K)
    (n : Nat) : Node K :=
  { nodeAt gptr.nodes n with
    points := encPoints mode gptr n,
    x := (codeAt map (roundWinner map mode gptr n).codeno).x,
    y := (codeAt map (roundWinner map mode gptr n).codeno).y }

/-- The graph after a round that starts from `gptr`, every node being computed
from `gptr` alone. -/
def roundGraph {K : Type} [LinearOrderedField K] (map : Map K) (mode : Int) (gptr : Graph K) :
    Graph K :=
  { gptr with nodes := (List.range gptr.nodes.length).map (roundNode map mode gptr) }

/-- Every winner search of the round that starts from `gptr` ends with a running
minimum below `FLT_MAX`, that is, it finds a codebook. -/
def RoundFinds {K : Type} [LinearOrderedField K] (map : Map K) (mode : Int) (gptr : Graph K) :
    Prop :=
  ∀ n, n < gptr.nodes.length → (roundWinner map mode gptr n).diff < FLT_MAX

instance {K : Type} [LinearOrderedField K] (map : Map K) (mode : Int) (gptr : Graph K) :
    Decidable (RoundFinds map mode gptr) := by
  unfold RoundFinds; infer_instance

/-- The graph after `r` rounds, every round being computed by `roundGraph`. -/
def roundIter {K : Type} [LinearOrderedField K] (map : Map K) (mode : Int) :
    Nat → Graph K → Graph K
  | 0, g => g
  | r + 1, g => roundGraph map mode (roundIter map mode r g)

/-- The graph `g` has the frame of `g0`: the same header, the same number of
nodes, and every node has the links, weights and depth it has in `g0` and a
point vector that differs from the one in `g0` in state slots only. -/
def FrameOf {K : Type} [LinearOrderedField K] (mode : Int) (g0 g : Graph K) : Prop :=
  g.ldim = g0.ldim ∧ g.FanOut = g0.FanOut ∧ g.dimension = g0.dimension ∧
  g.depth = g0.depth ∧ g.nodes.length = g0.nodes.length ∧
  ∀ v, (nodeAt g.nodes v).children = (nodeAt g0.nodes v).children ∧
    (nodeAt g.nodes v).parents = (nodeAt g0.nodes v).parents ∧
    (nodeAt g.nodes v).mu = (nodeAt g0.nodes v).mu ∧
    (nodeAt g.nodes v).depth = (nodeAt g0.nodes v).depth ∧
    (nodeAt g.nodes v).points.length = (nodeAt g0.nodes v).points.length ∧
    ∀ j, j ∉ (stateWrites mode g0 (nodeAt g0.nodes v)).map Prod.fst →
      (nodeAt g.nodes v).points[j]? = (nodeAt g0.nodes v).points[j]?

/-- The graph after the final pass of `K_Step_Approximation` over `g`, every
vector being encoded from the positions in `g`. -/
def encGraph {K : Type} [LinearOrderedField K] (mode : Int) (g : Graph K) : Graph K :=
  { g with
    nodes := (List.range g.nodes.length).map
      (fun v => { nodeAt g.nodes v with points := encPoints mode g v }) }

/-- The node with its child and parent pointers renamed by `τ`. -/
def relabelNode {K : Type} (τ : Nat → Nat) (nd : Node K) : Node K :=
  { nd with children := nd.children.map (Option.map τ), parents := nd.parents.map τ }

/-- The graph `g2` is the graph `g` with its node array in another order: entry
`i` of `g2` is node `σ i` of `g`, node `v` of `g` is entry `τ v` of `g2`, and the
pointers of `g2` are those of `g` renamed by `τ`. -/
def Reordered {K : Type} (σ τ : Nat → Nat) (g g2 : Graph K) : Prop :=
  g2.ldim = g.ldim ∧ g2.FanOut = g.FanOut ∧ g2.dimension = g.dimension ∧
  g2.depth = g.depth ∧ g2.nodes.length = g.nodes.length ∧
  (∀ i, i < g.nodes.length → σ i < g.nodes.length ∧ τ (σ i) = i) ∧
  (∀ v, v < g.nodes.length → τ v < g.nodes.length ∧ σ (τ v) = v) ∧
  ∀ i, i < g.nodes.length → nodeAt g2.nodes i = relabelNode τ (nodeAt g.nodes (σ i))

/-- The graph with its node array in the order `order` (entry `i` of the new
array is node `order[i]` of the old one); child and parent pointers keep
pointing to the same nodes. -/
def reorderGraph {K : Type} (order : List Nat) (g : Graph K) : Graph K :=
  { g with
    nodes := order.map (fun old =>
      { nodeAt g.nodes old with
        children := (nodeAt g.nodes old).children.map (Option.map (fun c => order.indexOf c)),
        parents := (nodeAt g.nodes old).parents.map (fun p => order.indexOf p) }) }

/-! ## Concrete maps and graphs -/

/-- Build a node that only carries links. -/
def linkNode (children : List (Option Nat)) (parents : List Nat) : Node ℚ :=
  { points := [], nnum := 0, depth := 0, mu := [], x := 0, y := 0, label := 0,
    parents := parents, children := children }

/-- Five nodes, `FanOut = 2`: node 0 is a leaf, 1 → 0, 2 → 1 and 3, 3 → 4, 4 → 0. -/
def gIter : Graph ℚ :=
  { nodes := [linkNode [none, none] [1, 4], linkNode [some 0, none] [2],
              linkNode [some 1, some 3] [], linkNode [some 4, none] [2],
              linkNode [some 0, none] [3]],
    ldim := 0, dimension := 0, FanOut := 2, FanIn := 2, tdim := 0, depth := 0 }

/-- The longest-path depths of the nodes of `gIter`. -/
def rankIter (v : Nat) : Nat := [0, 1, 3, 2, 1].getD v 0

/-- Four nodes, `FanOut = 1`: node 0 is a leaf, 1 → 0, 2 → 1, 3 → 0. -/
def gFork : Graph ℚ :=
  { nodes := [linkNode [none] [1, 3], linkNode [some 0] [2], linkNode [some 1] [],
              linkNode [some 0] []],
    ldim := 0, dimension := 0, FanOut := 1, FanIn := 2, tdim := 0, depth := 0 }

/-- The longest-path depths of the nodes of `gFork`. -/
def rankFork (v : Nat) : Nat := [0, 1, 2, 1].getD v 0

/-- Build a node from its vectors, position, depth and links. -/
def mkNode {K : Type} (nnum : Nat) (points mu : List K) (x y : Int) (depth : Nat)
    (parents : List Nat) (children : List (Option Nat)) : Node K :=
  { points := points, nnum := nnum, depth := depth, mu := mu, x := x, y := y, label := 0,
    parents := parents, children := children }

/-- Build a codebook from its vector and grid cell. -/
def mkCode {K : Type} [LinearOrderedField K] (points : List K) (x y : Int) : Codebook K :=
  { points := points, x := x, y := y, a := 0, b := 0, label := 0 }

/-- A 2 × 1 map of dimension 3 (label, child x, child y). -/
def mapLine (K : Type) [LinearOrderedField K] : Map K :=
  { codes := [mkCode [0, 0, 0] 0 0, mkCode [2, 1, 0] 1 0],
    dim := 3, xdim := 2, ydim := 1, iter := 0, topology := 2, neighborhood := 1 }

/-- A leaf with label 0, empty child slot and unit weights. -/
def leafNode (K : Type) [LinearOrderedField K] : Node K :=
  mkNode 1 [0, -1, -1] [1, 1, 1] 1 0 0 [2] [none]

/-- A graph header for nodes of dimension 3 with `ldim = 1` and `FanOut = 1`. -/
def headerLine (K : Type) : Graph K :=
  { nodes := [], ldim := 1, dimension := 3, FanOut := 1, FanIn := 0, tdim := 0, depth := 0 }

/-- Three nodes at position (0, 0), `ldim = 1`, `FanOut = 1`: node 0 is a leaf
whose label `10^20` is farther than `FLT_MAX` from every codebook of `mapLine`,
node 1 is a leaf with label 2 and node 2, with label 1, is the parent of node 1.
The depth of the graph is 1. -/
def gFar : Graph ℚ :=
  { nodes := [mkNode 0 [100000000000000000000, -1, -1] [1, 1, 1] 0 0 0 [] [none],
              mkNode 1 [2, -1, -1] [1, 1, 1] 0 0 0 [2] [none],
              mkNode 2 [1, -1, -1] [1, 1, 1] 0 0 1 [] [some 1]],
    ldim := 1, dimension := 3, FanOut := 1, FanIn := 0, tdim := 0, depth := 1 }

/-- The longest-path depths of the nodes of `gFar`. -/
def rankFar (v : Nat) : Nat := [0, 0, 1].getD v 0

/-- The graph `gFar` with its node array in the opposite order. -/
def gFarRev : Graph ℚ := reorderGraph [2, 1, 0] gFar

/-- A 2 × 2 map of dimension 5 (label, child x, child y, parent x, parent y). -/
def mapCtx : Map ℚ :=
  { codes := [mkCode [0, 0, 1, -1, -1] 0 0, mkCode [0, 1, 1, -1, -1] 1 0,
              mkCode [10, -1, -1, 1, 0] 0 1, mkCode [10, -1, -1, 0, 0] 1 1],
    dim := 5, xdim := 2, ydim := 2, iter := 0, topology := 2, neighborhood := 1 }

/-- A chain of two nodes, `ldim = 1`, `FanOut = 1`, `FanIn = 1`: node 0 (label 0)
is the parent of node 1 (label 10).  The depth of the graph is 1. -/
def gCtx : Graph ℚ :=
  { nodes := [mkNode 0 [0, -1, -1, -1, -1] [1, 1, 1, 1, 1] 0 0 1 [] [some 1],
              mkNode 1 [10, -1, -1, -1, -1] [1, 1, 1, 1, 1] 0 1 0 [0] [none]],
    ldim := 1, dimension := 5, FanOut := 1, FanIn := 1, tdim := 0, depth := 1 }

/-- The longest-path depths of the nodes of `gCtx`. -/
def rankCtx (v : Nat) : Nat := [1, 0].getD v 0

/-- A 2 × 1 map of dimension 5 whose two codebooks differ in the label. -/
def mapLabel : Map ℚ :=
  { codes := [mkCode [0, 1, 0, -1, -1] 0 0, mkCode [10, -1, -1, 0, 0] 1 0],
    dim := 5, xdim := 2, ydim := 1, iter := 0, topology := 2, neighborhood := 1 }

/-- A content of the local `winner` before the first search. -/
def winner0 : Winner ℚ := { codeno := 0, diff := 0 }

/-- The scratch state with which the graph loop of `K_Step_Approximation`
enters graph `g`. -/
def roundInit (g : Graph ℚ) : RoundState ℚ :=
  { gptr := g, winner := winner0, xstates := List.replicate g.nodes.length 0,
    ystates := List.replicate g.nodes.length 0, gpr_qerror := 0 }

/-- Two nodes, `ldim = 1`, `FanOut = 1`: node 0 is a leaf and node 1 is its
parent; every vector lies close to the codebooks of `mapLine`. -/
def gPair : Graph ℚ :=
  { nodes := [mkNode 0 [0, -1, -1] [1, 1, 1] 1 0 0 [1] [none],
              mkNode 1 [0, -1, -1] [1, 1, 1] 0 0 1 [] [some 0]],
    ldim := 1, dimension := 3, FanOut := 1, FanIn := 0, tdim := 0, depth := 1 }

/-- The graph `gPair` with its node array in the opposite order. -/
def gPairRev : Graph ℚ := reorderGraph [1, 0] gPair

/-- The exchange of the indices 0 and 1. -/
def swap01 (i : Nat) : Nat := 1 - i

/-- The longest-path depths of the nodes of `gPair`. -/
def rankPair (v : Nat) : Nat := [0, 1].getD v 0

/-! ## Node types (`data.c`, `common.h`) -/

/-- Node type tag `LEAF`. -/
def LEAF : Nat := 1

/-- Node type tag `ROOT`. -/
def ROOT : Nat := 2

/-- Node type tag `INTERMEDIATE`. -/
def INTERMEDIATE : Nat := 4

/-- `IsRoot`: 1 when the node has no parents, 0 otherwise. -/
def IsRoot {K : Type} (node : Node K) : Nat :=
  if node.parents.length = 0 then 1 else 0

/-- `IsLeaf`: 1 when the node is at depth 0, 0 otherwise. -/
def IsLeaf {K : Type} (node : Node K) : Nat :=
  if node.depth = 0 then 1 else 0

/-- `IsIntermediate`: 1 when the node has a positive depth and a parent, 0
otherwise. -/
def IsIntermediate {K : Type} (node : Node K) : Nat :=
  if node.depth > 0 ∧ node.parents.length > 0 then 1 else 0

/-- `GetNodeType`: the tag `ROOT`, `LEAF` or `INTERMEDIATE` of the node. -/
def GetNodeType {K : Type} (node : Node K) : Nat :=
  if node.parents.length = 0 then ROOT
  else if node.depth = 0 then LEAF
  else INTERMEDIATE

/-! ## Errors and messages (`utils.c`) -/

/-- A message of the list `Messages`.  The embedded code adds two kinds: the
warning of `LinkNodes` about a link from node `nnum` to the non-existing node
`link`, and its notice that further warnings are truncated. -/
inductive Message where
  | ignoredLink (nnum : Nat) (link : Int)
  | truncating
  deriving DecidableEq

/-- The list `ErrorMessages`, the list `Messages`, and the static counter
`nerror` of `LinkNodes`, which lives as long as the two lists. -/
structure Reports where
  errors : List String
  messages : List Message
  nerror : Nat
  deriving DecidableEq

/-- `AddError`. -/
def AddError (rep : Reports) (msg : String) : Reports :=
  { rep with errors := rep.errors ++ [msg] }

/-- `AddMessage`. -/
def AddMessage (rep : Reports) (msg : Message) : Reports :=
  { rep with messages := rep.messages ++ [msg] }

/-- `CheckErrors`: the number of errors in the list. -/
def CheckErrors (rep : Reports) : Nat := rep.errors.length

/-! ## Linking the nodes of a graph (`fileio.c`) -/

/-- The entry `links[j]` of the link array that `ReadNodes` left in the
`children` field of node `i`. -/
def linkAt (links : List (List Int)) (i j : Nat) : Int := (links.getD i []).getD j 0

/-- The branch of `LinkNodes` for a link to a non-existing node: the first ten
are reported with a warning each, the eleventh with the truncation notice, and
every one is counted in `nerror`. -/
def reportLink (rep : Reports) (d : Nat × Int) : Reports :=
  let rep1 :=
    if rep.nerror < 10 then AddMessage rep (Message.ignoredLink d.1 d.2)
    else if rep.nerror = 10 then AddMessage rep Message.truncating
    else rep
  { rep1 with nerror := rep1.nerror + 1 }

/-- One turn of the slot loop of `LinkNodes` for node `i`: a link inside
`[0, numnodes)` sets the child pointer and appends node `i` to the parents of
the child; another link that is positive is reported and counted. -/
def linkSlot {K : Type} (numnodes : Nat) (links : List (List Int)) (i : Nat)
    (st : List (Node K) × Reports) (j : Nat) : List (Node K) × Reports :=
  let l := linkAt links i j
  if 0 ≤ l ∧ l < (numnodes : Int) then
    let nodes := st.1.set i
      { nodeAt st.1 i with children := (nodeAt st.1 i).children.set j (some l.toNat) }
    let nodes := nodes.set l.toNat
      { nodeAt nodes l.toNat with parents := (nodeAt nodes l.toNat).parents ++ [i] }
    (nodes, st.2)
  else if l > 0 then (st.1, reportLink st.2 ((nodeAt st.1 i).nnum, l))
  else st

/-- One turn of the node loop of `LinkNodes`: the `children` array of node `i`
is allocated with null pointers, then the slots are linked. -/
def linkNodeSlots {K : Type} (FanOut numnodes : Nat) (links : List (List Int))
    (st : List (Node K) × Reports) (i : Nat) : List (Node K) × Reports :=
  (List.range FanOut).foldl (linkSlot numnodes links i)
    (st.1.set i { nodeAt st.1 i with children := List.replicate FanOut none }, st.2)

/-- `LinkNodes`.  The link arrays are an argument: `links[i]` is the array that
the C code reads from the `children` field of node `i`. -/
def LinkNodes {K : Type} (gptr : Graph K) (links : List (List Int)) (rep : Reports) :
    Graph K × Reports :=
  if gptr.FanOut = 0 then (gptr, rep)
  else
    let r := (List.range gptr.nodes.length).foldl
      (linkNodeSlots gptr.FanOut gptr.nodes.length links) (gptr.nodes, rep)
    ({ gptr with nodes := r.1 }, r.2)

/-- The child that link `l` denotes in a graph of `numnodes` nodes. -/
def linkTarget (numnodes : Nat) (l : Int) : Option Nat :=
  if 0 ≤ l ∧ l < (numnodes : Int) then some l.toNat else none

/-- The links to a node number `numnodes` or more, in the order in which
`LinkNodes` meets them, each with the number of the linking node. -/
def danglingLinks {K : Type} (gptr : Graph K) (links : List (List Int)) : List (Nat × Int) :=
  (List.range gptr.nodes.length).flatMap
    (fun i => (List.range gptr.FanOut).filterMap
      (fun j => if (gptr.nodes.length : Int) ≤ linkAt links i j
        then some ((nodeAt gptr.nodes i).nnum, linkAt links i j) else none))

/-- The calls of `LinkNodes` of a run, one for each graph read with its link
arrays, in order: the lists and the static counter pass from call to call. -/
def linkRun {K : Type} (gs : List (Graph K × List (List Int))) (rep : Reports) : Reports :=
  gs.foldl (fun rep g => (LinkNodes g.1 g.2 rep).2) rep

/-- The dangling links of a run, in the order in which the calls meet them. -/
def runDangling {K : Type} (gs : List (Graph K × List (List Int))) : List (Nat × Int) :=
  gs.flatMap (fun g => danglingLinks g.1 g.2)

/-- The target segment of the vector of a node: the `tdim` entries after the
label, the child states and the parent states. -/
def targetSegment {K : Type} (gptr : Graph K) (node : Node K) : List K :=
  (node.points.drop (gptr.ldim + 2 * gptr.FanOut + 2 * gptr.FanIn)).take gptr.tdim

/-! ## Concrete inputs of the linker -/

/-- Empty lists of errors and messages, and the counter `nerror` at 0. -/
def noReports : Reports := { errors := [], messages := [], nerror := 0 }

/-- Three nodes as `ReadNodes` leaves them before `LinkNodes`, with `ldim = 1`,
`FanOut = 1`, `FanIn = 1` and `tdim = 2`: node 0 at (3, 4), node 1 at (5, 6),
and node 2 with label 9, unset states and target (7, 8). -/
def gOverRaw : Graph ℚ :=
  { nodes := [mkNode 0 [1, -1, -1, -1, -1, 0, 0] [1, 1, 1, 1, 1, 1, 1] 3 4 0 [] [],
              mkNode 1 [2, -1, -1, -1, -1, 0, 0] [1, 1, 1, 1, 1, 1, 1] 5 6 0 [] [],
              mkNode 2 [9, -1, -1, -1, -1, 7, 8] [1, 1, 1, 1, 1, 1, 1] 0 0 0 [] []],
    ldim := 1, dimension := 7, FanOut := 1, FanIn := 1, tdim := 2, depth := 0 }

/-- The link arrays of `gOverRaw`: nodes 0 and 1 both link to node 2, which has
no child. -/
def linksOver : List (List Int) := [[2], [2], [-1]]

/-- The graph `gOverRaw` after `LinkNodes`: node 2 has the two parents 0 and 1
although `FanIn = 1`. -/
def gOver : Graph ℚ := (LinkNodes gOverRaw linksOver noReports).1

/-- One node with `FanOut = 2`, as `ReadNodes` leaves it before `LinkNodes`. -/
def gOne : Graph ℚ :=
  { nodes := [mkNode 0 [] [] 0 0 0 [] []],
    ldim := 0, dimension := 4, FanOut := 2, FanIn := 0, tdim := 0, depth := 0 }

/-- The link array of `gOne`: a negative link and a link to the non-existing
node 7. -/
def linksOne : List (List Int) := [[-2, 7]]

/-! ## The end of `ReadNodes` (`fileio.c`) -/

/-- `AddFileInfoOnError`: when an error is pending, the status of the file is
added as one more error.  The text that the C code formats from `finfo` is an
argument. -/
def AddFileInfoOnError (rep : Reports) (fileInfo : String) : Reports :=
  if CheckErrors rep > 0 then AddError rep fileInfo else rep

/-- The loop of `ReadNodes` that finds the greatest node id. -/
def readNodesMaxid {K : Type} (nodes : List (Node K)) : Nat :=
  nodes.foldl (fun maxid node => if node.nnum > maxid then node.nnum else maxid) 0

/-- The array `gptr->nodes` of `ReadNodes`: `maxid + 1` null pointers, then
every node read is stored in the slot of its id. -/
def readNodesAssign {K : Type} (nodes : List (Node K)) : List (Option (Node K)) :=
  nodes.foldl (fun arr node => arr.set node.nnum (some node))
    (List.replicate (readNodesMaxid nodes + 1) none)

/-- `ReadNodes` from the end of its read loop to the consistency check.  The
argument `nodes` is the list of the `nodeno` nodes that the loop has read, in
the order of the file.  The result is the array `gptr->nodes`, whose length is
`gptr->numnodes`, and the reports.  When the check passes the C code goes on
to link the nodes and to initialise the states, which adds no error, and
returns `CheckErrors()`.  Node ids are natural numbers in the embedding. -/
def readNodesPost {K : Type} (nodes : List (Node K)) (fileInfo : String) (rep : Reports) :
    List (Option (Node K)) × Reports :=
  if CheckErrors rep > 0 then (readNodesAssign nodes, rep)
  else if readNodesMaxid nodes + 1 ≠ nodes.length then
    (readNodesAssign nodes,
      AddFileInfoOnError (AddError rep "Inconsistency with node numbers.") fileInfo)
  else (readNodesAssign nodes, rep)

/-- Three nodes read from a file that numbers them 0, 2 and 2. -/
def nodesDup : List (Node ℚ) :=
  [mkNode 0 [1] [1] 0 0 0 [] [], mkNode 2 [2] [1] 0 0 0 [] [], mkNode 2 [3] [1] 0 0 0 [] []]

/-! ## Map initialisation (`common.c`) -/

/-- Initialisation mode `INIT_LINEAR`. -/
def INIT_LINEAR : Nat := 1

/-- Initialisation mode `INIT_RANDOM`. -/
def INIT_RANDOM : Nat := 2

/-- The value of `MAX_UNSIGNED`, `INT_MAX`. -/
def MAX_UNSIGNED : Nat := 2147483647

/-- The value of `MAX_FLOAT`. -/
def MAX_FLOAT {K : Type} [LinearOrderedField K] : K := FLT_MAX

/-- The value of `MIN_FLOAT`. -/
def MIN_FLOAT {K : Type} [LinearOrderedField K] : K := -FLT_MAX

/-- The macro `max(x, y)`. -/
def macroMax {K : Type} [LinearOrderedField K] (x y : K) : K := if x > y then x else y

/-- The macro `min(x, y)`. -/
def macroMin {K : Type} [LinearOrderedField K] (x y : K) : K := if x < y then x else y

/-- Graph read through a null pointer. -/
def emptyGraph {K : Type} : Graph K :=
  { nodes := [], ldim := 0, dimension := 0, FanOut := 0, FanIn := 0, tdim := 0, depth := 0 }

/-- The first graph of the list: the structure that the C code reads through
the pointer `data`. -/
def dataHead {K : Type} (data : List (Graph K)) : Graph K := data.headD emptyGraph

/-- The loop of `InitCodes` that sets `dim`.  As in the C code, a graph whose
dimension exceeds `dim` makes `dim` the dimension of the first graph `data`,
not that of the graph `gptr` at hand. -/
def initDim {K : Type} (data : List (Graph K)) : Nat :=
  data.foldl (fun dim gptr => if gptr.dimension > dim then (dataHead data).dimension else dim) 0

/-- The allocation loops of `InitCodes`: codebook `i`, counted along the rows
of the grid, receives a vector of `map->dim` entries, the cell `(x, y)` and
the label `MAX_UNSIGNED`.  The array comes zeroed from `MyCalloc`; the entries
of a new vector are modelled as 0. -/
def initAlloc {K : Type} [LinearOrderedField K] (map : Map K) : List (Codebook K) :=
  ((List.range map.ydim).foldl
    (fun (st : List (Codebook K) × Nat) (y : Nat) =>
      (List.range map.xdim).foldl
        (fun (st : List (Codebook K) × Nat) (x : Nat) =>
          (st.1.set st.2
            { st.1.getD st.2 emptyCodebook with
              points := List.replicate map.dim 0, x := (x : Int), y := (y : Int),
              label := MAX_UNSIGNED },
           st.2 + 1))
        st)
    (List.replicate (map.xdim * map.ydim) emptyCodebook, 0)).1

/-- The pair of assignments `maval[i] = max(v, maval[i])` and
`mival[i] = min(v, mival[i])`; the state is `(maval, mival)`. -/
def rangeUpd {K : Type} [LinearOrderedField K] (r : List K × List K) (i : Nat) (v : K) :
    List K × List K :=
  (r.1.set i (macroMax v (r.1.getD i 0)), r.2.set i (macroMin v (r.2.getD i 0)))

/-- The body of the node loop of `InitCodes` when the map is not in VQ mode. -/
def rangeNode {K : Type} [LinearOrderedField K] (dim : Nat) (r : List K × List K)
    (node : Node K) : List K × List K :=
  (List.range dim).foldl (fun r x => rangeUpd r x (node.points.getD x 0)) r

/-- The body of the node loop of `InitCodes` in VQ mode.  The cast `(int)` of a
`FLOAT` is the argument `trunc`. -/
def rangeNodeVQ {K : Type} [LinearOrderedField K] (trunc : K → Int) (noc : Nat)
    (data gptr : Graph K) (r : List K × List K) (node : Node K) : List K × List K :=
  let r := (List.range gptr.ldim).foldl (fun r x => rangeUpd r x (node.points.getD x 0)) r
  let r := (List.range (data.FanOut + data.FanIn)).foldl
    (fun r x =>
      let offset := gptr.ldim + x * noc
      let offset2 := gptr.ldim + x * 2
      (List.range noc).foldl
        (fun r (nc : Nat) =>
          if (nc : Int) = trunc (node.points.getD offset2 0) then rangeUpd r (offset + nc) 1
          else rangeUpd r (offset + nc) 0)
        r)
    r
  (List.range gptr.tdim).foldl
    (fun r x =>
      let offset := gptr.ldim + (data.FanOut + data.FanIn) * noc
      let offset2 := gptr.ldim + (data.FanOut + data.FanIn) * 2
      rangeUpd r (offset + x) (node.points.getD (offset2 + x) 0))
    r

/-- The check of `InitCodes` for mapping information: when every state entry
has the range `[-1, -1]` and there are state entries, the ranges of the state
entries become `[0, xdim - 1]` and `[0, ydim - 1]`. -/
def rangeMapping {K : Type} [LinearOrderedField K] (map : Map K) (data : Graph K)
    (r : List K × List K) : List K × List K :=
  let sdim := data.ldim + (data.FanOut + data.FanIn) * 2
  if (∀ t, t < sdim - data.ldim →
        ¬ (r.1.getD (data.ldim + t) 0 ≠ -1 ∨ r.2.getD (data.ldim + t) 0 ≠ -1))
      ∧ sdim ≠ data.ldim then
    (List.range (data.FanOut + data.FanIn)).foldl
      (fun r t =>
        let x := data.ldim + 2 * t
        ((r.1.set x ((map.xdim : K) - 1)).set (x + 1) ((map.ydim : K) - 1),
         (r.2.set x 0).set (x + 1) 0))
      r
  else r

/-- The vectors `(maval, mival)` of `InitCodes` when the codebooks are
initialised: the largest and the smallest value of every entry over the nodes
of the dataset, after the check for mapping information. -/
def initRange {K : Type} [LinearOrderedField K] (trunc : K → Int) (map : Map K)
    (data : List (Graph K)) (dim noc : Nat) : List K × List K :=
  let r0 : List K × List K := (List.replicate dim MIN_FLOAT, List.replicate dim MAX_FLOAT)
  let r :=
    if map.topology = TOPOL_VQ then
      data.foldl (fun r gptr => gptr.nodes.foldl (rangeNodeVQ trunc noc (dataHead data) gptr) r)
        r0
    else data.foldl (fun r gptr => gptr.nodes.foldl (rangeNode dim) r) r0
  rangeMapping map (dataHead data) r

/-- The one-hot tail of a codebook vector: entries `dim .. mapdim - 1` are 1 at
`i - dim = nc` and 0 elsewhere. -/
def oneHotTail {K : Type} [LinearOrderedField K] (dim mapdim nc : Nat) (pts : List K) : List K :=
  (List.range (mapdim - dim)).foldl
    (fun p t => p.set (dim + t) (if dim + t - dim = nc then 1 else 0)) pts

/-- The body of the cell loops of the linear initialisation for codebook `nc`.
The library function `sqrtf` is an argument. -/
def linearCode {K : Type} [LinearOrderedField K] (sqrtf : K → K) (maval mival : List K)
    (dim mapdim : Nat) (maxdist : K) (codes : List (Codebook K)) (nc : Nat) :
    List (Codebook K) :=
  let dist : K := ComputeHexaDistance (codes.getD nc emptyCodebook).x
    (codes.getD nc emptyCodebook).y 0 0
  let dist : K := sqrtf dist
  let pts := (List.range dim).foldl
    (fun p i =>
      p.set i (mival.getD i 0 + ((maval.getD i 0 - mival.getD i 0) * dist / maxdist)))
    (codes.getD nc emptyCodebook).points
  codes.set nc { codes.getD nc emptyCodebook with points := oneHotTail dim mapdim nc pts }

/-- The linear initialisation of `InitCodes` (`case INIT_LINEAR`). -/
def initLinear {K : Type} [LinearOrderedField K] (sqrtf : K → K) (map : Map K)
    (maval mival : List K) (dim : Nat) (codes : List (Codebook K)) : List (Codebook K) :=
  let maxdist : K := ComputeHexaDistance ((map.xdim : Int) - 1) ((map.ydim : Int) - 1) 0 0
  ((List.range map.ydim).foldl
    (fun st _ =>
      (List.range map.xdim).foldl
        (fun st _ => (linearCode sqrtf maval mival dim map.dim maxdist st.1 st.2, st.2 + 1))
        st)
    (codes, 0)).1

/-- The body of the codebook loop of the random initialisation; the state is
the codebook array and the number of calls of `drand48` so far. -/
def randomCode {K : Type} [LinearOrderedField K] (drand48 : Nat → K) (maval mival : List K)
    (dim mapdim : Nat) (st : List (Codebook K) × Nat) (i : Nat) : List (Codebook K) × Nat :=
  let p := (List.range dim).foldl
    (fun s x =>
      (s.1.set x (mival.getD x 0 + (maval.getD x 0 - mival.getD x 0) * drand48 s.2), s.2 + 1))
    ((st.1.getD i emptyCodebook).points, st.2)
  (st.1.set i { st.1.getD i emptyCodebook with points := oneHotTail dim mapdim i p.1 }, p.2)

/-- The random initialisation of `InitCodes` (`case INIT_RANDOM` and `default`).
The argument `drand48 k` is the result of call `k` of the library function. -/
def initRandom {K : Type} [LinearOrderedField K] (drand48 : Nat → K) (map : Map K)
    (maval mival : List K) (dim noc : Nat) (codes : List (Codebook K)) : List (Codebook K) :=
  ((List.range noc).foldl (randomCode drand48 maval mival dim map.dim) (codes, 0)).1

/-- `InitCodes(map, data, mode)`.  The result is the return value, the map and
the reports.  The dataset is the list of its graphs. -/
def InitCodes {K : Type} [LinearOrderedField K] (sqrtf : K → K) (trunc : K → Int)
    (drand48 : Nat → K) (map : Map K) (data : List (Graph K)) (mode : Nat) (rep : Reports) :
    Nat × Map K × Reports :=
  let noc := map.xdim * map.ydim
  if noc = 0 then (0, map, AddError rep "Network dimension is zero!")
  else
    let dim := initDim data
    if dim = 0 then
      (0, { map with codes := List.replicate noc emptyCodebook },
        AddError rep "Dimension of all node vectors in the dataset is zero!")
    else
      let dim :=
        if map.topology = TOPOL_VQ then
          (dataHead data).ldim + ((dataHead data).FanOut + (dataHead data).FanIn) * noc
            + (dataHead data).tdim
        else dim
      let map := { map with dim := dim }
      let codes := initAlloc map
      let r := initRange trunc map data dim noc
      let codes :=
        if mode = INIT_LINEAR then initLinear sqrtf map r.1 r.2 dim codes
        else initRandom drand48 map r.1 r.2 dim noc codes
      (1, { map with codes := codes }, rep)

/-! ## Concrete inputs of the map initialisation -/

/-- A graph header with no node: label dimension `ldim`, no links, no target. -/
def headerOfDim (ldim : Nat) : Graph ℚ :=
  { nodes := [], ldim := ldim, dimension := ldim, FanOut := 0, FanIn := 0, tdim := 0,
    depth := 0 }

/-- A map of `xdim * ydim` cells with hexagonal topology, before `InitCodes`. -/
def mapBlank (xdim ydim : Nat) : Map ℚ :=
  { codes := [], dim := 0, xdim := xdim, ydim := ydim, iter := 0, topology := 2,
    neighborhood := 1 }

/-- A dataset whose first graph has dimension 0 and whose second graph has
dimension 3. -/
def dataZeroFirst : List (Graph ℚ) := [headerOfDim 0, headerOfDim 3]

/-- A dataset whose first graph has dimension 2 and whose second graph has
dimension 5. -/
def dataTwoFive : List (Graph ℚ) := [headerOfDim 2, headerOfDim 5]

/-- A dataset of one graph with two nodes of dimension 1: the labels are 1 and
5. -/
def dataRange : List (Graph ℚ) :=
  [{ nodes := [mkNode 0 [1] [1] 0 0 0 [] [], mkNode 1 [5] [1] 0 0 0 [] []],
     ldim := 1, dimension := 1, FanOut := 0, FanIn := 0, tdim := 0, depth := 0 }]

/-! ## `GetMaxPathLength` as a recursive procedure (`data.c`) -/

/-- The value of an `int` expression whose mathematical value is `x`: inside
`[INT_MIN, INT_MAX]` it is `x`; outside, where C leaves the result undefined,
the embedding wraps modulo `2^32`. -/
def wrapInt (x : Int) : Int := (x + 2147483648) % 4294967296 - 2147483648

/-- `GetMaxPathLength` with its counter `int maxiter`, as a procedure that calls
itself.  The argument `fuel` is the number of nested activations that are
available: an activation that would nest deeper gives `none`.  The result is
the return value and the ghost count of the activations nested below this
one. -/
def GetMaxPathLengthF {K : Type} (nodes : List (Node K)) (FanOut : Nat) :
    Nat → Int → Nat → Option (Nat × Nat)
  | 0, _, _ => none
  | fuel + 1, maxiter, node =>
    if (nodeAt nodes node).depth ≠ 0 ∨ GetNumChildren (nodeAt nodes node) FanOut = 0 then
      some ((nodeAt nodes node).depth, 0)
    else if wrapInt (maxiter - 1) ≤ 0 then some (0, 0)
    else
      (List.range FanOut).foldl
        (fun acc i =>
          match childAt (nodeAt nodes node) i with
          | none => acc
          | some c =>
            match acc, GetMaxPathLengthF nodes FanOut fuel (wrapInt (maxiter - 1)) c with
            | some a, some r =>
              some (if r.1 + 1 > a.1 then r.1 + 1 else a.1,
                    if r.2 + 1 > a.2 then r.2 + 1 else a.2)
            | _, _ => none)
        (some (0, 0))

/-- Two nodes with `FanOut = 1` that are the child of each other. -/
def gCycle : Graph ℚ :=
  { nodes := [linkNode [some 1] [1], linkNode [some 0] [0]],
    ldim := 0, dimension := 0, FanOut := 1, FanIn := 1, tdim := 0, depth := 0 }

/-! ## Names of topologies and neighbourhoods (`common.c`, `common.h`, `utils.h`) -/

/-- The tag `UNKNOWN`. -/
def UNKNOWN : Nat := 0

/-- Topology tag `TOPOL_RECT`. -/
def TOPOL_RECT : Nat := 1

/-- Topology tag `TOPOL_HEXA`. -/
def TOPOL_HEXA : Nat := 2

/-- Topology tag `TOPOL_OCT`. -/
def TOPOL_OCT : Nat := 3

/-- Neighbourhood tag `NEIGH_BUBBLE`. -/
def NEIGH_BUBBLE : Nat := 1

/-- Neighbourhood tag `NEIGH_GAUSSIAN`. -/
def NEIGH_GAUSSIAN : Nat := 2

/-- Neighbourhood tag `NEIGH_NONE`. -/
def NEIGH_NONE : Nat := 3

/-- The library function `tolower` in the C locale, on character codes. -/
def tolower (c : Char) : Nat :=
  if 65 ≤ c.toNat ∧ c.toNat ≤ 90 then c.toNat + 32 else c.toNat

/-- The library function `strncasecmp(s1, s2, n)`: the first `n` characters are
compared without regard to case; the end of a list is the terminating NUL. -/
def strncasecmp : List Char → List Char → Nat → Int
  | _, _, 0 => 0
  | [], [], _ + 1 => 0
  | [], c2 :: _, _ + 1 => -(tolower c2 : Int)
  | c1 :: _, [], _ + 1 => (tolower c1 : Int)
  | c1 :: r1, c2 :: r2, n + 1 =>
    if tolower c1 ≠ tolower c2 then (tolower c1 : Int) - (tolower c2 : Int)
    else strncasecmp r1 r2 n

/-- `GetTopologyID(cptr, uval)`.  A null `cptr` is `none`; `uval` is `none` for
a null pointer and `some v` for a pointer to a cell that holds `v`.  The result
is the return value and the cell after the call. -/
def GetTopologyID (cptr : Option String) (uval : Option Nat) : Nat × Option Nat :=
  match cptr with
  | none => (UNKNOWN, uval)
  | some s =>
    if strncasecmp s.toList ("hex").toList 3 = 0 then
      (TOPOL_HEXA, uval.map (fun _ => TOPOL_HEXA))
    else if strncasecmp s.toList ("rect").toList 4 = 0 then
      (TOPOL_RECT, uval.map (fun _ => TOPOL_RECT))
    else if strncasecmp s.toList ("oct").toList 3 = 0 then
      (TOPOL_OCT, uval.map (fun _ => TOPOL_OCT))
    else if strncasecmp s.toList ("vq").toList 2 = 0 then
      (TOPOL_VQ, uval.map (fun _ => TOPOL_VQ))
    else if strncasecmp s.toList ("none").toList 2 = 0 then
      (TOPOL_VQ, uval.map (fun _ => TOPOL_VQ))
    else (UNKNOWN, uval.map (fun _ => UNKNOWN))

/-- `GetNeighborhoodID(cptr, uval)`, with the conventions of `GetTopologyID`. -/
def GetNeighborhoodID (cptr : Option String) (uval : Option Nat) : Nat × Option Nat :=
  match cptr with
  | none => (UNKNOWN, uval)
  | some s =>
    if strncasecmp s.toList ("bubble").toList 6 = 0 then
      (NEIGH_BUBBLE, uval.map (fun _ => NEIGH_BUBBLE))
    else if strncasecmp s.toList ("gauss").toList 5 = 0 then
      (NEIGH_GAUSSIAN, uval.map (fun _ => NEIGH_GAUSSIAN))
    else if strncasecmp s.toList ("none").toList 4 = 0 then
      (NEIGH_NONE, uval.map (fun _ => NEIGH_NONE))
    else (UNKNOWN, uval.map (fun _ => UNKNOWN))

/-- `GetTopologyName(ID)`; `none` is the null pointer. -/
def GetTopologyName (ID : Nat) : Option String :=
  if ID = TOPOL_HEXA then some "hexagonal"
  else if ID = TOPOL_RECT then some "rectagonal"
  else if ID = TOPOL_OCT then some "octagonal"
  else if ID = TOPOL_VQ then some "vq"
  else none

/-- `GetNeighborhoodName(ID)`; `none` is the null pointer. -/
def GetNeighborhoodName (ID : Nat) : Option String :=
  if ID = NEIGH_BUBBLE then some "bubble"
  else if ID = NEIGH_GAUSSIAN then some "gaussian"
  else if ID = NEIGH_NONE then some "none"
  else none

/-! ## Lists of graphs and their order (`data.c`) -/

/-- The lists of graphs of `struct Parameters`.  A graph structure is named by
a number; `next.getD g none` is the field `next` of graph `g`, and `train`,
`valid` and `test` are the three list heads.  A null pointer is `none`. -/
structure GraphLists where
  next : List (Option Nat)
  train : Option Nat
  valid : Option Nat
  test : Option Nat

/-- The graphs met by `for (gptr = graph; gptr != NULL; gptr = gptr->next)`, in
order; `none` when the walk has not ended after `fuel` graphs. -/
def graphList (next : List (Option Nat)) : Nat → Option Nat → Option (List Nat)
  | _, none => some []
  | 0, some _ => none
  | fuel + 1, some g => (graphList next fuel (next.getD g none)).map (fun l => g :: l)

/-- One turn of the shuffling loop of `RandomizeGraphOrder`; the state is
`garray` and the number of calls of `drand48` so far. -/
def swapStep {K : Type} [LinearOrderedField K] (drand48 : Nat → K) (trunc : K → Int)
    (num : Nat) (st : List Nat × Nat) (i : Nat) : List Nat × Nat :=
  let rval := (trunc (drand48 st.2 * (num : K) / 1)).toNat
  let gptr := st.1.getD i 0
  ((st.1.set i (st.1.getD rval 0)).set rval gptr, st.2 + 1)

/-- The loop of `RandomizeGraphOrder` that links the graphs again in the order
of `garray`, and the assignment that ends the list. -/
def relink (next : List (Option Nat)) (garray : List Nat) (num : Nat) : List (Option Nat) :=
  ((List.range (num - 1)).foldl
    (fun next i => next.set (garray.getD i 0) (some (garray.getD (i + 1) 0))) next).set
    (garray.getD (num - 1) 0) none

/-- `RandomizeGraphOrder(graph)`.  The library function `drand48` (`drand48 k`
is the result of call `k`) and the cast to `unsigned` are arguments; `k` is
the number of calls made before.  The result is the `next` fields, the
returned head and the number of calls made. -/
def RandomizeGraphOrder {K : Type} [LinearOrderedField K] (drand48 : Nat → K)
    (trunc : K → Int) (fuel : Nat) (next : List (Option Nat)) (graph : Option Nat) (k : Nat) :
    Option (List (Option Nat) × Option Nat × Nat) :=
  match graph with
  | none => some (next, none, k)
  | some g =>
    match graphList next fuel (some g) with
    | none => none
    | some garray =>
      let num := garray.length
      let st := (List.range num).foldl (swapStep drand48 trunc num) (garray, k)
      some (relink next st.1 num, some (st.1.getD 0 0), st.2)

/-- One turn of the loop of `PrepareData` over `GList`, as far as the lists of
graphs go: the weights, the order of the nodes and the winners of the nodes do
not touch a list head or a `next` field. -/
def prepareList {K : Type} [LinearOrderedField K] (drand48 : Nat → K) (trunc : K → Int)
    (fuel : Nat) (graphorder : Nat) (st : GraphLists × Nat) (glist : Option Nat) :
    Option (GraphLists × Nat) :=
  match glist with
  | none => some st
  | some g =>
    if graphorder = 1 then
      match RandomizeGraphOrder drand48 trunc fuel st.1.next (some g) st.2 with
      | none => none
      | some r => some ({ st.1 with next := r.1, train := r.2.1 }, r.2.2)
    else some st

/-- `PrepareData(param)`, as far as the lists of graphs go. -/
def PrepareData {K : Type} [LinearOrderedField K] (drand48 : Nat → K) (trunc : K → Int)
    (fuel : Nat) (graphorder : Nat) (param : GraphLists) : Option GraphLists :=
  ([param.train, param.valid, param.test].foldl
    (fun st glist => st.bind (fun s => prepareList drand48 trunc fuel graphorder s glist))
    (some (param, 0))).map Prod.fst

/-- The cast of a rational `FLOAT` to an integer type: truncation toward zero. -/
def truncQ (q : ℚ) : Int := Int.tdiv q.num (q.den : Int)

/-- A training list of the graphs 0 and 1 and a validation list of the graphs
2 and 3; no test list. -/
def listsTwoTwo : GraphLists :=
  { next := [some 1, none, some 3, none], train := some 0, valid := some 2, test := none }

/-- The four binary digits of `n`: the numbers below 16 give the sixteen
sequences of four indices 0 or 1. -/
def bits4 (n : Nat) : List Nat := [n % 2, n / 2 % 2, n / 4 % 2, n / 8 % 2]

/-- Results of `drand48`: call `k` returns `cs[k] / 2`. -/
def halves (cs : List Nat) (k : Nat) : ℚ := ((cs.getD k 0 : Nat) : ℚ) / 2

/-! ## Vector quantisation mode (`common.c`, `train.c`) -/

/-- The macro `SQR(s)`. -/
def SQR {K : Type} [LinearOrderedField K] (s : K) : K := s * s

/-- The graph that `VQSet_ab` reads the dimensions from: the first graph of the
first of the lists `train`, `valid` and `test` that is not empty. -/
def vqGraph {K : Type} (train valid test : List (Graph K)) : Option (Graph K) :=
  match train with
  | g :: _ => some g
  | [] =>
    match valid with
    | g :: _ => some g
    | [] => test.head?

/-- `VQSet_ab`.  The arguments `train`, `valid` and `test` are the three lists
of graphs of the parameters.  The result is the map and the reports. -/
def VQSet_ab {K : Type} [LinearOrderedField K] (map : Map K) (train valid test : List (Graph K))
    (rep : Reports) : Map K × Reports :=
  match vqGraph train valid test with
  | none => (map, AddError rep "Init error in VQSet_ab: No data available.")
  | some graph =>
    let noc := map.ydim * map.xdim
    ({ map with
       codes := (List.range noc).foldl
        (fun codes n =>
          codes.set n
            { codes.getD n emptyCodebook with
              a := (List.range (graph.FanOut * noc)).foldl
                (fun tmp i => tmp + SQR ((codes.getD n emptyCodebook).points.getD
                  (graph.ldim + i) 0)) 0,
              b := (List.range (graph.FanIn * noc)).foldl
                (fun tmp i => tmp + SQR ((codes.getD n emptyCodebook).points.getD
                  (graph.FanOut * noc + graph.ldim + i) 0)) 0 })
        map.codes }, rep)

/-- The two nested loops of `VQAdapt` over the blocks of a one-hot region that
starts at `offset`: in block `i` the entry at position `id i` moves toward 1
and every other entry toward 0; the squares of the new entries are summed.
The state is the codebook vector and the running sum. -/
def adaptOneHot {K : Type} [LinearOrderedField K] (alpha : K) (noc offset : Nat)
    (id : Nat → Int) (count : Nat) (codebook : List K) : List K × K :=
  (List.range count).foldl
    (fun st i =>
      (List.range noc).foldl
        (fun (st : List K × K) (n : Nat) =>
          let cb := st.1.set (offset + i * noc + n)
            (if (n : Int) = id i then
              st.1.getD (offset + i * noc + n) 0
                + alpha * (1 - st.1.getD (offset + i * noc + n) 0)
            else
              st.1.getD (offset + i * noc + n) 0
                - alpha * st.1.getD (offset + i * noc + n) 0)
          (cb, st.2 + SQR (cb.getD (offset + i * noc + n) 0)))
        st)
    (codebook, 0)

/-- The label loop of `VQAdapt`. -/
def vqAdaptLabel {K : Type} [LinearOrderedField K] (gptr : Graph K) (node : Node K) (alpha : K)
    (codebook : List K) : List K :=
  (List.range gptr.ldim).foldl
    (fun cb i => cb.set i (cb.getD i 0 + alpha * (node.points.getD i 0 - cb.getD i 0)))
    codebook

/-- The child loops of `VQAdapt` after the label loop: the vector and `a`.  The
conversion of a `FLOAT` to `int` is the argument `trunc`. -/
def vqAdaptChild {K : Type} [LinearOrderedField K] (trunc : K → Int) (gptr : Graph K)
    (noc : Nat) (node : Node K) (alpha : K) (codebook : List K) : List K × K :=
  adaptOneHot alpha noc gptr.ldim
    (fun i => trunc (node.points.getD (gptr.ldim + 2 * i) 0)) gptr.FanOut
    (vqAdaptLabel gptr node alpha codebook)

/-- The parent loops of `VQAdapt` after the child loops: the vector and `b`.
As in the C code, the id of block `i` is read from entry
`ldim + 2 * noc + 2 * i` of the vector of the node. -/
def vqAdaptParent {K : Type} [LinearOrderedField K] (trunc : K → Int) (gptr : Graph K)
    (noc : Nat) (node : Node K) (alpha : K) (codebook : List K) : List K × K :=
  adaptOneHot alpha noc (gptr.ldim + gptr.FanOut * noc)
    (fun i => trunc (node.points.getD (gptr.ldim + 2 * noc + 2 * i) 0)) gptr.FanIn
    (vqAdaptChild trunc gptr noc node alpha codebook).1

/-- The target loop of `VQAdapt` after the parent loops. -/
def vqAdaptTarget {K : Type} [LinearOrderedField K] (trunc : K → Int) (gptr : Graph K)
    (noc : Nat) (node : Node K) (alpha : K) (codebook : List K) : List K :=
  (List.range gptr.tdim).foldl
    (fun cb i =>
      cb.set (gptr.ldim + noc * (gptr.FanOut + gptr.FanIn) + i)
        (cb.getD (gptr.ldim + noc * (gptr.FanOut + gptr.FanIn) + i) 0
          + alpha * (node.points.getD (gptr.ldim + 2 * (gptr.FanOut + gptr.FanIn) + i) 0
            - cb.getD (gptr.ldim + noc * (gptr.FanOut + gptr.FanIn) + i) 0)))
    (vqAdaptParent trunc gptr noc node alpha codebook).1

/-- `VQAdapt`: the result is the map and the node as mutated.  The member
`winner` of the node shares its storage with `x`. -/
def VQAdapt {K : Type} [LinearOrderedField K] (trunc : K → Int) (gptr : Graph K) (map : Map K)
    (node : Node K) (winner : Winner K) (_radius alpha : K) : Map K × Node K :=
  let noc := map.xdim * map.ydim
  let codebook := (codeAt map winner.codeno).points
  ({ map with
     codes := map.codes.set winner.codeno
      { codeAt map winner.codeno with
        points := vqAdaptTarget trunc gptr noc node alpha codebook,
        a := (vqAdaptChild trunc gptr noc node alpha codebook).2,
        b := (vqAdaptParent trunc gptr noc node alpha codebook).2 } },
   { node with x := (winner.codeno : Int) })

/-- The entry `mu[i]` read through an `int` index; outside the array the read
gives 0. -/
def muAt {K : Type} [LinearOrderedField K] (mu : List K) (i : Int) : K :=
  if i < 0 then 0 else mu.getD i.toNat 0

/-- The label and target loops of `VQFindWinnerEucledian`: `k` turns from index
`i`; the flag tells whether the loop left through `goto big_difference`. -/
def vqDiffLoop {K : Type} [LinearOrderedField K] (codebook sample mu : List K) (diffsf : K) :
    Nat → Nat → K → K × Bool
  | 0, _, difference => (difference, false)
  | k + 1, i, difference =>
    let diff := codebook.getD i 0 - sample.getD i 0
    let difference := difference + diff * diff * mu.getD i 0
    if difference ≥ diffsf then (difference, true)
    else vqDiffLoop codebook sample mu diffsf k (i + 1) difference

/-- The value of `difference` for codebook `n` in `VQFindWinnerEucledian` when
the running minimum is `diffsf`, and whether the codebook was left through
`goto big_difference`. -/
def vqDifference {K : Type} [LinearOrderedField K] (trunc : K → Int) (map : Map K)
    (node : Node K) (gptr : Graph K) (diffsf : K) (n : Nat) : K × Bool :=
  let ldim := gptr.ldim
  let fanout := gptr.FanOut
  let fanin := gptr.FanIn
  let tend := ldim + 2 * (fanin + fanout) + gptr.tdim
  let noc := map.xdim * map.ydim
  let codebook := (codeAt map n).points
  let sample := node.points
  let r := vqDiffLoop codebook sample node.mu diffsf ldim 0 0
  if r.2 then r
  else
    let diff := (List.range fanout).foldl
      (fun diff i =>
        let id := trunc (sample.getD (ldim + i * 2) 0)
        if id ≥ 0 then diff + (1 - 2 * codebook.getD (ldim + noc * i + id.toNat) 0) else diff)
      (codeAt map n).a
    let difference := r.1 + diff * muAt node.mu ((fanout : Int) - 1)
    if difference ≥ diffsf then (difference, true)
    else
      let diff := (List.range fanin).foldl
        (fun diff i =>
          let id := trunc (sample.getD (ldim + 2 + fanout + i * 2) 0)
          if id ≥ 0 then
            diff + (1 - 2 * codebook.getD (ldim + noc * fanout + noc * i + id.toNat) 0)
          else diff)
        (codeAt map n).b
      let difference := difference + diff * muAt node.mu ((fanin : Int) - 1)
      if difference ≥ diffsf then (difference, true)
      else
        vqDiffLoop codebook sample node.mu diffsf (tend - (ldim + 2 * fanin + 2 * fanout))
          (ldim + 2 * fanin + 2 * fanout) difference

/-- One turn of the codebook loop of `VQFindWinnerEucledian`; the state is
`winner->codeno` and `diffsf`. -/
def vqFindStep {K : Type} [LinearOrderedField K] (trunc : K → Int) (map : Map K)
    (node : Node K) (gptr : Graph K) (st : Nat × K) (n : Nat) : Nat × K :=
  let r := vqDifference trunc map node gptr st.2 n
  if r.2 then st else (n, r.1)

/-- `VQFindWinnerEucledian`.  As in `FindWinnerEucledian`, `codeno` is written
only when a codebook comes below the running minimum. -/
def VQFindWinnerEucledian {K : Type} [LinearOrderedField K] (trunc : K → Int) (map : Map K)
    (node : Node K) (gptr : Graph K) (winner : Winner K) : Winner K :=
  let st := (List.range (map.xdim * map.ydim)).foldl (vqFindStep trunc map node gptr)
    (winner.codeno, FLT_MAX)
  { codeno := st.1, diff := st.2 }

/-! ## Vocabulary of the statements: vector quantisation -/

/-- The aggregates of codebook `n` agree with its vector: `a` is the sum of the
squares of the `FanOut * noc` entries from `ldim` on and `b` the sum of the
squares of the `FanIn * noc` entries from `ldim + FanOut * noc` on. -/
def ABConsistentAt {K : Type} [LinearOrderedField K] (gptr : Graph K) (map : Map K)
    (n : Nat) : Prop :=
  (codeAt map n).a
    = ((List.range (gptr.FanOut * (map.xdim * map.ydim))).map
        (fun i => ((codeAt map n).points.getD (gptr.ldim + i) 0) ^ 2)).sum ∧
  (codeAt map n).b
    = ((List.range (gptr.FanIn * (map.xdim * map.ydim))).map
        (fun i => ((codeAt map n).points.getD
          (gptr.ldim + gptr.FanOut * (map.xdim * map.ydim) + i) 0) ^ 2)).sum

/-- The aggregates of every codebook of the map agree with its vector. -/
def ABConsistent {K : Type} [LinearOrderedField K] (gptr : Graph K) (map : Map K) : Prop :=
  ∀ n, n < map.xdim * map.ydim → ABConsistentAt gptr map n

/-- Entry `n` of the one-hot vector of `id`; an id outside `[0, noc)`, such as
the -1 of a missing link, gives the zero vector. -/
def oneHot {K : Type} [LinearOrderedField K] (id : Int) (n : Nat) : K :=
  if (n : Int) = id then 1 else 0

/-- The squared distance of the region of `count` blocks of `noc` entries that
starts at `offset` in the codebook vector to the one-hot vectors of the ids. -/
def oneHotDist {K : Type} [LinearOrderedField K] (codebook : List K) (noc offset : Nat)
    (id : Nat → Int) (count : Nat) : K :=
  ((List.range count).map
    (fun i => ((List.range noc).map
      (fun n => (codebook.getD (offset + i * noc + n) 0 - oneHot (id i) n) ^ 2)).sum)).sum

/-- The direct weighted squared distance between codebook `n` and the one-hot
expansion of the sample, in the words of the specification: the label terms,
the weight of the child segment times the distance of the child region to the
one-hot vectors of the child ids, the weight of the parent segment times the
same for the parent region, and the target terms between the target segment
of the sample and the target segment of the codebook. -/
def vqDirectDist {K : Type} [LinearOrderedField K] (trunc : K → Int) (map : Map K)
    (node : Node K) (gptr : Graph K) (n : Nat) : K :=
  let noc := map.xdim * map.ydim
  let c := (codeAt map n).points
  let s := node.points
  ((List.range gptr.ldim).map (fun i => node.mu.getD i 0 * (c.getD i 0 - s.getD i 0) ^ 2)).sum
  + node.mu.getD gptr.ldim 0
      * oneHotDist c noc gptr.ldim (fun i => trunc (s.getD (gptr.ldim + 2 * i) 0)) gptr.FanOut
  + node.mu.getD (gptr.ldim + 2 * gptr.FanOut) 0
      * oneHotDist c noc (gptr.ldim + gptr.FanOut * noc)
          (fun i => trunc (s.getD (gptr.ldim + 2 * gptr.FanOut + 2 * i) 0)) gptr.FanIn
  + ((List.range gptr.tdim).map
      (fun i => node.mu.getD (gptr.ldim + 2 * (gptr.FanOut + gptr.FanIn) + i) 0
        * (c.getD (gptr.ldim + noc * (gptr.FanOut + gptr.FanIn) + i) 0
            - s.getD (gptr.ldim + 2 * (gptr.FanOut + gptr.FanIn) + i) 0) ^ 2)).sum

instance {K : Type} [LinearOrderedField K] (gptr : Graph K) (map : Map K) (n : Nat) :
    Decidable (ABConsistentAt gptr map n) := by
  unfold ABConsistentAt
  infer_instance

instance {K : Type} [LinearOrderedField K] (gptr : Graph K) (map : Map K) :
    Decidable (ABConsistent gptr map) := by
  unfold ABConsistent
  infer_instance

/-! ## Concrete inputs of the vector quantisation mode -/

/-- A graph header with `ldim = 0`, `FanOut = 1`, `FanIn = 1` and `tdim = 1`:
the vector of a node is (child id, unused, parent id, unused, target). -/
def headerVQ : Graph ℚ :=
  { nodes := [], ldim := 0, dimension := 5, FanOut := 1, FanIn := 1, tdim := 1, depth := 0 }

/-- A map of two codebooks in VQ mode for `headerVQ`: a vector is (child block
of two entries, parent block of two entries, target), and the aggregates `a`
and `b` are the sums of the squares of the two blocks. -/
def mapVQ : Map ℚ :=
  { codes := [{ points := [1 / 2, 1 / 2, 1 / 2, 1 / 2, 1 / 2], x := 0, y := 0,
                a := 1 / 2, b := 1 / 2, label := 0 },
              { points := [1, 0, 0, 1, 0], x := 0, y := 0, a := 1, b := 1, label := 0 }],
    dim := 5, xdim := 2, ydim := 1, iter := 0, topology := 4, neighborhood := 3 }

/-- A node of `headerVQ` with child id 0, parent id 1 and target 0. -/
def nodeVQ : Node ℚ := mkNode 0 [0, 0, 1, 0, 0] [1, 1, 1, 1, 1] 0 0 0 [] [none]

/-- A graph header with `ldim = 1`, `FanOut = 1`, `FanIn = 1` and no target:
the vector of a node is (label, child id, unused, parent id, unused). -/
def headerMu : Graph ℚ :=
  { nodes := [], ldim := 1, dimension := 5, FanOut := 1, FanIn := 1, tdim := 0, depth := 0 }

/-- A map of two codebooks in VQ mode for `headerMu`: a vector is (label, child
block of two entries, parent block of two entries); in both codebooks the child
block has one entry 1 (`a = 1`) and the parent block is zero (`b = 0`). -/
def mapMu : Map ℚ :=
  { codes := [{ points := [2, 1, 0, 0, 0], x := 0, y := 0, a := 1, b := 0, label := 0 },
              { points := [0, 0, 1, 0, 0], x := 0, y := 0, a := 1, b := 0, label := 0 }],
    dim := 5, xdim := 2, ydim := 1, iter := 0, topology := 4, neighborhood := 3 }

/-- A node of `headerMu` with label 0, child id 0 and no parent (id -1); the
weight is 1 on the label and 10 on the child and the parent segment. -/
def nodeMu : Node ℚ := mkNode 0 [0, 0, 0, -1, -1] [1, 10, 10, 10, 10] 0 0 0 [] [none]

/-- A graph header with `ldim = 0`, `FanOut = 2`, `FanIn = 1` and `tdim = 1`:
the vector of a node is (two child slots of two entries, one parent slot of two
entries, target). -/
def headerTgt : Graph ℚ :=
  { nodes := [], ldim := 0, dimension := 7, FanOut := 2, FanIn := 1, tdim := 1, depth := 0 }

/-- A map of three codebooks in VQ mode for `headerTgt`: a vector is (two child
blocks of three entries, one parent block of three entries, target).  Codebook 0
is zero but for the target 5, codebook 1 is zero but for entry 0 of the parent
block, codebook 2 is zero but for the target 100. -/
def mapTgt : Map ℚ :=
  { codes := [{ points := [0, 0, 0, 0, 0, 0, 0, 0, 0, 5], x := 0, y := 0, a := 0, b := 0,
                label := 0 },
              { points := [0, 0, 0, 0, 0, 0, 1, 0, 0, 0], x := 0, y := 0, a := 0, b := 1,
                label := 0 },
              { points := [0, 0, 0, 0, 0, 0, 0, 0, 0, 100], x := 0, y := 0, a := 0, b := 0,
                label := 0 }],
    dim := 10, xdim := 3, ydim := 1, iter := 0, topology := 4, neighborhood := 3 }

/-- A node of `headerTgt` without children and parent (ids -1), target 5 and
weight 1 everywhere. -/
def nodeTgt : Node ℚ :=
  mkNode 0 [-1, -1, -1, -1, -1, -1, 5] [1, 1, 1, 1, 1, 1, 1] 0 0 0 [] [none, none]

/-! ## Floating-point arithmetic (`float` and `double` of `common.h`, `train.c`)

With the default precision of `common.h` `FLOAT` is `float`, the binary32 format;
constants such as `0.5` and the functions `exp` have type `double`, binary64.
Every operation gives the exact result rounded to the format of its type, to
nearest with ties to even; a result beyond the largest finite number is an
infinity.  Zero carries no sign here: a division of a nonzero number by zero
gives the infinity with the sign of the numerator. -/

/-- The integer part of the binary logarithm of `n`, by repeated halving; the
first argument bounds the number of halvings. -/
def log2Fuel : Nat → Nat → Nat
  | 0, _ => 0
  | fuel + 1, n => if n < 2 then 0 else log2Fuel fuel (n / 2) + 1

/-- The power `2^e` for an integer exponent. -/
def pow2 (e : Int) : ℚ :=
  if 0 ≤ e then ((2 ^ e.toNat : Nat) : ℚ) else 1 / ((2 ^ (-e).toNat : Nat) : ℚ)

/-- The binary exponent of a positive rational `q`: the integer `e` with
`2^e ≤ q < 2^(e+1)`. -/
def ilog2 (q : ℚ) : Int :=
  if pow2 ((log2Fuel q.num.natAbs q.num.natAbs : Int) - (log2Fuel q.den q.den : Int)) ≤ q then
    (log2Fuel q.num.natAbs q.num.natAbs : Int) - (log2Fuel q.den q.den : Int)
  else (log2Fuel q.num.natAbs q.num.natAbs : Int) - (log2Fuel q.den q.den : Int) - 1

/-- The integer nearest to `m`, the even one of the two when `m` lies halfway. -/
def roundHalfEven (m : ℚ) : Int :=
  if m - ⌊m⌋ < 1 / 2 then ⌊m⌋
  else if 1 / 2 < m - ⌊m⌋ then ⌊m⌋ + 1
  else if ⌊m⌋ % 2 = 0 then ⌊m⌋ else ⌊m⌋ + 1

/-- A binary floating-point format: the number of bits of the significand, the
exponent of the smallest normal number and the exponent of the largest finite
number. -/
structure Format where
  prec : Nat
  emin : Int
  emax : Int

/-- The format of `float`. -/
def binary32 : Format := { prec := 24, emin := -126, emax := 127 }

/-- The format of `double`. -/
def binary64 : Format := { prec := 53, emin := -1022, emax := 1023 }

/-- The distance between neighbouring numbers of the format around `x`. -/
def Format.quantum (f : Format) (x : ℚ) : ℚ :=
  pow2 (max (ilog2 |x|) f.emin - ((f.prec : Int) - 1))

/-- The number of the format nearest to the rational `x`, with an unbounded
exponent (ties to even). -/
def Format.roundQ (f : Format) (x : ℚ) : ℚ :=
  if x = 0 then 0
  else if x < 0 then -((roundHalfEven (-x / f.quantum x) : ℚ) * f.quantum x)
  else (roundHalfEven (x / f.quantum x) : ℚ) * f.quantum x

/-- The largest finite number of the format (`FLT_MAX` for `float`). -/
def Format.maxFinite (f : Format) : ℚ :=
  (pow2 f.prec - 1) * pow2 (f.emax - ((f.prec : Int) - 1))

/-- The numbers of the format with an unbounded exponent upward: the integer
multiples `n * 2^e` of a power of two with `|n| < 2^prec` and
`emin - (prec - 1) ≤ e`. -/
def Format.Rep (f : Format) (x : ℚ) : Prop :=
  ∃ (n e : Int), |n| < 2 ^ f.prec ∧ f.emin - ((f.prec : Int) - 1) ≤ e ∧ x = (n : ℚ) * pow2 e

/-- The value of a floating-point object: a finite number, an infinity
(`inf true` is the negative one) or NaN. -/
inductive Fl where
  | fin (q : ℚ)
  | inf (neg : Bool)
  | nan
  deriving DecidableEq

/-- The negation of a value. -/
def Fl.neg : Fl → Fl
  | Fl.fin q => Fl.fin (-q)
  | Fl.inf s => Fl.inf (!s)
  | Fl.nan => Fl.nan

/-- The exact sum of two values; the sum of the two infinities is NaN. -/
def Fl.add : Fl → Fl → Fl
  | Fl.fin a, Fl.fin b => Fl.fin (a + b)
  | Fl.fin _, Fl.inf s => Fl.inf s
  | Fl.inf s, Fl.fin _ => Fl.inf s
  | Fl.inf s, Fl.inf t => if s = t then Fl.inf s else Fl.nan
  | _, _ => Fl.nan

/-- The exact product of two values; zero times an infinity is NaN. -/
def Fl.mul : Fl → Fl → Fl
  | Fl.fin a, Fl.fin b => Fl.fin (a * b)
  | Fl.fin a, Fl.inf s => if a = 0 then Fl.nan else Fl.inf (xor s (decide (a < 0)))
  | Fl.inf s, Fl.fin b => if b = 0 then Fl.nan else Fl.inf (xor s (decide (b < 0)))
  | Fl.inf s, Fl.inf t => Fl.inf (xor s t)
  | _, _ => Fl.nan

/-- The exact quotient of two values; `0 / 0` and the quotient of two
infinities are NaN, and a nonzero number divided by zero is the infinity with
the sign of the number. -/
def Fl.div : Fl → Fl → Fl
  | Fl.fin a, Fl.fin b =>
    if b = 0 then (if a = 0 then Fl.nan else Fl.inf (decide (a < 0))) else Fl.fin (a / b)
  | Fl.fin _, Fl.inf _ => Fl.fin 0
  | Fl.inf s, Fl.fin b => Fl.inf (xor s (decide (b < 0)))
  | _, _ => Fl.nan

/-- The comparison `x < y`; it is false when an operand is NaN. -/
def Fl.lt : Fl → Fl → Bool
  | Fl.fin a, Fl.fin b => decide (a < b)
  | Fl.fin _, Fl.inf s => !s
  | Fl.inf s, Fl.fin _ => s
  | Fl.inf s, Fl.inf t => s && !t
  | _, _ => false

/-- The comparison `x <= y`; it is false when an operand is NaN. -/
def Fl.le : Fl → Fl → Bool
  | Fl.fin a, Fl.fin b => decide (a ≤ b)
  | Fl.fin _, Fl.inf s => !s
  | Fl.inf s, Fl.fin _ => s
  | Fl.inf s, Fl.inf t => s || !t
  | _, _ => false

/-- The conversion of a value to the format: a finite number is rounded to
nearest, and to an infinity when the rounded number exceeds the largest finite
number of the format. -/
def Format.round (f : Format) : Fl → Fl
  | Fl.fin q =>
    if f.maxFinite < f.roundQ q then Fl.inf false
    else if f.roundQ q < -f.maxFinite then Fl.inf true
    else Fl.fin (f.roundQ q)
  | v => v

/-- The operator `+` on two operands of the format. -/
def Format.add (f : Format) (x y : Fl) : Fl := f.round (Fl.add x y)

/-- The operator `-` on two operands of the format. -/
def Format.sub (f : Format) (x y : Fl) : Fl := f.round (Fl.add x (Fl.neg y))

/-- The operator `*` on two operands of the format. -/
def Format.mul (f : Format) (x y : Fl) : Fl := f.round (Fl.mul x y)

/-- The operator `/` on two operands of the format. -/
def Format.div (f : Format) (x y : Fl) : Fl := f.round (Fl.div x y)

/-- The conversion of an integer to the format. -/
def Format.ofInt (f : Format) (n : Int) : Fl := f.round (Fl.fin (n : ℚ))

/-- The value is a `float`: NaN, an infinity or a finite binary32 number. -/
def IsFloat : Fl → Prop
  | Fl.fin q => binary32.Rep q ∧ |q| ≤ binary32.maxFinite
  | _ => True

/-- The value is a finite `float`. -/
def IsFiniteFloat : Fl → Prop
  | Fl.fin q => binary32.Rep q ∧ |q| ≤ binary32.maxFinite
  | _ => False

/-! ## The learning-rate functions and the adaptation in `float` arithmetic

The functions of `train.c` once more, with `FLOAT` the binary32 format: every
operator rounds its result to the type of the expression (`float`, or `double`
when an operand is a `double` constant), as an implementation without excess
precision does.  `UNSIGNED` is `int`; its values are natural numbers here. -/

namespace Fp

/-- The constant `FLT_MAX` as a value of type `float`. -/
def FLT_MAX : Fl := Fl.fin binary32.maxFinite

/-- `LinearDecrease`: `alphastart * (FLOAT)(length - iter) / (FLOAT)length`. -/
def LinearDecrease (iter length : Nat) (alphastart : Fl) : Fl :=
  binary32.div (binary32.mul alphastart (binary32.ofInt ((length : Int) - (iter : Int))))
    (binary32.ofInt (length : Int))

/-- `ConstantAlpha`. -/
def ConstantAlpha (_iter _length : Nat) (alphastart : Fl) : Fl := alphastart

/-- The constant `INV_ALPHA_CONSTANT`, the `double` 100.0. -/
def INV_ALPHA_CONSTANT : Fl := Fl.fin 100

/-- `ExponentialAlpha`: `c = length / INV_ALPHA_CONSTANT` is a quotient of type
`double` stored in a `float`; `alphastart * c / (c + iter)` is of type `float`. -/
def ExponentialAlpha (iter length : Nat) (alphastart : Fl) : Fl :=
  let c := binary32.round (binary64.div (binary64.ofInt (length : Int)) INV_ALPHA_CONSTANT)
  binary32.div (binary32.mul alphastart c) (binary32.add c (binary32.ofInt (iter : Int)))

/-- The constant `GAUSS_ALPHA_CONSTANT`, the `double` 4.0. -/
def GAUSS_ALPHA_CONSTANT : Fl := Fl.fin 4

/-- `SigmoidalAlpha`: the products `(FLOAT)iter*iter` and `(FLOAT)length*length`
are of type `float`, the product with `GAUSS_ALPHA_CONSTANT`, the quotient, the
call of `exp` and the product with `alphastart` of type `double`; the result is
returned as a `float`.  The library function `exp` is an argument. -/
def SigmoidalAlpha (exp : Fl → Fl) (iter length : Nat) (alphastart : Fl) : Fl :=
  binary32.round (binary64.mul alphastart (exp (binary64.div
    (Fl.neg (binary64.mul
      (binary32.mul (binary32.ofInt (iter : Int)) (binary32.ofInt (iter : Int)))
      GAUSS_ALPHA_CONSTANT))
    (binary32.mul (binary32.ofInt (length : Int)) (binary32.ofInt (length : Int))))))

/-- `ComputeHexaDistance`: `dy` is a `float`; the constants 0.5 and 0.75 are
`double`, so `dy += 0.5` and `ret += 0.75 * dx * dx` are computed in `double`
and stored in a `float`. -/
def ComputeHexaDistance (bx byy tx ty : Int) : Fl :=
  let dx : Int := bx - tx
  let dy : Fl := binary32.ofInt (byy - ty)
  let dy : Fl :=
    if dx % 2 ≠ 0 then
      (if tx % 2 ≠ 0 then binary32.round (binary64.add dy (Fl.fin (1 / 2)))
       else binary32.round (binary64.sub dy (Fl.fin (1 / 2))))
    else dy
  let ret : Fl := binary32.mul dy dy
  binary32.round (binary64.add ret
    (binary64.mul (binary64.mul (Fl.fin (3 / 4)) (binary64.ofInt dx)) (binary64.ofInt dx)))

/-- Codebook read through an index that is not a codebook of the map. -/
def emptyCodebook : Codebook Fl :=
  { points := [], x := 0, y := 0, a := Fl.fin 0, b := Fl.fin 0, label := 0 }

/-- The codebook `map->codes[n]`. -/
def codeAt (map : Map Fl) (n : Nat) : Codebook Fl := map.codes.getD n emptyCodebook

/-- `AdaptVector`: `codebook[i] += alpha * (sample[i] - codebook[i])` for
`i < dim`. -/
def AdaptVector (codebook sample : List Fl) (dim : Nat) (alpha : Fl) : List Fl :=
  (List.range dim).foldl
    (fun cb i => cb.set i (binary32.add (cb.getD i (Fl.fin 0))
      (binary32.mul alpha (binary32.sub (sample.getD i (Fl.fin 0)) (cb.getD i (Fl.fin 0))))))
    codebook

/-- The codebook array after `AdaptVector(codes[n].points, sample, dim, alpha)`. -/
def adaptCode (codes : List (Codebook Fl)) (n : Nat) (sample : List Fl) (dim : Nat)
    (alpha : Fl) : List (Codebook Fl) :=
  codes.set n
    { codes.getD n emptyCodebook with
      points := AdaptVector (codes.getD n emptyCodebook).points sample dim alpha }

/-- `BubbleAdapt`: the result is the map and the node as mutated.  The
assignment `radius *= radius` is a product of type `float`. -/
def BubbleAdapt (_gptr : Graph Fl) (map : Map Fl) (node : Node Fl) (winner : Winner Fl)
    (radius alpha : Fl) : Map Fl × Node Fl :=
  let noc := map.xdim * map.ydim
  let node := { node with x := (codeAt map winner.codeno).x, y := (codeAt map winner.codeno).y }
  let radius := binary32.mul radius radius
  let codes := (List.range noc).foldl
    (fun codes n =>
      let dist : Fl := ComputeHexaDistance node.x node.y
        (codes.getD n emptyCodebook).x (codes.getD n emptyCodebook).y
      if Fl.le dist radius then adaptCode codes n node.points map.dim alpha else codes)
    map.codes
  ({ map with codes := codes }, node)

/-- The step `alpha * expf(dist / (-2.0 * radius * radius))` of `GaussianAdapt`:
the denominator and the quotient are of type `double`, the argument of `expf`
is converted to `float`, and the product with `alpha` is of type `float`. -/
def gaussStep (expf : Fl → Fl) (dist radius alpha : Fl) : Fl :=
  binary32.mul alpha (expf (binary32.round (binary64.div dist
    (binary64.mul (binary64.mul (Fl.fin (-2)) radius) radius))))

/-- `GaussianAdapt`: the result is the map and the node as mutated.  The
library function `expf` is an argument. -/
def GaussianAdapt (expf : Fl → Fl) (_gptr : Graph Fl) (map : Map Fl) (node : Node Fl)
    (winner : Winner Fl) (radius alpha : Fl) : Map Fl × Node Fl :=
  let noc := map.xdim * map.ydim
  let node := { node with x := (codeAt map winner.codeno).x, y := (codeAt map winner.codeno).y }
  let codes := (List.range noc).foldl
    (fun codes n =>
      let dist : Fl := ComputeHexaDistance node.x node.y
        (codes.getD n emptyCodebook).x (codes.getD n emptyCodebook).y
      adaptCode codes n node.points map.dim (gaussStep expf dist radius alpha))
    map.codes
  ({ map with codes := codes }, node)

/-- The inner loop of `FindWinnerEucledian`: `k` is the number of features still
to visit, `i` the current feature and `difference` the partial sum; the loop is
left as soon as the partial sum exceeds `diffsf`. -/
def diffLoop (codebook sample mu : List Fl) (diffsf : Fl) : Nat → Nat → Fl → Fl
  | 0, _, difference => difference
  | k + 1, i, difference =>
    let diff := binary32.sub (codebook.getD i (Fl.fin 0)) (sample.getD i (Fl.fin 0))
    let difference := binary32.add difference
      (binary32.mul (binary32.mul diff diff) (mu.getD i (Fl.fin 0)))
    if Fl.lt diffsf difference then difference
    else diffLoop codebook sample mu diffsf k (i + 1) difference

/-- One turn of the codebook loop of `FindWinnerEucledian`; the state is
`winner->codeno` and `diffsf`. -/
def findWinnerStep (map : Map Fl) (node : Node Fl) (vdim : Nat) (st : Nat × Fl) (n : Nat) :
    Nat × Fl :=
  let difference := diffLoop (codeAt map n).points node.points node.mu st.2 vdim 0 (Fl.fin 0)
  if Fl.lt difference st.2 then (n, difference) else st

/-- `FindWinnerEucledian`.  The structure `winner` is an in/out argument:
`codeno` is written only when a codebook beats the running minimum. -/
def FindWinnerEucledian (map : Map Fl) (node : Node Fl) (gptr : Graph Fl)
    (winner : Winner Fl) : Winner Fl :=
  let st := (List.range (map.xdim * map.ydim)).foldl
    (findWinnerStep map node gptr.dimension) (winner.codeno, FLT_MAX)
  { codeno := st.1, diff := st.2 }

/-! ### Vocabulary of the statements in `float` arithmetic -/

/-- The sum `difference` that the loop of `FindWinnerEucledian` accumulates
over the features `i, ..., i + k - 1` when it is not left early: the terms
`(codebook[i] - sample[i])^2 * mu[i]` in `float` arithmetic, added in the order
of the features. -/
def sumLoop (codebook sample mu : List Fl) : Nat → Nat → Fl → Fl
  | 0, _, difference => difference
  | k + 1, i, difference =>
    sumLoop codebook sample mu k (i + 1)
      (binary32.add difference
        (binary32.mul
          (binary32.mul
            (binary32.sub (codebook.getD i (Fl.fin 0)) (sample.getD i (Fl.fin 0)))
            (binary32.sub (codebook.getD i (Fl.fin 0)) (sample.getD i (Fl.fin 0))))
          (mu.getD i (Fl.fin 0))))

/-- The computed distance of the sample `node->points` to codebook `n`. -/
def nodeDist (map : Map Fl) (node : Node Fl) (gptr : Graph Fl) (n : Nat) : Fl :=
  sumLoop (codeAt map n).points node.points node.mu gptr.dimension 0 (Fl.fin 0)

/-- One turn of the exhaustive scan: the full distance is computed, and the
candidate replaces the best so far when it is strictly closer. -/
def exhaustiveStep (map : Map Fl) (node : Node Fl) (gptr : Graph Fl) (st : Nat × Fl)
    (n : Nat) : Nat × Fl :=
  if Fl.lt (nodeDist map node gptr n) st.2 then (n, nodeDist map node gptr n) else st

/-- The winner search without pruning. -/
def exhaustiveWinner (map : Map Fl) (node : Node Fl) (gptr : Graph Fl) (winner : Winner Fl) :
    Winner Fl :=
  let st := (List.range (map.xdim * map.ydim)).foldl
    (exhaustiveStep map node gptr) (winner.codeno, FLT_MAX)
  { codeno := st.1, diff := st.2 }

/-- The map has `xdim * ydim` codebooks, each with a vector of `dim` entries. -/
def WellFormedMap (map : Map Fl) : Prop :=
  map.codes.length = map.xdim * map.ydim ∧
  ∀ n, n < map.xdim * map.ydim → (codeAt map n).points.length = map.dim

end Fp

/-- The value is not below zero: NaN, `+∞` or a finite number that is not
negative. -/
def Fl.notNeg (x : Fl) : Prop := Fl.lt x (Fl.fin 0) = false

instance (x : Fl) : Decidable x.notNeg := by
  unfold Fl.notNeg
  infer_instance

/-- The `float` nearest to 0.1, `0x1.99999ap-4`. -/
def tenth32 : ℚ := 13421773 / 134217728

/-- A graph header for vectors of one entry. -/
def headerOne : Graph Fl :=
  { nodes := [], ldim := 1, dimension := 1, FanOut := 0, FanIn := 0, tdim := 0, depth := 0 }

/-- A node with the vector `points` and the weights `mu`. -/
def nodeFl (points mu : List Fl) : Node Fl :=
  { points := points, nnum := 0, depth := 0, mu := mu, x := 0, y := 0, label := 0,
    parents := [], children := [] }

/-- A map of `vs.length` codebooks in one row: codebook `n` is the vector
`vs[n]` at the cell `(n, 0)`. -/
def mapRow (vs : List (List Fl)) (dim : Nat) : Map Fl :=
  { codes := (List.range vs.length).map (fun n =>
      { points := vs.getD n [], x := (n : Int), y := 0, a := Fl.fin 0, b := Fl.fin 0,
        label := 0 }),
    dim := dim, xdim := vs.length, ydim := 1, iter := 0, topology := 2, neighborhood := 1 }

/-- The winner record with `codeno = 7`. -/
def winnerSeven : Winner Fl := { codeno := 7, diff := Fl.fin 0 }

/-- The `float` `0x1.bb67aep+0`, a little below the square root of 3. -/
def radiusBelowSqrt3 : ℚ := 14529495 / 8388608

/-- A map of three codebooks `[1]`, `[1]`, `[1]` in the cells `(0,0)`, `(1,0)`
and `(2,0)`. -/
def mapThree : Map Fl := mapRow [[Fl.fin 1], [Fl.fin 1], [Fl.fin 1]] 1

/-- The winner record of codebook 0. -/
def winnerFl0 : Winner Fl := { codeno := 0, diff := Fl.fin 0 }

/-- A map of the one codebook `[3]`. -/
def mapOne : Map Fl := mapRow [[Fl.fin 3]] 1

/-- A library function `expf` for the evaluations: its value is 1 everywhere. -/
def expfOne (_ : Fl) : Fl := Fl.fin 1

/-! ## Reverse trace with bounded level arrays (`data.c`, `utils.c`)

The level array `newlevel` of `SetNodeDepth_UsingReverseTrace` is indexed by the
`int` counters `newnum` and `newlevelsize` and grows through `MyRealloc`, which
returns `NULL` when the request fails.  In the namespace `Arr` the array is a
list together with its capacity `newlevelsize`; `mem` is the largest number of
pointers that one request for memory delivers.  A run ends in `none` when an
`int` counter leaves its range, when `MyMalloc` fails (the process exits) or
when `newlevel[newnum]` is written after `MyRealloc` returned `NULL`.  A request
for 0 bytes succeeds. -/

namespace Arr

/-- `INT_MAX` for the 32 bit `int` behind `UNSIGNED`. -/
def INT_MAX : Nat := 2147483647

/-- One turn of the loop over the parents `p` of `onlevel[n]`; the state is the
node array, the first `newnum` entries of `newlevel`, and `newlevelsize`. -/
def traceParent {K : Type} (mem depth : Nat) (st : List (Node K) × List Nat × Nat) (p : Nat) :
    Option (List (Node K) × List Nat × Nat) :=
  let nodes := setDepth st.1 p depth
  if st.2.2 ≤ st.2.1.length then
    if INT_MAX < st.2.2 + 16 then none
    else if mem < st.2.2 + 16 then none
    else some (nodes, st.2.1 ++ [p], st.2.2 + 16)
  else some (nodes, st.2.1 ++ [p], st.2.2)

/-- The body of the `while (num > 0)` loop of `SetNodeDepth_UsingReverseTrace`
up to `num = newnum`: `newlevel` starts as a block of 16 pointers. -/
def traceLevel {K : Type} (mem : Nat) (nodes : List (Node K)) (onlevel : List Nat)
    (depth : Nat) : Option (List (Node K) × List Nat) :=
  if mem < 16 then none
  else
    (onlevel.foldlM
      (fun st n => (nodeAt st.1 n).parents.foldlM (traceParent mem depth) st)
      (nodes, [], 16)).map (fun st => (st.1, st.2.1))

/-- The `while (num > 0)` loop of `SetNodeDepth_UsingReverseTrace`; `depth++`
needs `depth < INT_MAX`. -/
def traceLoop {K : Type} (mem : Nat) :
    Nat → List (Node K) → List Nat → Nat → Option (List (Node K) × Nat)
  | 0, _, _, _ => none
  | fuel + 1, nodes, onlevel, depth =>
    if onlevel.length > 0 then
      match traceLevel mem nodes onlevel depth with
      | none => none
      | some st =>
        if INT_MAX ≤ depth then none else traceLoop mem fuel st.1 st.2 (depth + 1)
    else some (nodes, depth)

/-- `SetNodeDepth_UsingReverseTrace` on one graph; the array `onlevel` of the
leaves is allocated with `MyMalloc`. -/
def SetNodeDepth_UsingReverseTrace {K : Type} (mem fuel : Nat) (g : Graph K) :
    Option (Graph K) :=
  if mem < (leafLevel g).length then none
  else
    match traceLoop mem fuel g.nodes (leafLevel g) 1 with
    | none => none
    | some r => some { g with nodes := r.1, depth := r.2 - 1 }

end Arr

/-- Node `n` of the ladder of `layers` layers of two nodes: both nodes of the
next layer are its children, both nodes of the layer before are its parents. -/
def ladderNode (layers n : Nat) : Node ℚ :=
  linkNode
    (if n / 2 + 1 < layers then [some (2 * (n / 2) + 2), some (2 * (n / 2) + 3)]
     else [none, none])
    (if 0 < n / 2 then [2 * (n / 2) - 2, 2 * (n / 2) - 1] else [])

/-- The ladder of 31 layers: 62 nodes, `FanOut = 2`, the two nodes of layer 30
are the leaves. -/
def gLadder : Graph ℚ :=
  { nodes := (List.range 62).map (ladderNode 31),
    ldim := 0, dimension := 0, FanOut := 2, FanIn := 2, tdim := 0, depth := 0 }

/-- The number of links from node `v` of `gLadder` to a leaf. -/
def rankLadder (v : Nat) : Nat := 31 - v / 2

/-- The weight `mu` of every slot that receives the position of a parent of the
node is 0: the parent state has no part in the distance of any node. -/
def ParentWeightsZero {K : Type} [LinearOrderedField K] (g : Graph K) : Prop :=
  ∀ v, v < g.nodes.length →
    ∀ j, j ∈ (parentWrites g (nodeAt g.nodes v)).map Prod.fst →
      (nodeAt g.nodes v).mu.getD j 0 = 0

instance {K : Type} [LinearOrderedField K] (g : Graph K) : Decidable (ParentWeightsZero g) := by
  unfold ParentWeightsZero; infer_instance

/-- Every codebook entry, every grid coordinate of a codebook, every entry of a
node vector and every coordinate of a node is at most `B` in absolute value,
and every weight of a node lies between 0 and `M`. -/
def ModerateValues {K : Type} [LinearOrderedField K] (B M : K) (map : Map K) (g : Graph K) :
    Prop :=
  0 ≤ B ∧ 0 ≤ M ∧
  (∀ n, n < map.xdim * map.ydim →
    (∀ c, c ∈ (codeAt map n).points → |c| ≤ B) ∧
    |((codeAt map n).x : K)| ≤ B ∧ |((codeAt map n).y : K)| ≤ B) ∧
  (∀ v, v < g.nodes.length →
    (∀ c, c ∈ (nodeAt g.nodes v).points → |c| ≤ B) ∧
    (∀ m, m ∈ (nodeAt g.nodes v).mu → 0 ≤ m ∧ m ≤ M) ∧
    |((nodeAt g.nodes v).x : K)| ≤ B ∧ |((nodeAt g.nodes v).y : K)| ≤ B)

instance {K : Type} [LinearOrderedField K] (B M : K) (map : Map K) (g : Graph K) :
    Decidable (ModerateValues B M map g) := by
  unfold ModerateValues; infer_instance

/-- The chain `gCtx` with the weights of the parent slots of node 1 set to 0 and
node 1 placed at cell (1, 1). -/
def gCtxZero : Graph ℚ :=
  { nodes := [mkNode 0 [0, -1, -1, -1, -1] [1, 1, 1, 1, 1] 0 0 1 [] [some 1],
              mkNode 1 [10, -1, -1, -1, -1] [1, 1, 1, 0, 0] 1 1 0 [0] [none]],
    ldim := 1, dimension := 5, FanOut := 1, FanIn := 1, tdim := 0, depth := 1 }

/-- In the graph `g` every entry of a node vector and every coordinate of a
node is at most `B` in absolute value, and every weight lies between 0 and
`M`; a read outside the node array gives the empty node. -/
def ValuesWithin {K : Type} [LinearOrderedField K] (B M : K) (g : Graph K) : Prop :=
  ∀ v, (∀ c, c ∈ (nodeAt g.nodes v).points → |c| ≤ B) ∧
    (∀ m, m ∈ (nodeAt g.nodes v).mu → 0 ≤ m ∧ m ≤ M) ∧
    |((nodeAt g.nodes v).x : K)| ≤ B ∧ |((nodeAt g.nodes v).y : K)| ≤ B

/-! ## Basic facts about the node array -/

theorem length_setDepth {K : Type} (nodes : List (Node K)) (n d : Nat) :
    (setDepth nodes n d).length = nodes.length := by
  simp [setDepth]

theorem nodeAt_setDepth_ne {K : Type} (nodes : List (Node K)) (n d v : Nat) (h : v ≠ n) :
    nodeAt (setDepth nodes n d) v = nodeAt nodes v := by
  simp only [nodeAt, setDepth, List.getD_eq_getElem?_getD]
  rw [List.getElem?_set_ne (Ne.symm h)]

theorem nodeAt_setDepth_self {K : Type} (nodes : List (Node K)) (n d : Nat)
    (h : n < nodes.length) :
    nodeAt (setDepth nodes n d) n = { nodeAt nodes n with depth := d } := by
  simp only [nodeAt, setDepth, List.getD_eq_getElem?_getD]
  rw [List.getElem?_set_self h]
  rfl

theorem setDepth_of_length_le {K : Type} (nodes : List (Node K)) (n d : Nat)
    (h : nodes.length ≤ n) : setDepth nodes n d = nodes := by
  unfold setDepth
  exact List.set_eq_of_length_le h

theorem children_setDepth {K : Type} (nodes : List (Node K)) (n d v : Nat) :
    (nodeAt (setDepth nodes n d) v).children = (nodeAt nodes v).children := by
  by_cases hv : v = n
  · subst hv
    by_cases hn : v < nodes.length
    · rw [nodeAt_setDepth_self nodes v d hn]
    · rw [setDepth_of_length_le nodes v d (Nat.le_of_not_lt hn)]
  · rw [nodeAt_setDepth_ne nodes n d v hv]

theorem parents_setDepth {K : Type} (nodes : List (Node K)) (n d v : Nat) :
    (nodeAt (setDepth nodes n d) v).parents = (nodeAt nodes v).parents := by
  by_cases hv : v = n
  · subst hv
    by_cases hn : v < nodes.length
    · rw [nodeAt_setDepth_self nodes v d hn]
    · rw [setDepth_of_length_le nodes v d (Nat.le_of_not_lt hn)]
  · rw [nodeAt_setDepth_ne nodes n d v hv]

theorem depth_setDepth_self {K : Type} (nodes : List (Node K)) (n d : Nat)
    (h : n < nodes.length) : (nodeAt (setDepth nodes n d) n).depth = d := by
  rw [nodeAt_setDepth_self nodes n d h]

/-! ## Loops over the child slots -/

theorem foldl_childSlots {K : Type} {β : Type} (node : Node K) (f : β → Nat → β) (l : List Nat)
    (init : β) :
    l.foldl (fun acc i => match childAt node i with
      | none => acc
      | some c => f acc c) init = (l.filterMap (childAt node)).foldl f init := by
  induction l generalizing init with
  | nil => rfl
  | cons i l ih =>
    simp only [List.foldl_cons, List.filterMap_cons]
    cases hc : childAt node i with
    | none => simpa using ih init
    | some c => simpa using ih (f init c)

theorem foldl_count_childSlots {K : Type} (node : Node K) (l : List Nat) (init : Nat) :
    l.foldl (fun num i => if (childAt node i).isSome then num + 1 else num) init
      = init + (l.filterMap (childAt node)).length := by
  induction l generalizing init with
  | nil => rfl
  | cons i l ih =>
    simp only [List.foldl_cons, List.filterMap_cons]
    cases hc : childAt node i with
    | none => simpa using ih init
    | some c =>
      simp only [Option.isSome_some, if_true, List.length_cons]
      rw [ih]; omega

theorem GetNumChildren_eq {K : Type} (node : Node K) (FanOut : Nat) :
    GetNumChildren node FanOut = (liveChildren node FanOut).length := by
  unfold GetNumChildren liveChildren
  rw [foldl_count_childSlots]; simp

theorem GetNumChildren_eq_zero {K : Type} (node : Node K) (FanOut : Nat) :
    GetNumChildren node FanOut = 0 ↔ liveChildren node FanOut = [] := by
  rw [GetNumChildren_eq]; exact List.length_eq_zero

theorem liveChildren_congr {K : Type} (node node' : Node K) (FanOut : Nat)
    (h : node'.children = node.children) :
    liveChildren node' FanOut = liveChildren node FanOut := by
  unfold liveChildren
  have : childAt node' = childAt node := by
    funext i; simp [childAt, h]
  rw [this]

/-! ## Maxima over child lists -/

theorem foldl_max_ge_init (f : Nat → Nat) (cs : List Nat) (init : Nat) :
    init ≤ cs.foldl (fun m c => max m (f c)) init := by
  induction cs generalizing init with
  | nil => exact Nat.le_refl _
  | cons c cs ih =>
    simp only [List.foldl_cons]
    exact Nat.le_trans (Nat.le_max_left _ _) (ih _)

theorem foldl_max_ge_mem (f : Nat → Nat) (cs : List Nat) (init : Nat) (c : Nat) (hc : c ∈ cs) :
    f c ≤ cs.foldl (fun m c => max m (f c)) init := by
  induction cs generalizing init with
  | nil => cases hc
  | cons a cs ih =>
    simp only [List.foldl_cons]
    rcases List.mem_cons.1 hc with h | h
    · subst h
      exact Nat.le_trans (Nat.le_max_right _ _) (foldl_max_ge_init f cs _)
    · exact ih _ h

theorem foldl_max_attained (f : Nat → Nat) (cs : List Nat) (init : Nat) :
    cs.foldl (fun m c => max m (f c)) init = init ∨
      ∃ c, c ∈ cs ∧ cs.foldl (fun m c => max m (f c)) init = f c := by
  induction cs generalizing init with
  | nil => exact Or.inl rfl
  | cons a cs ih =>
    simp only [List.foldl_cons]
    rcases ih (max init (f a)) with h | ⟨c, hc, h⟩
    · rcases Nat.le_total init (f a) with hle | hle
      · right
        exact ⟨a, List.mem_cons_self _ _, by rw [h, Nat.max_eq_right hle]⟩
      · left
        rw [h, Nat.max_eq_left hle]
    · right
      exact ⟨c, List.mem_cons_of_mem _ hc, h⟩

theorem foldl_max_congr (f f' : Nat → Nat) (cs : List Nat) (init : Nat)
    (h : ∀ c, c ∈ cs → f c = f' c) :
    cs.foldl (fun m c => max m (f c)) init = cs.foldl (fun m c => max m (f' c)) init := by
  induction cs generalizing init with
  | nil => rfl
  | cons a cs ih =>
    simp only [List.foldl_cons]
    rw [h a (List.mem_cons_self _ _)]
    exact ih _ (fun c hc => h c (List.mem_cons_of_mem _ hc))

theorem foldl_max_succ (f : Nat → Nat) (cs : List Nat) (init : Nat) :
    cs.foldl (fun m c => max m (f c + 1)) (init + 1)
      = cs.foldl (fun m c => max m (f c)) init + 1 := by
  induction cs generalizing init with
  | nil => rfl
  | cons a cs ih =>
    simp only [List.foldl_cons]
    rw [← ih]
    congr 1
    omega

theorem heightStep_nil (d : Nat → Nat) : heightStep d [] = 0 := rfl

theorem heightStep_eq (d : Nat → Nat) (cs : List Nat) :
    heightStep d cs = if cs = [] then 0 else 1 + maxOver d cs := by
  cases cs with
  | nil => rfl
  | cons a cs =>
    simp only [heightStep, maxOver, List.foldl_cons, if_neg (List.cons_ne_nil a cs)]
    have h1 : max 0 (d a + 1) = d a + 1 := by omega
    have h2 : max 0 (d a) = d a := by omega
    rw [h1, h2, foldl_max_succ]; omega

theorem heightStep_ge (d : Nat → Nat) (cs : List Nat) (c : Nat) (hc : c ∈ cs) :
    d c + 1 ≤ heightStep d cs :=
  foldl_max_ge_mem (fun c => d c + 1) cs 0 c hc

theorem heightStep_attained (d : Nat → Nat) (cs : List Nat) :
    heightStep d cs = 0 ∨ ∃ c, c ∈ cs ∧ heightStep d cs = d c + 1 :=
  foldl_max_attained (fun c => d c + 1) cs 0

theorem heightStep_congr (d d' : Nat → Nat) (cs : List Nat) (h : ∀ c, c ∈ cs → d c = d' c) :
    heightStep d cs = heightStep d' cs :=
  foldl_max_congr (fun c => d c + 1) (fun c => d' c + 1) cs 0
    (fun c hc => congrArg (fun t => t + 1) (h c hc))

theorem maxOver_congr (d d' : Nat → Nat) (cs : List Nat) (h : ∀ c, c ∈ cs → d c = d' c) :
    maxOver d cs = maxOver d' cs :=
  foldl_max_congr d d' cs 0 h

/-! ## Heights of acyclic graphs -/

theorem heightF_succ {K : Type} (g : Graph K) (fuel v : Nat) :
    heightF g (fuel + 1) v
      = heightStep (heightF g fuel) (liveChildren (nodeAt g.nodes v) g.FanOut) := rfl

theorem stable_uniform (F : Nat → Nat → Nat) (cs : List Nat)
    (h : ∀ c, c ∈ cs → ∃ k, ∀ f, k ≤ f → F f c = F k c) :
    ∃ k, ∀ c, c ∈ cs → ∀ f, k ≤ f → F f c = F k c := by
  induction cs with
  | nil => exact ⟨0, fun c hc => by cases hc⟩
  | cons a cs ih =>
    obtain ⟨k1, h1⟩ := h a (List.mem_cons_self _ _)
    obtain ⟨k2, h2⟩ := ih (fun c hc => h c (List.mem_cons_of_mem _ hc))
    refine ⟨max k1 k2, fun c hc f hf => ?_⟩
    rcases List.mem_cons.1 hc with hca | hcs
    · subst hca
      rw [h1 f (by omega), h1 (max k1 k2) (by omega)]
    · rw [h2 c hcs f (by omega), h2 c hcs (max k1 k2) (by omega)]

theorem wellFounded_child {K : Type} (g : Graph K) (hac : Acyclic g) :
    WellFounded (fun c v : Fin g.nodes.length => IsChild g c.1 v.1) := by
  have irr : ∀ a : Fin g.nodes.length,
      ¬ Relation.TransGen (fun c v : Fin g.nodes.length => IsChild g c.1 v.1) a a := by
    intro a h
    exact hac a.1 (Relation.TransGen.lift Fin.val (fun _ _ hab => hab) h)
  haveI : IsIrrefl (Fin g.nodes.length)
      (Relation.TransGen (fun c v : Fin g.nodes.length => IsChild g c.1 v.1)) := ⟨irr⟩
  have wf := Finite.wellFounded_of_trans_of_irrefl
    (Relation.TransGen (fun c v : Fin g.nodes.length => IsChild g c.1 v.1))
  exact Subrelation.wf
    (r := Relation.TransGen (fun c v : Fin g.nodes.length => IsChild g c.1 v.1))
    (fun hab => Relation.TransGen.single hab) wf

theorem heightF_stable_node {K : Type} (g : Graph K) (hac : Acyclic g) (hwl : WellLinked g)
    (v : Nat) (hv : v < g.nodes.length) :
    ∃ k, ∀ f, k ≤ f → heightF g f v = heightF g k v := by
  have key : ∀ w : Fin g.nodes.length, ∃ k, ∀ f, k ≤ f → heightF g f w.1 = heightF g k w.1 := by
    intro w
    induction w using (wellFounded_child g hac).induction with
    | _ w ih =>
      have hch : ∀ c, c ∈ liveChildren (nodeAt g.nodes w.1) g.FanOut →
          ∃ k, ∀ f, k ≤ f → heightF g f c = heightF g k c := by
        intro c hc
        have hcw : IsChild g c w.1 := ⟨w.2, hc⟩
        exact ih ⟨c, hwl c w.1 hcw⟩ hcw
      obtain ⟨k, hk⟩ := stable_uniform (heightF g) _ hch
      refine ⟨k + 1, fun f hf => ?_⟩
      obtain ⟨f', rfl⟩ : ∃ f', f = f' + 1 := ⟨f - 1, by omega⟩
      rw [heightF_succ, heightF_succ]
      exact heightStep_congr _ _ _ (fun c hc => hk c hc f' (by omega))
  exact key ⟨v, hv⟩

/-- On an acyclic graph the relaxation `heightF` reaches a fixed point: a
function that is 0 on leaves and 1 plus the largest child value elsewhere. -/
theorem exists_height_fix {K : Type} (g : Graph K) (hac : Acyclic g) (hwl : WellLinked g) :
    ∃ H : Nat → Nat, ∀ v, v < g.nodes.length →
      H v = heightStep H (liveChildren (nodeAt g.nodes v) g.FanOut) := by
  obtain ⟨k, hk⟩ := stable_uniform (heightF g) (List.range g.nodes.length)
    (fun c hc => heightF_stable_node g hac hwl c (List.mem_range.1 hc))
  refine ⟨heightF g k, fun v hv => ?_⟩
  rw [← hk v (List.mem_range.2 hv) (k + 1) (by omega), heightF_succ]

theorem height_values_below {K : Type} (g : Graph K) (hwl : WellLinked g) (H : Nat → Nat)
    (hH : ∀ v, v < g.nodes.length →
      H v = heightStep H (liveChildren (nodeAt g.nodes v) g.FanOut)) :
    ∀ m v, v < g.nodes.length → H v = m → ∀ j, j ≤ m → ∃ u, u < g.nodes.length ∧ H u = j := by
  intro m
  induction m with
  | zero =>
    intro v hv hm j hj
    exact ⟨v, hv, by omega⟩
  | succ m ih =>
    intro v hv hm j hj
    rcases Nat.eq_or_lt_of_le hj with hj1 | hj1
    · exact ⟨v, hv, by omega⟩
    · rcases heightStep_attained H (liveChildren (nodeAt g.nodes v) g.FanOut) with h0 | ⟨c, hc, h1⟩
      · rw [← hH v hv] at h0; omega
      · rw [← hH v hv] at h1
        exact ih c (hwl c v ⟨hv, hc⟩) (by omega) j (by omega)

theorem height_lt_numnodes {K : Type} (g : Graph K) (hwl : WellLinked g) (H : Nat → Nat)
    (hH : ∀ v, v < g.nodes.length →
      H v = heightStep H (liveChildren (nodeAt g.nodes v) g.FanOut))
    (v : Nat) (hv : v < g.nodes.length) : H v < g.nodes.length := by
  have hsub : Finset.range (H v + 1) ⊆ (Finset.range g.nodes.length).image H := by
    intro j hj
    obtain ⟨u, hu, huj⟩ := height_values_below g hwl H hH (H v) v hv rfl j
      (by have := Finset.mem_range.1 hj; omega)
    exact Finset.mem_image.2 ⟨u, Finset.mem_range.2 hu, huj⟩
  have h1 := Finset.card_le_card hsub
  have h2 := Finset.card_image_le (s := Finset.range g.nodes.length) (f := H)
  simp only [Finset.card_range] at h1 h2
  omega

theorem height_child_lt {K : Type} (g : Graph K) (H : Nat → Nat)
    (hH : ∀ v, v < g.nodes.length →
      H v = heightStep H (liveChildren (nodeAt g.nodes v) g.FanOut))
    (c v : Nat) (hcv : IsChild g c v) : H c < H v := by
  have := heightStep_ge H _ c hcv.2
  rw [← hH v hcv.1] at this
  omega

/-! ## `GetMaxPathLength` and `SetNodeDepthRecursively` -/

theorem foldl_pathLen (r : Nat → Nat × Bool) (H : Nat → Nat) (cs : List Nat) (a : Nat)
    (hr : ∀ c, c ∈ cs → r c = (H c, false)) :
    cs.foldl (fun acc c =>
        ((if (r c).1 + 1 > acc.1 then (r c).1 + 1 else acc.1), (acc.2 || (r c).2))) (a, false)
      = (cs.foldl (fun m c => max m (H c + 1)) a, false) := by
  induction cs generalizing a with
  | nil => rfl
  | cons c cs ih =>
    simp only [List.foldl_cons]
    rw [hr c (List.mem_cons_self _ _)]
    have hmax : (if H c + 1 > a then H c + 1 else a) = max a (H c + 1) := by
      split <;> omega
    simp only [Bool.or_false, hmax]
    exact ih _ (fun c hc => hr c (List.mem_cons_of_mem _ hc))

theorem GetMaxPathLengthT_unfold {K : Type} (nodes : List (Node K)) (FanOut maxiter node : Nat) :
    GetMaxPathLengthT nodes FanOut (maxiter + 1) node =
      if (nodeAt nodes node).depth ≠ 0 ∨ GetNumChildren (nodeAt nodes node) FanOut = 0 then
        ((nodeAt nodes node).depth, false)
      else if maxiter = 0 then (0, true)
      else
        (liveChildren (nodeAt nodes node) FanOut).foldl
          (fun acc c =>
            ((if (GetMaxPathLengthT nodes FanOut maxiter c).1 + 1 > acc.1
                then (GetMaxPathLengthT nodes FanOut maxiter c).1 + 1 else acc.1),
              (acc.2 || (GetMaxPathLengthT nodes FanOut maxiter c).2)))
          (0, false) := by
  rw [GetMaxPathLengthT]
  unfold liveChildren
  rw [← foldl_childSlots]

theorem GetMaxPathLengthT_eq_height {K : Type} (nodes : List (Node K)) (FanOut N : Nat)
    (H : Nat → Nat)
    (hH : ∀ v, v < N → H v = heightStep H (liveChildren (nodeAt nodes v) FanOut))
    (hwl : ∀ v, v < N → ∀ c, c ∈ liveChildren (nodeAt nodes v) FanOut → c < N)
    (hd : ∀ v, v < N → (nodeAt nodes v).depth = 0 ∨ (nodeAt nodes v).depth = H v) :
    ∀ fuel v, v < N → H v < fuel → GetMaxPathLengthT nodes FanOut fuel v = (H v, false) := by
  intro fuel
  induction fuel with
  | zero => intro v _ h; omega
  | succ fuel ih =>
    intro v hv hfuel
    rw [GetMaxPathLengthT_unfold]
    by_cases hearly : (nodeAt nodes v).depth ≠ 0 ∨ GetNumChildren (nodeAt nodes v) FanOut = 0
    · rw [if_pos hearly]
      rcases hearly with hne | hleaf
      · rcases hd v hv with h0 | h1
        · exact absurd h0 hne
        · rw [h1]
      · have hnil := (GetNumChildren_eq_zero _ _).1 hleaf
        have hHv : H v = 0 := by rw [hH v hv, hnil]; rfl
        rcases hd v hv with h0 | h1
        · rw [h0, hHv]
        · rw [h1]
    · rw [if_neg hearly]
      have hne : liveChildren (nodeAt nodes v) FanOut ≠ [] := fun h =>
        hearly (Or.inr ((GetNumChildren_eq_zero _ _).2 h))
      obtain ⟨c0, hc0⟩ := List.exists_mem_of_ne_nil _ hne
      have hpos : 1 ≤ H v := by
        have := heightStep_ge H _ c0 hc0
        rw [← hH v hv] at this; omega
      have hf0 : ¬ fuel = 0 := by omega
      rw [if_neg hf0]
      have hrec : ∀ c, c ∈ liveChildren (nodeAt nodes v) FanOut →
          GetMaxPathLengthT nodes FanOut fuel c = (H c, false) := by
        intro c hc
        have := heightStep_ge H _ c hc
        rw [← hH v hv] at this
        exact ih c (hwl v hv c hc) (by omega)
      rw [foldl_pathLen (fun c => GetMaxPathLengthT nodes FanOut fuel c) H _ 0 hrec]
      rw [hH v hv]
      rfl

/-- State reached by the node loop of `SetNodeDepthRecursively` after `k` turns. -/
theorem recLoop_invariant {K : Type} (g : Graph K) (H : Nat → Nat)
    (hH : ∀ v, v < g.nodes.length →
      H v = heightStep H (liveChildren (nodeAt g.nodes v) g.FanOut))
    (hwl : WellLinked g) (h0 : DepthsZero g) (k : Nat) (hk : k ≤ g.nodes.length) :
    let st := (List.range k).foldl (recStep g.FanOut g.nodes.length) (g.nodes, 0, false)
    st.1.length = g.nodes.length ∧
    (∀ v, (nodeAt st.1 v).children = (nodeAt g.nodes v).children ∧
          (nodeAt st.1 v).parents = (nodeAt g.nodes v).parents) ∧
    (∀ v, v < k → (nodeAt st.1 v).depth = H v) ∧
    (∀ v, k ≤ v → v < g.nodes.length → (nodeAt st.1 v).depth = 0) ∧
    st.2.2 = false ∧
    (∀ v, v < k → H v ≤ st.2.1) ∧
    (st.2.1 = 0 ∨ ∃ v, v < k ∧ st.2.1 = H v) := by
  induction k with
  | zero =>
    refine ⟨rfl, fun v => ⟨rfl, rfl⟩, fun v hv => by omega, fun v _ hv => h0 v hv, rfl,
      fun v hv => by omega, Or.inl rfl⟩
  | succ k ih =>
    obtain ⟨hlen, hlinks, hdone, htodo, hflag, hmaxge, hmaxat⟩ := ih (by omega)
    have hkN : k < g.nodes.length := by omega
    simp only [List.range_succ, List.foldl_append, List.foldl_cons, List.foldl_nil]
    generalize (List.range k).foldl (recStep g.FanOut g.nodes.length) (g.nodes, 0, false) = st
      at hlen hlinks hdone htodo hflag hmaxge hmaxat
    have hlive : ∀ v, liveChildren (nodeAt st.1 v) g.FanOut
        = liveChildren (nodeAt g.nodes v) g.FanOut :=
      fun v => liveChildren_congr _ _ _ (hlinks v).1
    have hcall : GetMaxPathLengthT st.1 g.FanOut g.nodes.length k = (H k, false) := by
      apply GetMaxPathLengthT_eq_height st.1 g.FanOut g.nodes.length H
      · intro v hv; rw [hlive v]; exact hH v hv
      · intro v hv c hc; rw [hlive v] at hc; exact hwl c v ⟨hv, hc⟩
      · intro v hv
        rcases Nat.lt_or_ge v k with h | h
        · exact Or.inr (hdone v h)
        · exact Or.inl (htodo v h hv)
      · exact hkN
      · exact height_lt_numnodes g hwl H hH k hkN
    simp only [recStep, hcall]
    refine ⟨?_, ?_, ?_, ?_, ?_, ?_, ?_⟩
    · rw [length_setDepth]; exact hlen
    · intro v
      rw [children_setDepth, parents_setDepth]; exact hlinks v
    · intro v hv
      rcases Nat.eq_or_lt_of_le (Nat.le_of_lt_succ hv) with h | h
      · subst h
        exact depth_setDepth_self _ _ _ (by rw [hlen]; exact hkN)
      · rw [nodeAt_setDepth_ne _ _ _ _ (by omega)]; exact hdone v h
    · intro v hkv hv
      rw [nodeAt_setDepth_ne _ _ _ _ (by omega)]; exact htodo v (by omega) hv
    · simp [hflag]
    · intro v hv
      rcases Nat.eq_or_lt_of_le (Nat.le_of_lt_succ hv) with h | h
      · subst h; split <;> omega
      · have := hmaxge v h
        split <;> omega
    · right
      by_cases hlt : st.2.1 < H k
      · exact ⟨k, by omega, by rw [if_pos hlt]⟩
      · rw [if_neg hlt]
        rcases hmaxat with h | ⟨v, hv, h⟩
        · exact ⟨k, by omega, by omega⟩
        · exact ⟨v, by omega, h⟩

/-! ## Checking the hypotheses on a concrete graph -/

theorem acyclic_of_rank {K : Type} (g : Graph K) (r : Nat → Nat)
    (h : ∀ c v, IsChild g c v → r c < r v) : Acyclic g := by
  have key : ∀ a b, Relation.TransGen (IsChild g) a b → r a < r b := by
    intro a b hab
    induction hab with
    | single h1 => exact h _ _ h1
    | tail _ h2 ih => exact Nat.lt_trans ih (h _ _ h2)
  intro v hv
  exact Nat.lt_irrefl _ (key v v hv)

theorem acyclic_of_rankCheck {K : Type} (g : Graph K) (r : Nat → Nat) (h : rankCheck g r) :
    Acyclic g :=
  acyclic_of_rank g r (fun c v hcv => (h v (List.mem_range.2 hcv.1) c hcv.2).1)

theorem wellLinked_of_rankCheck {K : Type} (g : Graph K) (r : Nat → Nat) (h : rankCheck g r) :
    WellLinked g :=
  fun c v hcv => (h v (List.mem_range.2 hcv.1) c hcv.2).2

theorem parentsConsistent_of_check {K : Type} (g : Graph K) (h : parentsCheck g) :
    ParentsConsistent g := by
  intro c p hc
  obtain ⟨h1, h2⟩ := h c (List.mem_range.2 hc)
  constructor
  · intro hp
    exact ⟨(h1 p hp).1, (h1 p hp).2⟩
  · intro hcp
    exact h2 p (List.mem_range.2 hcp.1) hcp.2

theorem depthsZero_of_check {K : Type} (g : Graph K) (h : depthsZeroCheck g) : DepthsZero g :=
  fun v hv => h v (List.mem_range.2 hv)

theorem gIter_acyclic : Acyclic gIter := acyclic_of_rankCheck gIter rankIter (by decide)

theorem gIter_wellLinked : WellLinked gIter := wellLinked_of_rankCheck gIter rankIter (by decide)

theorem gIter_parentsConsistent : ParentsConsistent gIter :=
  parentsConsistent_of_check gIter (by decide)

theorem gIter_depthsZero : DepthsZero gIter := depthsZero_of_check gIter (by decide)

/-! ## C2: the recursive routine -/

theorem isLongestPathDepth_of_height {K : Type} (g : Graph K) (hwl : WellLinked g)
    (H d : Nat → Nat)
    (hH : ∀ v, v < g.nodes.length →
      H v = heightStep H (liveChildren (nodeAt g.nodes v) g.FanOut))
    (hd : ∀ v, v < g.nodes.length → d v = H v) : IsLongestPathDepth g d := by
  intro v hv
  rw [hd v hv, hH v hv, heightStep_eq]
  by_cases hnil : liveChildren (nodeAt g.nodes v) g.FanOut = []
  · rw [if_pos hnil, if_pos hnil]
  · rw [if_neg hnil, if_neg hnil]
    congr 1
    exact maxOver_congr _ _ _ (fun c hc => (hd c (hwl c v ⟨hv, hc⟩)).symm)

/-- C2. On an acyclic graph with more than one node whose node depths are all 0,
`SetNodeDepthRecursively` keeps the links, leaves every node with depth 0 when
it has no non-null child and with 1 plus the largest depth of its non-null
children otherwise, and the branch `--maxiter <= 0` of `GetMaxPathLength` is
never taken. -/
theorem SetNodeDepthRecursively_longest_path {K : Type} (g : Graph K)
    (hn : 1 < g.nodes.length) (hac : Acyclic g) (hwl : WellLinked g) (h0 : DepthsZero g) :
    SameLinks g (SetNodeDepthRecursively g) ∧
    IsLongestPathDepth g (depthOf (SetNodeDepthRecursively g)) ∧
    (SetNodeDepthRecursivelyT g).2 = false := by
  obtain ⟨H, hH⟩ := exists_height_fix g hac hwl
  obtain ⟨hlen, hlinks, hdone, _, hflag, _, _⟩ :=
    recLoop_invariant g H hH hwl h0 g.nodes.length (Nat.le_refl _)
  have hgt : ¬ g.nodes.length ≤ 1 := by omega
  refine ⟨⟨?_, ?_, ?_⟩, ?_, ?_⟩
  · simp only [SetNodeDepthRecursively, SetNodeDepthRecursivelyT, if_neg hgt]
    exact hlen
  · simp only [SetNodeDepthRecursively, SetNodeDepthRecursivelyT, if_neg hgt]
  · intro v
    simp only [SetNodeDepthRecursively, SetNodeDepthRecursivelyT, if_neg hgt]
    exact hlinks v
  · apply isLongestPathDepth_of_height g hwl H _ hH
    intro v hv
    simp only [depthOf, SetNodeDepthRecursively, SetNodeDepthRecursivelyT, if_neg hgt]
    exact hdone v hv
  · simp only [SetNodeDepthRecursivelyT, if_neg hgt]
    exact hflag

theorem SetNodeDepthRecursively_longest_path_witness :
    SameLinks gIter (SetNodeDepthRecursively gIter) ∧
    IsLongestPathDepth gIter (depthOf (SetNodeDepthRecursively gIter)) ∧
    (SetNodeDepthRecursivelyT gIter).2 = false :=
  SetNodeDepthRecursively_longest_path gIter (by decide) gIter_acyclic gIter_wellLinked
    gIter_depthsZero

/-! ## C3: the reverse trace -/

theorem length_setDepths {K : Type} (nodes : List (Node K)) (ps : List Nat) (d : Nat) :
    (setDepths nodes ps d).length = nodes.length := by
  induction ps generalizing nodes with
  | nil => rfl
  | cons p ps ih =>
    simp only [setDepths, List.foldl_cons] at ih ⊢
    rw [ih, length_setDepth]

theorem links_setDepths {K : Type} (nodes : List (Node K)) (ps : List Nat) (d v : Nat) :
    (nodeAt (setDepths nodes ps d) v).children = (nodeAt nodes v).children ∧
    (nodeAt (setDepths nodes ps d) v).parents = (nodeAt nodes v).parents := by
  induction ps generalizing nodes with
  | nil => exact ⟨rfl, rfl⟩
  | cons p ps ih =>
    simp only [setDepths, List.foldl_cons] at ih ⊢
    rw [(ih _).1, (ih _).2, children_setDepth, parents_setDepth]
    exact ⟨rfl, rfl⟩

theorem depth_setDepths_not_mem {K : Type} (nodes : List (Node K)) (ps : List Nat) (d v : Nat)
    (hv : v ∉ ps) : (nodeAt (setDepths nodes ps d) v).depth = (nodeAt nodes v).depth := by
  induction ps generalizing nodes with
  | nil => rfl
  | cons p ps ih =>
    simp only [setDepths, List.foldl_cons] at ih ⊢
    rw [ih _ (fun h => hv (List.mem_cons_of_mem _ h)),
      nodeAt_setDepth_ne _ _ _ _ (fun h => hv (by rw [h]; exact List.mem_cons_self _ _))]

theorem depth_setDepths_mem {K : Type} (nodes : List (Node K)) (ps : List Nat) (d v : Nat)
    (hv : v ∈ ps) (hlen : v < nodes.length) : (nodeAt (setDepths nodes ps d) v).depth = d := by
  induction ps generalizing nodes with
  | nil => cases hv
  | cons p ps ih =>
    simp only [setDepths, List.foldl_cons] at ih ⊢
    by_cases hps : v ∈ ps
    · exact ih _ hps (by rw [length_setDepth]; exact hlen)
    · have hvp : v = p := by
        rcases List.mem_cons.1 hv with h | h
        · exact h
        · exact absurd h hps
      subst hvp
      have := depth_setDepths_not_mem (setDepth nodes v d) ps d v hps
      simp only [setDepths] at this
      rw [this, depth_setDepth_self _ _ _ hlen]

theorem traceInner_eq {K : Type} (ps : List Nat) (d : Nat) (nodes : List (Node K))
    (lvl : List Nat) :
    ps.foldl (fun st p => (setDepth st.1 p d, st.2 ++ [p])) (nodes, lvl)
      = (setDepths nodes ps d, lvl ++ ps) := by
  induction ps generalizing nodes lvl with
  | nil => simp [setDepths]
  | cons p ps ih =>
    simp only [List.foldl_cons]
    rw [ih]
    simp [setDepths]

theorem traceOuter_eq {K : Type} (g : Graph K) (onlevel : List Nat) (d : Nat)
    (nodes : List (Node K)) (lvl : List Nat)
    (hpar : ∀ v, (nodeAt nodes v).parents = (nodeAt g.nodes v).parents) :
    onlevel.foldl
      (fun st n =>
        (nodeAt st.1 n).parents.foldl (fun st p => (setDepth st.1 p d, st.2 ++ [p])) st)
      (nodes, lvl)
      = (setDepths nodes (onlevel.flatMap (fun n => (nodeAt g.nodes n).parents)) d,
         lvl ++ onlevel.flatMap (fun n => (nodeAt g.nodes n).parents)) := by
  induction onlevel generalizing nodes lvl with
  | nil => simp [setDepths]
  | cons n ns ih =>
    simp only [List.foldl_cons, List.flatMap_cons]
    rw [traceInner_eq, hpar n]
    rw [ih _ _ (fun v => by rw [(links_setDepths _ _ _ v).2]; exact hpar v)]
    simp [setDepths, List.foldl_append]

theorem traceLevel_eq {K : Type} (g : Graph K) (onlevel : List Nat) (d : Nat)
    (nodes : List (Node K))
    (hpar : ∀ v, (nodeAt nodes v).parents = (nodeAt g.nodes v).parents) :
    traceLevel nodes onlevel d
      = (setDepths nodes (onlevel.flatMap (fun n => (nodeAt g.nodes n).parents)) d,
         onlevel.flatMap (fun n => (nodeAt g.nodes n).parents)) := by
  unfold traceLevel
  rw [traceOuter_eq g onlevel d nodes [] hpar]
  simp

theorem mem_levelOf {K : Type} (g : Graph K) (hpc : ParentsConsistent g) (H : Nat → Nat)
    (hH : ∀ v, v < g.nodes.length →
      H v = heightStep H (liveChildren (nodeAt g.nodes v) g.FanOut)) :
    ∀ j v, v ∈ levelOf g j → v < g.nodes.length ∧ j ≤ H v := by
  intro j
  induction j with
  | zero =>
    intro v hv
    simp only [levelOf, leafLevel, List.mem_filter, List.mem_range] at hv
    exact ⟨hv.1, Nat.zero_le _⟩
  | succ j ih =>
    intro v hv
    simp only [levelOf, List.mem_flatMap] at hv
    obtain ⟨c, hc, hvc⟩ := hv
    obtain ⟨hcN, hjc⟩ := ih c hc
    have hchild : IsChild g c v := (hpc c v hcN).1 hvc
    have := height_child_lt g H hH c v hchild
    exact ⟨hchild.1, by omega⟩

theorem levelOf_height {K : Type} (g : Graph K) (hwl : WellLinked g)
    (hpc : ParentsConsistent g) (H : Nat → Nat)
    (hH : ∀ v, v < g.nodes.length →
      H v = heightStep H (liveChildren (nodeAt g.nodes v) g.FanOut)) :
    ∀ m v, v < g.nodes.length → H v = m → v ∈ levelOf g m := by
  intro m
  induction m with
  | zero =>
    intro v hv hm
    simp only [levelOf, leafLevel, List.mem_filter, List.mem_range]
    refine ⟨hv, ?_⟩
    rcases List.eq_nil_or_concat (liveChildren (nodeAt g.nodes v) g.FanOut) with hnil | ⟨l, c, hl⟩
    · simpa using (GetNumChildren_eq_zero _ _).2 hnil
    · have hc : c ∈ liveChildren (nodeAt g.nodes v) g.FanOut := by rw [hl]; simp
      have := height_child_lt g H hH c v ⟨hv, hc⟩
      omega
  | succ m ih =>
    intro v hv hm
    rcases heightStep_attained H (liveChildren (nodeAt g.nodes v) g.FanOut) with h0 | ⟨c, hc, h1⟩
    · rw [← hH v hv] at h0; omega
    · rw [← hH v hv] at h1
      have hcN := hwl c v ⟨hv, hc⟩
      have hcm := ih c hcN (by omega)
      simp only [levelOf, List.mem_flatMap]
      exact ⟨c, hcm, (hpc c v hcN).2 ⟨hv, hc⟩⟩

theorem levelOf_nil_of_le {K : Type} (g : Graph K) (k : Nat) (hk : levelOf g k = []) :
    ∀ j, k ≤ j → levelOf g j = [] := by
  intro j hj
  induction j with
  | zero =>
    have : k = 0 := by omega
    subst this; exact hk
  | succ j ih =>
    rcases Nat.eq_or_lt_of_le hj with h | h
    · subst h; exact hk
    · simp [levelOf, ih (by omega)]

theorem traceLoop_spec {K : Type} (g : Graph K) (hwl : WellLinked g)
    (hpc : ParentsConsistent g) (H : Nat → Nat)
    (hH : ∀ v, v < g.nodes.length →
      H v = heightStep H (liveChildren (nodeAt g.nodes v) g.FanOut)) :
    ∀ fuel k (nodes : List (Node K)),
      g.nodes.length < k + fuel → 0 < fuel →
      nodes.length = g.nodes.length →
      (∀ v, (nodeAt nodes v).children = (nodeAt g.nodes v).children ∧
            (nodeAt nodes v).parents = (nodeAt g.nodes v).parents) →
      (∀ v, v < g.nodes.length → H v ≤ k → (nodeAt nodes v).depth = H v) →
      (∀ j, j < k → levelOf g j ≠ []) →
      ∃ r, traceLoop fuel nodes (levelOf g k) (k + 1) = some r ∧
        r.1.length = g.nodes.length ∧
        (∀ v, (nodeAt r.1 v).children = (nodeAt g.nodes v).children ∧
              (nodeAt r.1 v).parents = (nodeAt g.nodes v).parents) ∧
        (∀ v, v < g.nodes.length → (nodeAt r.1 v).depth = H v) ∧
        levelOf g (r.2 - 1) = [] ∧ (∀ j, j + 1 < r.2 → levelOf g j ≠ []) := by
  intro fuel
  induction fuel with
  | zero => intro k nodes _ hpos; omega
  | succ fuel ih =>
    intro k nodes hfuel _ hlen hlinks hdep hne
    by_cases hlev : levelOf g k = []
    · refine ⟨(nodes, k + 1), ?_, hlen, hlinks, ?_, ?_, ?_⟩
      · simp [traceLoop, hlev]
      · intro v hv
        apply hdep v hv
        by_contra hgt
        have hmem := levelOf_height g hwl hpc H hH (H v) v hv rfl
        rw [levelOf_nil_of_le g k hlev (H v) (by omega)] at hmem
        cases hmem
      · simpa using hlev
      · intro j hj
        exact hne j (by simpa using hj)
    · obtain ⟨u, hu⟩ := List.exists_mem_of_ne_nil _ hlev
      obtain ⟨huN, hku⟩ := mem_levelOf g hpc H hH k u hu
      have huH := height_lt_numnodes g hwl H hH u huN
      have hposlen : (levelOf g k).length > 0 := List.length_pos.2 hlev
      have hstep : traceLoop (fuel + 1) nodes (levelOf g k) (k + 1)
          = traceLoop fuel (setDepths nodes (levelOf g (k + 1)) (k + 1)) (levelOf g (k + 1))
              (k + 1 + 1) := by
        rw [traceLoop, if_pos hposlen, traceLevel_eq g _ _ _ (fun v => (hlinks v).2)]
        rfl
      rw [hstep]
      apply ih (k + 1) _ (by omega) (by omega)
      · rw [length_setDepths]; exact hlen
      · intro v
        rw [(links_setDepths _ _ _ v).1, (links_setDepths _ _ _ v).2]
        exact hlinks v
      · intro v hv hHv
        by_cases hmem : v ∈ levelOf g (k + 1)
        · have := (mem_levelOf g hpc H hH (k + 1) v hmem).2
          rw [depth_setDepths_mem _ _ _ _ hmem (by rw [hlen]; exact hv)]
          omega
        · rw [depth_setDepths_not_mem _ _ _ _ hmem]
          apply hdep v hv
          by_contra hgt
          exact hmem (levelOf_height g hwl hpc H hH (k + 1) v hv (by omega))
      · intro j hj
        rcases Nat.eq_or_lt_of_le (Nat.le_of_lt_succ hj) with h | h
        · subst h; exact hlev
        · exact hne j h

/-! ## C1 and C4: the three routines on concrete graphs -/

/-- C1 (failing input). The five-node graph `gIter` is acyclic, its depths are
all 0 and its parent lists are the inverse of its child links.  The recursive
routine and the reverse trace give node 2 its longest-path depth 3, whereas
`SetNodeDepthIteratively` stops with depth 2 for node 2: its flag was cleared
in the second pass, before its child 3 was raised from 1 to 2. -/
theorem depth_routines_disagree :
    1 < gIter.nodes.length ∧ rankCheck gIter rankIter ∧ parentsCheck gIter ∧
    depthsZeroCheck gIter ∧
    nodeDepths (SetNodeDepthRecursively gIter) = [0, 1, 3, 2, 1] ∧
    (SetNodeDepth_UsingReverseTrace 6 gIter).map nodeDepths = some [0, 1, 3, 2, 1] ∧
    (SetNodeDepthIteratively 6 gIter).map nodeDepths = some [0, 1, 2, 2, 1] := by
  decide

/-- C4 (failing input). On the acyclic four-node graph `gFork` all three
routines give the node depths 0, 1, 2, 1, whose maximum is 2.  The recursive
routine stores 2 in the depth field of the graph, `SetNodeDepthIteratively`
stores 1 (the depth of the node changed last) and
`SetNodeDepth_UsingReverseTrace` stores 3 (one more than the maximum). -/
theorem graph_depth_field_differs :
    rankCheck gFork rankFork ∧ parentsCheck gFork ∧ depthsZeroCheck gFork ∧
    nodeDepths (SetNodeDepthRecursively gFork) = [0, 1, 2, 1] ∧
    (SetNodeDepthRecursively gFork).depth = 2 ∧
    (SetNodeDepthIteratively 6 gFork).map (fun g => (nodeDepths g, g.depth))
      = some ([0, 1, 2, 1], 1) ∧
    (SetNodeDepth_UsingReverseTrace 6 gFork).map (fun g => (nodeDepths g, g.depth))
      = some ([0, 1, 2, 1], 3) := by
  decide

/-! ## C5: winner search with pruning -/

theorem diffLoop_spec {K : Type} [LinearOrderedField K] (codebook sample mu : List K)
    (diffsf : K) :
    ∀ k i (a : K), (∀ j, i ≤ j → j < i + k → 0 ≤ mu.getD j 0) →
      diffLoop codebook sample mu diffsf k i a
          = a + ((List.range' i k).map (fun j =>
              (codebook.getD j 0 - sample.getD j 0) * (codebook.getD j 0 - sample.getD j 0)
                * mu.getD j 0)).sum ∨
        (diffsf < diffLoop codebook sample mu diffsf k i a ∧
          diffLoop codebook sample mu diffsf k i a
            ≤ a + ((List.range' i k).map (fun j =>
              (codebook.getD j 0 - sample.getD j 0) * (codebook.getD j 0 - sample.getD j 0)
                * mu.getD j 0)).sum) := by
  intro k
  induction k with
  | zero => intro i a _; left; simp [diffLoop]
  | succ k ih =>
    intro i a hmu
    have hrest : 0 ≤ ((List.range' (i + 1) k).map (fun j =>
        (codebook.getD j 0 - sample.getD j 0) * (codebook.getD j 0 - sample.getD j 0)
          * mu.getD j 0)).sum := by
      apply List.sum_nonneg
      intro x hx
      obtain ⟨j, hj, rfl⟩ := List.mem_map.1 hx
      have hj2 := List.mem_range'_1.1 hj
      exact mul_nonneg (mul_self_nonneg _) (hmu j (by omega) (by omega))
    simp only [diffLoop, List.range'_succ, List.map_cons, List.sum_cons]
    by_cases hbreak : a + (codebook.getD i 0 - sample.getD i 0)
        * (codebook.getD i 0 - sample.getD i 0) * mu.getD i 0 > diffsf
    · rw [if_pos hbreak]
      right
      refine ⟨hbreak, ?_⟩
      linarith
    · rw [if_neg hbreak]
      have := ih (i + 1) (a + (codebook.getD i 0 - sample.getD i 0)
        * (codebook.getD i 0 - sample.getD i 0) * mu.getD i 0)
        (fun j h1 h2 => hmu j (by omega) (by omega))
      rw [add_assoc] at this
      exact this

theorem weightedDist_eq {K : Type} [LinearOrderedField K] (codebook sample mu : List K)
    (dim : Nat) :
    weightedDist codebook sample mu dim
      = 0 + ((List.range' 0 dim).map (fun j =>
          (codebook.getD j 0 - sample.getD j 0) * (codebook.getD j 0 - sample.getD j 0)
            * mu.getD j 0)).sum := by
  unfold weightedDist
  rw [List.range_eq_range', zero_add]
  congr 1
  apply List.map_congr_left
  intro j _
  ring

theorem diffLoop_prune {K : Type} [LinearOrderedField K] (codebook sample mu : List K)
    (diffsf : K) (dim : Nat) (hmu : ∀ i, i < dim → 0 ≤ mu.getD i 0) :
    (diffLoop codebook sample mu diffsf dim 0 0 < diffsf
        ↔ weightedDist codebook sample mu dim < diffsf) ∧
    (diffLoop codebook sample mu diffsf dim 0 0 < diffsf →
        diffLoop codebook sample mu diffsf dim 0 0 = weightedDist codebook sample mu dim) := by
  rw [weightedDist_eq]
  rcases diffLoop_spec codebook sample mu diffsf dim 0 0
      (fun j _ h => hmu j (by omega)) with h | ⟨h1, h2⟩
  · rw [h]
    exact ⟨Iff.rfl, fun _ => rfl⟩
  · constructor
    · constructor
      · intro h; exact absurd h (not_lt.2 (le_of_lt h1))
      · intro h; exact absurd (lt_of_lt_of_le h1 h2) (not_lt.2 (le_of_lt h))
    · intro h; exact absurd h (not_lt.2 (le_of_lt h1))

theorem findWinnerStep_eq_exhaustiveStep {K : Type} [LinearOrderedField K] (map : Map K)
    (node : Node K) (vdim : Nat) (hmu : ∀ i, i < vdim → 0 ≤ node.mu.getD i 0)
    (st : Nat × K) (n : Nat) :
    findWinnerStep map node vdim st n = exhaustiveStep map node vdim st n := by
  obtain ⟨h1, h2⟩ := diffLoop_prune (codeAt map n).points node.points node.mu st.2 vdim hmu
  unfold findWinnerStep exhaustiveStep
  by_cases h : diffLoop (codeAt map n).points node.points node.mu st.2 vdim 0 0 < st.2
  · simp only [if_pos h, if_pos (h1.1 h), h2 h]
  · simp only [if_neg h, if_neg (fun h3 => h (h1.2 h3))]

theorem FindWinnerEucledian_eq_exhaustiveWinner {K : Type} [LinearOrderedField K]
    (map : Map K) (node : Node K) (gptr : Graph K) (winner : Winner K)
    (hmu : ∀ i, i < gptr.dimension → 0 ≤ node.mu.getD i 0) :
    FindWinnerEucledian map node gptr winner = exhaustiveWinner map node gptr winner := by
  unfold FindWinnerEucledian exhaustiveWinner
  have : findWinnerStep map node gptr.dimension = exhaustiveStep map node gptr.dimension := by
    funext st n
    exact findWinnerStep_eq_exhaustiveStep map node gptr.dimension hmu st n
  rw [this]

theorem exhaustive_invariant {K : Type} [LinearOrderedField K] (map : Map K) (node : Node K)
    (gptr : Graph K) (c0 : Nat) (k : Nat) :
    let st := (List.range k).foldl (exhaustiveStep map node gptr.dimension) (c0, FLT_MAX)
    (∀ n, n < k → st.2 ≤ nodeDist map node gptr n) ∧
    ((st.2 = FLT_MAX ∧ st.1 = c0) ∨
      (st.1 < k ∧ st.2 = nodeDist map node gptr st.1 ∧ st.2 < FLT_MAX ∧
        ∀ n, n < st.1 → st.2 < nodeDist map node gptr n)) := by
  induction k with
  | zero =>
    exact ⟨fun n hn => by omega, Or.inl ⟨rfl, rfl⟩⟩
  | succ k ih =>
    obtain ⟨hle, hcase⟩ := ih
    simp only [List.range_succ, List.foldl_append, List.foldl_cons, List.foldl_nil]
    generalize (List.range k).foldl (exhaustiveStep map node gptr.dimension) (c0, FLT_MAX) = st
      at hle hcase
    have hst2 : st.2 ≤ FLT_MAX := by
      rcases hcase with ⟨h, _⟩ | ⟨_, _, h, _⟩
      · exact le_of_eq h
      · exact le_of_lt h
    have hstep : exhaustiveStep map node gptr.dimension st k
        = if nodeDist map node gptr k < st.2 then (k, nodeDist map node gptr k) else st := rfl
    rw [hstep]
    by_cases hlt : nodeDist map node gptr k < st.2
    · rw [if_pos hlt]
      refine ⟨fun n hn => ?_, Or.inr ⟨Nat.lt_succ_self k, rfl, lt_of_lt_of_le hlt hst2, ?_⟩⟩
      · rcases Nat.eq_or_lt_of_le (Nat.le_of_lt_succ hn) with h | h
        · subst h; exact le_refl _
        · exact le_of_lt (lt_of_lt_of_le hlt (hle n h))
      · intro n hn
        exact lt_of_lt_of_le hlt (hle n hn)
    · rw [if_neg hlt]
      refine ⟨fun n hn => ?_, ?_⟩
      · rcases Nat.eq_or_lt_of_le (Nat.le_of_lt_succ hn) with h | h
        · subst h; exact not_lt.1 hlt
        · exact hle n h
      · rcases hcase with h | ⟨h1, h2, h3, h4⟩
        · exact Or.inl h
        · exact Or.inr ⟨Nat.lt_succ_of_lt h1, h2, h3, h4⟩

/-! ## Loops that rewrite one array entry per turn -/

theorem foldl_set_pointwise {α : Type} (d : α) (upd : Nat → α → α) (l0 : List α) (k : Nat) :
    ((List.range k).foldl (fun l n => l.set n (upd n (l.getD n d))) l0).length = l0.length ∧
    ∀ m, ((List.range k).foldl (fun l n => l.set n (upd n (l.getD n d))) l0)[m]?
      = if m < k then (l0[m]?).map (upd m) else l0[m]? := by
  induction k with
  | zero => exact ⟨rfl, fun m => by simp⟩
  | succ k ih =>
    obtain ⟨hlen, hget⟩ := ih
    simp only [List.range_succ, List.foldl_append, List.foldl_cons, List.foldl_nil]
    generalize (List.range k).foldl (fun l n => l.set n (upd n (l.getD n d))) l0 = l
      at hlen hget
    refine ⟨by rw [List.length_set, hlen], fun m => ?_⟩
    rw [List.getElem?_set]
    by_cases hkm : k = m
    · subst hkm
      have hk := hget k
      rw [if_neg (Nat.lt_irrefl k)] at hk
      rw [if_pos rfl, if_pos (Nat.lt_succ_self k), List.getD_eq_getElem?_getD, hk, hlen]
      by_cases hlt : k < l0.length
      · rw [if_pos hlt, List.getElem?_eq_getElem hlt]; rfl
      · rw [if_neg hlt, List.getElem?_eq_none (Nat.le_of_not_lt hlt)]; rfl
    · rw [if_neg hkm, hget m]
      by_cases hmk : m < k
      · rw [if_pos hmk, if_pos (Nat.lt_succ_of_lt hmk)]
      · rw [if_neg hmk, if_neg (by omega)]

theorem set_getD_self {α : Type} (l : List α) (n : Nat) (d : α) : l.set n (l.getD n d) = l := by
  apply List.ext_getElem?
  intro m
  rw [List.getElem?_set]
  by_cases hnm : n = m
  · subst hnm
    rw [if_pos rfl]
    by_cases hlt : n < l.length
    · rw [if_pos hlt, List.getD_eq_getElem?_getD, List.getElem?_eq_getElem hlt]; rfl
    · rw [if_neg hlt, List.getElem?_eq_none (Nat.le_of_not_lt hlt)]
  · rw [if_neg hnm]

/-! ## `AdaptVector` -/

theorem AdaptVector_length {K : Type} [LinearOrderedField K] (codebook sample : List K)
    (dim : Nat) (alpha : K) : (AdaptVector codebook sample dim alpha).length = codebook.length :=
  (foldl_set_pointwise (0 : K) (fun i v => v + alpha * (sample.getD i 0 - v)) codebook dim).1

theorem AdaptVector_getElem? {K : Type} [LinearOrderedField K] (codebook sample : List K)
    (dim : Nat) (alpha : K) (m : Nat) :
    (AdaptVector codebook sample dim alpha)[m]?
      = if m < dim then (codebook[m]?).map (fun v => v + alpha * (sample.getD m 0 - v))
        else codebook[m]? :=
  (foldl_set_pointwise (0 : K) (fun i v => v + alpha * (sample.getD i 0 - v)) codebook dim).2 m

theorem AdaptVector_getD {K : Type} [LinearOrderedField K] (codebook sample : List K)
    (dim : Nat) (alpha : K) (i : Nat) (hi : i < dim) (hlen : i < codebook.length) :
    (AdaptVector codebook sample dim alpha).getD i 0
      = codebook.getD i 0 + alpha * (sample.getD i 0 - codebook.getD i 0) := by
  rw [List.getD_eq_getElem?_getD, AdaptVector_getElem?, if_pos hi]
  simp [List.getD_eq_getElem?_getD, List.getElem?_eq_getElem hlen]

/-! ## `ComputeHexaDistance` -/

theorem ComputeHexaDistance_self {K : Type} [LinearOrderedField K] (x y : Int) :
    (ComputeHexaDistance x y x y : K) = 0 := by
  simp [ComputeHexaDistance]

theorem ComputeHexaDistance_pos {K : Type} [LinearOrderedField K] (bx byy tx ty : Int)
    (h : ¬ (bx = tx ∧ byy = ty)) : (0 : K) < ComputeHexaDistance bx byy tx ty := by
  unfold ComputeHexaDistance
  by_cases hdx : bx - tx = 0
  · have hbx : bx = tx := by omega
    have hby : byy - ty ≠ 0 := fun h0 => h ⟨hbx, by omega⟩
    have hcast : ((byy - ty : Int) : K) ≠ 0 := Int.cast_ne_zero.2 hby
    simp only [hdx, Int.zero_emod, ne_eq, not_true_eq_false, if_false, Int.cast_zero,
      mul_zero, add_zero]
    exact mul_self_pos.2 hcast
  · have hcast : ((bx - tx : Int) : K) ≠ 0 := Int.cast_ne_zero.2 hdx
    have h1 : (0 : K) < ((bx - tx : Int) : K) * ((bx - tx : Int) : K) := mul_self_pos.2 hcast
    have h2 : ∀ t : K, 0 ≤ t * t := fun t => mul_self_nonneg t
    have h3 : ∀ t : K, 0 < t * t + 3 / 4 * ((bx - tx : Int) : K) * ((bx - tx : Int) : K) := by
      intro t
      have := h2 t
      nlinarith
    exact h3 _

/-! ## `BubbleAdapt` and `GaussianAdapt` -/

theorem getD_foldl_set_pointwise {α : Type} (d : α) (upd : Nat → α → α) (l0 : List α)
    (k m : Nat) (hm : m < k) (hlen : m < l0.length) :
    ((List.range k).foldl (fun l n => l.set n (upd n (l.getD n d))) l0).getD m d
      = upd m (l0.getD m d) := by
  rw [List.getD_eq_getElem?_getD, (foldl_set_pointwise d upd l0 k).2 m, if_pos hm,
    List.getD_eq_getElem?_getD, List.getElem?_eq_getElem hlen]
  rfl

theorem GaussianAdapt_codeAt {K : Type} [LinearOrderedField K] (expf : K → K) (gptr : Graph K)
    (map : Map K) (node : Node K) (winner : Winner K) (radius alpha : K)
    (hlen : map.codes.length = map.xdim * map.ydim) (n : Nat) (hn : n < map.xdim * map.ydim) :
    codeAt (GaussianAdapt expf gptr map node winner radius alpha).1 n
      = { codeAt map n with
          points := AdaptVector (codeAt map n).points node.points map.dim
            (alpha * expf (ComputeHexaDistance (codeAt map winner.codeno).x
              (codeAt map winner.codeno).y (codeAt map n).x (codeAt map n).y
                / (-2 * radius * radius))) } := by
  unfold GaussianAdapt codeAt
  exact getD_foldl_set_pointwise emptyCodebook
    (fun _ c => { c with
      points := AdaptVector c.points node.points map.dim
        (alpha * expf (ComputeHexaDistance (map.codes.getD winner.codeno emptyCodebook).x
          (map.codes.getD winner.codeno emptyCodebook).y c.x c.y / (-2 * radius * radius))) })
    map.codes (map.xdim * map.ydim) n hn (by rw [hlen]; exact hn)

theorem bubble_step_eq {K : Type} [LinearOrderedField K] (wx wy : Int) (sample : List K)
    (dim : Nat) (radius alpha : K) (codes : List (Codebook K)) (n : Nat) :
    (if (ComputeHexaDistance wx wy (codes.getD n emptyCodebook).x
          (codes.getD n emptyCodebook).y : K) ≤ radius
      then adaptCode codes n sample dim alpha else codes)
      = codes.set n
          ((fun (_ : Nat) (c : Codebook K) =>
            if (ComputeHexaDistance wx wy c.x c.y : K) ≤ radius
            then { c with points := AdaptVector c.points sample dim alpha } else c)
            n (codes.getD n emptyCodebook)) := by
  by_cases h : (ComputeHexaDistance wx wy (codes.getD n emptyCodebook).x
      (codes.getD n emptyCodebook).y : K) ≤ radius
  · simp only [if_pos h]; rfl
  · simp only [if_neg h]
    exact (set_getD_self codes n emptyCodebook).symm

theorem BubbleAdapt_codeAt {K : Type} [LinearOrderedField K] (gptr : Graph K)
    (map : Map K) (node : Node K) (winner : Winner K) (radius alpha : K)
    (hlen : map.codes.length = map.xdim * map.ydim) (n : Nat) (hn : n < map.xdim * map.ydim) :
    codeAt (BubbleAdapt gptr map node winner radius alpha).1 n
      = if (ComputeHexaDistance (codeAt map winner.codeno).x (codeAt map winner.codeno).y
            (codeAt map n).x (codeAt map n).y : K) ≤ radius * radius
        then { codeAt map n with
               points := AdaptVector (codeAt map n).points node.points map.dim alpha }
        else codeAt map n := by
  unfold BubbleAdapt codeAt
  simp only [bubble_step_eq]
  exact getD_foldl_set_pointwise emptyCodebook
    (fun _ c =>
      if (ComputeHexaDistance (map.codes.getD winner.codeno emptyCodebook).x
          (map.codes.getD winner.codeno emptyCodebook).y c.x c.y : K) ≤ radius * radius
      then { c with points := AdaptVector c.points node.points map.dim alpha } else c)
    map.codes (map.xdim * map.ydim) n hn (by rw [hlen]; exact hn)

/-- C9. On a well-formed map whose codebooks have pairwise distinct grid cells,
`BubbleAdapt` with `radius = 0` and a winner that is a codebook of the map
rewrites every entry `i < dim` of the winner's vector to
`v + alpha * (sample[i] - v)`, keeps the length of that vector, and leaves every
other codebook unchanged. -/
theorem BubbleAdapt_radius_zero {K : Type} [LinearOrderedField K] (gptr : Graph K)
    (map : Map K) (node : Node K) (winner : Winner K) (alpha : K)
    (hwf : WellFormedMap map) (hcells : DistinctCells map)
    (hw : winner.codeno < map.xdim * map.ydim) :
    (∀ i, i < map.dim →
      (codeAt (BubbleAdapt gptr map node winner 0 alpha).1 winner.codeno).points.getD i 0
        = (codeAt map winner.codeno).points.getD i 0
          + alpha * (node.points.getD i 0 - (codeAt map winner.codeno).points.getD i 0)) ∧
    (codeAt (BubbleAdapt gptr map node winner 0 alpha).1 winner.codeno).points.length
      = map.dim ∧
    (∀ n, n < map.xdim * map.ydim → n ≠ winner.codeno →
      codeAt (BubbleAdapt gptr map node winner 0 alpha).1 n = codeAt map n) := by
  obtain ⟨hlen, hdim⟩ := hwf
  refine ⟨fun i hi => ?_, ?_, fun n hn hne => ?_⟩
  · rw [BubbleAdapt_codeAt gptr map node winner 0 alpha hlen _ hw, ComputeHexaDistance_self]
    simp only [mul_zero, le_refl, if_true]
    exact AdaptVector_getD _ _ _ _ i hi (by rw [hdim _ hw]; exact hi)
  · rw [BubbleAdapt_codeAt gptr map node winner 0 alpha hlen _ hw, ComputeHexaDistance_self]
    simp only [mul_zero, le_refl, if_true]
    rw [AdaptVector_length]
    exact hdim _ hw
  · rw [BubbleAdapt_codeAt gptr map node winner 0 alpha hlen n hn]
    have hpos : (0 : K) < ComputeHexaDistance (codeAt map winner.codeno).x
        (codeAt map winner.codeno).y (codeAt map n).x (codeAt map n).y := by
      apply ComputeHexaDistance_pos
      rintro ⟨hx, hy⟩
      exact hne (hcells n hn winner.codeno hw hx.symm hy.symm)
    rw [if_neg]
    rw [mul_zero]
    exact not_le.2 hpos

/-! ## Concrete instances of C5, C9 and C10 -/

theorem mapLine_wellFormed (K : Type) [LinearOrderedField K] : WellFormedMap (mapLine K) := by
  refine ⟨rfl, fun n hn => ?_⟩
  have h2 : n < 2 := hn
  interval_cases n <;> rfl

theorem mapLine_distinctCells (K : Type) [LinearOrderedField K] : DistinctCells (mapLine K) := by
  intro m hm n hn hx _
  have hm2 : m < 2 := hm
  have hn2 : n < 2 := hn
  interval_cases m <;> interval_cases n <;> first | rfl | (exfalso; revert hx; simp [codeAt, mapLine, mkCode])

theorem BubbleAdapt_radius_zero_witness :
    (∀ i, i < (mapLine ℚ).dim →
      (codeAt (BubbleAdapt (headerLine ℚ) (mapLine ℚ) (leafNode ℚ) winner0 0 (1 / 2)).1
          winner0.codeno).points.getD i 0
        = (codeAt (mapLine ℚ) winner0.codeno).points.getD i 0
          + 1 / 2 * ((leafNode ℚ).points.getD i 0
              - (codeAt (mapLine ℚ) winner0.codeno).points.getD i 0)) ∧
    (codeAt (BubbleAdapt (headerLine ℚ) (mapLine ℚ) (leafNode ℚ) winner0 0 (1 / 2)).1
        winner0.codeno).points.length = (mapLine ℚ).dim ∧
    (∀ n, n < (mapLine ℚ).xdim * (mapLine ℚ).ydim → n ≠ winner0.codeno →
      codeAt (BubbleAdapt (headerLine ℚ) (mapLine ℚ) (leafNode ℚ) winner0 0 (1 / 2)).1 n
        = codeAt (mapLine ℚ) n) :=
  BubbleAdapt_radius_zero (headerLine ℚ) (mapLine ℚ) (leafNode ℚ) winner0 (1 / 2)
    (mapLine_wellFormed ℚ) (mapLine_distinctCells ℚ) (by decide)

/-! ## The winner search does not depend on a stale `winner` once it finds a codebook -/

theorem findWinner_fold_indep {K : Type} [LinearOrderedField K] (map : Map K) (node : Node K)
    (vdim : Nat) (c c' : Nat) (l : List Nat) (d : K) (hd : d ≤ FLT_MAX) :
    (l.foldl (findWinnerStep map node vdim) (c, d)).2
      = (l.foldl (findWinnerStep map node vdim) (c', d)).2 ∧
    (l.foldl (findWinnerStep map node vdim) (c, d)).2 ≤ FLT_MAX ∧
    (((l.foldl (findWinnerStep map node vdim) (c, d)).2 < d ∨ c = c') →
      (l.foldl (findWinnerStep map node vdim) (c, d)).1
        = (l.foldl (findWinnerStep map node vdim) (c', d)).1) := by
  induction l generalizing c c' d with
  | nil =>
    refine ⟨rfl, hd, fun h => ?_⟩
    rcases h with h | h
    · exact absurd h (lt_irrefl _)
    · exact h
  | cons n l ih =>
    simp only [List.foldl_cons]
    by_cases hlt : diffLoop (codeAt map n).points node.points node.mu d vdim 0 0 < d
    · have h1 : findWinnerStep map node vdim (c, d) n
          = (n, diffLoop (codeAt map n).points node.points node.mu d vdim 0 0) := by
        simp only [findWinnerStep, if_pos hlt]
      have h2 : findWinnerStep map node vdim (c', d) n
          = (n, diffLoop (codeAt map n).points node.points node.mu d vdim 0 0) := by
        simp only [findWinnerStep, if_pos hlt]
      rw [h1, h2]
      exact ⟨rfl, (ih n n _ (le_trans (le_of_lt hlt) hd)).2.1, fun _ => rfl⟩
    · have h1 : findWinnerStep map node vdim (c, d) n = (c, d) := by
        simp only [findWinnerStep, if_neg hlt]
      have h2 : findWinnerStep map node vdim (c', d) n = (c', d) := by
        simp only [findWinnerStep, if_neg hlt]
      rw [h1, h2]
      exact ih c c' d hd

theorem FindWinnerEucledian_diff_indep {K : Type} [LinearOrderedField K] (map : Map K)
    (node : Node K) (gptr : Graph K) (w w' : Winner K) :
    (FindWinnerEucledian map node gptr w).diff = (FindWinnerEucledian map node gptr w').diff :=
  (findWinner_fold_indep map node gptr.dimension w.codeno w'.codeno _ FLT_MAX (le_refl _)).1

theorem FindWinnerEucledian_codeno_indep {K : Type} [LinearOrderedField K] (map : Map K)
    (node : Node K) (gptr : Graph K) (w w' : Winner K)
    (h : (FindWinnerEucledian map node gptr w).diff < FLT_MAX) :
    (FindWinnerEucledian map node gptr w).codeno
      = (FindWinnerEucledian map node gptr w').codeno :=
  (findWinner_fold_indep map node gptr.dimension w.codeno w'.codeno _ FLT_MAX (le_refl _)).2.2
    (Or.inl h)

theorem FindWinnerEucledian_congr {K : Type} [LinearOrderedField K] (map : Map K)
    (node node' : Node K) (gptr gptr' : Graph K) (w : Winner K)
    (hp : node'.points = node.points) (hm : node'.mu = node.mu)
    (hd : gptr'.dimension = gptr.dimension) :
    FindWinnerEucledian map node' gptr' w = FindWinnerEucledian map node gptr w := by
  unfold FindWinnerEucledian
  have : findWinnerStep map node' gptr'.dimension = findWinnerStep map node gptr.dimension := by
    funext st n
    simp only [findWinnerStep, hp, hm, hd]
  rw [this]

/-! ## The state encoders as lists of writes -/

theorem applyWrites_append {K : Type} (ws ws' : List (Nat × K)) (pts : List K) :
    applyWrites (ws ++ ws') pts = applyWrites ws' (applyWrites ws pts) := by
  simp [applyWrites, List.foldl_append]

theorem applyWrites_length {K : Type} (ws : List (Nat × K)) (pts : List K) :
    (applyWrites ws pts).length = pts.length := by
  induction ws generalizing pts with
  | nil => rfl
  | cons w ws ih =>
    simp only [applyWrites, List.foldl_cons] at ih ⊢
    rw [ih, List.length_set]

theorem applyWrites_outside {K : Type} (ws : List (Nat × K)) (pts : List K) (j : Nat)
    (hj : j ∉ ws.map Prod.fst) : (applyWrites ws pts)[j]? = pts[j]? := by
  induction ws generalizing pts with
  | nil => rfl
  | cons w ws ih =>
    simp only [List.map_cons, List.mem_cons, not_or] at hj
    simp only [applyWrites, List.foldl_cons] at ih ⊢
    rw [ih _ hj.2, List.getElem?_set_ne (Ne.symm hj.1)]

/-- Two vectors of the same length that agree outside the written slots give the
same vector after the writes. -/
theorem applyWrites_absorb {K : Type} (ws : List (Nat × K)) (p q : List K)
    (hlen : p.length = q.length)
    (hout : ∀ j, j ∉ ws.map Prod.fst → p[j]? = q[j]?) :
    applyWrites ws p = applyWrites ws q := by
  induction ws generalizing p q with
  | nil =>
    apply List.ext_getElem?
    intro j
    exact hout j (by simp)
  | cons w ws ih =>
    simp only [applyWrites, List.foldl_cons] at ih ⊢
    apply ih
    · rw [List.length_set, List.length_set, hlen]
    · intro j hj
      rw [List.getElem?_set, List.getElem?_set, hlen]
      by_cases hw : w.1 = j
      · rw [if_pos hw, if_pos hw]
      · rw [if_neg hw, if_neg hw]
        apply hout
        simp only [List.map_cons, List.mem_cons, not_or]
        exact ⟨fun h => hw h.symm, hj⟩

theorem foldl_flatMap_writes {K : Type} {ι : Type} (f : ι → List (Nat × K)) (l : List ι)
    (pts : List K) :
    l.foldl (fun p i => applyWrites (f i) p) pts = applyWrites (l.flatMap f) pts := by
  induction l generalizing pts with
  | nil => rfl
  | cons i l ih =>
    simp only [List.foldl_cons, List.flatMap_cons, applyWrites_append]
    exact ih _

theorem encodeChildren_eq {K : Type} [LinearOrderedField K] (gptr : Graph K) (node : Node K)
    (pts : List K) : encodeChildren gptr node pts = applyWrites (childWrites gptr node) pts := by
  unfold encodeChildren childWrites
  rw [← foldl_flatMap_writes]
  congr 1
  funext p i
  cases childAt node i <;> rfl

theorem encodeParents_eq {K : Type} [LinearOrderedField K] (gptr : Graph K) (node : Node K)
    (pts : List K) : encodeParents gptr node pts = applyWrites (parentWrites gptr node) pts := by
  unfold encodeParents parentWrites
  rw [← foldl_flatMap_writes]
  rfl

theorem UpdateStates_eq {K : Type} [LinearOrderedField K] (mode : Int) (gptr : Graph K)
    (n : Nat) :
    UpdateStates mode gptr n
      = { gptr with nodes := setPoints gptr.nodes n (encPoints mode gptr n) } := by
  unfold UpdateStates encPoints stateWrites
  by_cases hm : mode = 1
  · simp only [if_pos hm, UpdateChildrenAndParentLocation, encodeChildren_eq, encodeParents_eq,
      applyWrites_append]
  · simp only [if_neg hm, UpdateChildrensLocation, encodeChildren_eq]

theorem childWrites_congr {K : Type} [LinearOrderedField K] (g g' : Graph K) (node node' : Node K)
    (hl : g'.ldim = g.ldim) (hf : g'.FanOut = g.FanOut)
    (hc : node'.children = node.children)
    (hpos : ∀ c, c ∈ liveChildren node g.FanOut →
      (nodeAt g'.nodes c).x = (nodeAt g.nodes c).x ∧
      (nodeAt g'.nodes c).y = (nodeAt g.nodes c).y) :
    childWrites g' node' = childWrites g node := by
  unfold childWrites
  rw [hl, hf]
  apply List.flatMap_congr
  intro i hi
  have hci : childAt node' i = childAt node i := by simp [childAt, hc]
  rw [hci]
  cases hch : childAt node i with
  | none => rfl
  | some c =>
    have hmem : c ∈ liveChildren node g.FanOut := by
      unfold liveChildren
      exact List.mem_filterMap.2 ⟨i, hi, hch⟩
    simp only [(hpos c hmem).1, (hpos c hmem).2]

theorem parentWrites_congr {K : Type} [LinearOrderedField K] (g g' : Graph K)
    (node node' : Node K)
    (hl : g'.ldim = g.ldim) (hf : g'.FanOut = g.FanOut)
    (hp : node'.parents = node.parents)
    (hpos : ∀ c, (nodeAt g'.nodes c).x = (nodeAt g.nodes c).x ∧
      (nodeAt g'.nodes c).y = (nodeAt g.nodes c).y) :
    parentWrites g' node' = parentWrites g node := by
  unfold parentWrites
  rw [hl, hf, hp]
  apply List.flatMap_congr
  intro i _
  simp only [(hpos _).1, (hpos _).2]

theorem stateWrites_congr {K : Type} [LinearOrderedField K] (mode : Int) (g g' : Graph K)
    (node node' : Node K)
    (hl : g'.ldim = g.ldim) (hf : g'.FanOut = g.FanOut)
    (hc : node'.children = node.children) (hp : node'.parents = node.parents)
    (hpos : ∀ c, (nodeAt g'.nodes c).x = (nodeAt g.nodes c).x ∧
      (nodeAt g'.nodes c).y = (nodeAt g.nodes c).y) :
    stateWrites mode g' node' = stateWrites mode g node := by
  unfold stateWrites
  rw [childWrites_congr g g' node node' hl hf hc (fun c _ => hpos c),
    parentWrites_congr g g' node node' hl hf hp hpos]

/-! ## One round of the K-step approximation -/

theorem nodeAt_set {K : Type} (l : List (Node K)) (n : Nat) (a : Node K) (m : Nat) :
    nodeAt (l.set n a) m = if m = n ∧ n < l.length then a else nodeAt l m := by
  simp only [nodeAt, List.getD_eq_getElem?_getD, List.getElem?_set]
  by_cases hnm : n = m
  · subst hnm
    by_cases hlt : n < l.length
    · simp [hlt]
    · simp [hlt, List.getElem?_eq_none (Nat.le_of_not_lt hlt)]
  · have : ¬ (m = n ∧ n < l.length) := fun h => hnm h.1.symm
    rw [if_neg hnm, if_neg this]

theorem nodeAt_of_length_le {K : Type} (l : List (Node K)) (m : Nat) (h : l.length ≤ m) :
    nodeAt l m = emptyNode := by
  simp [nodeAt, List.getD_eq_getElem?_getD, List.getElem?_eq_none h]

theorem nodeAt_map_range {K : Type} (f : Nat → Node K) (N m : Nat) (hm : m < N) :
    nodeAt ((List.range N).map f) m = f m := by
  simp [nodeAt, List.getD_eq_getElem?_getD, hm]

theorem list_ext_nodeAt {K : Type} (l l' : List (Node K)) (hlen : l.length = l'.length)
    (h : ∀ m, m < l.length → nodeAt l m = nodeAt l' m) : l = l' := by
  apply List.ext_getElem hlen
  intro m h1 h2
  have := h m h1
  simpa [nodeAt, List.getD_eq_getElem?_getD, List.getElem?_eq_getElem h1,
    List.getElem?_eq_getElem h2] using this

theorem getD_set_int (l : List Int) (n : Nat) (a : Int) (m : Nat) :
    (l.set n a).getD m 0 = if m = n ∧ n < l.length then a else l.getD m 0 := by
  simp only [List.getD_eq_getElem?_getD, List.getElem?_set]
  by_cases hnm : n = m
  · subst hnm
    by_cases hlt : n < l.length
    · simp [hlt]
    · simp [hlt, List.getElem?_eq_none (Nat.le_of_not_lt hlt)]
  · have : ¬ (m = n ∧ n < l.length) := fun h => hnm h.1.symm
    rw [if_neg hnm, if_neg this]

/-- State of the first node loop of a round after `k` turns, when every winner
search of the round finds a codebook. -/
theorem kStepLoop_invariant {K : Type} [LinearOrderedField K] (map : Map K) (mode : Int)
    (st : RoundState K) (hx : st.gptr.nodes.length ≤ st.xstates.length)
    (hy : st.gptr.nodes.length ≤ st.ystates.length) (hfind : RoundFinds map mode st.gptr)
    (k : Nat) (hk : k ≤ st.gptr.nodes.length) :
    ((List.range k).foldl (kStepNode map mode) st).gptr
      = { st.gptr with nodes := ((List.range k).foldl (kStepNode map mode) st).gptr.nodes } ∧
    ((List.range k).foldl (kStepNode map mode) st).gptr.nodes.length = st.gptr.nodes.length ∧
    (∀ m, m < k → nodeAt ((List.range k).foldl (kStepNode map mode) st).gptr.nodes m
      = { nodeAt st.gptr.nodes m with points := encPoints mode st.gptr m }) ∧
    (∀ m, k ≤ m → nodeAt ((List.range k).foldl (kStepNode map mode) st).gptr.nodes m
      = nodeAt st.gptr.nodes m) ∧
    ((List.range k).foldl (kStepNode map mode) st).xstates.length = st.xstates.length ∧
    ((List.range k).foldl (kStepNode map mode) st).ystates.length = st.ystates.length ∧
    (∀ m, m < k →
      ((List.range k).foldl (kStepNode map mode) st).xstates.getD m 0
        = (codeAt map (roundWinner map mode st.gptr m).codeno).x ∧
      ((List.range k).foldl (kStepNode map mode) st).ystates.getD m 0
        = (codeAt map (roundWinner map mode st.gptr m).codeno).y) := by
  induction k with
  | zero =>
    exact ⟨rfl, rfl, fun m hm => by omega, fun m _ => rfl, rfl, rfl, fun m hm => by omega⟩
  | succ k ih =>
    obtain ⟨hhead, hlen, hdone, htodo, hxl, hyl, hxy⟩ := ih (by omega)
    have hkN : k < st.gptr.nodes.length := by omega
    simp only [List.range_succ, List.foldl_append, List.foldl_cons, List.foldl_nil]
    generalize (List.range k).foldl (kStepNode map mode) st = s
      at hhead hlen hdone htodo hxl hyl hxy
    have hldim : s.gptr.ldim = st.gptr.ldim := by rw [hhead]
    have hfan : s.gptr.FanOut = st.gptr.FanOut := by rw [hhead]
    have hdimn : s.gptr.dimension = st.gptr.dimension := by rw [hhead]
    have hnodek : nodeAt s.gptr.nodes k = nodeAt st.gptr.nodes k := htodo k (Nat.le_refl k)
    have hview : ∀ c, (nodeAt s.gptr.nodes c).x = (nodeAt st.gptr.nodes c).x ∧
        (nodeAt s.gptr.nodes c).y = (nodeAt st.gptr.nodes c).y := by
      intro c
      rcases Nat.lt_or_ge c k with h | h
      · rw [hdone c h]; exact ⟨rfl, rfl⟩
      · rw [htodo c h]; exact ⟨rfl, rfl⟩
    have henc : encPoints mode s.gptr k = encPoints mode st.gptr k := by
      unfold encPoints
      rw [hnodek, stateWrites_congr mode st.gptr s.gptr _ _ hldim hfan rfl rfl hview]
    have hgp : (UpdateStates mode s.gptr k).nodes
        = setPoints s.gptr.nodes k (encPoints mode st.gptr k) := by
      rw [UpdateStates_eq, henc]
    have hnew : nodeAt (UpdateStates mode s.gptr k).nodes k
        = { nodeAt st.gptr.nodes k with points := encPoints mode st.gptr k } := by
      rw [hgp]
      unfold setPoints
      rw [nodeAt_set, if_pos ⟨rfl, by rw [hlen]; exact hkN⟩, hnodek]
    have hwin : (FindWinnerEucledian map (nodeAt (UpdateStates mode s.gptr k).nodes k)
        (UpdateStates mode s.gptr k) s.winner).codeno
          = (roundWinner map mode st.gptr k).codeno := by
      have hc := FindWinnerEucledian_congr map
        { nodeAt st.gptr.nodes k with points := encPoints mode st.gptr k }
        (nodeAt (UpdateStates mode s.gptr k).nodes k) st.gptr (UpdateStates mode s.gptr k)
        s.winner (by rw [hnew]) (by rw [hnew]) (by rw [UpdateStates_eq]; exact hdimn)
      rw [hc]
      apply FindWinnerEucledian_codeno_indep
      rw [FindWinnerEucledian_diff_indep map _ st.gptr s.winner { codeno := 0, diff := 0 }]
      exact hfind k hkN
    refine ⟨?_, ?_, ?_, ?_, ?_, ?_, ?_⟩
    · show UpdateStates mode s.gptr k = { st.gptr with nodes := (UpdateStates mode s.gptr k).nodes }
      have hfanin : s.gptr.FanIn = st.gptr.FanIn := by rw [hhead]
      have htdim : s.gptr.tdim = st.gptr.tdim := by rw [hhead]
      have hdepth : s.gptr.depth = st.gptr.depth := by rw [hhead]
      rw [UpdateStates_eq]
      simp only [Graph.mk.injEq, true_and]
      exact ⟨hldim, hdimn, hfan, hfanin, htdim, hdepth⟩
    · show (UpdateStates mode s.gptr k).nodes.length = st.gptr.nodes.length
      rw [hgp]
      simp only [setPoints, List.length_set]
      exact hlen
    · intro m hm
      show nodeAt (UpdateStates mode s.gptr k).nodes m = _
      rcases Nat.eq_or_lt_of_le (Nat.le_of_lt_succ hm) with h | h
      · subst h; exact hnew
      · rw [hgp]
        unfold setPoints
        rw [nodeAt_set, if_neg (fun hh => by omega)]
        exact hdone m h
    · intro m hm
      show nodeAt (UpdateStates mode s.gptr k).nodes m = _
      rw [hgp]
      unfold setPoints
      rw [nodeAt_set, if_neg (fun hh => by omega)]
      exact htodo m (by omega)
    · show (s.xstates.set k _).length = _
      rw [List.length_set]; exact hxl
    · show (s.ystates.set k _).length = _
      rw [List.length_set]; exact hyl
    · intro m hm
      show (s.xstates.set k _).getD m 0 = _ ∧ (s.ystates.set k _).getD m 0 = _
      rw [getD_set_int, getD_set_int]
      rcases Nat.eq_or_lt_of_le (Nat.le_of_lt_succ hm) with h | h
      · subst h
        rw [if_pos ⟨rfl, by omega⟩, if_pos ⟨rfl, by omega⟩, hwin]
        exact ⟨rfl, rfl⟩
      · rw [if_neg (fun hh => by omega), if_neg (fun hh => by omega)]
        exact hxy m h

theorem kStepCommit_length {K : Type} (gptr : Graph K) (xs ys : List Int) :
    (kStepCommit gptr xs ys).nodes.length = gptr.nodes.length :=
  (foldl_set_pointwise emptyNode
    (fun n (nd : Node K) => { nd with x := xs.getD n 0, y := ys.getD n 0 })
    gptr.nodes gptr.nodes.length).1

theorem kStepCommit_nodeAt {K : Type} (gptr : Graph K) (xs ys : List Int) (m : Nat)
    (hm : m < gptr.nodes.length) :
    nodeAt (kStepCommit gptr xs ys).nodes m
      = { nodeAt gptr.nodes m with x := xs.getD m 0, y := ys.getD m 0 } :=
  getD_foldl_set_pointwise emptyNode
    (fun n (nd : Node K) => { nd with x := xs.getD n 0, y := ys.getD n 0 })
    gptr.nodes gptr.nodes.length m hm hm

/-- A round in which every winner search finds a codebook computes every node
from the graph at the start of the round alone. -/
theorem kStepRound_gptr {K : Type} [LinearOrderedField K] (map : Map K) (mode : Int)
    (st : RoundState K) (hx : st.gptr.nodes.length ≤ st.xstates.length)
    (hy : st.gptr.nodes.length ≤ st.ystates.length) (hfind : RoundFinds map mode st.gptr) :
    (kStepRound map mode st).gptr = roundGraph map mode st.gptr ∧
    (kStepRound map mode st).xstates.length = st.xstates.length ∧
    (kStepRound map mode st).ystates.length = st.ystates.length := by
  obtain ⟨hhead, hlen, hdone, _, hxl, hyl, hxy⟩ :=
    kStepLoop_invariant map mode { st with gpr_qerror := 0 } hx hy hfind st.gptr.nodes.length
      (Nat.le_refl _)
  simp only [kStepRound]
  generalize (List.range st.gptr.nodes.length).foldl (kStepNode map mode)
    { st with gpr_qerror := 0 } = s at hhead hlen hdone hxl hyl hxy
  refine ⟨?_, hxl, hyl⟩
  have hnodes : (kStepCommit s.gptr s.xstates s.ystates).nodes
      = (List.range st.gptr.nodes.length).map (roundNode map mode st.gptr) := by
    apply list_ext_nodeAt
    · rw [kStepCommit_length, hlen]; simp
    · intro m hm
      rw [kStepCommit_length, hlen] at hm
      rw [kStepCommit_nodeAt _ _ _ _ (by rw [hlen]; exact hm), nodeAt_map_range _ _ _ hm,
        hdone m hm, (hxy m hm).1, (hxy m hm).2]
      rfl
  have hldim : s.gptr.ldim = st.gptr.ldim := by rw [hhead]
  have hfan : s.gptr.FanOut = st.gptr.FanOut := by rw [hhead]
  have hdimn : s.gptr.dimension = st.gptr.dimension := by rw [hhead]
  have hfanin : s.gptr.FanIn = st.gptr.FanIn := by rw [hhead]
  have htdim : s.gptr.tdim = st.gptr.tdim := by rw [hhead]
  have hdepth : s.gptr.depth = st.gptr.depth := by rw [hhead]
  show kStepCommit s.gptr s.xstates s.ystates = roundGraph map mode st.gptr
  have hc : kStepCommit s.gptr s.xstates s.ystates
      = { s.gptr with nodes := (kStepCommit s.gptr s.xstates s.ystates).nodes } := rfl
  rw [hc, hnodes]
  simp only [roundGraph, Graph.mk.injEq, true_and]
  exact ⟨hldim, hdimn, hfan, hfanin, htdim, hdepth⟩

/-! ## Rounds in sequence -/

theorem kStepRounds_succ {K : Type} [LinearOrderedField K] (map : Map K) (mode : Int)
    (r : Nat) (st : RoundState K) :
    kStepRounds map mode (r + 1) st = kStepRound map mode (kStepRounds map mode r st) := by
  induction r generalizing st with
  | zero => rfl
  | succ r ih =>
    show kStepRounds map mode (r + 1) (kStepRound map mode st) = _
    rw [ih]
    rfl

theorem kStepNode_lengths {K : Type} [LinearOrderedField K] (map : Map K) (mode : Int)
    (l : List Nat) (st : RoundState K) :
    (l.foldl (kStepNode map mode) st).gptr.nodes.length = st.gptr.nodes.length ∧
    (l.foldl (kStepNode map mode) st).xstates.length = st.xstates.length ∧
    (l.foldl (kStepNode map mode) st).ystates.length = st.ystates.length := by
  induction l generalizing st with
  | nil => exact ⟨rfl, rfl, rfl⟩
  | cons n l ih =>
    simp only [List.foldl_cons]
    obtain ⟨h1, h2, h3⟩ := ih (kStepNode map mode st n)
    refine ⟨h1.trans ?_, h2.trans ?_, h3.trans ?_⟩
    · show (UpdateStates mode st.gptr n).nodes.length = _
      rw [UpdateStates_eq]
      simp [setPoints]
    · show (st.xstates.set n _).length = _
      rw [List.length_set]
    · show (st.ystates.set n _).length = _
      rw [List.length_set]

theorem kStepRound_lengths {K : Type} [LinearOrderedField K] (map : Map K) (mode : Int)
    (st : RoundState K) :
    (kStepRound map mode st).gptr.nodes.length = st.gptr.nodes.length ∧
    (kStepRound map mode st).xstates.length = st.xstates.length ∧
    (kStepRound map mode st).ystates.length = st.ystates.length := by
  obtain ⟨h1, h2, h3⟩ := kStepNode_lengths map mode (List.range st.gptr.nodes.length)
    { st with gpr_qerror := 0 }
  refine ⟨?_, h2, h3⟩
  show (kStepCommit _ _ _).nodes.length = _
  rw [kStepCommit_length]
  exact h1

theorem kStepRounds_lengths {K : Type} [LinearOrderedField K] (map : Map K) (mode : Int)
    (r : Nat) (st : RoundState K) :
    (kStepRounds map mode r st).gptr.nodes.length = st.gptr.nodes.length ∧
    (kStepRounds map mode r st).xstates.length = st.xstates.length ∧
    (kStepRounds map mode r st).ystates.length = st.ystates.length := by
  induction r with
  | zero => exact ⟨rfl, rfl, rfl⟩
  | succ r ih =>
    rw [kStepRounds_succ]
    obtain ⟨h1, h2, h3⟩ := kStepRound_lengths map mode (kStepRounds map mode r st)
    exact ⟨h1.trans ih.1, h2.trans ih.2.1, h3.trans ih.2.2⟩

theorem nodeAt_roundGraph {K : Type} [LinearOrderedField K] (map : Map K) (mode : Int)
    (g : Graph K) (m : Nat) (hm : m < g.nodes.length) :
    nodeAt (roundGraph map mode g).nodes m = roundNode map mode g m :=
  nodeAt_map_range _ _ _ hm

theorem length_roundGraph {K : Type} [LinearOrderedField K] (map : Map K) (mode : Int)
    (g : Graph K) : (roundGraph map mode g).nodes.length = g.nodes.length := by
  simp [roundGraph]

theorem positions_of_nodePositions {K : Type} (g g' : Graph K)
    (h : nodePositions g' = nodePositions g) (c : Nat) :
    (nodeAt g'.nodes c).x = (nodeAt g.nodes c).x ∧
    (nodeAt g'.nodes c).y = (nodeAt g.nodes c).y := by
  have hc := congrArg (fun l => l[c]?) h
  simp only [nodePositions, List.getElem?_map] at hc
  simp only [nodeAt, List.getD_eq_getElem?_getD]
  cases h1 : g'.nodes[c]? with
  | none =>
    cases h2 : g.nodes[c]? with
    | none => exact ⟨rfl, rfl⟩
    | some b => rw [h1, h2] at hc; cases hc
  | some a =>
    cases h2 : g.nodes[c]? with
    | none => rw [h1, h2] at hc; cases hc
    | some b =>
      rw [h1, h2] at hc
      simp only [Option.map_some', Option.some.injEq, Prod.mk.injEq] at hc
      exact hc

theorem nodePositions_roundGraph {K : Type} [LinearOrderedField K] (map : Map K) (mode : Int)
    (g : Graph K) :
    nodePositions (roundGraph map mode g)
      = (List.range g.nodes.length).map (fun m =>
          ((codeAt map (roundWinner map mode g m).codeno).x,
           (codeAt map (roundWinner map mode g m).codeno).y)) := by
  simp only [nodePositions, roundGraph, List.map_map]
  rfl

/-- When a round has left every position unchanged, the vectors encoded in the
next round are the vectors encoded in that round. -/
theorem encPoints_roundGraph_stable {K : Type} [LinearOrderedField K] (map : Map K)
    (mode : Int) (g : Graph K)
    (hstable : nodePositions (roundGraph map mode g) = nodePositions g)
    (m : Nat) (hm : m < g.nodes.length) :
    encPoints mode (roundGraph map mode g) m = encPoints mode g m := by
  have hpos := positions_of_nodePositions g (roundGraph map mode g) hstable
  have hws : stateWrites mode (roundGraph map mode g) (roundNode map mode g m)
      = stateWrites mode g (nodeAt g.nodes m) :=
    stateWrites_congr mode g (roundGraph map mode g) _ _ rfl rfl rfl rfl hpos
  unfold encPoints
  rw [nodeAt_roundGraph map mode g m hm, hws]
  show applyWrites _ (encPoints mode g m) = _
  unfold encPoints
  apply applyWrites_absorb
  · exact applyWrites_length _ _
  · intro j hj
    exact applyWrites_outside _ _ j hj

theorem roundWinner_roundGraph_stable {K : Type} [LinearOrderedField K] (map : Map K)
    (mode : Int) (g : Graph K)
    (hstable : nodePositions (roundGraph map mode g) = nodePositions g)
    (m : Nat) (hm : m < g.nodes.length) :
    roundWinner map mode (roundGraph map mode g) m = roundWinner map mode g m := by
  unfold roundWinner
  apply FindWinnerEucledian_congr
  · show encPoints mode (roundGraph map mode g) m = encPoints mode g m
    exact encPoints_roundGraph_stable map mode g hstable m hm
  · show (nodeAt (roundGraph map mode g).nodes m).mu = (nodeAt g.nodes m).mu
    rw [nodeAt_roundGraph map mode g m hm]
    rfl
  · rfl

theorem roundGraph_fixed {K : Type} [LinearOrderedField K] (map : Map K) (mode : Int)
    (g : Graph K) (hstable : nodePositions (roundGraph map mode g) = nodePositions g) :
    nodePositions (roundGraph map mode (roundGraph map mode g))
      = nodePositions (roundGraph map mode g) := by
  rw [nodePositions_roundGraph, nodePositions_roundGraph, length_roundGraph]
  apply List.map_congr_left
  intro m hm
  rw [roundWinner_roundGraph_stable map mode g hstable m (List.mem_range.1 hm)]

/-! ## C6, C7 and C8: the K-step approximation on concrete inputs -/

/-- C6 (failing input). The graph `gFar` is acyclic, its node depths 0, 0, 1 are
the longest-path depths, its depth field is 1 and all its nodes are at position
(0, 0).  No codebook of `mapLine` lies below `FLT_MAX` from node 0, so every
search for node 0 leaves `winner.codeno` as the previous search wrote it.  In
children-only mode the two rounds of `K_Step_Approximation` end with node 0 at
cell (0, 0), the cell found for node 2 in the first round, and one further round
moves node 0 to cell (1, 0). -/
theorem kStep_children_only_not_stable :
    rankCheck gFar rankFar ∧ nodeDepths gFar = [0, 0, 1] ∧ gFar.depth = 1 ∧
    (∀ n, n < 2 → ¬ nodeDist (mapLine ℚ) (nodeAt gFar.nodes 0) gFar n < FLT_MAX) ∧
    (K_Step_Approximation (mapLine ℚ) [gFar] 0 winner0).map (fun r => r.1.map nodePositions)
      = some [[(0, 0), (1, 0), (1, 0)]] ∧
    nodePositions (kStepGraph (mapLine ℚ) 0 (roundInit gFar)).gptr
      = [(0, 0), (1, 0), (1, 0)] ∧
    nodePositions
        (kStepRound (mapLine ℚ) 0 (kStepGraph (mapLine ℚ) 0 (roundInit gFar))).gptr
      = [(1, 0), (1, 0), (1, 0)] := by
  decide!

/-- C8 (failing input). The graphs `gFar` and `gFarRev` hold the same three
nodes with the same links, in opposite array order.  In children-only mode
`K_Step_Approximation` leaves the node with logical number 0 at cell (0, 0) on
`gFar` and at cell (1, 0) on `gFarRev`. -/
theorem kStep_depends_on_node_order :
    gFarRev = reorderGraph [2, 1, 0] gFar ∧
    (K_Step_Approximation (mapLine ℚ) [gFar] 0 winner0).map (fun r => r.1.map nodePlaces)
      = some [[(0, 0, 0), (1, 1, 0), (2, 1, 0)]] ∧
    (K_Step_Approximation (mapLine ℚ) [gFarRev] 0 winner0).map (fun r => r.1.map nodePlaces)
      = some [[(2, 1, 0), (1, 1, 0), (0, 1, 0)]] :=
  ⟨rfl, by decide!, by decide!⟩

/-! ## Convergence of the children-only rounds -/

theorem childWrites_fst_congr {K : Type} [LinearOrderedField K] (g g' : Graph K)
    (node node' : Node K) (hl : g'.ldim = g.ldim) (hf : g'.FanOut = g.FanOut)
    (hc : node'.children = node.children) :
    (childWrites g' node').map Prod.fst = (childWrites g node).map Prod.fst := by
  unfold childWrites
  rw [hl, hf, List.map_flatMap, List.map_flatMap]
  apply List.flatMap_congr
  intro i _
  have hci : childAt node' i = childAt node i := by simp [childAt, hc]
  rw [hci]
  cases childAt node i <;> rfl

theorem parentWrites_fst_congr {K : Type} [LinearOrderedField K] (g g' : Graph K)
    (node node' : Node K) (hl : g'.ldim = g.ldim) (hf : g'.FanOut = g.FanOut)
    (hp : node'.parents = node.parents) :
    (parentWrites g' node').map Prod.fst = (parentWrites g node).map Prod.fst := by
  unfold parentWrites
  rw [hl, hf, hp, List.map_flatMap, List.map_flatMap]
  rfl

theorem stateWrites_fst_congr {K : Type} [LinearOrderedField K] (mode : Int) (g g' : Graph K)
    (node node' : Node K) (hl : g'.ldim = g.ldim) (hf : g'.FanOut = g.FanOut)
    (hc : node'.children = node.children) (hp : node'.parents = node.parents) :
    (stateWrites mode g' node').map Prod.fst = (stateWrites mode g node).map Prod.fst := by
  unfold stateWrites
  by_cases hm : mode = 1
  · simp only [if_pos hm, List.map_append]
    rw [childWrites_fst_congr g g' node node' hl hf hc,
      parentWrites_fst_congr g g' node node' hl hf hp]
  · simp only [if_neg hm]
    exact childWrites_fst_congr g g' node node' hl hf hc

theorem frameOf_refl {K : Type} [LinearOrderedField K] (mode : Int) (g : Graph K) :
    FrameOf mode g g :=
  ⟨rfl, rfl, rfl, rfl, rfl, fun _ => ⟨rfl, rfl, rfl, rfl, rfl, fun _ _ => rfl⟩⟩

/-- In a graph with the frame of `g0`, the encoded vector of a node is obtained
from its vector in `g0` by the writes of the current positions. -/
theorem encPoints_frame {K : Type} [LinearOrderedField K] (mode : Int) (g0 g : Graph K)
    (hfr : FrameOf mode g0 g) (v : Nat) :
    encPoints mode g v
      = applyWrites (stateWrites mode g (nodeAt g0.nodes v)) (nodeAt g0.nodes v).points := by
  obtain ⟨hl, hf, _, _, _, hnode⟩ := hfr
  obtain ⟨hc, hp, _, _, hplen, hout⟩ := hnode v
  unfold encPoints
  have hws : stateWrites mode g (nodeAt g.nodes v) = stateWrites mode g (nodeAt g0.nodes v) :=
    stateWrites_congr mode g g _ _ rfl rfl hc hp (fun _ => ⟨rfl, rfl⟩)
  rw [hws]
  apply applyWrites_absorb _ _ _ hplen
  intro j hj
  apply hout j
  rw [← stateWrites_fst_congr mode g0 g (nodeAt g0.nodes v) (nodeAt g0.nodes v) hl hf rfl rfl]
  exact hj

theorem frameOf_roundGraph {K : Type} [LinearOrderedField K] (map : Map K) (mode : Int)
    (g0 g : Graph K) (hfr : FrameOf mode g0 g) : FrameOf mode g0 (roundGraph map mode g) := by
  have henc := encPoints_frame mode g0 g hfr
  obtain ⟨hl, hf, hd, hdp, hlen, hnode⟩ := hfr
  refine ⟨hl, hf, hd, hdp, by rw [length_roundGraph]; exact hlen, fun v => ?_⟩
  by_cases hv : v < g.nodes.length
  · rw [nodeAt_roundGraph map mode g v hv]
    obtain ⟨hc, hp, hmu, hdv, _, _⟩ := hnode v
    refine ⟨hc, hp, hmu, hdv, ?_, ?_⟩
    · show (encPoints mode g v).length = _
      rw [henc v, applyWrites_length]
    · intro j hj
      show (encPoints mode g v)[j]? = _
      rw [henc v]
      apply applyWrites_outside
      rw [stateWrites_fst_congr mode g0 g (nodeAt g0.nodes v) (nodeAt g0.nodes v) hl hf rfl rfl]
      exact hj
  · have h1 : nodeAt (roundGraph map mode g).nodes v = emptyNode :=
      nodeAt_of_length_le _ _ (by rw [length_roundGraph]; omega)
    have h2 : nodeAt g.nodes v = emptyNode := nodeAt_of_length_le _ _ (by omega)
    rw [h1, ← h2]
    exact hnode v

theorem frameOf_roundIter {K : Type} [LinearOrderedField K] (map : Map K) (mode : Int)
    (g0 : Graph K) (r : Nat) : FrameOf mode g0 (roundIter map mode r g0) := by
  induction r with
  | zero => exact frameOf_refl mode g0
  | succ r ih => exact frameOf_roundGraph map mode g0 _ ih

theorem roundWinner_frame_congr {K : Type} [LinearOrderedField K] (map : Map K) (mode : Int)
    (g0 g g' : Graph K) (hfr : FrameOf mode g0 g) (hfr' : FrameOf mode g0 g') (v : Nat)
    (hws : stateWrites mode g' (nodeAt g0.nodes v) = stateWrites mode g (nodeAt g0.nodes v)) :
    roundWinner map mode g' v = roundWinner map mode g v := by
  unfold roundWinner
  apply FindWinnerEucledian_congr
  · show encPoints mode g' v = encPoints mode g v
    rw [encPoints_frame mode g0 g hfr v, encPoints_frame mode g0 g' hfr' v, hws]
  · show (nodeAt g'.nodes v).mu = (nodeAt g.nodes v).mu
    rw [(hfr'.2.2.2.2.2 v).2.2.1, (hfr.2.2.2.2.2 v).2.2.1]
  · rw [hfr'.2.2.1, hfr.2.2.1]

theorem depth_child_lt {K : Type} (g : Graph K) (d : Nat → Nat)
    (hd : IsLongestPathDepth g d) (c v : Nat) (hcv : IsChild g c v) : d c < d v := by
  have h := hd v hcv.1
  have hne : liveChildren (nodeAt g.nodes v) g.FanOut ≠ [] := fun h0 => by
    have := hcv.2; rw [h0] at this; cases this
  rw [if_neg hne] at h
  have := foldl_max_ge_mem d _ 0 c hcv.2
  unfold maxOver at h
  omega

/-- In children-only mode the winner of a node of depth `d` is the same in
every round after round `d`. -/
theorem roundWinner_stable {K : Type} [LinearOrderedField K] (map : Map K) (mode : Int)
    (hmode : mode ≠ 1) (g0 : Graph K) (hwl : WellLinked g0)
    (hd : IsLongestPathDepth g0 (depthOf g0)) :
    ∀ h v, v < g0.nodes.length → depthOf g0 v ≤ h → ∀ r, depthOf g0 v ≤ r →
      roundWinner map mode (roundIter map mode (r + 1) g0) v
        = roundWinner map mode (roundIter map mode r g0) v := by
  intro h
  induction h with
  | zero =>
    intro v hv hdv r _
    apply roundWinner_frame_congr map mode g0 _ _ (frameOf_roundIter map mode g0 r)
      (frameOf_roundIter map mode g0 (r + 1))
    unfold stateWrites
    rw [if_neg hmode, if_neg hmode]
    apply childWrites_congr
    · rw [(frameOf_roundIter map mode g0 (r + 1)).1, (frameOf_roundIter map mode g0 r).1]
    · rw [(frameOf_roundIter map mode g0 (r + 1)).2.1, (frameOf_roundIter map mode g0 r).2.1]
    · rfl
    · intro c hc
      exfalso
      rw [(frameOf_roundIter map mode g0 r).2.1] at hc
      have := depth_child_lt g0 _ hd c v ⟨hv, hc⟩
      omega
  | succ h ih =>
    intro v hv hdv r hr
    apply roundWinner_frame_congr map mode g0 _ _ (frameOf_roundIter map mode g0 r)
      (frameOf_roundIter map mode g0 (r + 1))
    unfold stateWrites
    rw [if_neg hmode, if_neg hmode]
    apply childWrites_congr
    · rw [(frameOf_roundIter map mode g0 (r + 1)).1, (frameOf_roundIter map mode g0 r).1]
    · rw [(frameOf_roundIter map mode g0 (r + 1)).2.1, (frameOf_roundIter map mode g0 r).2.1]
    · rfl
    · intro c hc
      rw [(frameOf_roundIter map mode g0 r).2.1] at hc
      have hcv : IsChild g0 c v := ⟨hv, hc⟩
      have hlt := depth_child_lt g0 _ hd c v hcv
      have hcN := hwl c v hcv
      obtain ⟨r', rfl⟩ : ∃ r', r = r' + 1 := ⟨r - 1, by omega⟩
      have hw := ih c hcN (by omega) r' (by omega)
      have hlen1 : c < (roundIter map mode (r' + 1) g0).nodes.length := by
        rw [(frameOf_roundIter map mode g0 (r' + 1)).2.2.2.2.1]; exact hcN
      have hlen0 : c < (roundIter map mode r' g0).nodes.length := by
        rw [(frameOf_roundIter map mode g0 r').2.2.2.2.1]; exact hcN
      have e1 : nodeAt (roundIter map mode (r' + 1 + 1) g0).nodes c
          = roundNode map mode (roundIter map mode (r' + 1) g0) c :=
        nodeAt_roundGraph map mode _ c hlen1
      have e0 : nodeAt (roundIter map mode (r' + 1) g0).nodes c
          = roundNode map mode (roundIter map mode r' g0) c :=
        nodeAt_roundGraph map mode _ c hlen0
      rw [e1, e0]
      constructor <;> simp only [roundNode, hw]

theorem kStepRounds_gptr {K : Type} [LinearOrderedField K] (map : Map K) (mode : Int)
    (st : RoundState K) (hx : st.gptr.nodes.length ≤ st.xstates.length)
    (hy : st.gptr.nodes.length ≤ st.ystates.length) (r : Nat)
    (hfind : ∀ j, j < r → RoundFinds map mode (kStepRounds map mode j st).gptr) :
    (kStepRounds map mode r st).gptr = roundIter map mode r st.gptr := by
  induction r with
  | zero => rfl
  | succ r ih =>
    obtain ⟨hl0, hl1, hl2⟩ := kStepRounds_lengths map mode r st
    rw [kStepRounds_succ]
    rw [(kStepRound_gptr map mode (kStepRounds map mode r st) (by rw [hl0, hl1]; exact hx)
      (by rw [hl0, hl2]; exact hy) (hfind r (Nat.lt_succ_self r))).1]
    rw [ih (fun j hj => hfind j (Nat.lt_succ_of_lt hj))]
    rfl

/-- State of the final pass of `K_Step_Approximation` after `k` turns. -/
theorem kStepFinal_invariant {K : Type} [LinearOrderedField K] (mode : Int) (g : Graph K)
    (k : Nat) (hk : k ≤ g.nodes.length) :
    (List.range k).foldl (UpdateStates mode) g
      = { g with nodes := ((List.range k).foldl (UpdateStates mode) g).nodes } ∧
    ((List.range k).foldl (UpdateStates mode) g).nodes.length = g.nodes.length ∧
    (∀ m, m < k → nodeAt ((List.range k).foldl (UpdateStates mode) g).nodes m
      = { nodeAt g.nodes m with points := encPoints mode g m }) ∧
    (∀ m, k ≤ m → nodeAt ((List.range k).foldl (UpdateStates mode) g).nodes m
      = nodeAt g.nodes m) := by
  induction k with
  | zero => exact ⟨rfl, rfl, fun m hm => by omega, fun m _ => rfl⟩
  | succ k ih =>
    obtain ⟨hhead, hlen, hdone, htodo⟩ := ih (by omega)
    have hkN : k < g.nodes.length := by omega
    simp only [List.range_succ, List.foldl_append, List.foldl_cons, List.foldl_nil]
    generalize (List.range k).foldl (UpdateStates mode) g = s at hhead hlen hdone htodo
    have hldim : s.ldim = g.ldim := by rw [hhead]
    have hfan : s.FanOut = g.FanOut := by rw [hhead]
    have hdimn : s.dimension = g.dimension := by rw [hhead]
    have hfanin : s.FanIn = g.FanIn := by rw [hhead]
    have htdim : s.tdim = g.tdim := by rw [hhead]
    have hdepth : s.depth = g.depth := by rw [hhead]
    have hnodek : nodeAt s.nodes k = nodeAt g.nodes k := htodo k (Nat.le_refl k)
    have hview : ∀ c, (nodeAt s.nodes c).x = (nodeAt g.nodes c).x ∧
        (nodeAt s.nodes c).y = (nodeAt g.nodes c).y := by
      intro c
      rcases Nat.lt_or_ge c k with h | h
      · rw [hdone c h]; exact ⟨rfl, rfl⟩
      · rw [htodo c h]; exact ⟨rfl, rfl⟩
    have henc : encPoints mode s k = encPoints mode g k := by
      unfold encPoints
      rw [hnodek, stateWrites_congr mode g s _ _ hldim hfan rfl rfl hview]
    have hgp : (UpdateStates mode s k).nodes = setPoints s.nodes k (encPoints mode g k) := by
      rw [UpdateStates_eq, henc]
    refine ⟨?_, ?_, ?_, ?_⟩
    · rw [UpdateStates_eq]
      simp only [Graph.mk.injEq, true_and]
      exact ⟨hldim, hdimn, hfan, hfanin, htdim, hdepth⟩
    · rw [hgp]
      simp only [setPoints, List.length_set]
      exact hlen
    · intro m hm
      rw [hgp]
      unfold setPoints
      rcases Nat.eq_or_lt_of_le (Nat.le_of_lt_succ hm) with h | h
      · subst h
        rw [nodeAt_set, if_pos ⟨rfl, by rw [hlen]; exact hkN⟩, hnodek]
      · rw [nodeAt_set, if_neg (fun hh => by omega)]
        exact hdone m h
    · intro m hm
      rw [hgp]
      unfold setPoints
      rw [nodeAt_set, if_neg (fun hh => by omega)]
      exact htodo m (by omega)

theorem kStepFinal_eq {K : Type} [LinearOrderedField K] (mode : Int) (g : Graph K) :
    kStepFinal mode g = encGraph mode g := by
  obtain ⟨hhead, hlen, hdone, _⟩ := kStepFinal_invariant mode g g.nodes.length (Nat.le_refl _)
  unfold kStepFinal
  rw [hhead]
  have hnodes : ((List.range g.nodes.length).foldl (UpdateStates mode) g).nodes
      = (List.range g.nodes.length).map
          (fun v => { nodeAt g.nodes v with points := encPoints mode g v }) := by
    apply list_ext_nodeAt
    · rw [hlen]; simp
    · intro m hm
      rw [hlen] at hm
      rw [hdone m hm, nodeAt_map_range _ _ _ hm]
  rw [hnodes]
  rfl

theorem nodeAt_encGraph {K : Type} [LinearOrderedField K] (mode : Int) (g : Graph K) (m : Nat)
    (hm : m < g.nodes.length) :
    nodeAt (encGraph mode g).nodes m = { nodeAt g.nodes m with points := encPoints mode g m } :=
  nodeAt_map_range _ _ _ hm

theorem length_encGraph {K : Type} [LinearOrderedField K] (mode : Int) (g : Graph K) :
    (encGraph mode g).nodes.length = g.nodes.length := by
  simp [encGraph]

theorem positions_encGraph {K : Type} [LinearOrderedField K] (mode : Int) (g : Graph K)
    (c : Nat) :
    (nodeAt (encGraph mode g).nodes c).x = (nodeAt g.nodes c).x ∧
    (nodeAt (encGraph mode g).nodes c).y = (nodeAt g.nodes c).y := by
  by_cases hc : c < g.nodes.length
  · rw [nodeAt_encGraph mode g c hc]; exact ⟨rfl, rfl⟩
  · rw [nodeAt_of_length_le _ _ (by rw [length_encGraph]; omega),
      nodeAt_of_length_le _ _ (Nat.le_of_not_lt hc)]
    exact ⟨rfl, rfl⟩

theorem nodePositions_encGraph {K : Type} [LinearOrderedField K] (mode : Int) (g : Graph K) :
    nodePositions (encGraph mode g) = nodePositions g := by
  unfold nodePositions
  apply List.ext_getElem
  · simp [encGraph]
  · intro m h1 h2
    have hm : m < g.nodes.length := by simpa using h2
    have := positions_encGraph mode g m
    simp only [nodeAt, List.getD_eq_getElem?_getD] at this
    rw [List.getElem?_eq_getElem (by rw [length_encGraph]; exact hm),
      List.getElem?_eq_getElem hm] at this
    simp only [Option.getD_some] at this
    simp only [List.getElem_map, Prod.mk.injEq]
    exact this

theorem frameOf_encGraph {K : Type} [LinearOrderedField K] (mode : Int) (g0 g : Graph K)
    (hfr : FrameOf mode g0 g) : FrameOf mode g0 (encGraph mode g) := by
  have henc := encPoints_frame mode g0 g hfr
  obtain ⟨hl, hf, hd, hdp, hlen, hnode⟩ := hfr
  refine ⟨hl, hf, hd, hdp, by rw [length_encGraph]; exact hlen, fun v => ?_⟩
  by_cases hv : v < g.nodes.length
  · rw [nodeAt_encGraph mode g v hv]
    obtain ⟨hc, hp, hmu, hdv, _, _⟩ := hnode v
    refine ⟨hc, hp, hmu, hdv, ?_, ?_⟩
    · show (encPoints mode g v).length = _
      rw [henc v, applyWrites_length]
    · intro j hj
      show (encPoints mode g v)[j]? = _
      rw [henc v]
      apply applyWrites_outside
      rw [stateWrites_fst_congr mode g0 g (nodeAt g0.nodes v) (nodeAt g0.nodes v) hl hf rfl rfl]
      exact hj
  · have h1 : nodeAt (encGraph mode g).nodes v = emptyNode :=
      nodeAt_of_length_le _ _ (by rw [length_encGraph]; omega)
    have h2 : nodeAt g.nodes v = emptyNode := nodeAt_of_length_le _ _ (by omega)
    rw [h1, ← h2]
    exact hnode v

theorem roundWinner_encGraph {K : Type} [LinearOrderedField K] (map : Map K) (mode : Int)
    (g0 g : Graph K) (hfr : FrameOf mode g0 g) (v : Nat) :
    roundWinner map mode (encGraph mode g) v = roundWinner map mode g v := by
  apply roundWinner_frame_congr map mode g0 g (encGraph mode g) hfr
    (frameOf_encGraph mode g0 g hfr) v
  exact stateWrites_congr mode g (encGraph mode g) _ _ rfl rfl rfl rfl
    (positions_encGraph mode g)

/-- The vectors left by the final pass are already encoded with the positions
of the graph. -/
theorem encPoints_encGraph {K : Type} [LinearOrderedField K] (mode : Int) (g : Graph K)
    (v : Nat) (hv : v < g.nodes.length) :
    encPoints mode (encGraph mode g) v = (nodeAt (encGraph mode g).nodes v).points := by
  have hws : stateWrites mode (encGraph mode g) (nodeAt (encGraph mode g).nodes v)
      = stateWrites mode g (nodeAt g.nodes v) := by
    apply stateWrites_congr mode g (encGraph mode g) _ _ rfl rfl
    · rw [nodeAt_encGraph mode g v hv]
    · rw [nodeAt_encGraph mode g v hv]
    · exact positions_encGraph mode g
  have hp : (nodeAt (encGraph mode g).nodes v).points = encPoints mode g v := by
    rw [nodeAt_encGraph mode g v hv]
  unfold encPoints at hp ⊢
  rw [hws, hp]
  apply applyWrites_absorb
  · exact applyWrites_length _ _
  · intro j hj
    exact applyWrites_outside _ _ j hj

theorem roundWinner_eq_search {K : Type} [LinearOrderedField K] (map : Map K) (mode : Int)
    (g : Graph K) (v : Nat) (hv : v < g.nodes.length) (w : Winner K)
    (hfind : (roundWinner map mode (encGraph mode g) v).diff < FLT_MAX) :
    FindWinnerEucledian map (nodeAt (encGraph mode g).nodes v) (encGraph mode g) w
      = { codeno := (roundWinner map mode (encGraph mode g) v).codeno,
          diff := (roundWinner map mode (encGraph mode g) v).diff } := by
  have hc : roundWinner map mode (encGraph mode g) v
      = FindWinnerEucledian map (nodeAt (encGraph mode g).nodes v) (encGraph mode g)
          { codeno := 0, diff := 0 } := by
    unfold roundWinner
    apply FindWinnerEucledian_congr
    · exact encPoints_encGraph mode g v hv
    · rfl
    · rfl
  rw [hc] at hfind ⊢
  have h1 := FindWinnerEucledian_diff_indep map (nodeAt (encGraph mode g).nodes v)
    (encGraph mode g) w { codeno := 0, diff := 0 }
  have h2 := FindWinnerEucledian_codeno_indep map (nodeAt (encGraph mode g).nodes v)
    (encGraph mode g) w { codeno := 0, diff := 0 } (by rw [h1]; exact hfind)
  rw [← h1, ← h2]

/-- Children-only mode, when every winner search finds a codebook.  On a graph
whose node depths are the longest-path depths and whose depth field `D` bounds
them, in the graph left by `K_Step_Approximation` (the `D + 1` rounds and the
final pass) the position of every node is the cell of the winner of its stored
vector, that vector is the one encoded with the final positions, and one
further round changes no position. -/
theorem kStep_children_only_converges {K : Type} [LinearOrderedField K] (map : Map K)
    (mode : Int) (hmode : mode ≠ 1) (st : RoundState K)
    (hx : st.gptr.nodes.length ≤ st.xstates.length)
    (hy : st.gptr.nodes.length ≤ st.ystates.length)
    (hwl : WellLinked st.gptr) (hd : IsLongestPathDepth st.gptr (depthOf st.gptr))
    (hD : ∀ v, v < st.gptr.nodes.length → depthOf st.gptr v ≤ st.gptr.depth)
    (hfind : ∀ j, j ≤ st.gptr.depth + 1 →
      RoundFinds map mode (kStepRounds map mode j st).gptr) :
    (∀ v, v < st.gptr.nodes.length → ∀ w : Winner K,
      (nodeAt (kStepGraph map mode st).gptr.nodes v).x
        = (codeAt map (FindWinnerEucledian map (nodeAt (kStepGraph map mode st).gptr.nodes v)
            (kStepGraph map mode st).gptr w).codeno).x ∧
      (nodeAt (kStepGraph map mode st).gptr.nodes v).y
        = (codeAt map (FindWinnerEucledian map (nodeAt (kStepGraph map mode st).gptr.nodes v)
            (kStepGraph map mode st).gptr w).codeno).y ∧
      encPoints mode (kStepGraph map mode st).gptr v
        = (nodeAt (kStepGraph map mode st).gptr.nodes v).points) ∧
    nodePositions (kStepRound map mode (kStepGraph map mode st)).gptr
      = nodePositions (kStepGraph map mode st).gptr := by
  have hg1 : (kStepRounds map mode (st.gptr.depth + 1) st).gptr
      = roundIter map mode (st.gptr.depth + 1) st.gptr :=
    kStepRounds_gptr map mode st hx hy _ (fun j hj => hfind j (by omega))
  obtain ⟨_, hxl, hyl⟩ := kStepRounds_lengths map mode (st.gptr.depth + 1) st
  have hfr1 := frameOf_roundIter map mode st.gptr (st.gptr.depth + 1)
  have hfrD := frameOf_roundIter map mode st.gptr st.gptr.depth
  have hlen1 : (roundIter map mode (st.gptr.depth + 1) st.gptr).nodes.length
      = st.gptr.nodes.length := hfr1.2.2.2.2.1
  have hlenD : (roundIter map mode st.gptr.depth st.gptr).nodes.length
      = st.gptr.nodes.length := hfrD.2.2.2.2.1
  have hG : (kStepGraph map mode st).gptr
      = encGraph mode (roundIter map mode (st.gptr.depth + 1) st.gptr) := by
    show kStepFinal mode (kStepRounds map mode (st.gptr.depth + 1) st).gptr = _
    rw [kStepFinal_eq, hg1]
  have hGx : (kStepGraph map mode st).xstates
      = (kStepRounds map mode (st.gptr.depth + 1) st).xstates := rfl
  have hGy : (kStepGraph map mode st).ystates
      = (kStepRounds map mode (st.gptr.depth + 1) st).ystates := rfl
  have hwinG : ∀ v, roundWinner map mode
      (encGraph mode (roundIter map mode (st.gptr.depth + 1) st.gptr)) v
        = roundWinner map mode (roundIter map mode (st.gptr.depth + 1) st.gptr) v :=
    fun v => roundWinner_encGraph map mode st.gptr _ hfr1 v
  have hwinD : ∀ v, v < st.gptr.nodes.length →
      roundWinner map mode (roundIter map mode (st.gptr.depth + 1) st.gptr) v
        = roundWinner map mode (roundIter map mode st.gptr.depth st.gptr) v :=
    fun v hv => roundWinner_stable map mode hmode st.gptr hwl hd (depthOf st.gptr v) v hv
      (Nat.le_refl _) st.gptr.depth (hD v hv)
  have hfindG : RoundFinds map mode
      (encGraph mode (roundIter map mode (st.gptr.depth + 1) st.gptr)) := by
    intro n hn
    rw [hwinG n, ← hg1]
    apply hfind (st.gptr.depth + 1) (Nat.le_refl _) n
    rw [length_encGraph, hlen1] at hn
    rw [hg1, hlen1]; exact hn
  constructor
  · intro v hv w
    rw [hG]
    have hs := roundWinner_eq_search map mode _ v (by rw [hlen1]; exact hv) w
      (hfindG v (by rw [length_encGraph, hlen1]; exact hv))
    rw [hs]
    refine ⟨?_, ?_, encPoints_encGraph mode _ v (by rw [hlen1]; exact hv)⟩
    · rw [(positions_encGraph mode _ v).1, hwinG v, hwinD v hv]
      show (nodeAt (roundGraph map mode (roundIter map mode st.gptr.depth st.gptr)).nodes v).x
        = _
      rw [nodeAt_roundGraph map mode _ v (by rw [hlenD]; exact hv)]
      rfl
    · rw [(positions_encGraph mode _ v).2, hwinG v, hwinD v hv]
      show (nodeAt (roundGraph map mode (roundIter map mode st.gptr.depth st.gptr)).nodes v).y
        = _
      rw [nodeAt_roundGraph map mode _ v (by rw [hlenD]; exact hv)]
      rfl
  · have hround := (kStepRound_gptr map mode (kStepGraph map mode st)
      (by rw [hG, length_encGraph, hlen1, hGx, hxl]; exact hx)
      (by rw [hG, length_encGraph, hlen1, hGy, hyl]; exact hy)
      (by rw [hG]; exact hfindG)).1
    rw [hround, hG, nodePositions_roundGraph, nodePositions_encGraph, length_encGraph, hlen1]
    show _ = nodePositions (roundGraph map mode (roundIter map mode st.gptr.depth st.gptr))
    rw [nodePositions_roundGraph, hlenD]
    apply List.map_congr_left
    intro m hm
    rw [hwinG m, hwinD m (List.mem_range.1 hm)]

/-! ## The depth field of the graph after the recursive routine and the reverse trace -/

/-- On the graphs of C2, `SetNodeDepthRecursively` stores the largest node depth
in the depth field of the graph. -/
theorem SetNodeDepthRecursively_graph_depth {K : Type} (g : Graph K)
    (hn : 1 < g.nodes.length) (hac : Acyclic g) (hwl : WellLinked g) (h0 : DepthsZero g) :
    (∀ v, v < g.nodes.length →
      depthOf (SetNodeDepthRecursively g) v ≤ (SetNodeDepthRecursively g).depth) ∧
    ∃ v, v < g.nodes.length ∧
      (SetNodeDepthRecursively g).depth = depthOf (SetNodeDepthRecursively g) v := by
  obtain ⟨H, hH⟩ := exists_height_fix g hac hwl
  obtain ⟨_, _, hdone, _, _, hge, hat⟩ :=
    recLoop_invariant g H hH hwl h0 g.nodes.length (Nat.le_refl _)
  have hgt : ¬ g.nodes.length ≤ 1 := by omega
  simp only [depthOf, SetNodeDepthRecursively, SetNodeDepthRecursivelyT, if_neg hgt]
  refine ⟨fun v hv => by rw [hdone v hv]; exact hge v hv, ?_⟩
  rcases hat with h | ⟨v, hv, h⟩
  · refine ⟨0, by omega, ?_⟩
    have := hge 0 (by omega)
    rw [hdone 0 (by omega)]
    omega
  · exact ⟨v, hv, by rw [hdone v hv]; exact h⟩

/-- On the graphs of C3 that have a node, `SetNodeDepth_UsingReverseTrace` stores
the largest node depth plus one in the depth field of the graph. -/
theorem SetNodeDepth_UsingReverseTrace_graph_depth {K : Type} (g : Graph K)
    (hne : 0 < g.nodes.length) (hac : Acyclic g) (hwl : WellLinked g)
    (hpc : ParentsConsistent g) (h0 : DepthsZero g) (fuel : Nat)
    (hfuel : g.nodes.length < fuel) :
    ∃ g2, SetNodeDepth_UsingReverseTrace fuel g = some g2 ∧
      (∀ v, v < g.nodes.length → depthOf g2 v + 1 ≤ g2.depth) ∧
      ∃ v, v < g.nodes.length ∧ g2.depth = depthOf g2 v + 1 := by
  obtain ⟨H, hH⟩ := exists_height_fix g hac hwl
  obtain ⟨r, hr, _, _, hdep, hnil, hnonnil⟩ :=
    traceLoop_spec g hwl hpc H hH fuel 0 g.nodes (by omega) (by omega) rfl
      (fun v => ⟨rfl, rfl⟩) (fun v hv hHv => by rw [h0 v hv]; omega)
      (fun j hj => by omega)
  have hbelow : ∀ v, v < g.nodes.length → H v + 1 ≤ r.2 - 1 := by
    intro v hv
    by_contra hcon
    have hmem := levelOf_height g hwl hpc H hH (H v) v hv rfl
    rw [levelOf_nil_of_le g (r.2 - 1) hnil (H v) (by omega)] at hmem
    cases hmem
  refine ⟨{ g with nodes := r.1, depth := r.2 - 1 }, ?_, ?_, ?_⟩
  · unfold SetNodeDepth_UsingReverseTrace
    have : traceLoop fuel g.nodes (leafLevel g) 1 = some r := hr
    rw [this]
  · intro v hv
    show (nodeAt r.1 v).depth + 1 ≤ r.2 - 1
    rw [hdep v hv]
    exact hbelow v hv
  · have h1 := hbelow 0 hne
    have hlev : levelOf g (r.2 - 1 - 1) ≠ [] := hnonnil (r.2 - 1 - 1) (by omega)
    obtain ⟨u, hu⟩ := List.exists_mem_of_ne_nil _ hlev
    obtain ⟨huN, hku⟩ := mem_levelOf g hpc H hH _ u hu
    refine ⟨u, huN, ?_⟩
    show r.2 - 1 = (nodeAt r.1 u).depth + 1
    rw [hdep u huN]
    have := hbelow u huN
    omega

/-! ## Independence of the order of the node array -/

theorem childAt_relabelNode {K : Type} (τ : Nat → Nat) (nd : Node K) (k : Nat) :
    childAt (relabelNode τ nd) k = (childAt nd k).map τ := by
  simp only [childAt, relabelNode, List.getD_eq_getElem?_getD, List.getElem?_map]
  cases nd.children[k]? <;> rfl

theorem parents_getD_relabelNode {K : Type} (τ : Nat → Nat) (nd : Node K) (k : Nat)
    (hk : k < nd.parents.length) :
    (relabelNode τ nd).parents.getD k 0 = τ (nd.parents.getD k 0) := by
  simp only [relabelNode, List.getD_eq_getElem?_getD, List.getElem?_map,
    List.getElem?_eq_getElem hk]
  rfl

theorem stateWrites_reordered {K : Type} [LinearOrderedField K] (mode : Int) (σ τ : Nat → Nat)
    (g g2 : Graph K) (hre : Reordered σ τ g g2) (hpv : PointersValid g) (v : Nat)
    (hv : v < g.nodes.length) :
    stateWrites mode g2 (relabelNode τ (nodeAt g.nodes v))
      = stateWrites mode g (nodeAt g.nodes v) := by
  obtain ⟨hl, hf, _, _, _, _, hτ, hnode⟩ := hre
  have hpos : ∀ c, c < g.nodes.length →
      (nodeAt g2.nodes (τ c)).x = (nodeAt g.nodes c).x ∧
      (nodeAt g2.nodes (τ c)).y = (nodeAt g.nodes c).y := by
    intro c hc
    rw [hnode (τ c) (hτ c hc).1, (hτ c hc).2]
    exact ⟨rfl, rfl⟩
  have hch : childWrites g2 (relabelNode τ (nodeAt g.nodes v))
      = childWrites g (nodeAt g.nodes v) := by
    unfold childWrites
    rw [hl, hf]
    apply List.flatMap_congr
    intro k hk
    rw [childAt_relabelNode]
    cases hc : childAt (nodeAt g.nodes v) k with
    | none => rfl
    | some c =>
      have hmem : c ∈ liveChildren (nodeAt g.nodes v) g.FanOut := by
        unfold liveChildren
        exact List.mem_filterMap.2 ⟨k, hk, hc⟩
      have hcN := (hpv v hv).1 c hmem
      simp only [Option.map_some', (hpos c hcN).1, (hpos c hcN).2]
  have hpa : parentWrites g2 (relabelNode τ (nodeAt g.nodes v))
      = parentWrites g (nodeAt g.nodes v) := by
    unfold parentWrites
    have hlenp : (relabelNode τ (nodeAt g.nodes v)).parents.length
        = (nodeAt g.nodes v).parents.length := by simp [relabelNode]
    rw [hl, hf, hlenp]
    apply List.flatMap_congr
    intro k hk
    have hk2 : k < (nodeAt g.nodes v).parents.length := List.mem_range.1 hk
    rw [parents_getD_relabelNode τ _ k hk2]
    have hmem : (nodeAt g.nodes v).parents.getD k 0 ∈ (nodeAt g.nodes v).parents := by
      rw [List.getD_eq_getElem?_getD, List.getElem?_eq_getElem hk2]
      exact List.getElem_mem hk2
    have hpN := (hpv v hv).2 _ hmem
    simp only [(hpos _ hpN).1, (hpos _ hpN).2]
  unfold stateWrites
  rw [hch, hpa]

theorem encPoints_reordered {K : Type} [LinearOrderedField K] (mode : Int) (σ τ : Nat → Nat)
    (g g2 : Graph K) (hre : Reordered σ τ g g2) (hpv : PointersValid g) (i : Nat)
    (hi : i < g.nodes.length) :
    encPoints mode g2 i = encPoints mode g (σ i) := by
  have hσ := (hre.2.2.2.2.2.1 i hi).1
  unfold encPoints
  rw [hre.2.2.2.2.2.2.2 i hi, stateWrites_reordered mode σ τ g g2 hre hpv (σ i) hσ]
  rfl

theorem roundWinner_reordered {K : Type} [LinearOrderedField K] (map : Map K) (mode : Int)
    (σ τ : Nat → Nat) (g g2 : Graph K) (hre : Reordered σ τ g g2) (hpv : PointersValid g)
    (i : Nat) (hi : i < g.nodes.length) :
    roundWinner map mode g2 i = roundWinner map mode g (σ i) := by
  unfold roundWinner
  apply FindWinnerEucledian_congr
  · exact encPoints_reordered mode σ τ g g2 hre hpv i hi
  · show (nodeAt g2.nodes i).mu = (nodeAt g.nodes (σ i)).mu
    rw [hre.2.2.2.2.2.2.2 i hi]
    rfl
  · exact hre.2.2.1

theorem pointersValid_of_links {K : Type} (g g2 : Graph K) (hpv : PointersValid g)
    (hlen : g2.nodes.length = g.nodes.length) (hf : g2.FanOut = g.FanOut)
    (hlinks : ∀ v, (nodeAt g2.nodes v).children = (nodeAt g.nodes v).children ∧
      (nodeAt g2.nodes v).parents = (nodeAt g.nodes v).parents) : PointersValid g2 := by
  intro v hv
  rw [hlen] at hv ⊢
  rw [hf, liveChildren_congr _ _ _ (hlinks v).1, (hlinks v).2]
  exact hpv v hv

theorem reordered_roundGraph {K : Type} [LinearOrderedField K] (map : Map K) (mode : Int)
    (σ τ : Nat → Nat) (g g2 : Graph K) (hre : Reordered σ τ g g2) (hpv : PointersValid g) :
    Reordered σ τ (roundGraph map mode g) (roundGraph map mode g2) := by
  have hw := roundWinner_reordered map mode σ τ g g2 hre hpv
  have he := encPoints_reordered mode σ τ g g2 hre hpv
  obtain ⟨hl, hf, hd, hdp, hlen, hσ, hτ, hnode⟩ := hre
  refine ⟨hl, hf, hd, hdp, ?_, ?_, ?_, ?_⟩
  · rw [length_roundGraph, length_roundGraph]; exact hlen
  · rw [length_roundGraph]; exact hσ
  · rw [length_roundGraph]; exact hτ
  · rw [length_roundGraph]
    intro i hi
    rw [nodeAt_roundGraph map mode g2 i (by rw [hlen]; exact hi),
      nodeAt_roundGraph map mode g (σ i) (hσ i hi).1]
    unfold roundNode
    rw [hw i hi, he i hi, hnode i hi]
    rfl

theorem reordered_encGraph {K : Type} [LinearOrderedField K] (mode : Int)
    (σ τ : Nat → Nat) (g g2 : Graph K) (hre : Reordered σ τ g g2) (hpv : PointersValid g) :
    Reordered σ τ (encGraph mode g) (encGraph mode g2) := by
  have he := encPoints_reordered mode σ τ g g2 hre hpv
  obtain ⟨hl, hf, hd, hdp, hlen, hσ, hτ, hnode⟩ := hre
  refine ⟨hl, hf, hd, hdp, ?_, ?_, ?_, ?_⟩
  · rw [length_encGraph, length_encGraph]; exact hlen
  · rw [length_encGraph]; exact hσ
  · rw [length_encGraph]; exact hτ
  · rw [length_encGraph]
    intro i hi
    rw [nodeAt_encGraph mode g2 i (by rw [hlen]; exact hi),
      nodeAt_encGraph mode g (σ i) (hσ i hi).1, he i hi, hnode i hi]
    rfl

theorem pointersValid_roundIter {K : Type} [LinearOrderedField K] (map : Map K) (mode : Int)
    (g : Graph K) (hpv : PointersValid g) (r : Nat) :
    PointersValid (roundIter map mode r g) := by
  have hfr := frameOf_roundIter map mode g r
  exact pointersValid_of_links g _ hpv hfr.2.2.2.2.1 hfr.2.1
    (fun v => ⟨(hfr.2.2.2.2.2 v).1, (hfr.2.2.2.2.2 v).2.1⟩)

theorem reordered_roundIter {K : Type} [LinearOrderedField K] (map : Map K) (mode : Int)
    (σ τ : Nat → Nat) (g g2 : Graph K) (hre : Reordered σ τ g g2) (hpv : PointersValid g)
    (r : Nat) : Reordered σ τ (roundIter map mode r g) (roundIter map mode r g2) := by
  induction r with
  | zero => exact hre
  | succ r ih =>
    exact reordered_roundGraph map mode σ τ _ _ ih (pointersValid_roundIter map mode g hpv r)

theorem roundFinds_reordered {K : Type} [LinearOrderedField K] (map : Map K) (mode : Int)
    (σ τ : Nat → Nat) (g g2 : Graph K) (hre : Reordered σ τ g g2) (hpv : PointersValid g)
    (hfind : RoundFinds map mode g) : RoundFinds map mode g2 := by
  intro i hi
  rw [hre.2.2.2.2.1] at hi
  rw [roundWinner_reordered map mode σ τ g g2 hre hpv i hi]
  exact hfind (σ i) (hre.2.2.2.2.2.1 i hi).1

theorem roundFinds_roundIter {K : Type} [LinearOrderedField K] (map : Map K) (mode : Int)
    (st : RoundState K) (hx : st.gptr.nodes.length ≤ st.xstates.length)
    (hy : st.gptr.nodes.length ≤ st.ystates.length) (r : Nat)
    (hfind : ∀ j, j < r → RoundFinds map mode (kStepRounds map mode j st).gptr) :
    ∀ j, j < r → RoundFinds map mode (roundIter map mode j st.gptr) := by
  intro j hj
  rw [← kStepRounds_gptr map mode st hx hy j (fun i hi => hfind i (by omega))]
  exact hfind j hj

theorem kStepRounds_gptr_of_roundIter {K : Type} [LinearOrderedField K] (map : Map K)
    (mode : Int) (st : RoundState K) (hx : st.gptr.nodes.length ≤ st.xstates.length)
    (hy : st.gptr.nodes.length ≤ st.ystates.length) (r : Nat)
    (hfind : ∀ j, j < r → RoundFinds map mode (roundIter map mode j st.gptr)) :
    (kStepRounds map mode r st).gptr = roundIter map mode r st.gptr := by
  induction r with
  | zero => rfl
  | succ r ih =>
    have ihr := ih (fun j hj => hfind j (Nat.lt_succ_of_lt hj))
    obtain ⟨hl0, hl1, hl2⟩ := kStepRounds_lengths map mode r st
    rw [kStepRounds_succ]
    rw [(kStepRound_gptr map mode (kStepRounds map mode r st) (by rw [hl0, hl1]; exact hx)
      (by rw [hl0, hl2]; exact hy) (by rw [ihr]; exact hfind r (Nat.lt_succ_self r))).1, ihr]
    rfl

/-- When every winner search of the `D + 1` rounds finds a codebook, the graph
left by `K_Step_Approximation` on a reordered node array is the reordering of
the graph left on the original array: entry `i` of the one has the position of
node `σ i` of the other. -/
theorem kStep_order_independent {K : Type} [LinearOrderedField K] (map : Map K)
    (mode : Int) (σ τ : Nat → Nat) (st st2 : RoundState K)
    (hre : Reordered σ τ st.gptr st2.gptr) (hpv : PointersValid st.gptr)
    (hx : st.gptr.nodes.length ≤ st.xstates.length)
    (hy : st.gptr.nodes.length ≤ st.ystates.length)
    (hx2 : st2.gptr.nodes.length ≤ st2.xstates.length)
    (hy2 : st2.gptr.nodes.length ≤ st2.ystates.length)
    (hfind : ∀ j, j ≤ st.gptr.depth →
      RoundFinds map mode (kStepRounds map mode j st).gptr) :
    Reordered σ τ (kStepGraph map mode st).gptr (kStepGraph map mode st2).gptr ∧
    ∀ i, i < st.gptr.nodes.length →
      (nodeAt (kStepGraph map mode st2).gptr.nodes i).x
        = (nodeAt (kStepGraph map mode st).gptr.nodes (σ i)).x ∧
      (nodeAt (kStepGraph map mode st2).gptr.nodes i).y
        = (nodeAt (kStepGraph map mode st).gptr.nodes (σ i)).y := by
  have hpure := roundFinds_roundIter map mode st hx hy (st.gptr.depth + 1)
    (fun j hj => hfind j (by omega))
  have hg : (kStepRounds map mode (st.gptr.depth + 1) st).gptr
      = roundIter map mode (st.gptr.depth + 1) st.gptr :=
    kStepRounds_gptr map mode st hx hy _ (fun j hj => hfind j (by omega))
  have hg2 : (kStepRounds map mode (st.gptr.depth + 1) st2).gptr
      = roundIter map mode (st.gptr.depth + 1) st2.gptr :=
    kStepRounds_gptr_of_roundIter map mode st2 hx2 hy2 _
      (fun j hj => roundFinds_reordered map mode σ τ _ _
        (reordered_roundIter map mode σ τ _ _ hre hpv j)
        (pointersValid_roundIter map mode _ hpv j) (hpure j hj))
  have hG : (kStepGraph map mode st).gptr
      = encGraph mode (roundIter map mode (st.gptr.depth + 1) st.gptr) := by
    show kStepFinal mode (kStepRounds map mode (st.gptr.depth + 1) st).gptr = _
    rw [kStepFinal_eq, hg]
  have hG2 : (kStepGraph map mode st2).gptr
      = encGraph mode (roundIter map mode (st.gptr.depth + 1) st2.gptr) := by
    show kStepFinal mode (kStepRounds map mode (st2.gptr.depth + 1) st2).gptr = _
    rw [hre.2.2.2.1, kStepFinal_eq, hg2]
  have hfinal : Reordered σ τ (kStepGraph map mode st).gptr (kStepGraph map mode st2).gptr := by
    rw [hG, hG2]
    exact reordered_encGraph mode σ τ _ _
      (reordered_roundIter map mode σ τ _ _ hre hpv _)
      (pointersValid_roundIter map mode _ hpv _)
  refine ⟨hfinal, fun i hi => ?_⟩
  have hlenG : (kStepGraph map mode st).gptr.nodes.length = st.gptr.nodes.length := by
    rw [hG, length_encGraph]
    exact (frameOf_roundIter map mode st.gptr _).2.2.2.2.1
  rw [hfinal.2.2.2.2.2.2.2 i (by rw [hlenG]; exact hi)]
  exact ⟨rfl, rfl⟩

/-! ## Concrete instances of the convergence and order theorems -/

theorem kStep_children_only_converges_example :
    (∀ v, v < (roundInit gPair).gptr.nodes.length → ∀ w : Winner ℚ,
      (nodeAt (kStepGraph (mapLine ℚ) 0 (roundInit gPair)).gptr.nodes v).x
        = (codeAt (mapLine ℚ) (FindWinnerEucledian (mapLine ℚ)
            (nodeAt (kStepGraph (mapLine ℚ) 0 (roundInit gPair)).gptr.nodes v)
            (kStepGraph (mapLine ℚ) 0 (roundInit gPair)).gptr w).codeno).x ∧
      (nodeAt (kStepGraph (mapLine ℚ) 0 (roundInit gPair)).gptr.nodes v).y
        = (codeAt (mapLine ℚ) (FindWinnerEucledian (mapLine ℚ)
            (nodeAt (kStepGraph (mapLine ℚ) 0 (roundInit gPair)).gptr.nodes v)
            (kStepGraph (mapLine ℚ) 0 (roundInit gPair)).gptr w).codeno).y ∧
      encPoints 0 (kStepGraph (mapLine ℚ) 0 (roundInit gPair)).gptr v
        = (nodeAt (kStepGraph (mapLine ℚ) 0 (roundInit gPair)).gptr.nodes v).points) ∧
    nodePositions (kStepRound (mapLine ℚ) 0 (kStepGraph (mapLine ℚ) 0 (roundInit gPair))).gptr
      = nodePositions (kStepGraph (mapLine ℚ) 0 (roundInit gPair)).gptr :=
  kStep_children_only_converges (mapLine ℚ) 0 (by decide) (roundInit gPair) (by decide)
    (by decide) (wellLinked_of_rankCheck gPair rankPair (by decide)) (by decide) (by decide)
    (by
      intro j hj
      have hj3 : j < 3 := Nat.lt_succ_of_le hj
      interval_cases j <;> decide!)

theorem gPairRev_reordered : Reordered swap01 swap01 gPair gPairRev := by
  refine ⟨rfl, rfl, rfl, rfl, rfl, ?_, ?_, ?_⟩
  · intro i hi
    have h2 : i < 2 := hi
    interval_cases i <;> decide
  · intro i hi
    have h2 : i < 2 := hi
    interval_cases i <;> decide
  · intro i hi
    have h2 : i < 2 := hi
    interval_cases i <;> rfl

theorem kStep_order_independent_example :
    Reordered swap01 swap01 (kStepGraph (mapLine ℚ) 0 (roundInit gPair)).gptr
      (kStepGraph (mapLine ℚ) 0 (roundInit gPairRev)).gptr ∧
    ∀ i, i < (roundInit gPair).gptr.nodes.length →
      (nodeAt (kStepGraph (mapLine ℚ) 0 (roundInit gPairRev)).gptr.nodes i).x
        = (nodeAt (kStepGraph (mapLine ℚ) 0 (roundInit gPair)).gptr.nodes (swap01 i)).x ∧
      (nodeAt (kStepGraph (mapLine ℚ) 0 (roundInit gPairRev)).gptr.nodes i).y
        = (nodeAt (kStepGraph (mapLine ℚ) 0 (roundInit gPair)).gptr.nodes (swap01 i)).y :=
  kStep_order_independent (mapLine ℚ) 0 swap01 swap01 (roundInit gPair) (roundInit gPairRev)
    gPairRev_reordered (by decide) (by decide) (by decide) (by decide) (by decide)
    (by
      intro j hj
      have hj2 : j < 2 := Nat.lt_succ_of_le hj
      interval_cases j <;> decide!)

/-! ## The recursive routine and the reverse trace agree -/

/-- On an acyclic graph with more than one node, all depths 0 and parent lists
that are the inverse of the child links, `SetNodeDepthRecursively` and
`SetNodeDepth_UsingReverseTrace` give every node the same depth. -/
theorem recursive_eq_reverseTrace {K : Type} (g : Graph K) (hn : 1 < g.nodes.length)
    (hac : Acyclic g) (hwl : WellLinked g) (hpc : ParentsConsistent g) (h0 : DepthsZero g)
    (fuel : Nat) (hfuel : g.nodes.length < fuel) :
    ∃ g2, SetNodeDepth_UsingReverseTrace fuel g = some g2 ∧
      ∀ v, v < g.nodes.length → depthOf g2 v = depthOf (SetNodeDepthRecursively g) v := by
  obtain ⟨H, hH⟩ := exists_height_fix g hac hwl
  obtain ⟨r, hr, _, _, hdep, _, _⟩ :=
    traceLoop_spec g hwl hpc H hH fuel 0 g.nodes (by omega) (by omega) rfl
      (fun v => ⟨rfl, rfl⟩) (fun v hv hHv => by rw [h0 v hv]; omega)
      (fun j hj => by omega)
  obtain ⟨_, _, hdone, _, _, _, _⟩ :=
    recLoop_invariant g H hH hwl h0 g.nodes.length (Nat.le_refl _)
  have hgt : ¬ g.nodes.length ≤ 1 := by omega
  refine ⟨{ g with nodes := r.1, depth := r.2 - 1 }, ?_, fun v hv => ?_⟩
  · unfold SetNodeDepth_UsingReverseTrace
    have : traceLoop fuel g.nodes (leafLevel g) 1 = some r := hr
    rw [this]
  · simp only [depthOf, SetNodeDepthRecursively, SetNodeDepthRecursivelyT, if_neg hgt]
    rw [hdone v hv]
    exact hdep v hv

/-! ## C11: the Gaussian step for a large radius -/

/-- The argument of `expf` in `GaussianAdapt` tends to 0 as the radius grows. -/
theorem gaussArg_tendsto (d : ℝ) :
    Filter.Tendsto (fun radius : ℝ => d / (-2 * radius * radius)) Filter.atTop (nhds 0) := by
  have h0 : Filter.Tendsto (fun r : ℝ => r * r) Filter.atTop Filter.atTop :=
    Filter.tendsto_id.atTop_mul_atTop Filter.tendsto_id
  have h1 : Filter.Tendsto (fun r : ℝ => 2 * (r * r)) Filter.atTop Filter.atTop :=
    h0.const_mul_atTop (by norm_num : (0 : ℝ) < 2)
  have h2 := (tendsto_const_nhds (x := -d)).div_atTop h1
  refine h2.congr (fun r => ?_)
  rw [show (-2 : ℝ) * r * r = -(2 * (r * r)) by ring, div_neg, neg_div]

/-- The step size of `GaussianAdapt` tends to `alpha` as the radius grows. -/
theorem gaussStep_tendsto (d alpha : ℝ) :
    Filter.Tendsto (fun radius : ℝ => alpha * Real.exp (d / (-2 * radius * radius)))
      Filter.atTop (nhds alpha) := by
  have h := (Real.continuous_exp.tendsto 0).comp (gaussArg_tendsto d)
  rw [Real.exp_zero] at h
  simpa using h.const_mul alpha

/-- C11.  With `expf` the real exponential: for every pair of grid cells and
every `alpha`, the step size `alpha * expf (d / (-2 * radius * radius))` that
`GaussianAdapt` applies at squared hexagonal distance `d` tends to `alpha` as
the radius tends to infinity; and on a well-formed map every entry `i < dim` of
every codebook `n` after `GaussianAdapt` tends to `v + alpha * (sample[i] - v)`,
the result of the same step `alpha` for every codebook of the grid. -/
theorem GaussianAdapt_radius_tendsto (gptr : Graph ℝ) (map : Map ℝ) (node : Node ℝ)
    (winner : Winner ℝ) (alpha : ℝ) (hwf : WellFormedMap map) :
    (∀ bx byy tx ty : Int,
      Filter.Tendsto
        (fun radius : ℝ =>
          alpha * Real.exp (ComputeHexaDistance bx byy tx ty / (-2 * radius * radius)))
        Filter.atTop (nhds alpha)) ∧
    (∀ n, n < map.xdim * map.ydim → ∀ i, i < map.dim →
      Filter.Tendsto
        (fun radius : ℝ =>
          (codeAt (GaussianAdapt Real.exp gptr map node winner radius alpha).1 n).points.getD i 0)
        Filter.atTop
        (nhds ((codeAt map n).points.getD i 0
          + alpha * (node.points.getD i 0 - (codeAt map n).points.getD i 0)))) := by
  refine ⟨fun bx byy tx ty => gaussStep_tendsto _ alpha, fun n hn i hi => ?_⟩
  obtain ⟨hlen, hdim⟩ := hwf
  have heq : ∀ radius : ℝ,
      (codeAt (GaussianAdapt Real.exp gptr map node winner radius alpha).1 n).points.getD i 0
        = (codeAt map n).points.getD i 0
          + alpha * Real.exp (ComputeHexaDistance (codeAt map winner.codeno).x
              (codeAt map winner.codeno).y (codeAt map n).x (codeAt map n).y
                / (-2 * radius * radius))
            * (node.points.getD i 0 - (codeAt map n).points.getD i 0) := by
    intro radius
    rw [GaussianAdapt_codeAt Real.exp gptr map node winner radius alpha hlen n hn]
    exact AdaptVector_getD _ _ _ _ i hi (by rw [hdim _ hn]; exact hi)
  simp only [heq]
  exact tendsto_const_nhds.add ((gaussStep_tendsto _ alpha).mul_const _)

theorem GaussianAdapt_radius_tendsto_witness :
    (∀ bx byy tx ty : Int,
      Filter.Tendsto
        (fun radius : ℝ =>
          (1 : ℝ) * Real.exp (ComputeHexaDistance bx byy tx ty / (-2 * radius * radius)))
        Filter.atTop (nhds 1)) ∧
    (∀ n, n < (mapLine ℝ).xdim * (mapLine ℝ).ydim → ∀ i, i < (mapLine ℝ).dim →
      Filter.Tendsto
        (fun radius : ℝ =>
          (codeAt (GaussianAdapt Real.exp (headerLine ℝ) (mapLine ℝ) (leafNode ℝ)
            { codeno := 0, diff := 0 } radius 1).1 n).points.getD i 0)
        Filter.atTop
        (nhds ((codeAt (mapLine ℝ) n).points.getD i 0
          + 1 * ((leafNode ℝ).points.getD i 0 - (codeAt (mapLine ℝ) n).points.getD i 0)))) :=
  GaussianAdapt_radius_tendsto (headerLine ℝ) (mapLine ℝ) (leafNode ℝ)
    { codeno := 0, diff := 0 } 1 (mapLine_wellFormed ℝ)

/-! ## C12: node types -/

/-- C12.  Counts are natural numbers in the embedding, so every node has
`numparents >= 0` and `depth >= 0`.  `GetNodeType` returns one of the three
pairwise different tags: `ROOT` exactly when the node has no parent (whatever
its depth), `LEAF` exactly when it has a parent and depth 0, `INTERMEDIATE`
exactly when it has a parent and a positive depth; and the result is `ROOT`
iff `IsRoot` is 1, `INTERMEDIATE` iff `IsIntermediate` is 1, `LEAF` iff
`IsLeaf` is 1 and `IsRoot` is 0. -/
theorem GetNodeType_classifies {K : Type} (node : Node K) :
    (GetNodeType node = ROOT ∨ GetNodeType node = LEAF ∨ GetNodeType node = INTERMEDIATE) ∧
    (ROOT ≠ LEAF ∧ ROOT ≠ INTERMEDIATE ∧ LEAF ≠ INTERMEDIATE) ∧
    (GetNodeType node = ROOT ↔ node.parents.length = 0) ∧
    (GetNodeType node = LEAF ↔ 0 < node.parents.length ∧ node.depth = 0) ∧
    (GetNodeType node = INTERMEDIATE ↔ 0 < node.parents.length ∧ 0 < node.depth) ∧
    (GetNodeType node = ROOT ↔ IsRoot node = 1) ∧
    (GetNodeType node = INTERMEDIATE ↔ IsIntermediate node = 1) ∧
    (GetNodeType node = LEAF ↔ IsLeaf node = 1 ∧ IsRoot node = 0) := by
  unfold GetNodeType IsRoot IsLeaf IsIntermediate ROOT LEAF INTERMEDIATE
  by_cases hp : node.parents.length = 0 <;> by_cases hd : node.depth = 0 <;>
    simp [hp, hd, Nat.pos_iff_ne_zero]

/-! ## C13: the child-state slots after `UpdateChildrensLocation` -/

/-- The child-state loop after `k` turns, entry by entry. -/
theorem encodeChildren_fold {K : Type} [LinearOrderedField K] (gptr : Graph K) (node : Node K)
    (pts : List K) (k : Nat) :
    ((List.range k).foldl
      (fun pts i =>
        match childAt node i with
        | none => pts
        | some c =>
          (pts.set (gptr.ldim + i * 2) ((nodeAt gptr.nodes c).x : K)).set
            (gptr.ldim + i * 2 + 1) ((nodeAt gptr.nodes c).y : K))
      pts).length = pts.length ∧
    ∀ j, ((List.range k).foldl
      (fun pts i =>
        match childAt node i with
        | none => pts
        | some c =>
          (pts.set (gptr.ldim + i * 2) ((nodeAt gptr.nodes c).x : K)).set
            (gptr.ldim + i * 2 + 1) ((nodeAt gptr.nodes c).y : K))
      pts)[j]? =
      if gptr.ldim ≤ j ∧ (j - gptr.ldim) / 2 < k ∧ j < pts.length then
        match childAt node ((j - gptr.ldim) / 2) with
        | none => pts[j]?
        | some c =>
          some (if (j - gptr.ldim) % 2 = 0 then ((nodeAt gptr.nodes c).x : K)
            else ((nodeAt gptr.nodes c).y : K))
      else pts[j]? := by
  induction k with
  | zero =>
    refine ⟨rfl, fun j => ?_⟩
    simp
  | succ k ih =>
    rw [List.range_succ, List.foldl_append]
    simp only [List.foldl_cons, List.foldl_nil]
    generalize (List.range k).foldl _ pts = r at ih ⊢
    obtain ⟨hlen, hget⟩ := ih
    cases hc : childAt node k with
    | none =>
      refine ⟨hlen, fun j => ?_⟩
      rw [hget j]
      by_cases h1 : gptr.ldim ≤ j ∧ (j - gptr.ldim) / 2 < k ∧ j < pts.length
      · rw [if_pos h1, if_pos ⟨h1.1, by omega, h1.2.2⟩]
      · rw [if_neg h1]
        by_cases h2 : gptr.ldim ≤ j ∧ (j - gptr.ldim) / 2 < k + 1 ∧ j < pts.length
        · rw [if_pos h2]
          have hk : (j - gptr.ldim) / 2 = k := by
            have := h2.2.1
            have : ¬ (j - gptr.ldim) / 2 < k := fun h => h1 ⟨h2.1, h, h2.2.2⟩
            omega
          rw [hk, hc]
        · rw [if_neg h2]
    | some c =>
      refine ⟨by simp only [List.length_set]; exact hlen, fun j => ?_⟩
      simp only [List.getElem?_set, List.length_set]
      by_cases hj1 : gptr.ldim + k * 2 + 1 = j
      · rw [if_pos hj1]
        have hk : (j - gptr.ldim) / 2 = k := by omega
        have hodd : ¬ (j - gptr.ldim) % 2 = 0 := by omega
        by_cases hin : j < pts.length
        · rw [if_pos (by rw [hlen]; omega), if_pos ⟨by omega, by omega, hin⟩, hk, hc]
          simp only [if_neg hodd]
        · rw [if_neg (by rw [hlen]; omega), if_neg (fun h => hin h.2.2)]
          symm
          exact List.getElem?_eq_none (by omega)
      · rw [if_neg hj1]
        by_cases hj0 : gptr.ldim + k * 2 = j
        · rw [if_pos hj0]
          have hk : (j - gptr.ldim) / 2 = k := by omega
          have hev : (j - gptr.ldim) % 2 = 0 := by omega
          by_cases hin : j < pts.length
          · rw [if_pos (by rw [hlen]; omega), if_pos ⟨by omega, by omega, hin⟩, hk, hc]
            simp only [if_pos hev]
          · rw [if_neg (by rw [hlen]; omega), if_neg (fun h => hin h.2.2)]
            symm
            exact List.getElem?_eq_none (by omega)
        · rw [if_neg hj0, hget j]
          have hk : (j - gptr.ldim) / 2 < k + 1 → gptr.ldim ≤ j → (j - gptr.ldim) / 2 < k := by
            intro h1 h2
            omega
          by_cases h1 : gptr.ldim ≤ j ∧ (j - gptr.ldim) / 2 < k ∧ j < pts.length
          · rw [if_pos h1, if_pos ⟨h1.1, by omega, h1.2.2⟩]
          · rw [if_neg h1, if_neg (fun h => h1 ⟨h.1, hk h.2.1 h.1, h.2.2⟩)]

/-- The node written by a state encoder keeps every field but `points`. -/
theorem nodeAt_setPoints_self {K : Type} (nodes : List (Node K)) (n : Nat) (pts : List K)
    (hn : n < nodes.length) :
    nodeAt (setPoints nodes n pts) n = { nodeAt nodes n with points := pts } := by
  unfold setPoints
  rw [nodeAt_set, if_pos ⟨rfl, hn⟩]

theorem nodeAt_setPoints_ne {K : Type} (nodes : List (Node K)) (n : Nat) (pts : List K)
    (m : Nat) (hm : m ≠ n) : nodeAt (setPoints nodes n pts) m = nodeAt nodes m := by
  unfold setPoints
  rw [nodeAt_set, if_neg (fun h => hm h.1)]

/-- A state encoder moves no node: the positions are those before the call. -/
theorem nodePositions_setPoints {K : Type} (g : Graph K) (n : Nat) (pts : List K) :
    nodePositions { g with nodes := setPoints g.nodes n pts } = nodePositions g := by
  unfold nodePositions setPoints
  simp only
  apply List.ext_getElem?
  intro m
  simp only [List.getElem?_map, List.getElem?_set]
  by_cases hm : n = m
  · subst hm
    by_cases hlt : n < g.nodes.length
    · simp [hlt, nodeAt, List.getD_eq_getElem?_getD, List.getElem?_eq_getElem hlt]
    · simp [hlt, List.getElem?_eq_none (Nat.le_of_not_lt hlt)]
  · simp [hm]

/-- C13.  For a node `n` of the graph whose vector has room for the child-state
segment: after `UpdateChildrensLocation`, for every `i < FanOut` whose child
pointer is non-null the entries `ldim + 2 i` and `ldim + 2 i + 1` of the vector
hold the `x` and `y` of child `i`, and for every `i < FanOut` whose child is
missing both entries keep the value they had before the call.  The call moves
no node, so the position of the child is the same before and after it. -/
theorem UpdateChildrensLocation_slots {K : Type} [LinearOrderedField K] (gptr : Graph K)
    (n : Nat) (hn : n < gptr.nodes.length)
    (hroom : gptr.ldim + 2 * gptr.FanOut ≤ (nodeAt gptr.nodes n).points.length) :
    nodePositions (UpdateChildrensLocation gptr n) = nodePositions gptr ∧
    ∀ i, i < gptr.FanOut →
      (∀ c, childAt (nodeAt gptr.nodes n) i = some c →
        (nodeAt (UpdateChildrensLocation gptr n).nodes n).points[gptr.ldim + 2 * i]?
            = some (((nodeAt (UpdateChildrensLocation gptr n).nodes c).x : Int) : K) ∧
        (nodeAt (UpdateChildrensLocation gptr n).nodes n).points[gptr.ldim + 2 * i + 1]?
            = some (((nodeAt (UpdateChildrensLocation gptr n).nodes c).y : Int) : K)) ∧
      (childAt (nodeAt gptr.nodes n) i = none →
        (nodeAt (UpdateChildrensLocation gptr n).nodes n).points[gptr.ldim + 2 * i]?
            = (nodeAt gptr.nodes n).points[gptr.ldim + 2 * i]? ∧
        (nodeAt (UpdateChildrensLocation gptr n).nodes n).points[gptr.ldim + 2 * i + 1]?
            = (nodeAt gptr.nodes n).points[gptr.ldim + 2 * i + 1]?) := by
  have hpos : ∀ c, (nodeAt (UpdateChildrensLocation gptr n).nodes c).x = (nodeAt gptr.nodes c).x ∧
      (nodeAt (UpdateChildrensLocation gptr n).nodes c).y = (nodeAt gptr.nodes c).y := by
    intro c
    unfold UpdateChildrensLocation
    by_cases hc : c = n
    · subst hc
      simp only [nodeAt_setPoints_self _ _ _ hn, and_self]
    · simp only [nodeAt_setPoints_ne _ _ _ _ hc, and_self]
  have hpts : (nodeAt (UpdateChildrensLocation gptr n).nodes n).points
      = encodeChildren gptr (nodeAt gptr.nodes n) (nodeAt gptr.nodes n).points := by
    unfold UpdateChildrensLocation
    simp only [nodeAt_setPoints_self _ _ _ hn]
  refine ⟨nodePositions_setPoints gptr n _, fun i hi => ?_⟩
  have hfold := (encodeChildren_fold gptr (nodeAt gptr.nodes n) (nodeAt gptr.nodes n).points
    gptr.FanOut).2
  have hd0 : (gptr.ldim + 2 * i - gptr.ldim) / 2 = i := by omega
  have hd1 : (gptr.ldim + 2 * i + 1 - gptr.ldim) / 2 = i := by omega
  have hm0 : (gptr.ldim + 2 * i - gptr.ldim) % 2 = 0 := by omega
  have hm1 : ¬ (gptr.ldim + 2 * i + 1 - gptr.ldim) % 2 = 0 := by omega
  have h0 := hfold (gptr.ldim + 2 * i)
  have h1 := hfold (gptr.ldim + 2 * i + 1)
  rw [if_pos ⟨by omega, by omega, by omega⟩, hd0] at h0
  rw [if_pos ⟨by omega, by omega, by omega⟩, hd1] at h1
  rw [hpts]
  unfold encodeChildren
  constructor
  · intro c hc
    rw [hc] at h0 h1
    simp only [if_pos hm0] at h0
    simp only [if_neg hm1] at h1
    rw [(hpos c).1, (hpos c).2]
    exact ⟨h0, h1⟩
  · intro hc
    rw [hc] at h0 h1
    exact ⟨h0, h1⟩
theorem UpdateChildrensLocation_slots_witness :
    nodePositions (UpdateChildrensLocation gPair 1) = nodePositions gPair ∧
    ∀ i, i < gPair.FanOut →
      (∀ c, childAt (nodeAt gPair.nodes 1) i = some c →
        (nodeAt (UpdateChildrensLocation gPair 1).nodes 1).points[gPair.ldim + 2 * i]?
            = some (((nodeAt (UpdateChildrensLocation gPair 1).nodes c).x : Int) : ℚ) ∧
        (nodeAt (UpdateChildrensLocation gPair 1).nodes 1).points[gPair.ldim + 2 * i + 1]?
            = some (((nodeAt (UpdateChildrensLocation gPair 1).nodes c).y : Int) : ℚ)) ∧
      (childAt (nodeAt gPair.nodes 1) i = none →
        (nodeAt (UpdateChildrensLocation gPair 1).nodes 1).points[gPair.ldim + 2 * i]?
            = (nodeAt gPair.nodes 1).points[gPair.ldim + 2 * i]? ∧
        (nodeAt (UpdateChildrensLocation gPair 1).nodes 1).points[gPair.ldim + 2 * i + 1]?
            = (nodeAt gPair.nodes 1).points[gPair.ldim + 2 * i + 1]?) :=
  UpdateChildrensLocation_slots gPair 1 (by decide) (by decide)

/-! ## `LinkNodes` -/

theorem childAt_set {K : Type} (node : Node K) (k : Nat) (c : Option Nat) (j : Nat) :
    ({ node with children := node.children.set k c } : Node K).children.getD j none
      = if j = k ∧ k < node.children.length then c else node.children.getD j none := by
  simp only [List.getD_eq_getElem?_getD, List.getElem?_set]
  by_cases hkj : k = j
  · subst hkj
    by_cases hlt : k < node.children.length
    · simp [hlt]
    · simp [hlt, List.getElem?_eq_none (Nat.le_of_not_lt hlt)]
  · have : ¬ (j = k ∧ k < node.children.length) := fun h => hkj h.1.symm
    rw [if_neg hkj, if_neg this]

/-- The node array after the two assignments of a valid link. -/
theorem nodeAt_link {K : Type} (nodes : List (Node K)) (i k c : Nat) (hi : i < nodes.length)
    (hc : c < nodes.length) (v : Nat) :
    nodeAt ((nodes.set i
        { nodeAt nodes i with children := (nodeAt nodes i).children.set k (some c) }).set c
        { nodeAt (nodes.set i
            { nodeAt nodes i with children := (nodeAt nodes i).children.set k (some c) }) c with
          parents := (nodeAt (nodes.set i
            { nodeAt nodes i with
              children := (nodeAt nodes i).children.set k (some c) }) c).parents ++ [i] }) v
      = { nodeAt nodes v with
          children := if v = i then (nodeAt nodes i).children.set k (some c)
            else (nodeAt nodes v).children,
          parents := if v = c then (nodeAt nodes c).parents ++ [i]
            else (nodeAt nodes v).parents } := by
  simp only [nodeAt_set, List.length_set]
  by_cases hvc : v = c
  · subst hvc
    by_cases hvi : v = i
    · subst hvi
      simp [hi]
    · simp [hvi, hc]
  · by_cases hvi : v = i
    · subst hvi
      simp [hvc, hi]
    · simp [hvc, hvi]

/-- The slot loop of `LinkNodes` for node `i` after `k` turns. -/
theorem linkSlot_fold {K : Type} (N : Nat) (links : List (List Int)) (i : Nat) (hi : i < N)
    (FanOut : Nat) (nodes0 : List (Node K)) (rep0 : Reports) (hlen : nodes0.length = N)
    (hch : (nodeAt nodes0 i).children = List.replicate FanOut none) (k : Nat)
    (hk : k ≤ FanOut) :
    ((List.range k).foldl (linkSlot N links i) (nodes0, rep0)).1.length = N ∧
    (∀ v, v ≠ i →
      (nodeAt ((List.range k).foldl (linkSlot N links i) (nodes0, rep0)).1 v).children
        = (nodeAt nodes0 v).children) ∧
    (nodeAt ((List.range k).foldl (linkSlot N links i) (nodes0, rep0)).1 i).children.length
      = FanOut ∧
    (∀ j, childAt (nodeAt ((List.range k).foldl (linkSlot N links i) (nodes0, rep0)).1 i) j
      = if j < k then linkTarget N (linkAt links i j) else none) ∧
    (∀ c, (nodeAt ((List.range k).foldl (linkSlot N links i) (nodes0, rep0)).1 c).parents
      = (nodeAt nodes0 c).parents ++ (List.range k).filterMap
          (fun j => if linkTarget N (linkAt links i j) = some c then some i else none)) ∧
    (∀ v, (nodeAt ((List.range k).foldl (linkSlot N links i) (nodes0, rep0)).1 v).nnum
      = (nodeAt nodes0 v).nnum) ∧
    ((List.range k).foldl (linkSlot N links i) (nodes0, rep0)).2
      = ((List.range k).filterMap
          (fun j => if (N : Int) ≤ linkAt links i j
            then some ((nodeAt nodes0 i).nnum, linkAt links i j) else none)).foldl
          reportLink rep0 := by
  induction k with
  | zero =>
    refine ⟨hlen, fun _ _ => rfl, ?_, ?_, ?_, fun _ => rfl, rfl⟩
    · simp [hch]
    · intro j
      show (nodeAt nodes0 i).children.getD j none = if j < 0 then _ else none
      rw [hch, if_neg (Nat.not_lt_zero j), List.getD_eq_getElem?_getD, List.getElem?_replicate]
      by_cases hj : j < FanOut
      · rw [if_pos hj]
        rfl
      · rw [if_neg hj]
        rfl
    · intro c
      simp
  | succ k ih =>
    obtain ⟨h1, h2, h3, h4, h5, h6, h7⟩ := ih (by omega)
    rw [List.range_succ, List.foldl_append]
    simp only [List.foldl_cons, List.foldl_nil, List.filterMap_append, List.filterMap_cons,
      List.filterMap_nil, List.foldl_append]
    generalize (List.range k).foldl (linkSlot N links i) (nodes0, rep0) = r at *
    have hiN : i < r.1.length := by rw [h1]; exact hi
    unfold linkSlot
    by_cases hv : 0 ≤ linkAt links i k ∧ linkAt links i k < (N : Int)
    · have hcN : (linkAt links i k).toNat < N := by omega
      have ht : linkTarget N (linkAt links i k) = some (linkAt links i k).toNat := by
        unfold linkTarget
        rw [if_pos hv]
      have hnd : ¬ (N : Int) ≤ linkAt links i k := by omega
      simp only [if_pos hv, ht, if_neg hnd, List.foldl_nil]
      have hcL : (linkAt links i k).toNat < r.1.length := by rw [h1]; exact hcN
      refine ⟨by simp [h1], ?_, ?_, ?_, ?_, ?_, h7⟩
      · intro v hvi
        rw [nodeAt_link _ _ _ _ hiN hcL]
        simp only [if_neg hvi]
        exact h2 v hvi
      · rw [nodeAt_link _ _ _ _ hiN hcL]
        simp [h3]
      · intro j
        unfold childAt
        rw [nodeAt_link _ _ _ _ hiN hcL]
        simp only [if_true]
        have := childAt_set (nodeAt r.1 i) k (some (linkAt links i k).toNat) j
        simp only at this
        rw [this]
        by_cases hjk : j = k
        · subst hjk
          rw [if_pos ⟨rfl, by omega⟩, if_pos (by omega), ht]
        · rw [if_neg (fun h => hjk h.1)]
          have := h4 j
          unfold childAt at this
          rw [this]
          by_cases hlt : j < k
          · rw [if_pos hlt, if_pos (by omega)]
          · rw [if_neg hlt, if_neg (by omega)]
      · intro c
        rw [nodeAt_link _ _ _ _ hiN hcL]
        simp only
        by_cases hcc : c = (linkAt links i k).toNat
        · rw [if_pos hcc, ← hcc, h5 c, if_pos (by rw [hcc]), List.append_assoc]
        · have hne : ¬ some (linkAt links i k).toNat = some c := by
            intro h
            exact hcc (Option.some.inj h).symm
          rw [if_neg hcc, if_neg hne, h5 c]
          simp
      · intro v
        rw [nodeAt_link _ _ _ _ hiN hcL]
        exact h6 v
    · have ht : linkTarget N (linkAt links i k) = none := by
        unfold linkTarget
        rw [if_neg hv]
      have hnone : ∀ c, ¬ (none : Option Nat) = some c := fun c h => by cases h
      simp only [if_neg hv, ht]
      by_cases hp : linkAt links i k > 0
      · have hd : (N : Int) ≤ linkAt links i k := by omega
        simp only [if_pos hp, if_pos hd, List.foldl_cons, List.foldl_nil]
        refine ⟨h1, h2, h3, ?_, ?_, h6, ?_⟩
        · intro j
          rw [h4 j]
          by_cases hjk : j = k
          · subst hjk
            rw [if_neg (by omega), if_pos (by omega), ht]
          · by_cases hlt : j < k
            · rw [if_pos hlt, if_pos (by omega)]
            · rw [if_neg hlt, if_neg (by omega)]
        · intro c
          rw [h5 c]
          simp
        · rw [h7, h6 i]
      · have hd : ¬ (N : Int) ≤ linkAt links i k := by omega
        simp only [if_neg hp, if_neg hd, List.foldl_nil]
        refine ⟨h1, h2, h3, ?_, ?_, h6, h7⟩
        · intro j
          rw [h4 j]
          by_cases hjk : j = k
          · subst hjk
            rw [if_neg (by omega), if_pos (by omega), ht]
          · by_cases hlt : j < k
            · rw [if_pos hlt, if_pos (by omega)]
            · rw [if_neg hlt, if_neg (by omega)]
        · intro c
          rw [h5 c]
          simp
/-- The node loop of `LinkNodes` after `m` turns. -/
theorem linkNodeSlots_fold {K : Type} (N FanOut : Nat) (links : List (List Int))
    (nodes0 : List (Node K)) (rep0 : Reports) (hlen : nodes0.length = N) (m : Nat)
    (hm : m ≤ N) :
    ((List.range m).foldl (linkNodeSlots FanOut N links) (nodes0, rep0)).1.length = N ∧
    (∀ p, p < m → ∀ j,
      childAt (nodeAt ((List.range m).foldl (linkNodeSlots FanOut N links)
          (nodes0, rep0)).1 p) j
        = if j < FanOut then linkTarget N (linkAt links p j) else none) ∧
    (∀ c, (nodeAt ((List.range m).foldl (linkNodeSlots FanOut N links) (nodes0, rep0)).1
          c).parents
      = (nodeAt nodes0 c).parents ++ (List.range m).flatMap
          (fun p => (List.range FanOut).filterMap
            (fun j => if linkTarget N (linkAt links p j) = some c then some p else none))) ∧
    (∀ v, (nodeAt ((List.range m).foldl (linkNodeSlots FanOut N links) (nodes0, rep0)).1 v).nnum
      = (nodeAt nodes0 v).nnum) ∧
    ((List.range m).foldl (linkNodeSlots FanOut N links) (nodes0, rep0)).2
      = ((List.range m).flatMap
          (fun i => (List.range FanOut).filterMap
            (fun j => if (N : Int) ≤ linkAt links i j
              then some ((nodeAt nodes0 i).nnum, linkAt links i j) else none))).foldl
          reportLink rep0 := by
  induction m with
  | zero =>
    refine ⟨hlen, fun p hp => absurd hp (Nat.not_lt_zero p), fun c => ?_, fun _ => rfl, rfl⟩
    simp
  | succ m ih =>
    obtain ⟨h1, h2, h3, h4, h5⟩ := ih (by omega)
    rw [List.range_succ, List.foldl_append]
    simp only [List.foldl_cons, List.foldl_nil, List.flatMap_append, List.flatMap_cons,
      List.flatMap_nil, List.append_nil, List.foldl_append]
    generalize (List.range m).foldl (linkNodeSlots FanOut N links) (nodes0, rep0) = r at *
    have hmL : m < r.1.length := by rw [h1]; omega
    have hres : ∀ v, nodeAt (r.1.set m
        { nodeAt r.1 m with children := List.replicate FanOut none }) v
        = if v = m then { nodeAt r.1 m with children := List.replicate FanOut none }
          else nodeAt r.1 v := by
      intro v
      rw [nodeAt_set]
      by_cases hv : v = m
      · rw [if_pos ⟨hv, hmL⟩, if_pos hv]
      · rw [if_neg (fun h => hv h.1), if_neg hv]
    obtain ⟨g1, g2, _, g4, g5, g6, g7⟩ := linkSlot_fold N links m (by omega) FanOut
      (r.1.set m { nodeAt r.1 m with children := List.replicate FanOut none }) r.2
      (by rw [List.length_set]; exact h1) (by rw [hres, if_pos rfl]) FanOut (Nat.le_refl _)
    unfold linkNodeSlots
    refine ⟨g1, ?_, ?_, ?_, ?_⟩
    · intro p hp j
      by_cases hpm : p = m
      · subst hpm
        exact g4 j
      · unfold childAt
        rw [g2 p hpm, hres, if_neg hpm]
        exact h2 p (by omega) j
    · intro c
      rw [g5 c, hres]
      by_cases hc : c = m
      · subst hc
        rw [if_pos rfl]
        simp only
        rw [h3 c, List.append_assoc]
      · rw [if_neg hc, h3 c, List.append_assoc]
    · intro v
      rw [g6 v, hres]
      by_cases hv : v = m
      · rw [if_pos hv]
        simp only
        rw [hv]
        exact h4 m
      · rw [if_neg hv]
        exact h4 v
    · rw [g7, h5, hres, if_pos rfl]
      simp only
      rw [h4 m]

/-- Membership in a list of parents built from the child slots depends only on
the slots. -/
theorem parents_flatMap_congr (N FanOut : Nat) (f g : Nat → Nat → Option Nat) (c : Nat)
    (h : ∀ p, p < N → ∀ j, j < FanOut → f p j = g p j) :
    (List.range N).flatMap
        (fun p => (List.range FanOut).filterMap
          (fun j => if f p j = some c then some p else none))
      = (List.range N).flatMap
        (fun p => (List.range FanOut).filterMap
          (fun j => if g p j = some c then some p else none)) := by
  have hin : ∀ p, p ∈ List.range N →
      (List.range FanOut).filterMap (fun j => if f p j = some c then some p else none)
        = (List.range FanOut).filterMap (fun j => if g p j = some c then some p else none) := by
    intro p hp
    apply List.filterMap_congr
    intro j hj
    rw [h p (List.mem_range.mp hp) j (List.mem_range.mp hj)]
  simp only [List.flatMap]
  rw [List.map_congr_left hin]

/-! ## C15: the links built by `LinkNodes` -/

/-- C15.  For a graph with `FanOut > 0` whose nodes start with no parents:
`LinkNodes` keeps the number of nodes; child slot `j < FanOut` of node `p` is
the node `links[j]` when `0 <= links[j] < numnodes` and null otherwise; and the
parent list of every node `c` is the list, in the order of parent index then
slot and with multiplicity, of the nodes `p` that have a child slot equal to
`c`.  `numparents` is the length of the parent list in the embedding. -/
theorem LinkNodes_links {K : Type} (gptr : Graph K) (links : List (List Int))
    (rep : Reports) (hfan : 0 < gptr.FanOut)
    (hpar : ∀ n, n < gptr.nodes.length → (nodeAt gptr.nodes n).parents = []) :
    (LinkNodes gptr links rep).1.nodes.length = gptr.nodes.length ∧
    (∀ p, p < gptr.nodes.length → ∀ j, j < gptr.FanOut →
      childAt (nodeAt (LinkNodes gptr links rep).1.nodes p) j
        = if 0 ≤ linkAt links p j ∧ linkAt links p j < (gptr.nodes.length : Int)
          then some (linkAt links p j).toNat else none) ∧
    (∀ c, c < gptr.nodes.length →
      (nodeAt (LinkNodes gptr links rep).1.nodes c).parents
        = (List.range gptr.nodes.length).flatMap
          (fun p => (List.range gptr.FanOut).filterMap
            (fun j => if childAt (nodeAt (LinkNodes gptr links rep).1.nodes p) j = some c
              then some p else none))) := by
  obtain ⟨h1, h2, h3, _, _⟩ := linkNodeSlots_fold gptr.nodes.length gptr.FanOut links
    gptr.nodes rep rfl gptr.nodes.length (Nat.le_refl _)
  have hne : ¬ gptr.FanOut = 0 := by omega
  have hnodes : (LinkNodes gptr links rep).1.nodes
      = ((List.range gptr.nodes.length).foldl
          (linkNodeSlots gptr.FanOut gptr.nodes.length links) (gptr.nodes, rep)).1 := by
    unfold LinkNodes
    rw [if_neg hne]
  rw [hnodes]
  refine ⟨h1, fun p hp j hj => ?_, fun c hc => ?_⟩
  · rw [h2 p hp j, if_pos hj]
    rfl
  · rw [h3 c, hpar c hc, List.nil_append]
    apply parents_flatMap_congr
    intro p hp j hj
    rw [h2 p hp j, if_pos hj]

/-! ## C16: the warnings of `LinkNodes` -/

/-- The reports after a sequence of links to non-existing nodes. -/
theorem reportLink_fold (ds : List (Nat × Int)) (rep : Reports) :
    (ds.foldl reportLink rep).errors = rep.errors ∧
    (ds.foldl reportLink rep).nerror = rep.nerror + ds.length ∧
    (ds.foldl reportLink rep).messages
      = rep.messages ++ (ds.take (10 - rep.nerror)).map (fun d => Message.ignoredLink d.1 d.2)
          ++ (if rep.nerror ≤ 10 ∧ 10 < rep.nerror + ds.length then [Message.truncating]
              else []) := by
  induction ds generalizing rep with
  | nil => simp
  | cons d ds ih =>
    simp only [List.foldl_cons, List.length_cons]
    obtain ⟨i1, i2, i3⟩ := ih (reportLink rep d)
    by_cases h1 : rep.nerror < 10
    · have he : (reportLink rep d).errors = rep.errors := by simp [reportLink, h1, AddMessage]
      have hn : (reportLink rep d).nerror = rep.nerror + 1 := by
        simp [reportLink, h1, AddMessage]
      have hm : (reportLink rep d).messages = rep.messages ++ [Message.ignoredLink d.1 d.2] := by
        simp [reportLink, h1, AddMessage]
      refine ⟨by rw [i1, he], by rw [i2, hn]; omega, ?_⟩
      rw [i3, hn, hm]
      have ht : 10 - rep.nerror = (10 - (rep.nerror + 1)) + 1 := by omega
      rw [ht, List.take_succ_cons, List.map_cons]
      have hc : (rep.nerror + 1 ≤ 10 ∧ 10 < rep.nerror + 1 + ds.length)
          ↔ (rep.nerror ≤ 10 ∧ 10 < rep.nerror + (ds.length + 1)) := by omega
      simp only [hc, List.append_assoc, List.singleton_append]
    · by_cases h2 : rep.nerror = 10
      · have he : (reportLink rep d).errors = rep.errors := by
          simp [reportLink, h2, AddMessage]
        have hn : (reportLink rep d).nerror = rep.nerror + 1 := by
          simp [reportLink, h2, AddMessage]
        have hm : (reportLink rep d).messages = rep.messages ++ [Message.truncating] := by
          simp [reportLink, h2, AddMessage]
        refine ⟨by rw [i1, he], by rw [i2, hn]; omega, ?_⟩
        rw [i3, hn, hm]
        have ht0 : 10 - (rep.nerror + 1) = 0 := by omega
        have ht1 : 10 - rep.nerror = 0 := by omega
        rw [ht0, ht1, if_neg (by omega), if_pos (by omega)]
        simp
      · have he : (reportLink rep d).errors = rep.errors := by
          simp [reportLink, h1, h2]
        have hn : (reportLink rep d).nerror = rep.nerror + 1 := by
          simp [reportLink, h1, h2]
        have hm : (reportLink rep d).messages = rep.messages := by
          simp [reportLink, h1, h2]
        refine ⟨by rw [i1, he], by rw [i2, hn]; omega, ?_⟩
        rw [i3, hn, hm]
        have ht0 : 10 - (rep.nerror + 1) = 0 := by omega
        have ht1 : 10 - rep.nerror = 0 := by omega
        rw [ht0, ht1, if_neg (by omega), if_neg (by omega)]
        simp

/-- The reports of `LinkNodes` are those of its links to non-existing nodes. -/
theorem LinkNodes_reports_eq {K : Type} (gptr : Graph K) (links : List (List Int))
    (rep : Reports) :
    (LinkNodes gptr links rep).2 = (danglingLinks gptr links).foldl reportLink rep := by
  unfold LinkNodes danglingLinks
  by_cases hf : gptr.FanOut = 0
  · rw [if_pos hf, hf]
    have hnil : (List.range gptr.nodes.length).flatMap
        (fun i => (List.range 0).filterMap
          (fun j => if (gptr.nodes.length : Int) ≤ linkAt links i j
            then some ((nodeAt gptr.nodes i).nnum, linkAt links i j) else none)) = [] :=
      List.flatMap_eq_nil_iff.mpr (fun _ _ => rfl)
    rw [hnil]
    rfl
  · rw [if_neg hf]
    exact (linkNodeSlots_fold gptr.nodes.length gptr.FanOut links gptr.nodes rep rfl
      gptr.nodes.length (Nat.le_refl _)).2.2.2.2

/-- The reports of one call of `LinkNodes`, entered with any content of the
lists and any value of its static counter. -/
theorem LinkNodes_call_reports {K : Type} (gptr : Graph K) (links : List (List Int))
    (rep : Reports) :
    (LinkNodes gptr links rep).2.errors = rep.errors ∧
    (LinkNodes gptr links rep).2.nerror = rep.nerror + (danglingLinks gptr links).length ∧
    (LinkNodes gptr links rep).2.messages
      = rep.messages
          ++ ((danglingLinks gptr links).take (10 - rep.nerror)).map
              (fun d => Message.ignoredLink d.1 d.2)
          ++ (if rep.nerror ≤ 10 ∧ 10 < rep.nerror + (danglingLinks gptr links).length
              then [Message.truncating] else []) := by
  rw [LinkNodes_reports_eq]
  exact reportLink_fold _ rep

/-- The reports of a run are those of its dangling links. -/
theorem linkRun_eq {K : Type} (gs : List (Graph K × List (List Int))) (rep : Reports) :
    linkRun gs rep = (runDangling gs).foldl reportLink rep := by
  unfold linkRun runDangling
  induction gs generalizing rep with
  | nil => rfl
  | cons g gs ih =>
    simp only [List.foldl_cons, List.flatMap_cons, List.foldl_append]
    rw [ih, LinkNodes_reports_eq]

/-- C16, as amended.  A dangling link is a link to a node number `numnodes` or
more; a negative link is not one, and adds neither a message nor a count.
Over a run of calls of `LinkNodes`, entered with any content of the lists and
any value `nerror` of the static counter (0 at the start of the program), no
error is added, the counter increases by one for every dangling link, and the
messages added are one warning for each of the first `10 - nerror` dangling
links and, when the counter passes 10 during the run, the truncation notice
once; later dangling links add no message. -/
theorem LinkNodes_reports {K : Type} (gs : List (Graph K × List (List Int)))
    (rep : Reports) :
    (linkRun gs rep).errors = rep.errors ∧
    (linkRun gs rep).nerror = rep.nerror + (runDangling gs).length ∧
    (linkRun gs rep).messages
      = rep.messages
          ++ ((runDangling gs).take (10 - rep.nerror)).map
              (fun d => Message.ignoredLink d.1 d.2)
          ++ (if rep.nerror ≤ 10 ∧ 10 < rep.nerror + (runDangling gs).length
              then [Message.truncating] else []) := by
  rw [linkRun_eq]
  exact reportLink_fold _ rep

/-- C16, counterexample.  The node of `gOne` has the links -2 and 7, both
outside `[0, numnodes) = [0, 1)`.  `LinkNodes` counts one of them only: the
negative link adds no warning and leaves `nerror` alone. -/
theorem LinkNodes_negative_link_not_counted :
    gOne.nodes.length = 1 ∧ linkAt linksOne 0 0 = -2 ∧ linkAt linksOne 0 1 = 7 ∧
    (LinkNodes gOne linksOne noReports).2
      = { errors := [], messages := [Message.ignoredLink 0 7], nerror := 1 } := by
  decide

/-! ## C14: what the state encoders write -/

theorem childWrites_index {K : Type} [LinearOrderedField K] (gptr : Graph K) (node : Node K)
    (j : Nat) (hj : j ∈ (childWrites gptr node).map Prod.fst) :
    gptr.ldim ≤ j ∧ j < gptr.ldim + 2 * gptr.FanOut := by
  simp only [childWrites, List.mem_map, List.mem_flatMap, List.mem_range] at hj
  obtain ⟨w, ⟨i, hi, hw⟩, rfl⟩ := hj
  cases hc : childAt node i with
  | none => simp [hc] at hw
  | some c =>
    simp only [hc, List.mem_cons, List.mem_singleton, List.not_mem_nil, or_false] at hw
    rcases hw with rfl | rfl
    · simp only
      omega
    · simp only
      omega

theorem parentWrites_index {K : Type} [LinearOrderedField K] (gptr : Graph K) (node : Node K)
    (j : Nat) (hj : j ∈ (parentWrites gptr node).map Prod.fst) :
    gptr.ldim + 2 * gptr.FanOut ≤ j ∧
      j < gptr.ldim + 2 * gptr.FanOut + 2 * node.parents.length := by
  simp only [parentWrites, List.mem_map, List.mem_flatMap, List.mem_range] at hj
  obtain ⟨w, ⟨i, hi, hw⟩, rfl⟩ := hj
  simp only [List.mem_cons, List.mem_singleton, List.not_mem_nil, or_false] at hw
  rcases hw with rfl | rfl
  · simp only
    omega
  · simp only
    omega

/-- The frame of the state encoders.  Both leave every other node alone and
change only the vector of the node.  `UpdateChildrensLocation` changes entries
of the child-state segment only.  `UpdateChildrenAndParentLocation` changes
entries of `[ldim, ldim + 2 FanOut + 2 numparents)` only: with at most `FanIn`
parents these are the child-state and the parent-state segment. -/
theorem encoders_frame {K : Type} [LinearOrderedField K] (gptr : Graph K) (n : Nat)
    (hn : n < gptr.nodes.length) :
    (∀ m, m ≠ n → nodeAt (UpdateChildrensLocation gptr n).nodes m = nodeAt gptr.nodes m) ∧
    (∀ m, m ≠ n →
      nodeAt (UpdateChildrenAndParentLocation gptr n).nodes m = nodeAt gptr.nodes m) ∧
    (∃ pts, nodeAt (UpdateChildrensLocation gptr n).nodes n
        = { nodeAt gptr.nodes n with points := pts } ∧
      pts.length = (nodeAt gptr.nodes n).points.length ∧
      ∀ j, (j < gptr.ldim ∨ gptr.ldim + 2 * gptr.FanOut ≤ j) →
        pts[j]? = (nodeAt gptr.nodes n).points[j]?) ∧
    (∃ pts, nodeAt (UpdateChildrenAndParentLocation gptr n).nodes n
        = { nodeAt gptr.nodes n with points := pts } ∧
      pts.length = (nodeAt gptr.nodes n).points.length ∧
      ∀ j, (j < gptr.ldim ∨
          gptr.ldim + 2 * gptr.FanOut + 2 * (nodeAt gptr.nodes n).parents.length ≤ j) →
        pts[j]? = (nodeAt gptr.nodes n).points[j]?) := by
  refine ⟨fun m hm => nodeAt_setPoints_ne _ _ _ _ hm, fun m hm => nodeAt_setPoints_ne _ _ _ _ hm,
    ⟨_, nodeAt_setPoints_self _ _ _ hn, ?_, ?_⟩, ⟨_, nodeAt_setPoints_self _ _ _ hn, ?_, ?_⟩⟩
  · rw [encodeChildren_eq, applyWrites_length]
  · intro j hj
    rw [encodeChildren_eq]
    apply applyWrites_outside
    intro hmem
    have := childWrites_index gptr _ j hmem
    omega
  · rw [encodeChildren_eq, encodeParents_eq, applyWrites_length, applyWrites_length]
  · intro j hj
    rw [encodeChildren_eq, encodeParents_eq, applyWrites_outside, applyWrites_outside]
    · intro hmem
      have := childWrites_index gptr _ j hmem
      omega
    · intro hmem
      have := parentWrites_index gptr _ j hmem
      omega

/-- C14.  In `gOver`, the result of `LinkNodes` on three nodes of a graph with
`FanIn = 1`, node 2 has two parents.  `UpdateChildrenAndParentLocation` writes
the position of the second parent past the parent-state segment: the target
segment of node 2 changes from (7, 8) to (5, 6).  The loop over the parents is
bounded by `numparents` and not by `FanIn`. -/
theorem UpdateChildrenAndParentLocation_overwrites_target :
    gOver.FanIn = 1 ∧ (nodeAt gOver.nodes 2).parents = [0, 1] ∧
    (nodeAt gOver.nodes 2).points = [9, -1, -1, -1, -1, 7, 8] ∧
    targetSegment gOver (nodeAt gOver.nodes 2) = [7, 8] ∧
    (nodeAt (UpdateChildrenAndParentLocation gOver 2).nodes 2).points
      = [9, -1, -1, 3, 4, 5, 6] ∧
    targetSegment gOver (nodeAt (UpdateChildrenAndParentLocation gOver 2).nodes 2) = [5, 6] := by
  decide!

theorem LinkNodes_links_witness :
    (LinkNodes gOverRaw linksOver noReports).1.nodes.length = gOverRaw.nodes.length ∧
    (∀ p, p < gOverRaw.nodes.length → ∀ j, j < gOverRaw.FanOut →
      childAt (nodeAt (LinkNodes gOverRaw linksOver noReports).1.nodes p) j
        = if 0 ≤ linkAt linksOver p j ∧ linkAt linksOver p j < (gOverRaw.nodes.length : Int)
          then some (linkAt linksOver p j).toNat else none) ∧
    (∀ c, c < gOverRaw.nodes.length →
      (nodeAt (LinkNodes gOverRaw linksOver noReports).1.nodes c).parents
        = (List.range gOverRaw.nodes.length).flatMap
          (fun p => (List.range gOverRaw.FanOut).filterMap
            (fun j =>
              if childAt (nodeAt (LinkNodes gOverRaw linksOver noReports).1.nodes p) j = some c
              then some p else none))) :=
  LinkNodes_links gOverRaw linksOver noReports (by decide) (by decide)

/-! ## C17: the check of the node numbers in `ReadNodes` -/

/-- C17.  The file numbers three nodes 0, 2 and 2.  The greatest id plus one
equals the number of nodes read, so the check of `ReadNodes` raises no error
and `numnodes` is 3; but no node has id 1, slot 1 of the node array is a null
pointer, and the first node numbered 2 is lost. -/
theorem ReadNodes_check_misses_gap :
    nodesDup.map (fun node => node.nnum) = [0, 2, 2] ∧
    (readNodesPost nodesDup "line 4" noReports).2 = noReports ∧
    (readNodesPost nodesDup "line 4" noReports).1.length = 3 ∧
    (readNodesPost nodesDup "line 4" noReports).1.map (Option.map (fun node => node.points))
      = [some [1], none, some [3]] := by
  decide!

theorem readNodesMaxid_fold_ge {K : Type} (nodes : List (Node K)) (init : Nat) :
    init ≤ nodes.foldl (fun maxid node => if node.nnum > maxid then node.nnum else maxid) init ∧
    ∀ node, node ∈ nodes →
      node.nnum ≤ nodes.foldl
        (fun maxid node => if node.nnum > maxid then node.nnum else maxid) init := by
  induction nodes generalizing init with
  | nil => exact ⟨Nat.le_refl _, fun _ h => absurd h (List.not_mem_nil _)⟩
  | cons a l ih =>
    simp only [List.foldl_cons]
    obtain ⟨h1, h2⟩ := ih (if a.nnum > init then a.nnum else init)
    have h3 : init ≤ (if a.nnum > init then a.nnum else init) ∧
        a.nnum ≤ (if a.nnum > init then a.nnum else init) := by
      by_cases h : a.nnum > init
      · rw [if_pos h]; omega
      · rw [if_neg h]; omega
    refine ⟨by omega, fun node hn => ?_⟩
    rcases List.mem_cons.mp hn with rfl | hl
    · omega
    · exact h2 node hl

/-- Every node read has an id of at most `maxid`. -/
theorem nnum_le_readNodesMaxid {K : Type} (nodes : List (Node K)) (node : Node K)
    (h : node ∈ nodes) : node.nnum ≤ readNodesMaxid nodes :=
  (readNodesMaxid_fold_ge nodes 0).2 node h

/-- The assignment loop of `ReadNodes`: a slot whose id was read holds a node
with that id. -/
theorem readNodesAssign_fold {K : Type} (nodes : List (Node K))
    (arr : List (Option (Node K))) :
    (nodes.foldl (fun arr node => arr.set node.nnum (some node)) arr).length = arr.length ∧
    ∀ i, i < arr.length →
      ((∃ node, node ∈ nodes ∧ node.nnum = i) ∨ (∃ node, arr[i]? = some (some node) ∧ node.nnum = i)) →
      ∃ node, (nodes.foldl (fun arr node => arr.set node.nnum (some node)) arr)[i]?
          = some (some node) ∧ node.nnum = i := by
  induction nodes generalizing arr with
  | nil =>
    refine ⟨rfl, fun i _ h => ?_⟩
    rcases h with ⟨node, hn, _⟩ | h
    · exact absurd hn (List.not_mem_nil _)
    · exact h
  | cons a l ih =>
    simp only [List.foldl_cons]
    obtain ⟨h1, h2⟩ := ih (arr.set a.nnum (some a))
    refine ⟨by rw [h1, List.length_set], fun i hi h => ?_⟩
    apply h2 i (by rw [List.length_set]; exact hi)
    by_cases hai : a.nnum = i
    · right
      refine ⟨a, ?_, hai⟩
      rw [List.getElem?_set, if_pos hai, if_pos (by rw [hai]; exact hi)]
    · rcases h with ⟨node, hn, hni⟩ | ⟨node, hn, hni⟩
      · rcases List.mem_cons.mp hn with rfl | hl
        · exact absurd hni hai
        · exact Or.inl ⟨node, hl, hni⟩
      · right
        refine ⟨node, ?_, hni⟩
        rw [List.getElem?_set, if_neg hai]
        exact hn

/-- A list of `n` pairwise different numbers below `n` contains every number
below `n`. -/
theorem mem_of_nodup_lt (ids : List Nat) (hnd : ids.Nodup)
    (hlt : ∀ k, k ∈ ids → k < ids.length) (i : Nat) (hi : i < ids.length) : i ∈ ids := by
  have hsub : ids.toFinset ⊆ Finset.range ids.length := by
    intro k hk
    exact Finset.mem_range.mpr (hlt k (List.mem_toFinset.mp hk))
  have hcard : ids.toFinset.card = (Finset.range ids.length).card := by
    rw [List.toFinset_card_of_nodup hnd, Finset.card_range]
  have heq := Finset.eq_of_subset_of_card_le hsub (by rw [hcard])
  have : i ∈ ids.toFinset := by
    rw [heq]
    exact Finset.mem_range.mpr hi
  exact List.mem_toFinset.mp this

/-- What the check of `ReadNodes` does ensure: when no error is reported and no
two nodes read have the same id, `numnodes` is the number of nodes read and
every slot `i < numnodes` of the node array holds a node whose `nnum` is `i`. -/
theorem readNodesPost_dense {K : Type} (nodes : List (Node K)) (fileInfo : String)
    (rep : Reports) (hnd : (nodes.map (fun node => node.nnum)).Nodup)
    (hok : CheckErrors (readNodesPost nodes fileInfo rep).2 = 0) :
    (readNodesPost nodes fileInfo rep).1.length = nodes.length ∧
    ∀ i, i < nodes.length →
      ∃ node, (readNodesPost nodes fileInfo rep).1[i]? = some (some node) ∧ node.nnum = i := by
  have hmax : readNodesMaxid nodes + 1 = nodes.length := by
    by_contra hne
    unfold readNodesPost at hok
    by_cases h0 : CheckErrors rep > 0
    · rw [if_pos h0] at hok
      simp only at hok
      omega
    · rw [if_neg h0, if_pos hne] at hok
      simp [AddFileInfoOnError, AddError, CheckErrors] at hok
  have harr : (readNodesPost nodes fileInfo rep).1 = readNodesAssign nodes := by
    unfold readNodesPost
    split_ifs <;> rfl
  rw [harr]
  unfold readNodesAssign
  obtain ⟨h1, h2⟩ := readNodesAssign_fold nodes (List.replicate (readNodesMaxid nodes + 1) none)
  rw [List.length_replicate] at h1 h2
  refine ⟨by rw [h1, hmax], fun i hi => ?_⟩
  apply h2 i (by omega)
  left
  have hmem : i ∈ nodes.map (fun node => node.nnum) := by
    apply mem_of_nodup_lt _ hnd
    · intro k hk
      obtain ⟨node, hn, rfl⟩ := List.mem_map.mp hk
      have := nnum_le_readNodesMaxid nodes node hn
      rw [List.length_map]
      omega
    · rw [List.length_map]
      exact hi
  obtain ⟨node, hn, hni⟩ := List.mem_map.mp hmem
  exact ⟨node, hn, hni⟩

/-! ## C18 and C19: the return value of `InitCodes` and the dimension of the map -/

/-- With the slip of its loop, `dim` is the dimension of the first graph. -/
theorem initDim_eq {K : Type} (data : List (Graph K)) :
    initDim data = (dataHead data).dimension := by
  have hstable : ∀ (l : List (Graph K)) (d0 : Nat),
      l.foldl (fun dim gptr => if gptr.dimension > dim then d0 else dim) d0 = d0 := by
    intro l d0
    induction l with
    | nil => rfl
    | cons g l ih =>
      simp only [List.foldl_cons]
      by_cases h : g.dimension > d0
      · rw [if_pos h]; exact ih
      · rw [if_neg h]; exact ih
  cases data with
  | nil => rfl
  | cons g rest =>
    unfold initDim dataHead
    simp only [List.headD_cons, List.foldl_cons]
    by_cases h : g.dimension > 0
    · rw [if_pos h]
      exact hstable rest g.dimension
    · rw [if_neg h]
      have h0 : g.dimension = 0 := by omega
      have := hstable rest g.dimension
      rw [h0] at this ⊢
      exact this

/-- The return value of `InitCodes`: it is 0, with one error added, exactly
when the grid has no cell or the first graph of the dataset has dimension 0
(an empty dataset included); otherwise it is 1 and no error is added. -/
theorem InitCodes_return {K : Type} [LinearOrderedField K] (sqrtf : K → K) (trunc : K → Int)
    (drand48 : Nat → K) (map : Map K) (data : List (Graph K)) (mode : Nat) (rep : Reports) :
    ((map.xdim * map.ydim = 0 ∨ (dataHead data).dimension = 0) →
      (InitCodes sqrtf trunc drand48 map data mode rep).1 = 0 ∧
      (InitCodes sqrtf trunc drand48 map data mode rep).2.2.errors.length
        = rep.errors.length + 1) ∧
    (¬ (map.xdim * map.ydim = 0 ∨ (dataHead data).dimension = 0) →
      (InitCodes sqrtf trunc drand48 map data mode rep).1 = 1 ∧
      (InitCodes sqrtf trunc drand48 map data mode rep).2.2 = rep) := by
  unfold InitCodes
  simp only [initDim_eq]
  by_cases h1 : map.xdim * map.ydim = 0
  · simp [h1, AddError]
  · by_cases h2 : (dataHead data).dimension = 0
    · simp [h1, h2, AddError]
    · simp [h1, h2]

/-- The dimension of the map after a successful `InitCodes`: in VQ mode
`ldim + (FanOut + FanIn) * (xdim * ydim) + tdim` of the first graph, otherwise
the dimension of the first graph. -/
theorem InitCodes_dim {K : Type} [LinearOrderedField K] (sqrtf : K → K) (trunc : K → Int)
    (drand48 : Nat → K) (map : Map K) (data : List (Graph K)) (mode : Nat) (rep : Reports)
    (hok : (InitCodes sqrtf trunc drand48 map data mode rep).1 = 1) :
    (InitCodes sqrtf trunc drand48 map data mode rep).2.1.dim
      = if map.topology = TOPOL_VQ then
          (dataHead data).ldim + ((dataHead data).FanOut + (dataHead data).FanIn)
            * (map.xdim * map.ydim) + (dataHead data).tdim
        else (dataHead data).dimension := by
  unfold InitCodes at hok ⊢
  simp only [initDim_eq] at hok ⊢
  by_cases h1 : map.xdim * map.ydim = 0
  · simp [h1] at hok
  · by_cases h2 : (dataHead data).dimension = 0
    · simp [h1, h2] at hok
    · simp only [if_neg h1, if_neg h2]

/-- The first graph of the dataset `dataZeroFirst` has dimension 0 and the
second has dimension 3; the grid has one cell.  Whatever the library functions
and the mode, `InitCodes` returns 0 and records the error that the dimension
of all node vectors is zero, although a graph of the dataset has a nonzero
dimension and the grid is not empty. -/
theorem InitCodes_fails_with_nonzero_graph (sqrtf : ℚ → ℚ) (trunc : ℚ → Int)
    (drand48 : Nat → ℚ) (mode : Nat) :
    (mapBlank 1 1).xdim * (mapBlank 1 1).ydim = 1 ∧
    dataZeroFirst.map (fun gptr => gptr.dimension) = [0, 3] ∧
    (InitCodes sqrtf trunc drand48 (mapBlank 1 1) dataZeroFirst mode noReports).1 = 0 ∧
    (InitCodes sqrtf trunc drand48 (mapBlank 1 1) dataZeroFirst mode noReports).2.2.errors
      = ["Dimension of all node vectors in the dataset is zero!"] :=
  ⟨rfl, rfl, rfl, rfl⟩

/-- C19.  The graphs of the dataset `dataTwoFive` have the dimensions 2 and 5
and the map is not in VQ mode.  Whatever the library functions and the mode,
`InitCodes` succeeds and sets `map.dim` to 2, the dimension of the first
graph, not to the largest dimension 5. -/
theorem InitCodes_dim_not_largest (sqrtf : ℚ → ℚ) (trunc : ℚ → Int)
    (drand48 : Nat → ℚ) (mode : Nat) :
    (mapBlank 1 1).topology ≠ TOPOL_VQ ∧
    dataTwoFive.map (fun gptr => gptr.dimension) = [2, 5] ∧
    (InitCodes sqrtf trunc drand48 (mapBlank 1 1) dataTwoFive mode noReports).1 = 1 ∧
    (InitCodes sqrtf trunc drand48 (mapBlank 1 1) dataTwoFive mode noReports).2.1.dim = 2 :=
  ⟨by decide, rfl, rfl, rfl⟩

/-! ## The cell loops of `InitCodes` -/

/-- A loop with a running counter. -/
theorem counter_fold {α : Type} (f : Nat → Nat → α → α) (n0 : Nat) (c : α) (k : Nat) :
    (List.range k).foldl (fun (st : α × Nat) x => (f x st.2 st.1, st.2 + 1)) (c, n0)
      = ((List.range k).foldl (fun c x => f x (n0 + x) c) c, n0 + k) := by
  induction k with
  | zero => rfl
  | succ k ih =>
    rw [List.range_succ, List.foldl_append, List.foldl_append, ih]
    rfl

/-- Two nested loops over the rows and the columns of a grid with a running
counter are one loop over the counter. -/
theorem nested_counter_fold {α : Type} (F : Nat → Nat → Nat → α → α) (X Y : Nat) (c0 : α) :
    (List.range Y).foldl
        (fun (st : α × Nat) y =>
          (List.range X).foldl (fun (st : α × Nat) x => (F y x st.2 st.1, st.2 + 1)) st)
        (c0, 0)
      = ((List.range (Y * X)).foldl (fun c n => F (n / X) (n % X) n c) c0, Y * X) := by
  induction Y with
  | zero => simp
  | succ Y ih =>
    rw [List.range_succ, List.foldl_append, ih]
    simp only [List.foldl_cons, List.foldl_nil]
    rw [counter_fold (F Y) (Y * X)]
    have hsplit : (Y + 1) * X = Y * X + X := by ring
    rw [hsplit, List.range_add, List.foldl_append, List.foldl_map]
    congr 1
    apply List.foldl_ext
    intro c x hx
    have hxX : x < X := List.mem_range.mp hx
    have hpos : 0 < X := by omega
    have hdiv : (Y * X + x) / X = Y := by
      rw [Nat.add_comm, Nat.add_mul_div_right _ _ hpos, Nat.div_eq_of_lt hxX, Nat.zero_add]
    have hmod : (Y * X + x) % X = x := by
      rw [Nat.add_comm, Nat.add_mul_mod_self_right, Nat.mod_eq_of_lt hxX]
    rw [hdiv, hmod]

/-- A loop that assigns entry `i` of a vector for every `i < k`. -/
theorem getD_foldl_assign {K : Type} [LinearOrderedField K] (v : Nat → K) (pts : List K)
    (k i : Nat) (hi : i < k) (hlen : i < pts.length) :
    ((List.range k).foldl (fun p i => p.set i (v i)) pts).getD i 0 = v i :=
  getD_foldl_set_pointwise (0 : K) (fun i _ => v i) pts k i hi hlen

theorem length_foldl_assign {K : Type} [LinearOrderedField K] (v : Nat → K) (pts : List K)
    (k : Nat) : ((List.range k).foldl (fun p i => p.set i (v i)) pts).length = pts.length :=
  (foldl_set_pointwise (0 : K) (fun i _ => v i) pts k).1

/-- The codebook array after the allocation loops: codebook `n` sits in column
`n % xdim` of row `n / xdim` and has a vector of `map.dim` entries. -/
theorem initAlloc_spec {K : Type} [LinearOrderedField K] (map : Map K) :
    (initAlloc map).length = map.xdim * map.ydim ∧
    ∀ n, n < map.xdim * map.ydim →
      (initAlloc map).getD n emptyCodebook
        = { (emptyCodebook : Codebook K) with
            points := List.replicate map.dim 0, x := ((n % map.xdim : Nat) : Int),
            y := ((n / map.xdim : Nat) : Int), label := MAX_UNSIGNED } := by
  unfold initAlloc
  rw [nested_counter_fold
    (fun y x n (codes : List (Codebook K)) =>
      codes.set n { codes.getD n emptyCodebook with
        points := List.replicate map.dim 0, x := (x : Int), y := (y : Int),
        label := MAX_UNSIGNED })]
  simp only
  have h := foldl_set_pointwise (emptyCodebook : Codebook K)
    (fun n c => { c with
      points := List.replicate map.dim 0, x := ((n % map.xdim : Nat) : Int),
      y := ((n / map.xdim : Nat) : Int), label := MAX_UNSIGNED })
    (List.replicate (map.xdim * map.ydim) emptyCodebook) (map.ydim * map.xdim)
  refine ⟨by rw [h.1, List.length_replicate], fun n hn => ?_⟩
  rw [List.getD_eq_getElem?_getD, h.2 n, if_pos (by rw [Nat.mul_comm]; exact hn),
    List.getElem?_replicate, if_pos hn]
  rfl

/-- The codebook array after the linear initialisation: entry `i < dim` of the
vector of codebook `n` is `mival[i] + (maval[i] - mival[i]) * dist / maxdist`
with `dist = sqrtf` of the squared distance of the cell of `n` from the origin
and `maxdist` the squared distance of the cell `(xdim - 1, ydim - 1)`. -/
theorem initLinear_spec {K : Type} [LinearOrderedField K] (sqrtf : K → K) (map : Map K)
    (maval mival : List K) (codes : List (Codebook K))
    (hlen : codes.length = map.xdim * map.ydim) (n : Nat) (hn : n < map.xdim * map.ydim) :
    ((initLinear sqrtf map maval mival map.dim codes).getD n emptyCodebook).x
      = (codes.getD n emptyCodebook).x ∧
    ((initLinear sqrtf map maval mival map.dim codes).getD n emptyCodebook).y
      = (codes.getD n emptyCodebook).y ∧
    ∀ i, i < map.dim → i < (codes.getD n emptyCodebook).points.length →
      ((initLinear sqrtf map maval mival map.dim codes).getD n emptyCodebook).points.getD i 0
        = mival.getD i 0 + ((maval.getD i 0 - mival.getD i 0)
            * sqrtf (ComputeHexaDistance (codes.getD n emptyCodebook).x
                (codes.getD n emptyCodebook).y 0 0)
            / ComputeHexaDistance ((map.xdim : Int) - 1) ((map.ydim : Int) - 1) 0 0) := by
  unfold initLinear
  dsimp only
  rw [nested_counter_fold
    (fun _ _ n (codes : List (Codebook K)) =>
      linearCode sqrtf maval mival map.dim map.dim
        (ComputeHexaDistance ((map.xdim : Int) - 1) ((map.ydim : Int) - 1) 0 0) codes n)]
  simp only
  have h := getD_foldl_set_pointwise (emptyCodebook : Codebook K)
    (fun n c => { c with
      points := oneHotTail map.dim map.dim n
        ((List.range map.dim).foldl
          (fun p i =>
            p.set i (mival.getD i 0 + ((maval.getD i 0 - mival.getD i 0)
              * sqrtf (ComputeHexaDistance c.x c.y 0 0)
              / ComputeHexaDistance ((map.xdim : Int) - 1) ((map.ydim : Int) - 1) 0 0)))
          c.points) })
    codes (map.ydim * map.xdim) n (by rw [Nat.mul_comm]; exact hn) (by rw [hlen]; exact hn)
  have hfold : (List.range (map.ydim * map.xdim)).foldl
      (fun c n => linearCode sqrtf maval mival map.dim map.dim
        (ComputeHexaDistance ((map.xdim : Int) - 1) ((map.ydim : Int) - 1) 0 0) c n) codes
      = (List.range (map.ydim * map.xdim)).foldl
        (fun l n => l.set n ((fun n c => { c with
          points := oneHotTail map.dim map.dim n
            ((List.range map.dim).foldl
              (fun p i =>
                p.set i (mival.getD i 0 + ((maval.getD i 0 - mival.getD i 0)
                  * sqrtf (ComputeHexaDistance c.x c.y 0 0)
                  / ComputeHexaDistance ((map.xdim : Int) - 1) ((map.ydim : Int) - 1) 0 0)))
              c.points) }) n (l.getD n emptyCodebook))) codes := rfl
  rw [hfold, h]
  refine ⟨rfl, rfl, fun i hi hpl => ?_⟩
  simp only [oneHotTail, Nat.sub_self, List.range_zero, List.foldl_nil]
  exact getD_foldl_assign _ _ _ _ hi hpl
/-- Outside VQ mode the ranges do not depend on the cast to `int`. -/
theorem initRange_trunc_indep {K : Type} [LinearOrderedField K] (trunc trunc2 : K → Int)
    (map : Map K) (data : List (Graph K)) (dim noc : Nat) (hvq : map.topology ≠ TOPOL_VQ) :
    initRange trunc map data dim noc = initRange trunc2 map data dim noc := by
  unfold initRange
  simp only [if_neg hvq]

/-- What the linear initialisation computes.  After a successful `InitCodes` in
mode `INIT_LINEAR`, codebook `n` sits in the cell `(n % xdim, n / xdim)` and,
with `(maval, mival)` the ranges of the dataset, entry `i < map.dim` of its
vector is `mival[i] + (maval[i] - mival[i]) * sqrtf (d2 n) / d2max`, where
`d2 n` is the squared hexagonal distance of the cell from the origin and
`d2max` is the squared distance of the cell `(xdim - 1, ydim - 1)`: the
numerator is a distance and the denominator a squared distance. -/
theorem InitCodes_linear_value {K : Type} [LinearOrderedField K] (sqrtf : K → K)
    (trunc : K → Int) (drand48 : Nat → K) (map : Map K) (data : List (Graph K))
    (rep : Reports) (hnoc : map.xdim * map.ydim ≠ 0) (hdim : (dataHead data).dimension ≠ 0)
    (n : Nat) (hn : n < map.xdim * map.ydim) :
    (codeAt (InitCodes sqrtf trunc drand48 map data INIT_LINEAR rep).2.1 n).x
      = ((n % map.xdim : Nat) : Int) ∧
    (codeAt (InitCodes sqrtf trunc drand48 map data INIT_LINEAR rep).2.1 n).y
      = ((n / map.xdim : Nat) : Int) ∧
    ∀ i, i < (InitCodes sqrtf trunc drand48 map data INIT_LINEAR rep).2.1.dim →
      (codeAt (InitCodes sqrtf trunc drand48 map data INIT_LINEAR rep).2.1 n).points.getD i 0
        = (initRange trunc map data
              (InitCodes sqrtf trunc drand48 map data INIT_LINEAR rep).2.1.dim
              (map.xdim * map.ydim)).2.getD i 0
          + (((initRange trunc map data
                (InitCodes sqrtf trunc drand48 map data INIT_LINEAR rep).2.1.dim
                (map.xdim * map.ydim)).1.getD i 0
              - (initRange trunc map data
                (InitCodes sqrtf trunc drand48 map data INIT_LINEAR rep).2.1.dim
                (map.xdim * map.ydim)).2.getD i 0)
            * sqrtf (ComputeHexaDistance ((n % map.xdim : Nat) : Int)
                ((n / map.xdim : Nat) : Int) 0 0)
            / ComputeHexaDistance ((map.xdim : Int) - 1) ((map.ydim : Int) - 1) 0 0) := by
  unfold InitCodes codeAt
  simp only [initDim_eq, if_neg hnoc, if_neg hdim, if_true]
  generalize hD : (if map.topology = TOPOL_VQ then
      (dataHead data).ldim + ((dataHead data).FanOut + (dataHead data).FanIn)
        * (map.xdim * map.ydim) + (dataHead data).tdim
    else (dataHead data).dimension) = D
  have halloc := initAlloc_spec ({ map with dim := D } : Map K)
  have hspec := initLinear_spec sqrtf ({ map with dim := D } : Map K)
    (initRange trunc ({ map with dim := D } : Map K) data D (map.xdim * map.ydim)).1
    (initRange trunc ({ map with dim := D } : Map K) data D (map.xdim * map.ydim)).2
    (initAlloc ({ map with dim := D } : Map K)) halloc.1 n hn
  rw [halloc.2 n hn] at hspec
  refine ⟨hspec.1, hspec.2.1, fun i hi => ?_⟩
  exact hspec.2.2 i hi (by simp only [List.length_replicate]; exact hi)

/-! ## C20: the linear initialisation -/

/-- C20.  A grid of one column and three rows, a dataset whose only vector
entry ranges over `[1, 5]`, mode `INIT_LINEAR`, and any `sqrtf` with
`sqrtf 4 = 2`.  The cell `(0, 2)` of codebook 2 is the farthest from the origin
(squared hexagonal distances 0, 1 and 4, hence distances 0, 1 and 2), so the
formula `min + (max - min) * d / dmax` gives it `1 + 4 * 2 / 2 = 5`, the
maximum.  `InitCodes` gives it `1 + 4 * 2 / 4 = 3`: it divides the distance by
the squared distance of the far corner. -/
theorem InitCodes_linear_far_corner (sqrtf : ℚ → ℚ) (trunc : ℚ → Int) (drand48 : Nat → ℚ)
    (h4 : sqrtf 4 = 2) :
    (InitCodes sqrtf trunc drand48 (mapBlank 1 3) dataRange INIT_LINEAR noReports).1 = 1 ∧
    initRange trunc (mapBlank 1 3) dataRange 1 3 = ([5], [1]) ∧
    (codeAt (InitCodes sqrtf trunc drand48 (mapBlank 1 3) dataRange INIT_LINEAR noReports).2.1
      2).x = 0 ∧
    (codeAt (InitCodes sqrtf trunc drand48 (mapBlank 1 3) dataRange INIT_LINEAR noReports).2.1
      2).y = 2 ∧
    [(ComputeHexaDistance 0 0 0 0 : ℚ), ComputeHexaDistance 0 1 0 0, ComputeHexaDistance 0 2 0 0]
      = [0, 1, 4] ∧
    (codeAt (InitCodes sqrtf trunc drand48 (mapBlank 1 3) dataRange INIT_LINEAR noReports).2.1
      2).points.getD 0 0 = 3 ∧
    (1 : ℚ) + (5 - 1) * sqrtf 4 / sqrtf 4 = 5 := by
  have hr : initRange trunc (mapBlank 1 3) dataRange 1 3 = ([5], [1]) := by
    rw [initRange_trunc_indep trunc (fun _ => 0) _ _ _ _ (by decide)]
    decide!
  obtain ⟨hx, hy, hv⟩ := InitCodes_linear_value sqrtf trunc drand48 (mapBlank 1 3) dataRange
    noReports (by decide) (by decide) 2 (by decide)
  have hd : (InitCodes sqrtf trunc drand48 (mapBlank 1 3) dataRange INIT_LINEAR
      noReports).2.1.dim = 1 := rfl
  have hv0 := hv 0 (by rw [hd]; decide)
  rw [hd] at hv0
  have hxy : (mapBlank 1 3).xdim * (mapBlank 1 3).ydim = 3 := rfl
  rw [hxy, hr] at hv0
  have hc1 : (ComputeHexaDistance ((2 % (mapBlank 1 3).xdim : Nat) : Int)
      ((2 / (mapBlank 1 3).xdim : Nat) : Int) 0 0 : ℚ) = 4 := by decide!
  have hc2 : (ComputeHexaDistance (((mapBlank 1 3).xdim : Int) - 1)
      (((mapBlank 1 3).ydim : Int) - 1) 0 0 : ℚ) = 4 := by decide!
  rw [hc1, hc2, h4] at hv0
  refine ⟨rfl, hr, hx, hy, by decide!, ?_, ?_⟩
  · rw [hv0]
    norm_num
  · rw [h4]
    norm_num

theorem InitCodes_linear_far_corner_witness :
    (InitCodes (fun q => q / 2) (fun _ => 0) (fun _ => 0) (mapBlank 1 3) dataRange INIT_LINEAR
      noReports).1 = 1 ∧
    initRange (fun _ => 0) (mapBlank 1 3) dataRange 1 3 = ([5], [1]) ∧
    (codeAt (InitCodes (fun q => q / 2) (fun _ => 0) (fun _ => 0) (mapBlank 1 3) dataRange
      INIT_LINEAR noReports).2.1 2).x = 0 ∧
    (codeAt (InitCodes (fun q => q / 2) (fun _ => 0) (fun _ => 0) (mapBlank 1 3) dataRange
      INIT_LINEAR noReports).2.1 2).y = 2 ∧
    [(ComputeHexaDistance 0 0 0 0 : ℚ), ComputeHexaDistance 0 1 0 0, ComputeHexaDistance 0 2 0 0]
      = [0, 1, 4] ∧
    (codeAt (InitCodes (fun q => q / 2) (fun _ => 0) (fun _ => 0) (mapBlank 1 3) dataRange
      INIT_LINEAR noReports).2.1 2).points.getD 0 0 = 3 ∧
    (1 : ℚ) + (5 - 1) * (fun q : ℚ => q / 2) 4 / (fun q : ℚ => q / 2) 4 = 5 :=
  InitCodes_linear_far_corner (fun q => q / 2) (fun _ => 0) (fun _ => 0) (by norm_num)

/-! ## C28: the hexagonal distance -/

/-- The square of a half-integer `t ± 1/2` is at least `1/4`. -/
theorem quarter_le_half_sq {K : Type} [LinearOrderedField K] (t : Int) :
    (1 / 4 : K) ≤ ((t : K) + 1 / 2) * ((t : K) + 1 / 2) ∧
    (1 / 4 : K) ≤ ((t : K) - 1 / 2) * ((t : K) - 1 / 2) := by
  have h1 : (1 : Int) ≤ (2 * t + 1) * (2 * t + 1) := by
    rcases le_or_lt 0 t with h | h <;> nlinarith
  have h2 : (1 : Int) ≤ (2 * t - 1) * (2 * t - 1) := by
    rcases le_or_lt 1 t with h | h <;> nlinarith
  have h1K : (1 : K) ≤ (2 * (t : K) + 1) * (2 * (t : K) + 1) := by exact_mod_cast h1
  have h2K : (1 : K) ≤ (2 * (t : K) - 1) * (2 * (t : K) - 1) := by exact_mod_cast h2
  constructor <;> nlinarith

/-- C28.  For all integer coordinates `ComputeHexaDistance` is symmetric in its
two grid points, is 0 exactly when the two points are the same cell, and is at
least 1 when they are not. -/
theorem ComputeHexaDistance_metric {K : Type} [LinearOrderedField K] (bx byy tx ty : Int) :
    (ComputeHexaDistance bx byy tx ty : K) = ComputeHexaDistance tx ty bx byy ∧
    ((ComputeHexaDistance bx byy tx ty : K) = 0 ↔ (bx = tx ∧ byy = ty)) ∧
    ((bx = tx ∧ byy = ty) ∨ (1 : K) ≤ ComputeHexaDistance bx byy tx ty) := by
  have hsym : (ComputeHexaDistance bx byy tx ty : K) = ComputeHexaDistance tx ty bx byy := by
    unfold ComputeHexaDistance
    have hneg : ((tx - bx : Int) : K) = -((bx - tx : Int) : K) := by push_cast; ring
    have hnegy : ((ty - byy : Int) : K) = -((byy - ty : Int) : K) := by push_cast; ring
    by_cases hodd : (bx - tx) % 2 ≠ 0
    · have hodd2 : (tx - bx) % 2 ≠ 0 := by omega
      by_cases ht : tx % 2 ≠ 0
      · have hb : ¬ bx % 2 ≠ 0 := by omega
        simp only [if_pos hodd, if_pos hodd2, if_pos ht, if_neg hb, hneg, hnegy]
        ring
      · have hb : bx % 2 ≠ 0 := by omega
        simp only [if_pos hodd, if_pos hodd2, if_neg ht, if_pos hb, hneg, hnegy]
        ring
    · have hodd2 : ¬ (tx - bx) % 2 ≠ 0 := by omega
      simp only [if_neg hodd, if_neg hodd2, hneg, hnegy]
      ring
  have hone : (bx = tx ∧ byy = ty) ∨ (1 : K) ≤ ComputeHexaDistance bx byy tx ty := by
    by_cases hsame : bx = tx ∧ byy = ty
    · exact Or.inl hsame
    · right
      unfold ComputeHexaDistance
      by_cases hdx : bx - tx = 0
      · have hbx : bx = tx := by omega
        have hby : byy - ty ≠ 0 := fun h0 => hsame ⟨hbx, by omega⟩
        have h1 : (1 : Int) ≤ (byy - ty) * (byy - ty) := by
          rcases Int.lt_or_gt_of_ne hby with h | h <;> nlinarith
        have h1K : (1 : K) ≤ ((byy - ty : Int) : K) * ((byy - ty : Int) : K) := by
          exact_mod_cast h1
        simp only [hdx, Int.zero_emod, ne_eq, not_true_eq_false, if_false, Int.cast_zero,
          mul_zero, add_zero]
        exact h1K
      · have hd1 : (1 : Int) ≤ (bx - tx) * (bx - tx) := by
          rcases Int.lt_or_gt_of_ne hdx with h | h <;> nlinarith
        have hd1K : (1 : K) ≤ ((bx - tx : Int) : K) * ((bx - tx : Int) : K) := by
          exact_mod_cast hd1
        by_cases hodd : (bx - tx) % 2 ≠ 0
        · have hq := quarter_le_half_sq (K := K) (byy - ty)
          by_cases ht : tx % 2 ≠ 0
          · simp only [if_pos hodd, if_pos ht]
            nlinarith [hq.1]
          · simp only [if_pos hodd, if_neg ht]
            nlinarith [hq.2]
        · have hd4 : (4 : Int) ≤ (bx - tx) * (bx - tx) := by
            have hev : (bx - tx) % 2 = 0 := by omega
            obtain ⟨k, hk⟩ : ∃ k, bx - tx = 2 * k := ⟨(bx - tx) / 2, by omega⟩
            have hk0 : k ≠ 0 := fun h => hdx (by rw [hk, h]; rfl)
            have : (1 : Int) ≤ k * k := by
              rcases Int.lt_or_gt_of_ne hk0 with h | h <;> nlinarith
            rw [hk]
            nlinarith
          have hd4K : (4 : K) ≤ ((bx - tx : Int) : K) * ((bx - tx : Int) : K) := by
            exact_mod_cast hd4
          simp only [if_neg hodd]
          nlinarith [mul_self_nonneg (((byy - ty : Int) : K))]
  refine ⟨hsym, ⟨fun h0 => ?_, fun hs => ?_⟩, hone⟩
  · by_contra hne
    have := ComputeHexaDistance_pos (K := K) bx byy tx ty hne
    rw [h0] at this
    exact lt_irrefl _ this
  · rw [hs.1, hs.2]
    exact ComputeHexaDistance_self tx ty
/-! ## C30: the index left in `winner` -/

/-- After the codebook loop of `FindWinnerEucledian` the index is that of a
codebook, or it is the index that `winner` held before the call and no
codebook came below `FLT_MAX`. -/
theorem FindWinnerEucledian_codeno_cases {K : Type} [LinearOrderedField K] (map : Map K)
    (node : Node K) (gptr : Graph K) (winner : Winner K) :
    (FindWinnerEucledian map node gptr winner).codeno < map.xdim * map.ydim ∨
    ((FindWinnerEucledian map node gptr winner).codeno = winner.codeno ∧
      (FindWinnerEucledian map node gptr winner).diff = FLT_MAX) := by
  unfold FindWinnerEucledian
  simp only
  generalize map.xdim * map.ydim = k
  induction k with
  | zero => exact Or.inr ⟨rfl, rfl⟩
  | succ k ih =>
    rw [List.range_succ, List.foldl_append]
    simp only [List.foldl_cons, List.foldl_nil]
    generalize (List.range k).foldl (findWinnerStep map node gptr.dimension)
      (winner.codeno, FLT_MAX) = st at ih
    unfold findWinnerStep
    simp only
    split_ifs with h
    · exact Or.inl (Nat.lt_succ_self k)
    · rcases ih with h1 | h1
      · exact Or.inl (Nat.lt_succ_of_lt h1)
      · exact Or.inr h1

/-- C30.  The map `mapLine` has two codebooks.  The vector of node 0 of `gFar`
lies at a weighted squared distance of more than `FLT_MAX` from both, so no
codebook enters the branch that writes `winner.codeno`: entered with
`codeno = 7`, `FindWinnerEucledian` returns `codeno = 7`, which is no index of
a codebook, and `diff = FLT_MAX`. -/
theorem FindWinnerEucledian_stale_codeno :
    (mapLine ℚ).xdim * (mapLine ℚ).ydim = 2 ∧
    (FindWinnerEucledian (mapLine ℚ) (nodeAt gFar.nodes 0) gFar
      { codeno := 7, diff := 0 }).codeno = 7 ∧
    (FindWinnerEucledian (mapLine ℚ) (nodeAt gFar.nodes 0) gFar
      { codeno := 7, diff := 0 }).diff = FLT_MAX ∧
    (FLT_MAX : ℚ) < nodeDist (mapLine ℚ) (nodeAt gFar.nodes 0) gFar 0 ∧
    (FLT_MAX : ℚ) < nodeDist (mapLine ℚ) (nodeAt gFar.nodes 0) gFar 1 := by
  decide!

/-! ## C26: `GetMaxPathLength` terminates -/

/-- The child loop of `GetMaxPathLength` when every recursive call returns. -/
theorem pathLen_fold_some {K : Type} (nd : Node K) (f : Nat → Option (Nat × Nat))
    (g : Nat → Nat × Bool) (B : Nat) (l : List Nat)
    (H : ∀ i, i ∈ l → ∀ c, childAt nd i = some c → ∃ d, f c = some ((g c).1, d) ∧ d ≤ B)
    (a0 : Nat × Nat) (b0 : Nat × Bool) (h0 : a0.1 = b0.1) (ha : a0.2 ≤ B + 1) :
    ∃ d, l.foldl
        (fun acc i =>
          match childAt nd i with
          | none => acc
          | some c =>
            match acc, f c with
            | some a, some r =>
              some (if r.1 + 1 > a.1 then r.1 + 1 else a.1,
                    if r.2 + 1 > a.2 then r.2 + 1 else a.2)
            | _, _ => none)
        (some a0)
      = some ((l.foldl
          (fun acc i =>
            match childAt nd i with
            | none => acc
            | some c => (if (g c).1 + 1 > acc.1 then (g c).1 + 1 else acc.1, acc.2 || (g c).2))
          b0).1, d) ∧ d ≤ B + 1 := by
  induction l generalizing a0 b0 with
  | nil => exact ⟨a0.2, by simp only [List.foldl_nil, ← h0], ha⟩
  | cons i l ih =>
    simp only [List.foldl_cons]
    have Hl : ∀ j, j ∈ l → ∀ c, childAt nd j = some c → ∃ d, f c = some ((g c).1, d) ∧ d ≤ B :=
      fun j hj => H j (List.mem_cons_of_mem _ hj)
    cases hc : childAt nd i with
    | none => exact ih Hl a0 b0 h0 ha
    | some c =>
      obtain ⟨d, hd, hdB⟩ := H i (List.mem_cons_self _ _) c hc
      simp only [hd]
      apply ih Hl
      · simp only [h0]
      · simp only
        split_ifs <;> omega

theorem wrapInt_eq (x : Int) (h1 : -2147483648 ≤ x) (h2 : x ≤ 2147483647) : wrapInt x = x := by
  unfold wrapInt
  omega

/-- The procedure returns whenever `fuel` covers the counter, with the value of
the structural embedding `GetMaxPathLengthT`, and nests at most `maxiter - 1`
activations below the first. -/
theorem GetMaxPathLengthF_eq {K : Type} (nodes : List (Node K)) (FanOut : Nat) (fuel : Nat) :
    ∀ (maxiter : Int) (node : Nat), -2147483648 < maxiter → maxiter ≤ 2147483647 →
      0 < fuel → maxiter.toNat ≤ fuel →
      ∃ d, GetMaxPathLengthF nodes FanOut fuel maxiter node
          = some ((GetMaxPathLengthT nodes FanOut maxiter.toNat node).1, d) ∧
        d ≤ (maxiter - 1).toNat := by
  induction fuel with
  | zero => intro _ _ _ _ h; exact absurd h (Nat.lt_irrefl 0)
  | succ fuel ih =>
    intro maxiter node hmin hmax _ hle
    rw [GetMaxPathLengthF, wrapInt_eq (maxiter - 1) (by omega) (by omega)]
    by_cases hbase : (nodeAt nodes node).depth ≠ 0 ∨
        GetNumChildren (nodeAt nodes node) FanOut = 0
    · rw [if_pos hbase]
      refine ⟨0, ?_, Nat.zero_le _⟩
      cases hm : maxiter.toNat with
      | zero => rw [GetMaxPathLengthT, if_pos hbase]
      | succ m => rw [GetMaxPathLengthT, if_pos hbase]
    · rw [if_neg hbase]
      by_cases hex : maxiter - 1 ≤ 0
      · rw [if_pos hex]
        refine ⟨0, ?_, Nat.zero_le _⟩
        cases hm : maxiter.toNat with
        | zero => rw [GetMaxPathLengthT, if_neg hbase]
        | succ m =>
          have hm0 : m = 0 := by omega
          rw [GetMaxPathLengthT, if_neg hbase, if_pos hm0]
      · rw [if_neg hex]
        have hm : maxiter.toNat = (maxiter - 1).toNat + 1 := by omega
        have hm1 : ¬ (maxiter - 1).toNat = 0 := by omega
        rw [hm, GetMaxPathLengthT, if_neg hbase, if_neg hm1]
        have hfuel : 0 < fuel := by omega
        obtain ⟨d, hd, hdB⟩ := pathLen_fold_some (nodeAt nodes node)
          (GetMaxPathLengthF nodes FanOut fuel (maxiter - 1))
          (GetMaxPathLengthT nodes FanOut (maxiter - 1).toNat) (maxiter - 1 - 1).toNat
          (List.range FanOut)
          (fun i _ c _ => ih (maxiter - 1) c (by omega) (by omega) hfuel (by omega))
          (0, 0) (0, false) rfl (Nat.zero_le _)
        refine ⟨d, hd, ?_⟩
        omega

/-- C26, as amended.  For every graph (the links may form cycles), every node
and every value of the counter `maxiter` above `INT_MIN`, `GetMaxPathLength` returns as
soon as `max 1 maxiter` nested activations are available: it nests at most
`maxiter - 1` recursive calls below the first call (none when `maxiter <= 1`),
hence never more than `maxiter`, and its value is that of the structural
embedding `GetMaxPathLength`.  The counter decreases by one with every nested
call and a call whose counter is exhausted returns 0 without a further call.
For `maxiter = INT_MIN` the decrement overflows, which C leaves undefined. -/
theorem GetMaxPathLength_terminates {K : Type} (nodes : List (Node K)) (FanOut : Nat)
    (maxiter : Int) (node fuel : Nat) (hmin : -2147483648 < maxiter)
    (hmax : maxiter ≤ 2147483647) (hpos : 0 < fuel) (hfuel : maxiter.toNat ≤ fuel) :
    ∃ d, GetMaxPathLengthF nodes FanOut fuel maxiter node
        = some (GetMaxPathLength nodes FanOut maxiter node, d) ∧
      d ≤ (maxiter - 1).toNat ∧ d ≤ maxiter.toNat ∧ d < fuel := by
  obtain ⟨d, hd, hdB⟩ := GetMaxPathLengthF_eq nodes FanOut fuel maxiter node hmin hmax hpos
    hfuel
  exact ⟨d, hd, hdB, by omega, by omega⟩

theorem GetMaxPathLength_terminates_witness :
    ∃ d, GetMaxPathLengthF gCycle.nodes gCycle.FanOut 5 5 0
        = some (GetMaxPathLength gCycle.nodes gCycle.FanOut 5 0, d) ∧
      d ≤ ((5 : Int) - 1).toNat ∧ d ≤ (5 : Int).toNat ∧ d < 5 :=
  GetMaxPathLength_terminates gCycle.nodes gCycle.FanOut 5 0 5 (by decide) (by decide)
    (by decide) (by decide)

/-- On the cycle of two nodes the call with counter 5 nests four calls below
the first and returns 4; with the wrapped decrement of `INT_MIN` the counter
restarts from `INT_MAX` and twenty activations are not enough. -/
theorem GetMaxPathLengthF_on_cycle :
    GetMaxPathLengthF gCycle.nodes gCycle.FanOut 5 5 0 = some (4, 4) ∧
    GetMaxPathLengthF gCycle.nodes gCycle.FanOut 20 (-2147483648) 0 = none := by
  decide

/-! ## C24: names and tags -/

/-- C24.  For each of the topology tags `TOPOL_RECT`, `TOPOL_HEXA`, `TOPOL_OCT`
and `TOPOL_VQ`, `GetTopologyID` applied to the name that `GetTopologyName`
gives returns the tag and, when `uval` is not null, stores the tag in it; the
same holds for `GetNeighborhoodID` and `GetNeighborhoodName` on the tags
`NEIGH_BUBBLE`, `NEIGH_GAUSSIAN` and `NEIGH_NONE`. -/
theorem names_round_trip (uval : Option Nat) :
    GetTopologyID (GetTopologyName TOPOL_RECT) uval
      = (TOPOL_RECT, uval.map (fun _ => TOPOL_RECT)) ∧
    GetTopologyID (GetTopologyName TOPOL_HEXA) uval
      = (TOPOL_HEXA, uval.map (fun _ => TOPOL_HEXA)) ∧
    GetTopologyID (GetTopologyName TOPOL_OCT) uval
      = (TOPOL_OCT, uval.map (fun _ => TOPOL_OCT)) ∧
    GetTopologyID (GetTopologyName TOPOL_VQ) uval
      = (TOPOL_VQ, uval.map (fun _ => TOPOL_VQ)) ∧
    GetNeighborhoodID (GetNeighborhoodName NEIGH_BUBBLE) uval
      = (NEIGH_BUBBLE, uval.map (fun _ => NEIGH_BUBBLE)) ∧
    GetNeighborhoodID (GetNeighborhoodName NEIGH_GAUSSIAN) uval
      = (NEIGH_GAUSSIAN, uval.map (fun _ => NEIGH_GAUSSIAN)) ∧
    GetNeighborhoodID (GetNeighborhoodName NEIGH_NONE) uval
      = (NEIGH_NONE, uval.map (fun _ => NEIGH_NONE)) := by
  refine ⟨?_, ?_, ?_, ?_, ?_, ?_, ?_⟩ <;> rfl

/-! ## C29: the lists of graphs after `PrepareData` -/

/-- C29.  The training list holds the graphs 0 and 1, the validation list the
graphs 2 and 3, and the order of the graphs is randomised.  Whatever the four
random numbers (each is 0 or 1/2 and gives the index 0 or 1), after
`PrepareData` the list
`train` consists of the graphs 2 and 3, the validation graphs, and not of the
graphs 0 and 1: the loop over the three lists assigns the head of each
randomised list to `param->train`.  The head `valid` still points to graph 2;
when the random numbers put graph 3 first, as four zeros do, the list read
from `valid` is graph 2 alone. -/
theorem PrepareData_train_is_validation :
    graphList listsTwoTwo.next 4 listsTwoTwo.train = some [0, 1] ∧
    graphList listsTwoTwo.next 4 listsTwoTwo.valid = some [2, 3] ∧
    (∀ n, n < 16 →
      ((PrepareData (halves (bits4 n)) truncQ 4 1 listsTwoTwo).bind
          (fun p => graphList p.next 4 p.train)) ∈ [some [2, 3], some [3, 2]] ∧
      ((PrepareData (halves (bits4 n)) truncQ 4 1 listsTwoTwo).bind
          (fun p => graphList p.next 4 p.valid)) ∈ [some [2, 3], some [2]]) ∧
    ((PrepareData (halves [0, 0, 0, 0]) truncQ 4 1 listsTwoTwo).bind
        (fun p => graphList p.next 4 p.train)) = some [3, 2] ∧
    ((PrepareData (halves [0, 0, 0, 0]) truncQ 4 1 listsTwoTwo).bind
        (fun p => graphList p.next 4 p.valid)) = some [2] := by
  decide!

/-- Without randomisation of the graph order `PrepareData` leaves the three
lists as they are. -/
theorem PrepareData_fixed_order {K : Type} [LinearOrderedField K] (drand48 : Nat → K)
    (trunc : K → Int) (fuel graphorder : Nat) (param : GraphLists) (h : graphorder ≠ 1) :
    PrepareData drand48 trunc fuel graphorder param = some param := by
  have hstep : ∀ (s : GraphLists × Nat) (glist : Option Nat),
      prepareList drand48 trunc fuel graphorder s glist = some s := by
    intro s glist
    cases glist with
    | none => rfl
    | some g => simp only [prepareList, if_neg h]
  simp only [PrepareData, List.foldl_cons, List.foldl_nil, Option.bind_some, hstep,
    Option.map_some']

/-- With a training list alone the randomised `train` holds the training graphs:
on the lists of `listsTwoTwo` without the validation list, every pair of random
numbers leaves the graphs 0 and 1 in `train`. -/
theorem PrepareData_train_only :
    ∀ n, n < 16 →
      ((PrepareData (halves (bits4 n)) truncQ 4 1 { listsTwoTwo with valid := none }).bind
          (fun p => graphList p.next 4 p.train)) ∈ [some [0, 1], some [1, 0]] := by
  decide!

/-! ## Sums and nested loops -/

/-- A loop that adds up terms computes their sum. -/
theorem foldl_add_eq_sum {K : Type} [LinearOrderedField K] (f : Nat → K) (m : Nat) (init : K) :
    (List.range m).foldl (fun tmp i => tmp + f i) init = init + ((List.range m).map f).sum := by
  induction m with
  | zero => simp
  | succ m ih =>
    rw [List.range_succ, List.foldl_append, ih]
    simp only [List.foldl_cons, List.foldl_nil, List.map_append, List.map_cons, List.map_nil,
      List.sum_append, List.sum_cons, List.sum_nil, add_zero]
    ring

/-- Two nested loops over blocks and positions are one loop over the entries. -/
theorem nested_fold_flat {σ : Type} (G : Nat → Nat → σ → σ) (X Y : Nat) (s0 : σ) :
    (List.range Y).foldl (fun s y => (List.range X).foldl (fun s x => G y x s) s) s0
      = (List.range (Y * X)).foldl (fun s t => G (t / X) (t % X) s) s0 := by
  induction Y with
  | zero => simp
  | succ Y ih =>
    rw [List.range_succ, List.foldl_append, ih]
    simp only [List.foldl_cons, List.foldl_nil]
    have hsplit : (Y + 1) * X = Y * X + X := by ring
    rw [hsplit, List.range_add, List.foldl_append, List.foldl_map]
    apply List.foldl_ext
    intro c x hx
    have hxX : x < X := List.mem_range.mp hx
    have hpos : 0 < X := by omega
    have hdiv : (Y * X + x) / X = Y := by
      rw [Nat.add_comm, Nat.add_mul_div_right _ _ hpos, Nat.div_eq_of_lt hxX, Nat.zero_add]
    have hmod : (Y * X + x) % X = x := by
      rw [Nat.add_comm, Nat.add_mul_mod_self_right, Nat.mod_eq_of_lt hxX]
    rw [hdiv, hmod]

/-- A loop that rewrites the entries `base .. base + k - 1` of a vector one by
one and adds up the squares of the new entries. -/
theorem foldl_update_sum {K : Type} [LinearOrderedField K] (u : Nat → K → K) (base : Nat)
    (cb : List K) (k : Nat) :
    ((List.range k).foldl
      (fun (st : List K × K) t =>
        ((st.1.set (base + t) (u t (st.1.getD (base + t) 0))),
          st.2 + SQR ((st.1.set (base + t) (u t (st.1.getD (base + t) 0))).getD (base + t) 0)))
      (cb, 0)).1.length = cb.length ∧
    (∀ j, ((List.range k).foldl
      (fun (st : List K × K) t =>
        ((st.1.set (base + t) (u t (st.1.getD (base + t) 0))),
          st.2 + SQR ((st.1.set (base + t) (u t (st.1.getD (base + t) 0))).getD (base + t) 0)))
      (cb, 0)).1[j]?
        = if base ≤ j ∧ j < base + k then (cb[j]?).map (u (j - base)) else cb[j]?) ∧
    ((List.range k).foldl
      (fun (st : List K × K) t =>
        ((st.1.set (base + t) (u t (st.1.getD (base + t) 0))),
          st.2 + SQR ((st.1.set (base + t) (u t (st.1.getD (base + t) 0))).getD (base + t) 0)))
      (cb, 0)).2
      = ((List.range k).map (fun t => (((List.range k).foldl
          (fun (st : List K × K) t =>
            ((st.1.set (base + t) (u t (st.1.getD (base + t) 0))),
              st.2 + SQR ((st.1.set (base + t)
                (u t (st.1.getD (base + t) 0))).getD (base + t) 0)))
          (cb, 0)).1.getD (base + t) 0) ^ 2)).sum := by
  induction k with
  | zero =>
    refine ⟨rfl, fun j => ?_, by simp⟩
    rw [if_neg (by omega)]
    rfl
  | succ k ih =>
    rw [List.range_succ, List.foldl_append]
    simp only [List.foldl_cons, List.foldl_nil]
    generalize (List.range k).foldl
      (fun (st : List K × K) t =>
        ((st.1.set (base + t) (u t (st.1.getD (base + t) 0))),
          st.2 + SQR ((st.1.set (base + t) (u t (st.1.getD (base + t) 0))).getD (base + t) 0)))
      (cb, 0) = st at ih
    obtain ⟨h1, h2, h3⟩ := ih
    refine ⟨by rw [List.length_set, h1], fun j => ?_, ?_⟩
    · rw [List.getElem?_set]
      by_cases hj : base + k = j
      · subst hj
        have hk := h2 (base + k)
        rw [if_neg (by omega)] at hk
        have hsub : base + k - base = k := by omega
        have hrange : base ≤ base + k ∧ base + k < base + (k + 1) := ⟨by omega, by omega⟩
        rw [if_pos rfl, h1]
        by_cases hlt : base + k < cb.length
        · rw [if_pos hlt, if_pos hrange, hsub, List.getD_eq_getElem?_getD, hk,
            List.getElem?_eq_getElem hlt]
          rfl
        · rw [if_neg hlt, if_pos hrange, List.getElem?_eq_none (Nat.le_of_not_lt hlt)]
          rfl
      · rw [if_neg hj, h2 j]
        by_cases hr : base ≤ j ∧ j < base + k
        · rw [if_pos hr, if_pos ⟨hr.1, by omega⟩]
        · rw [if_neg hr, if_neg (fun h => hr ⟨h.1, by omega⟩)]
    · rw [h3, List.map_append, List.sum_append]
      simp only [List.map_cons, List.map_nil, List.sum_cons, List.sum_nil, add_zero, SQR]
      congr 1
      · congr 1
        apply List.map_congr_left
        intro t ht
        have htk : t < k := List.mem_range.mp ht
        rw [List.getD_eq_getElem?_getD, List.getD_eq_getElem?_getD,
          List.getElem?_set_ne (by omega)]
      · ring

/-- The loops of `VQAdapt` over a one-hot region: the length of the vector is
kept, the entries outside the region are kept, entry `offset + t` of the region
is moved toward 1 when its position in the block is the id of the block and
toward 0 otherwise, and the running sum is the sum of the squares of the new
entries of the region. -/
theorem adaptOneHot_spec {K : Type} [LinearOrderedField K] (alpha : K) (noc offset : Nat)
    (id : Nat → Int) (count : Nat) (cb : List K) :
    (adaptOneHot alpha noc offset id count cb).1.length = cb.length ∧
    (∀ j, (adaptOneHot alpha noc offset id count cb).1[j]?
      = if offset ≤ j ∧ j < offset + count * noc then
          (cb[j]?).map (fun v =>
            if (((j - offset) % noc : Nat) : Int) = id ((j - offset) / noc)
            then v + alpha * (1 - v) else v - alpha * v)
        else cb[j]?) ∧
    (adaptOneHot alpha noc offset id count cb).2
      = ((List.range (count * noc)).map
          (fun t => ((adaptOneHot alpha noc offset id count cb).1.getD (offset + t) 0) ^ 2)).sum
    := by
  have hflat : adaptOneHot alpha noc offset id count cb
      = (List.range (count * noc)).foldl
        (fun (st : List K × K) t =>
          ((st.1.set (offset + t)
              ((fun t v => if ((t % noc : Nat) : Int) = id (t / noc)
                then v + alpha * (1 - v) else v - alpha * v) t (st.1.getD (offset + t) 0))),
            st.2 + SQR ((st.1.set (offset + t)
              ((fun t v => if ((t % noc : Nat) : Int) = id (t / noc)
                then v + alpha * (1 - v) else v - alpha * v) t
                (st.1.getD (offset + t) 0))).getD (offset + t) 0)))
        (cb, 0) := by
    unfold adaptOneHot
    rw [nested_fold_flat
      (fun i n (st : List K × K) =>
        ((st.1.set (offset + i * noc + n)
            (if (n : Int) = id i then
              st.1.getD (offset + i * noc + n) 0
                + alpha * (1 - st.1.getD (offset + i * noc + n) 0)
            else
              st.1.getD (offset + i * noc + n) 0
                - alpha * st.1.getD (offset + i * noc + n) 0)),
          st.2 + SQR ((st.1.set (offset + i * noc + n)
            (if (n : Int) = id i then
              st.1.getD (offset + i * noc + n) 0
                + alpha * (1 - st.1.getD (offset + i * noc + n) 0)
            else
              st.1.getD (offset + i * noc + n) 0
                - alpha * st.1.getD (offset + i * noc + n) 0)).getD
              (offset + i * noc + n) 0)))]
    apply List.foldl_ext
    intro st t _
    have hidx : offset + t / noc * noc + t % noc = offset + t := by
      have := Nat.div_add_mod t noc
      rw [Nat.mul_comm] at this
      omega
    simp only [hidx]
  rw [hflat]
  exact foldl_update_sum
    (fun t v => if ((t % noc : Nat) : Int) = id (t / noc)
      then v + alpha * (1 - v) else v - alpha * v) offset cb (count * noc)

/-! ## `VQSet_ab` and `VQAdapt` -/

/-- A loop that rewrites entries from `offset` on keeps the entries below. -/
theorem foldl_set_offset_below {K : Type} [LinearOrderedField K] (g : Nat → List K → K)
    (offset : Nat) (cb : List K) (k : Nat) (j : Nat) (hj : j < offset) :
    ((List.range k).foldl (fun cb i => cb.set (offset + i) (g i cb)) cb)[j]? = cb[j]? := by
  induction k with
  | zero => rfl
  | succ k ih =>
    rw [List.range_succ, List.foldl_append]
    simp only [List.foldl_cons, List.foldl_nil]
    rw [List.getElem?_set_ne (by omega), ih]

/-- A loop that rewrites the entries below `k` keeps the entries from `k` on. -/
theorem foldl_set_above {K : Type} [LinearOrderedField K] (g : Nat → List K → K)
    (cb : List K) (k : Nat) (j : Nat) (hj : k ≤ j) :
    ((List.range k).foldl (fun cb i => cb.set i (g i cb)) cb)[j]? = cb[j]? := by
  induction k with
  | zero => rfl
  | succ k ih =>
    rw [List.range_succ, List.foldl_append]
    simp only [List.foldl_cons, List.foldl_nil]
    rw [List.getElem?_set_ne (by omega), ih (by omega)]

/-- The codebook that `VQAdapt` stores for the winner. -/
theorem VQAdapt_winner {K : Type} [LinearOrderedField K] (trunc : K → Int) (gptr : Graph K)
    (map : Map K) (node : Node K) (winner : Winner K) (radius alpha : K)
    (hw : winner.codeno < map.codes.length) :
    codeAt (VQAdapt trunc gptr map node winner radius alpha).1 winner.codeno
      = { codeAt map winner.codeno with
          points := vqAdaptTarget trunc gptr (map.xdim * map.ydim) node alpha
            (codeAt map winner.codeno).points,
          a := (vqAdaptChild trunc gptr (map.xdim * map.ydim) node alpha
            (codeAt map winner.codeno).points).2,
          b := (vqAdaptParent trunc gptr (map.xdim * map.ydim) node alpha
            (codeAt map winner.codeno).points).2 } := by
  unfold VQAdapt codeAt
  simp only [List.getD_eq_getElem?_getD, List.getElem?_set_self hw, Option.getD_some]

/-- `VQAdapt` changes the winner codebook only. -/
theorem VQAdapt_other {K : Type} [LinearOrderedField K] (trunc : K → Int) (gptr : Graph K)
    (map : Map K) (node : Node K) (winner : Winner K) (radius alpha : K) (n : Nat)
    (hn : n ≠ winner.codeno) :
    codeAt (VQAdapt trunc gptr map node winner radius alpha).1 n = codeAt map n := by
  unfold VQAdapt codeAt
  simp only [List.getD_eq_getElem?_getD, List.getElem?_set_ne (Ne.symm hn)]

/-- With a winner index that is no codebook of the array `VQAdapt` leaves the
map alone. -/
theorem VQAdapt_outside {K : Type} [LinearOrderedField K] (trunc : K → Int) (gptr : Graph K)
    (map : Map K) (node : Node K) (winner : Winner K) (radius alpha : K)
    (hw : map.codes.length ≤ winner.codeno) :
    (VQAdapt trunc gptr map node winner radius alpha).1 = map := by
  unfold VQAdapt
  simp only [List.set_eq_of_length_le hw]

theorem vqAdaptLabel_above {K : Type} [LinearOrderedField K] (gptr : Graph K) (node : Node K)
    (alpha : K) (cb : List K) (j : Nat) (hj : gptr.ldim ≤ j) :
    (vqAdaptLabel gptr node alpha cb)[j]? = cb[j]? :=
  foldl_set_above (fun i cb => cb.getD i 0 + alpha * (node.points.getD i 0 - cb.getD i 0))
    cb gptr.ldim j hj

theorem vqAdaptTarget_below {K : Type} [LinearOrderedField K] (trunc : K → Int)
    (gptr : Graph K) (noc : Nat) (node : Node K) (alpha : K) (cb : List K) (j : Nat)
    (hj : j < gptr.ldim + noc * (gptr.FanOut + gptr.FanIn)) :
    (vqAdaptTarget trunc gptr noc node alpha cb)[j]?
      = (vqAdaptParent trunc gptr noc node alpha cb).1[j]? :=
  foldl_set_offset_below
    (fun i cb => cb.getD (gptr.ldim + noc * (gptr.FanOut + gptr.FanIn) + i) 0
      + alpha * (node.points.getD (gptr.ldim + 2 * (gptr.FanOut + gptr.FanIn) + i) 0
        - cb.getD (gptr.ldim + noc * (gptr.FanOut + gptr.FanIn) + i) 0))
    _ _ _ j hj

/-- The entries of the child region after `VQAdapt` are those after its child
loops. -/
theorem vqAdaptTarget_child {K : Type} [LinearOrderedField K] (trunc : K → Int)
    (gptr : Graph K) (noc : Nat) (node : Node K) (alpha : K) (cb : List K) (t : Nat)
    (ht : t < gptr.FanOut * noc) :
    (vqAdaptTarget trunc gptr noc node alpha cb)[gptr.ldim + t]?
      = (vqAdaptChild trunc gptr noc node alpha cb).1[gptr.ldim + t]? := by
  have hmul : noc * (gptr.FanOut + gptr.FanIn) = gptr.FanOut * noc + gptr.FanIn * noc := by ring
  rw [vqAdaptTarget_below _ _ _ _ _ _ _ (by rw [hmul]; omega)]
  unfold vqAdaptParent
  rw [(adaptOneHot_spec alpha noc _ _ _ _).2.1, if_neg (by omega)]

/-- The entries of the parent region after `VQAdapt` are those after its parent
loops. -/
theorem vqAdaptTarget_parent {K : Type} [LinearOrderedField K] (trunc : K → Int)
    (gptr : Graph K) (noc : Nat) (node : Node K) (alpha : K) (cb : List K) (t : Nat)
    (ht : t < gptr.FanIn * noc) :
    (vqAdaptTarget trunc gptr noc node alpha cb)[gptr.ldim + gptr.FanOut * noc + t]?
      = (vqAdaptParent trunc gptr noc node alpha cb).1[gptr.ldim + gptr.FanOut * noc + t]? := by
  have hmul : noc * (gptr.FanOut + gptr.FanIn) = gptr.FanOut * noc + gptr.FanIn * noc := by ring
  exact vqAdaptTarget_below _ _ _ _ _ _ _ (by rw [hmul]; omega)

/-- After `VQAdapt` the aggregates of the winner agree with its vector. -/
theorem VQAdapt_winner_consistent {K : Type} [LinearOrderedField K] (trunc : K → Int)
    (gptr : Graph K) (map : Map K) (node : Node K) (winner : Winner K) (radius alpha : K)
    (hw : winner.codeno < map.codes.length) :
    ABConsistentAt gptr (VQAdapt trunc gptr map node winner radius alpha).1 winner.codeno := by
  unfold ABConsistentAt
  rw [VQAdapt_winner trunc gptr map node winner radius alpha hw]
  have hx : (VQAdapt trunc gptr map node winner radius alpha).1.xdim = map.xdim := rfl
  have hy : (VQAdapt trunc gptr map node winner radius alpha).1.ydim = map.ydim := rfl
  rw [hx, hy]
  simp only
  constructor
  · unfold vqAdaptChild
    rw [(adaptOneHot_spec alpha _ _ _ _ _).2.2]
    congr 1
    apply List.map_congr_left
    intro t ht
    have h := vqAdaptTarget_child trunc gptr (map.xdim * map.ydim) node alpha
      (codeAt map winner.codeno).points t (List.mem_range.mp ht)
    unfold vqAdaptChild at h
    rw [List.getD_eq_getElem?_getD, List.getD_eq_getElem?_getD, h]
  · unfold vqAdaptParent
    rw [(adaptOneHot_spec alpha _ _ _ _ _).2.2]
    congr 1
    apply List.map_congr_left
    intro t ht
    have h := vqAdaptTarget_parent trunc gptr (map.xdim * map.ydim) node alpha
      (codeAt map winner.codeno).points t (List.mem_range.mp ht)
    unfold vqAdaptParent at h
    rw [List.getD_eq_getElem?_getD, List.getD_eq_getElem?_getD, h]

/-- `VQSet_ab` on a graph: the codebook array after the loop. -/
theorem VQSet_ab_codeAt {K : Type} [LinearOrderedField K] (map : Map K)
    (train valid test : List (Graph K)) (rep : Reports) (graph : Graph K)
    (hg : vqGraph train valid test = some graph) (n : Nat) (hn : n < map.xdim * map.ydim)
    (hlen : n < map.codes.length) :
    codeAt (VQSet_ab map train valid test rep).1 n
      = { codeAt map n with
          a := ((List.range (graph.FanOut * (map.xdim * map.ydim))).map
            (fun i => ((codeAt map n).points.getD (graph.ldim + i) 0) ^ 2)).sum,
          b := ((List.range (graph.FanIn * (map.xdim * map.ydim))).map
            (fun i => ((codeAt map n).points.getD
              (graph.ldim + graph.FanOut * (map.xdim * map.ydim) + i) 0) ^ 2)).sum } := by
  unfold VQSet_ab codeAt
  rw [hg]
  simp only
  have h := getD_foldl_set_pointwise (emptyCodebook : Codebook K)
    (fun _ c => { c with
      a := (List.range (graph.FanOut * (map.ydim * map.xdim))).foldl
        (fun tmp i => tmp + SQR (c.points.getD (graph.ldim + i) 0)) 0,
      b := (List.range (graph.FanIn * (map.ydim * map.xdim))).foldl
        (fun tmp i => tmp + SQR (c.points.getD
          (graph.FanOut * (map.ydim * map.xdim) + graph.ldim + i) 0)) 0 })
    map.codes (map.ydim * map.xdim) n (by rw [Nat.mul_comm]; exact hn) hlen
  rw [h]
  simp only [foldl_add_eq_sum, zero_add, SQR, Nat.mul_comm map.ydim map.xdim]
  congr 2
  · apply List.map_congr_left
    intro i _
    ring
  · apply List.map_congr_left
    intro i _
    rw [show graph.FanOut * (map.xdim * map.ydim) + graph.ldim + i
      = graph.ldim + graph.FanOut * (map.xdim * map.ydim) + i by omega]
    ring

/-! ## C21: the aggregates `a` and `b` -/

/-- C21.  On a map with `xdim * ydim` codebooks: `VQSet_ab`, when a list of
graphs is available, changes the aggregates only and makes `a` and `b` of every
codebook the sums of the squares of its child region (`FanOut * noc` entries
from `ldim`) and of its parent region (`FanIn * noc` entries from
`ldim + FanOut * noc`); every call of `VQAdapt` on a map with that property
gives a map with that property; and `VQAdapt` changes no codebook but the
winner. -/
theorem VQ_aggregates_invariant {K : Type} [LinearOrderedField K] (trunc : K → Int)
    (gptr : Graph K) (map : Map K) (train valid test : List (Graph K)) (rep : Reports)
    (node : Node K) (winner : Winner K) (radius alpha : K)
    (hlen : map.codes.length = map.xdim * map.ydim) :
    (∀ graph, vqGraph train valid test = some graph →
      ABConsistent graph (VQSet_ab map train valid test rep).1 ∧
      ∀ n, n < map.xdim * map.ydim →
        (codeAt (VQSet_ab map train valid test rep).1 n).points = (codeAt map n).points) ∧
    (ABConsistent gptr map →
      ABConsistent gptr (VQAdapt trunc gptr map node winner radius alpha).1) ∧
    (∀ n, n ≠ winner.codeno →
      codeAt (VQAdapt trunc gptr map node winner radius alpha).1 n = codeAt map n) := by
  refine ⟨fun graph hg => ⟨fun n hn => ?_, fun n hn => ?_⟩, fun hinv n hn => ?_,
    fun n hn => VQAdapt_other trunc gptr map node winner radius alpha n hn⟩
  · have hx : (VQSet_ab map train valid test rep).1.xdim = map.xdim := by
      unfold VQSet_ab; rw [hg]
    have hy : (VQSet_ab map train valid test rep).1.ydim = map.ydim := by
      unfold VQSet_ab; rw [hg]
    rw [hx, hy] at hn
    unfold ABConsistentAt
    rw [hx, hy, VQSet_ab_codeAt map train valid test rep graph hg n hn (by rw [hlen]; exact hn)]
    exact ⟨rfl, rfl⟩
  · rw [VQSet_ab_codeAt map train valid test rep graph hg n hn (by rw [hlen]; exact hn)]
  · have hn2 : n < map.xdim * map.ydim := hn
    by_cases hnw : n = winner.codeno
    · rw [hnw]
      exact VQAdapt_winner_consistent trunc gptr map node winner radius alpha
        (by rw [hlen, ← hnw]; exact hn2)
    · have h := hinv n hn2
      unfold ABConsistentAt at h ⊢
      rw [VQAdapt_other trunc gptr map node winner radius alpha n hnw]
      exact h

/-- The entries of the one-hot regions of the winner after `VQAdapt`: an entry
of the child region moves toward 1 when its position in its block is the value
of the feature `ldim + 2 * i` of the node and toward 0 otherwise; an entry of
the parent region moves toward 1 when its position in its block is the value of
the feature `ldim + 2 * noc + 2 * i` of the node and toward 0 otherwise. -/
theorem VQAdapt_regions {K : Type} [LinearOrderedField K] (trunc : K → Int) (gptr : Graph K)
    (map : Map K) (node : Node K) (winner : Winner K) (radius alpha : K)
    (hw : winner.codeno < map.codes.length) (i n : Nat) (hn : n < map.xdim * map.ydim) :
    (i < gptr.FanOut →
      (codeAt (VQAdapt trunc gptr map node winner radius alpha).1 winner.codeno).points[
          gptr.ldim + i * (map.xdim * map.ydim) + n]?
        = ((codeAt map winner.codeno).points[gptr.ldim + i * (map.xdim * map.ydim) + n]?).map
            (fun v => if (n : Int) = trunc (node.points.getD (gptr.ldim + 2 * i) 0)
              then v + alpha * (1 - v) else v - alpha * v)) ∧
    (i < gptr.FanIn →
      (codeAt (VQAdapt trunc gptr map node winner radius alpha).1 winner.codeno).points[
          gptr.ldim + gptr.FanOut * (map.xdim * map.ydim) + i * (map.xdim * map.ydim) + n]?
        = ((codeAt map winner.codeno).points[
            gptr.ldim + gptr.FanOut * (map.xdim * map.ydim) + i * (map.xdim * map.ydim) + n]?).map
            (fun v => if (n : Int)
                = trunc (node.points.getD (gptr.ldim + 2 * (map.xdim * map.ydim) + 2 * i) 0)
              then v + alpha * (1 - v) else v - alpha * v)) := by
  rw [VQAdapt_winner trunc gptr map node winner radius alpha hw]
  generalize map.xdim * map.ydim = noc at hn
  generalize (codeAt map winner.codeno).points = cb
  simp only
  have hdiv : (i * noc + n) / noc = i := by
    rw [Nat.mul_comm, Nat.mul_add_div (by omega), Nat.div_eq_of_lt hn, Nat.add_zero]
  have hmod : (i * noc + n) % noc = n := by
    rw [Nat.mul_comm, Nat.mul_add_mod, Nat.mod_eq_of_lt hn]
  constructor
  · intro hi
    have hlt : i * noc + n < gptr.FanOut * noc := by
      have h1 : (i + 1) * noc ≤ gptr.FanOut * noc := Nat.mul_le_mul_right _ hi
      have h2 : (i + 1) * noc = i * noc + noc := by ring
      omega
    rw [Nat.add_assoc, vqAdaptTarget_child trunc gptr noc node alpha cb _ hlt]
    unfold vqAdaptChild
    rw [(adaptOneHot_spec alpha noc _ _ _ _).2.1, if_pos (by omega),
      vqAdaptLabel_above gptr node alpha cb _ (by omega),
      show gptr.ldim + (i * noc + n) - gptr.ldim = i * noc + n by omega, hdiv, hmod]
  · intro hi
    have hlt : i * noc + n < gptr.FanIn * noc := by
      have h1 : (i + 1) * noc ≤ gptr.FanIn * noc := Nat.mul_le_mul_right _ hi
      have h2 : (i + 1) * noc = i * noc + noc := by ring
      omega
    rw [Nat.add_assoc, vqAdaptTarget_parent trunc gptr noc node alpha cb _ hlt]
    unfold vqAdaptParent
    rw [(adaptOneHot_spec alpha noc _ _ _ _).2.1, if_pos (by omega)]
    unfold vqAdaptChild
    rw [(adaptOneHot_spec alpha noc _ _ _ _).2.1, if_neg (by omega),
      vqAdaptLabel_above gptr node alpha cb _ (by omega),
      show gptr.ldim + gptr.FanOut * noc + (i * noc + n) - (gptr.ldim + gptr.FanOut * noc)
        = i * noc + n by omega, hdiv, hmod]

/-- Witness of C21 on `mapVQ`: the map has its two codebooks, its aggregates
agree with the vectors, and so do those after `VQSet_ab` and after `VQAdapt` on
the node `nodeVQ` with winner 0; codebook 1 is unchanged. -/
theorem VQ_aggregates_invariant_witness :
    mapVQ.codes.length = mapVQ.xdim * mapVQ.ydim ∧
    vqGraph [headerVQ] [] [] = some headerVQ ∧
    ABConsistent headerVQ mapVQ ∧
    ABConsistent headerVQ (VQSet_ab mapVQ [headerVQ] [] [] noReports).1 ∧
    ABConsistent headerVQ (VQAdapt truncQ headerVQ mapVQ nodeVQ winner0 0 (1 / 2)).1 ∧
    codeAt (VQAdapt truncQ headerVQ mapVQ nodeVQ winner0 0 (1 / 2)).1 1 = codeAt mapVQ 1 :=
  ⟨by decide, rfl, by decide!,
    ((VQ_aggregates_invariant truncQ headerVQ mapVQ [headerVQ] [] [] noReports nodeVQ winner0 0
      (1 / 2) (by decide)).1 headerVQ rfl).1,
    (VQ_aggregates_invariant truncQ headerVQ mapVQ [headerVQ] [] [] noReports nodeVQ winner0 0
      (1 / 2) (by decide)).2.1 (by decide!),
    (VQ_aggregates_invariant truncQ headerVQ mapVQ [headerVQ] [] [] noReports nodeVQ winner0 0
      (1 / 2) (by decide)).2.2 1 (by decide)⟩

/-! ## C22: the one-hot adaptation of `VQAdapt` -/

/-- C22, counterexample.  On `headerVQ` (`ldim = 0`, `FanOut = 1`, `FanIn = 1`,
`tdim = 1`), the map `mapVQ` of two codebooks and the node `nodeVQ`, whose
parent-state slot 0 (feature `ldim + 2 * FanOut = 2`) holds the id 1, `VQAdapt`
with winner 0 and `alpha = 1/2` takes the parent id from feature
`ldim + 2 * noc = 4`, the target, which holds 0: in the parent block (entries 2
and 3 of the vector, all entries 1/2 before) the entry at position 1 becomes
`v - alpha * v = 1/4`, not `v + alpha * (1 - v) = 3/4`, and the entry at
position 0 becomes 3/4.  The child block is updated as stated. -/
theorem VQAdapt_parent_id_index :
    mapVQ.xdim * mapVQ.ydim = 2 ∧
    truncQ (nodeVQ.points.getD (headerVQ.ldim + 2 * 0) 0) = 0 ∧
    truncQ (nodeVQ.points.getD (headerVQ.ldim + 2 * headerVQ.FanOut + 2 * 0) 0) = 1 ∧
    truncQ (nodeVQ.points.getD (headerVQ.ldim + 2 * (mapVQ.xdim * mapVQ.ydim) + 2 * 0) 0) = 0 ∧
    (codeAt mapVQ 0).points = [1 / 2, 1 / 2, 1 / 2, 1 / 2, 1 / 2] ∧
    (codeAt (VQAdapt truncQ headerVQ mapVQ nodeVQ winner0 0 (1 / 2)).1 0).points
      = [3 / 4, 1 / 4, 3 / 4, 1 / 4, 1 / 4] ∧
    (codeAt (VQAdapt truncQ headerVQ mapVQ nodeVQ winner0 0 (1 / 2)).1 0).points.getD
        (headerVQ.ldim + headerVQ.FanOut * (mapVQ.xdim * mapVQ.ydim) + 1) 0
      ≠ (codeAt mapVQ 0).points.getD
          (headerVQ.ldim + headerVQ.FanOut * (mapVQ.xdim * mapVQ.ydim) + 1) 0
        + (1 / 2) * (1 - (codeAt mapVQ 0).points.getD
          (headerVQ.ldim + headerVQ.FanOut * (mapVQ.xdim * mapVQ.ydim) + 1) 0) := by
  decide!

/-! ## C23: the distance of `VQFindWinnerEucledian` -/

/-- C23, counterexample.  On `headerMu` (`ldim = 1`, `FanOut = 1`, `FanIn = 1`,
no target), the map `mapMu` of two codebooks with consistent aggregates and the
node `nodeMu` (label 0, child id 0, parent id -1, weight 1 on the label and 10
on the child and parent segments): the direct weighted squared distances of the
codebooks 0 and 1 are 4 and 20, so codebook 0 is the minimiser; the code weighs
the child term with `mu[fanout - 1] = mu[0] = 1`, computes 2 for codebook 1,
which is not pruned, and returns codebook 1 with distance 2. -/
theorem VQFindWinnerEucledian_not_direct :
    ABConsistent headerMu mapMu ∧
    truncQ (nodeMu.points.getD (headerMu.ldim + 2 * 0) 0) = 0 ∧
    truncQ (nodeMu.points.getD (headerMu.ldim + 2 * headerMu.FanOut + 2 * 0) 0) = -1 ∧
    vqDirectDist truncQ mapMu nodeMu headerMu 0 = 4 ∧
    vqDirectDist truncQ mapMu nodeMu headerMu 1 = 20 ∧
    vqDifference truncQ mapMu nodeMu headerMu FLT_MAX 0 = (4, false) ∧
    vqDifference truncQ mapMu nodeMu headerMu 4 1 = (2, false) ∧
    (VQFindWinnerEucledian truncQ mapMu nodeMu headerMu winner0).codeno = 1 ∧
    (VQFindWinnerEucledian truncQ mapMu nodeMu headerMu winner0).diff = 2 := by
  decide!

/-- With one weight on all segments the distance still differs from the direct
one: on `headerTgt`, `mapTgt` and `nodeTgt` the target loop compares the target
of the sample (feature 6) with entry 6 of the codebook vector, an entry of the
parent block, while the target of a codebook is entry 9.  The direct distances
are 0, 26 and 9025; the code computes 25 for codebook 0 and 17 for codebook 1
and returns codebook 1. -/
theorem VQFindWinnerEucledian_target_index :
    ABConsistent headerTgt mapTgt ∧
    vqDirectDist truncQ mapTgt nodeTgt headerTgt 0 = 0 ∧
    vqDirectDist truncQ mapTgt nodeTgt headerTgt 1 = 26 ∧
    vqDirectDist truncQ mapTgt nodeTgt headerTgt 2 = 9025 ∧
    vqDifference truncQ mapTgt nodeTgt headerTgt FLT_MAX 0 = (25, false) ∧
    vqDifference truncQ mapTgt nodeTgt headerTgt 25 1 = (17, false) ∧
    (VQFindWinnerEucledian truncQ mapTgt nodeTgt headerTgt winner0).codeno = 1 ∧
    (VQFindWinnerEucledian truncQ mapTgt nodeTgt headerTgt winner0).diff = 17 := by
  decide!

/-! ## C26: the counter at `INT_MIN` -/

/-- On the cycle of two nodes a call whose counter exceeds the number of
available activations does not return within them. -/
theorem GetMaxPathLengthF_cycle_none (fuel : Nat) :
    ∀ (m : Int) (node : Nat), node < 2 → (fuel : Int) < m → m ≤ 2147483647 →
      GetMaxPathLengthF gCycle.nodes gCycle.FanOut fuel m node = none := by
  induction fuel with
  | zero => intro m node _ _ _; rfl
  | succ f ih =>
    intro m node hnode hlt hmax
    have hw : wrapInt (m - 1) = m - 1 := by
      unfold wrapInt
      push_cast at hlt
      omega
    have hpos : ¬ (m - 1 ≤ 0) := by
      push_cast at hlt
      omega
    have hrec : ∀ c, c < 2 → GetMaxPathLengthF gCycle.nodes gCycle.FanOut f (m - 1) c = none :=
      fun c hc => ih (m - 1) c hc (by push_cast at hlt; omega) (by omega)
    have h01 : node = 0 ∨ node = 1 := by omega
    rcases h01 with h | h
    · subst h
      rw [GetMaxPathLengthF]
      simp only [hw, if_neg hpos]
      have h1 := hrec 1 (by decide)
      simp [gCycle, nodeAt, linkNode, GetNumChildren, childAt, List.range_succ] at h1 ⊢
      simp [h1]
    · subst h
      rw [GetMaxPathLengthF]
      simp only [hw, if_neg hpos]
      have h0 := hrec 0 (by decide)
      simp [gCycle, nodeAt, linkNode, GetNumChildren, childAt, List.range_succ] at h0 ⊢
      simp [h0]

/-- With the counter `INT_MIN` the call on the cycle of two nodes does not
return within `2^31 - 1` nested activations. -/
theorem GetMaxPathLengthF_INT_MIN_none (fuel : Nat) (hfuel : fuel ≤ 2147483647) :
    GetMaxPathLengthF gCycle.nodes gCycle.FanOut fuel (-2147483648) 0 = none := by
  cases fuel with
  | zero => rfl
  | succ f =>
    have hrec := GetMaxPathLengthF_cycle_none f 2147483647 1 (by decide)
      (by omega) (le_refl _)
    rw [GetMaxPathLengthF]
    have hw : wrapInt (-2147483648 - 1) = 2147483647 := by decide
    simp only [hw]
    simp [gCycle, nodeAt, linkNode, GetNumChildren, childAt, List.range_succ] at hrec ⊢
    simp [hrec]

/-- C26, counterexample.  On the cycle of two nodes `gCycle` the call with
`maxiter = INT_MIN` does not return within `2^31 - 1` nested activations: the
decrement of the counter wraps to `INT_MAX`, which is positive, so the guard
does not stop the recursion and the call nests more than `2^31 - 2` recursive
calls, not at most `maxiter`. -/
theorem GetMaxPathLength_INT_MIN_not_guarded :
    wrapInt (-2147483648 - 1) = 2147483647 ∧
    GetMaxPathLengthF gCycle.nodes gCycle.FanOut 2147483647 (-2147483648) 0 = none :=
  ⟨by decide, GetMaxPathLengthF_INT_MIN_none 2147483647 (le_refl _)⟩

/-! ## C18: the return value of `InitCodes` -/

theorem log2Fuel_spec (fuel : Nat) :
    ∀ n, 1 ≤ n → n ≤ fuel → 2 ^ log2Fuel fuel n ≤ n ∧ n < 2 ^ (log2Fuel fuel n + 1) := by
  induction fuel with
  | zero => intro n h1 h2; omega
  | succ f ih =>
    intro n h1 h2
    rw [log2Fuel]
    by_cases h : n < 2
    · rw [if_pos h]
      simp
      omega
    · rw [if_neg h]
      have hh := ih (n / 2) (by omega) (by omega)
      constructor
      · calc 2 ^ (log2Fuel f (n / 2) + 1) = 2 ^ log2Fuel f (n / 2) * 2 := by ring
          _ ≤ (n / 2) * 2 := Nat.mul_le_mul_right _ hh.1
          _ ≤ n := Nat.div_mul_le_self n 2
      · have h3 : n / 2 + 1 ≤ 2 ^ (log2Fuel f (n / 2) + 1) := hh.2
        calc n < (n / 2 + 1) * 2 := by omega
          _ ≤ 2 ^ (log2Fuel f (n / 2) + 1) * 2 := Nat.mul_le_mul_right _ h3
          _ = 2 ^ (log2Fuel f (n / 2) + 1 + 1) := by ring

theorem pow2_eq (e : Int) : pow2 e = (2 : ℚ) ^ e := by
  unfold pow2
  by_cases h : 0 ≤ e
  · rw [if_pos h]
    conv_rhs => rw [← Int.toNat_of_nonneg h]
    rw [zpow_natCast]
    push_cast
    rfl
  · rw [if_neg h]
    have h2 : e = -((-e).toNat : Int) := by
      rw [Int.toNat_of_nonneg (by omega)]
      ring
    conv_rhs => rw [h2]
    rw [zpow_neg, zpow_natCast]
    push_cast
    rw [one_div]

theorem pow2_pos (e : Int) : 0 < pow2 e := by
  rw [pow2_eq]
  positivity

theorem pow2_add (a b : Int) : pow2 (a + b) = pow2 a * pow2 b := by
  rw [pow2_eq, pow2_eq, pow2_eq, zpow_add₀ (by norm_num)]

theorem pow2_le (a b : Int) (h : a ≤ b) : pow2 a ≤ pow2 b := by
  rw [pow2_eq, pow2_eq]
  exact zpow_le_zpow_right₀ (by norm_num) h

theorem pow2_lt (a b : Int) (h : a < b) : pow2 a < pow2 b := by
  rw [pow2_eq, pow2_eq]
  exact zpow_lt_zpow_right₀ (by norm_num) h

theorem pow2_succ (a : Int) : pow2 (a + 1) = 2 * pow2 a := by
  rw [pow2_add]
  have : pow2 1 = 2 := by decide!
  rw [this]
  ring

theorem pow2_le_iff (a b : Int) : pow2 a ≤ pow2 b ↔ a ≤ b := by
  constructor
  · intro h
    by_contra hlt
    exact absurd h (not_le.mpr (pow2_lt b a (by omega)))
  · exact pow2_le a b

theorem pow2_natCast (n : Nat) : pow2 (n : Int) = ((2 ^ n : Nat) : ℚ) := by
  rw [pow2_eq, zpow_natCast]
  push_cast
  rfl

/-- The exponent that `ilog2` returns is the exponent of the binade of `q`. -/
theorem ilog2_spec (q : ℚ) (hq : 0 < q) : pow2 (ilog2 q) ≤ q ∧ q < pow2 (ilog2 q + 1) := by
  have hnum : 0 < q.num := Rat.num_pos.mpr hq
  have hn1 : 1 ≤ q.num.natAbs := by omega
  have hd1 : 1 ≤ q.den := q.den_pos
  obtain ⟨ha1, ha2⟩ := log2Fuel_spec q.num.natAbs q.num.natAbs hn1 (le_refl _)
  obtain ⟨hb1, hb2⟩ := log2Fuel_spec q.den q.den hd1 (le_refl _)
  unfold ilog2
  generalize log2Fuel q.num.natAbs q.num.natAbs = a at ha1 ha2 ⊢
  generalize log2Fuel q.den q.den = b at hb1 hb2 ⊢
  have hqeq : q = (q.num.natAbs : ℚ) / (q.den : ℚ) := by
    have h1 : ((q.num.natAbs : Int)) = q.num := Int.natAbs_of_nonneg (le_of_lt hnum)
    have h2 : (q.num.natAbs : ℚ) = (q.num : ℚ) := by
      rw [Nat.cast_natAbs, abs_of_pos hnum]
    rw [h2]
    exact (Rat.num_div_den q).symm
  have hdpos : (0 : ℚ) < (q.den : ℚ) := by exact_mod_cast q.den_pos
  have ha1q : ((2 ^ a : Nat) : ℚ) ≤ (q.num.natAbs : ℚ) := by exact_mod_cast ha1
  have ha2q : (q.num.natAbs : ℚ) < ((2 ^ (a + 1) : Nat) : ℚ) := by exact_mod_cast ha2
  have hb1q : ((2 ^ b : Nat) : ℚ) ≤ (q.den : ℚ) := by exact_mod_cast hb1
  have hb2q : (q.den : ℚ) < ((2 ^ (b + 1) : Nat) : ℚ) := by exact_mod_cast hb2
  have hpa : pow2 ((a : Int) - b) * ((2 ^ b : Nat) : ℚ) = ((2 ^ a : Nat) : ℚ) := by
    rw [← pow2_natCast, ← pow2_natCast, ← pow2_add]
    congr 1
    ring
  have hupper : q < pow2 ((a : Int) - b + 1) := by
    rw [pow2_succ]
    have h1 : (q.num.natAbs : ℚ) < 2 * pow2 ((a : Int) - b) * (q.den : ℚ) := by
      calc (q.num.natAbs : ℚ) < ((2 ^ (a + 1) : Nat) : ℚ) := ha2q
        _ = 2 * ((2 ^ a : Nat) : ℚ) := by push_cast; ring
        _ = 2 * pow2 ((a : Int) - b) * ((2 ^ b : Nat) : ℚ) := by rw [← hpa]; ring
        _ ≤ 2 * pow2 ((a : Int) - b) * (q.den : ℚ) :=
            mul_le_mul_of_nonneg_left hb1q (by have := pow2_pos ((a : Int) - b); linarith)
    rw [hqeq, div_lt_iff₀ hdpos]
    exact h1
  have hlower : pow2 ((a : Int) - b - 1) ≤ q := by
    have hsucc : pow2 ((a : Int) - b) = 2 * pow2 ((a : Int) - b - 1) := by
      rw [← pow2_succ]
      congr 1
      ring
    have h1 : pow2 ((a : Int) - b - 1) * (q.den : ℚ) ≤ (q.num.natAbs : ℚ) := by
      have hp := pow2_pos ((a : Int) - b - 1)
      calc pow2 ((a : Int) - b - 1) * (q.den : ℚ)
          ≤ pow2 ((a : Int) - b - 1) * ((2 ^ (b + 1) : Nat) : ℚ) :=
            mul_le_mul_of_nonneg_left (le_of_lt hb2q) (le_of_lt hp)
        _ = 2 * pow2 ((a : Int) - b - 1) * ((2 ^ b : Nat) : ℚ) := by push_cast; ring
        _ = ((2 ^ a : Nat) : ℚ) := by rw [← hsucc, hpa]
        _ ≤ (q.num.natAbs : ℚ) := ha1q
    rw [hqeq, le_div_iff₀ hdpos]
    exact h1
  by_cases h : pow2 ((a : Int) - b) ≤ q
  · rw [if_pos h]
    exact ⟨h, hupper⟩
  · rw [if_neg h]
    refine ⟨hlower, ?_⟩
    have : ((a : Int) - b - 1 + 1) = (a : Int) - b := by ring
    rw [this]
    exact lt_of_not_le h

/-- The binade of a positive rational determines its exponent. -/
theorem ilog2_unique (q : ℚ) (e : Int) (h1 : pow2 e ≤ q) (h2 : q < pow2 (e + 1)) :
    ilog2 q = e := by
  have hq : 0 < q := lt_of_lt_of_le (pow2_pos e) h1
  obtain ⟨h3, h4⟩ := ilog2_spec q hq
  have hA : e < ilog2 q + 1 := by
    by_contra hc
    have := pow2_le (ilog2 q + 1) e (by omega)
    linarith
  have hB : ilog2 q < e + 1 := by
    by_contra hc
    have := pow2_le (e + 1) (ilog2 q) (by omega)
    linarith
  omega

theorem ilog2_mono (q r : ℚ) (hq : 0 < q) (hqr : q ≤ r) : ilog2 q ≤ ilog2 r := by
  obtain ⟨h1, _⟩ := ilog2_spec q hq
  obtain ⟨_, h4⟩ := ilog2_spec r (lt_of_lt_of_le hq hqr)
  by_contra hc
  have := pow2_le (ilog2 r + 1) (ilog2 q) (by omega)
  linarith

theorem roundHalfEven_bounds (m : ℚ) :
    (⌊m⌋ : Int) ≤ roundHalfEven m ∧ roundHalfEven m ≤ ⌊m⌋ + 1 := by
  unfold roundHalfEven
  split_ifs <;> omega

/-- Rounding to nearest moves a number by at most one half. -/
theorem roundHalfEven_error (m : ℚ) : |(roundHalfEven m : ℚ) - m| ≤ 1 / 2 := by
  have h1 := Int.floor_le m
  have h2 := Int.lt_floor_add_one m
  unfold roundHalfEven
  rw [abs_le]
  split_ifs with ha hb hc
  · constructor <;> linarith
  · push_cast
    constructor <;> linarith
  · have : m - ⌊m⌋ = 1 / 2 := le_antisymm (not_lt.mp hb) (not_lt.mp ha)
    constructor <;> linarith
  · have : m - ⌊m⌋ = 1 / 2 := le_antisymm (not_lt.mp hb) (not_lt.mp ha)
    push_cast
    constructor <;> linarith

theorem roundHalfEven_int (n : Int) : roundHalfEven (n : ℚ) = n := by
  unfold roundHalfEven
  rw [Int.floor_intCast]
  simp

theorem roundHalfEven_mono (m n : ℚ) (h : m ≤ n) : roundHalfEven m ≤ roundHalfEven n := by
  have hfl : ⌊m⌋ ≤ ⌊n⌋ := Int.floor_mono h
  obtain ⟨hm1, hm2⟩ := roundHalfEven_bounds m
  obtain ⟨hn1, hn2⟩ := roundHalfEven_bounds n
  by_cases hlt : ⌊m⌋ < ⌊n⌋
  · omega
  · have heq : ⌊m⌋ = ⌊n⌋ := by omega
    unfold roundHalfEven
    rw [heq]
    have hmn : m - (⌊n⌋ : ℚ) ≤ n - (⌊n⌋ : ℚ) := by linarith
    split_ifs <;> first | omega | (exfalso; linarith)

/-- A number that is at least an integer rounds to at least that integer. -/
theorem roundHalfEven_ge (m : ℚ) (k : Int) (h : (k : ℚ) ≤ m) : k ≤ roundHalfEven m := by
  have := roundHalfEven_mono (k : ℚ) m h
  rwa [roundHalfEven_int] at this

theorem roundHalfEven_le (m : ℚ) (k : Int) (h : m ≤ (k : ℚ)) : roundHalfEven m ≤ k := by
  have := roundHalfEven_mono m (k : ℚ) h
  rwa [roundHalfEven_int] at this

theorem Format.quantum_pos (f : Format) (x : ℚ) : 0 < f.quantum x := pow2_pos _

theorem Format.quantum_neg (f : Format) (x : ℚ) : f.quantum (-x) = f.quantum x := by
  unfold Format.quantum
  rw [abs_neg]

theorem Format.roundQ_zero (f : Format) : f.roundQ 0 = 0 := by
  unfold Format.roundQ
  rw [if_pos rfl]

theorem Format.roundQ_of_pos (f : Format) (x : ℚ) (hx : 0 < x) :
    f.roundQ x = (roundHalfEven (x / f.quantum x) : ℚ) * f.quantum x := by
  unfold Format.roundQ
  rw [if_neg (ne_of_gt hx), if_neg (not_lt.mpr (le_of_lt hx))]

theorem Format.roundQ_neg (f : Format) (x : ℚ) : f.roundQ (-x) = -f.roundQ x := by
  rcases lt_trichotomy x 0 with h | h | h
  · have h2 : 0 < -x := by linarith
    rw [f.roundQ_of_pos (-x) h2, f.quantum_neg]
    unfold Format.roundQ
    rw [if_neg (ne_of_lt h), if_pos h, neg_neg]
  · rw [h, neg_zero, f.roundQ_zero, neg_zero]
  · have h2 : -x < 0 := by linarith
    rw [f.roundQ_of_pos x h]
    unfold Format.roundQ
    rw [if_neg (ne_of_lt h2), if_pos h2, neg_neg, f.quantum_neg]

theorem Format.roundQ_nonneg (f : Format) (x : ℚ) (hx : 0 ≤ x) : 0 ≤ f.roundQ x := by
  rcases eq_or_lt_of_le hx with h | h
  · rw [← h, f.roundQ_zero]
  · rw [f.roundQ_of_pos x h]
    have hq := f.quantum_pos x
    have : (0 : Int) ≤ roundHalfEven (x / f.quantum x) :=
      roundHalfEven_ge _ 0 (by push_cast; positivity)
    have h2 : (0 : ℚ) ≤ (roundHalfEven (x / f.quantum x) : ℚ) := by exact_mod_cast this
    positivity

/-- Rounding moves a number by at most half the distance between neighbouring
numbers of the format. -/
theorem Format.roundQ_error (f : Format) (x : ℚ) : |f.roundQ x - x| ≤ f.quantum x / 2 := by
  have hpos : ∀ y : ℚ, 0 < y → |f.roundQ y - y| ≤ f.quantum y / 2 := by
    intro y hy
    rw [f.roundQ_of_pos y hy]
    have hq := f.quantum_pos y
    have he := roundHalfEven_error (y / f.quantum y)
    have h1 : (roundHalfEven (y / f.quantum y) : ℚ) * f.quantum y - y
        = ((roundHalfEven (y / f.quantum y) : ℚ) - y / f.quantum y) * f.quantum y := by
      field_simp
    rw [h1, abs_mul, abs_of_pos hq]
    calc |(roundHalfEven (y / f.quantum y) : ℚ) - y / f.quantum y| * f.quantum y
        ≤ 1 / 2 * f.quantum y := mul_le_mul_of_nonneg_right he (le_of_lt hq)
      _ = f.quantum y / 2 := by ring
  rcases lt_trichotomy x 0 with h | h | h
  · have := hpos (-x) (by linarith)
    rw [f.roundQ_neg, f.quantum_neg] at this
    have h2 : -f.roundQ x - -x = -(f.roundQ x - x) := by ring
    rwa [h2, abs_neg] at this
  · rw [h, f.roundQ_zero, sub_zero, abs_zero]
    have := f.quantum_pos 0
    linarith
  · exact hpos x h

/-- In the normal range the relative error of rounding is at most `2^(-prec)`. -/
theorem Format.roundQ_relative (f : Format) (x : ℚ) (hx : pow2 f.emin ≤ |x|) :
    |f.roundQ x - x| ≤ pow2 (-(f.prec : Int)) * |x| := by
  have hpos : 0 < |x| := lt_of_lt_of_le (pow2_pos _) hx
  obtain ⟨h1, _⟩ := ilog2_spec |x| hpos
  have hmax : max (ilog2 |x|) f.emin = ilog2 |x| := by
    apply max_eq_left
    by_contra hc
    have := (ilog2_spec |x| hpos).2
    have h3 := pow2_le (ilog2 |x| + 1) f.emin (by omega)
    linarith
  have hq : f.quantum x / 2 = pow2 (-(f.prec : Int)) * pow2 (ilog2 |x|) := by
    unfold Format.quantum
    rw [hmax, ← pow2_add]
    have : ilog2 |x| - ((f.prec : Int) - 1) = (-(f.prec : Int) + ilog2 |x|) + 1 := by ring
    rw [this, pow2_succ]
    ring
  calc |f.roundQ x - x| ≤ f.quantum x / 2 := f.roundQ_error x
    _ = pow2 (-(f.prec : Int)) * pow2 (ilog2 |x|) := hq
    _ ≤ pow2 (-(f.prec : Int)) * |x| := mul_le_mul_of_nonneg_left h1 (le_of_lt (pow2_pos _))

/-- A number of the format is not changed by rounding. -/
theorem Format.roundQ_of_rep (f : Format) (x : ℚ) (hx : f.Rep x) : f.roundQ x = x := by
  have hpos : ∀ y : ℚ, 0 < y → f.Rep y → f.roundQ y = y := by
    intro y hy ⟨n, e, hn, he, hye⟩
    have hn0 : 0 < n := by
      by_contra hc
      have hn1 : (n : ℚ) ≤ 0 := by exact_mod_cast (not_lt.mp hc)
      have := mul_nonpos_of_nonpos_of_nonneg hn1 (le_of_lt (pow2_pos e))
      linarith
    have hnlt : (n : ℚ) < pow2 (f.prec : Int) := by
      rw [pow2_natCast]
      have : n < 2 ^ f.prec := by rwa [abs_of_pos hn0] at hn
      exact_mod_cast this
    have hylt : y < pow2 (e + f.prec) := by
      rw [hye, pow2_add, mul_comm]
      exact mul_lt_mul_of_pos_left hnlt (pow2_pos e)
    have hlog : ilog2 |y| < e + f.prec := by
      rw [abs_of_pos hy]
      by_contra hc
      have h1 := (ilog2_spec y hy).1
      have h2 := pow2_le (e + f.prec) (ilog2 y) (by omega)
      linarith
    have hqe : max (ilog2 |y|) f.emin - ((f.prec : Int) - 1) ≤ e := by
      rcases max_cases (ilog2 |y|) f.emin with ⟨h, _⟩ | ⟨h, _⟩ <;> rw [h] <;> omega
    rw [f.roundQ_of_pos y hy]
    unfold Format.quantum
    generalize max (ilog2 |y|) f.emin - ((f.prec : Int) - 1) = k at hqe
    have hk : ((e - k).toNat : Int) = e - k := Int.toNat_of_nonneg (by omega)
    have hdiv : y / pow2 k = ((n * 2 ^ (e - k).toNat : Int) : ℚ) := by
      rw [hye]
      have : pow2 e = pow2 ((e - k).toNat : Int) * pow2 k := by
        rw [← pow2_add, hk]
        congr 1
        ring
      rw [this, pow2_natCast]
      have hk0 := pow2_pos k
      field_simp
      ring
    rw [hdiv, roundHalfEven_int, ← hdiv]
    have hk0 := pow2_pos k
    field_simp
  rcases lt_trichotomy x 0 with h | h | h
  · obtain ⟨n, e, hn, he, hxe⟩ := hx
    have := hpos (-x) (by linarith) ⟨-n, e, by rwa [abs_neg], he, by rw [hxe]; push_cast; ring⟩
    rw [f.roundQ_neg] at this
    linarith
  · rw [h, f.roundQ_zero]
  · exact hpos x h hx

theorem Format.rep_neg (f : Format) (x : ℚ) (hx : f.Rep x) : f.Rep (-x) := by
  obtain ⟨n, e, hn, he, hxe⟩ := hx
  exact ⟨-n, e, by rwa [abs_neg], he, by rw [hxe]; push_cast; ring⟩

theorem Format.rep_zero (f : Format) : f.Rep 0 :=
  ⟨0, f.emin - ((f.prec : Int) - 1), by simp, le_refl _, by simp⟩

/-- The result of rounding is a number of the format. -/
theorem Format.rep_roundQ (f : Format) (hp : 1 ≤ f.prec) (x : ℚ) : f.Rep (f.roundQ x) := by
  have hpos : ∀ y : ℚ, 0 < y → f.Rep (f.roundQ y) := by
    intro y hy
    rw [f.roundQ_of_pos y hy]
    have hq := f.quantum_pos y
    obtain ⟨_, h2⟩ := ilog2_spec |y| (by rwa [abs_of_pos hy])
    rw [abs_of_pos hy] at h2
    have hle : ilog2 y + 1 ≤ max (ilog2 |y|) f.emin + 1 := by
      rw [abs_of_pos hy]
      have := le_max_left (ilog2 y) f.emin
      omega
    have hemin : f.emin - ((f.prec : Int) - 1) ≤ max (ilog2 |y|) f.emin - ((f.prec : Int) - 1) := by
      have := le_max_right (ilog2 |y|) f.emin
      omega
    unfold Format.quantum at hq ⊢
    generalize max (ilog2 |y|) f.emin = m at hle hemin hq ⊢
    have hylt : y < pow2 ((f.prec : Int)) * pow2 (m - ((f.prec : Int) - 1)) := by
      rw [← pow2_add]
      have : (f.prec : Int) + (m - ((f.prec : Int) - 1)) = m + 1 := by ring
      rw [this]
      exact lt_of_lt_of_le h2 (pow2_le _ _ hle)
    have hdivlt : y / pow2 (m - ((f.prec : Int) - 1)) < ((2 ^ f.prec : Int) : ℚ) := by
      rw [div_lt_iff₀ hq]
      have : ((2 ^ f.prec : Int) : ℚ) = pow2 (f.prec : Int) := by
        rw [pow2_natCast]
        push_cast
        rfl
      rw [this]
      exact hylt
    have hr_le : roundHalfEven (y / pow2 (m - ((f.prec : Int) - 1))) ≤ 2 ^ f.prec :=
      roundHalfEven_le _ _ (le_of_lt hdivlt)
    have hr_ge : 0 ≤ roundHalfEven (y / pow2 (m - ((f.prec : Int) - 1))) :=
      roundHalfEven_ge _ 0 (by push_cast; positivity)
    generalize roundHalfEven (y / pow2 (m - ((f.prec : Int) - 1))) = r at hr_le hr_ge
    rcases eq_or_lt_of_le hr_le with h | h
    · refine ⟨2 ^ (f.prec - 1), m - ((f.prec : Int) - 1) + 1, ?_, by omega, ?_⟩
      · rw [abs_of_pos (by positivity)]
        exact pow_lt_pow_right₀ (by norm_num) (by omega)
      · rw [h, pow2_succ]
        have : (2 : Int) ^ f.prec = 2 ^ (f.prec - 1) * 2 := by
          rw [← pow_succ]
          congr 1
          omega
        rw [this]
        push_cast
        ring
    · exact ⟨r, m - ((f.prec : Int) - 1), by rwa [abs_of_nonneg hr_ge], hemin, rfl⟩
  rcases lt_trichotomy x 0 with h | h | h
  · have := hpos (-x) (by linarith)
    rw [f.roundQ_neg] at this
    have h2 := f.rep_neg _ this
    rwa [neg_neg] at h2
  · rw [h, f.roundQ_zero]
    exact f.rep_zero
  · exact hpos x h

/-- Rounding a rounded number changes nothing. -/
theorem Format.roundQ_idem (f : Format) (hp : 1 ≤ f.prec) (x : ℚ) :
    f.roundQ (f.roundQ x) = f.roundQ x :=
  f.roundQ_of_rep _ (f.rep_roundQ hp x)

/-- An integer below `2^prec` in absolute value is a number of the format. -/
theorem Format.rep_int (f : Format) (hmin : f.emin - ((f.prec : Int) - 1) ≤ 0) (n : Int)
    (hn : |n| < 2 ^ f.prec) : f.Rep (n : ℚ) :=
  ⟨n, 0, hn, hmin, by rw [show pow2 0 = 1 by decide!, mul_one]⟩

/-- Every `float` is a `double`. -/
theorem rep_binary32_binary64 (x : ℚ) (hx : binary32.Rep x) : binary64.Rep x := by
  obtain ⟨n, e, hn, he, hxe⟩ := hx
  refine ⟨n, e, lt_of_lt_of_le hn ?_, ?_, hxe⟩
  · show (2 : Int) ^ 24 ≤ 2 ^ 53
    norm_num
  · have h1 : binary32.emin - ((binary32.prec : Int) - 1) = -149 := by decide
    have h2 : binary64.emin - ((binary64.prec : Int) - 1) = -1074 := by decide
    omega

/-- The quotient of two powers of two with exponents in order is an integer. -/
theorem pow2_div_int (e k : Int) (h : k ≤ e) :
    pow2 e / pow2 k = ((2 ^ (e - k).toNat : Int) : ℚ) := by
  have hk : ((e - k).toNat : Int) = e - k := Int.toNat_of_nonneg (by omega)
  have : pow2 e = pow2 ((e - k).toNat : Int) * pow2 k := by
    rw [← pow2_add, hk]
    congr 1
    ring
  rw [this, pow2_natCast]
  have hk0 := pow2_pos k
  field_simp

/-- Rounding does not cross a power of two from below. -/
theorem Format.roundQ_le_pow2 (f : Format) (x : ℚ) (e : Int) (hx0 : 0 < x) (hx : x ≤ pow2 e)
    (he : max (ilog2 |x|) f.emin - ((f.prec : Int) - 1) ≤ e) : f.roundQ x ≤ pow2 e := by
  rw [f.roundQ_of_pos x hx0]
  unfold Format.quantum
  generalize max (ilog2 |x|) f.emin - ((f.prec : Int) - 1) = k at he
  have hk0 := pow2_pos k
  have h1 : x / pow2 k ≤ ((2 ^ (e - k).toNat : Int) : ℚ) := by
    rw [← pow2_div_int e k he]
    exact div_le_div_of_nonneg_right hx (le_of_lt hk0)
  have h2 := roundHalfEven_le _ _ h1
  have h3 : (roundHalfEven (x / pow2 k) : ℚ) ≤ ((2 ^ (e - k).toNat : Int) : ℚ) := by
    exact_mod_cast h2
  calc (roundHalfEven (x / pow2 k) : ℚ) * pow2 k
      ≤ ((2 ^ (e - k).toNat : Int) : ℚ) * pow2 k := mul_le_mul_of_nonneg_right h3 (le_of_lt hk0)
    _ = pow2 e := by rw [← pow2_div_int e k he]; field_simp

/-- Rounding does not cross a power of two from above. -/
theorem Format.pow2_le_roundQ (f : Format) (x : ℚ) (e : Int) (hx : pow2 e ≤ x)
    (he : max (ilog2 |x|) f.emin - ((f.prec : Int) - 1) ≤ e) : pow2 e ≤ f.roundQ x := by
  have hx0 : 0 < x := lt_of_lt_of_le (pow2_pos e) hx
  rw [f.roundQ_of_pos x hx0]
  unfold Format.quantum
  generalize max (ilog2 |x|) f.emin - ((f.prec : Int) - 1) = k at he
  have hk0 := pow2_pos k
  have h1 : ((2 ^ (e - k).toNat : Int) : ℚ) ≤ x / pow2 k := by
    rw [← pow2_div_int e k he]
    exact div_le_div_of_nonneg_right hx (le_of_lt hk0)
  have h2 := roundHalfEven_ge _ _ h1
  have h3 : ((2 ^ (e - k).toNat : Int) : ℚ) ≤ (roundHalfEven (x / pow2 k) : ℚ) := by
    exact_mod_cast h2
  calc pow2 e = ((2 ^ (e - k).toNat : Int) : ℚ) * pow2 k := by
        rw [← pow2_div_int e k he]; field_simp
    _ ≤ (roundHalfEven (x / pow2 k) : ℚ) * pow2 k := mul_le_mul_of_nonneg_right h3 (le_of_lt hk0)

/-- Rounding is monotone. -/
theorem Format.roundQ_mono (f : Format) (hp : 1 ≤ f.prec) (x y : ℚ) (h : x ≤ y) :
    f.roundQ x ≤ f.roundQ y := by
  have hpos : ∀ a b : ℚ, 0 < a → a ≤ b → f.roundQ a ≤ f.roundQ b := by
    intro a b ha hab
    have hb : 0 < b := lt_of_lt_of_le ha hab
    have hlog : ilog2 a ≤ ilog2 b := ilog2_mono a b ha hab
    have hm : max (ilog2 a) f.emin ≤ max (ilog2 b) f.emin := max_le_max hlog (le_refl _)
    rcases eq_or_lt_of_le hm with heq | hlt
    · rw [f.roundQ_of_pos a ha, f.roundQ_of_pos b hb]
      unfold Format.quantum
      rw [abs_of_pos ha, abs_of_pos hb, heq]
      have hk0 := pow2_pos (max (ilog2 b) f.emin - ((f.prec : Int) - 1))
      have h1 := roundHalfEven_mono _ _ (div_le_div_of_nonneg_right hab (le_of_lt hk0))
      have h2 : (roundHalfEven (a / pow2 (max (ilog2 b) f.emin - ((f.prec : Int) - 1))) : ℚ)
          ≤ (roundHalfEven (b / pow2 (max (ilog2 b) f.emin - ((f.prec : Int) - 1))) : ℚ) := by
        exact_mod_cast h1
      exact mul_le_mul_of_nonneg_right h2 (le_of_lt hk0)
    · have hup : f.roundQ a ≤ pow2 (max (ilog2 a) f.emin + 1) := by
        apply f.roundQ_le_pow2 a _ ha
        · have h2 := (ilog2_spec a ha).2
          have h3 := pow2_le (ilog2 a + 1) (max (ilog2 a) f.emin + 1)
            (by have := le_max_left (ilog2 a) f.emin; omega)
          linarith
        · rw [abs_of_pos ha]
          omega
      have hbeq : max (ilog2 b) f.emin = ilog2 b := by
        apply max_eq_left
        have := le_max_right (ilog2 a) f.emin
        by_contra hc
        rw [max_eq_right (by omega)] at hlt
        omega
      have hlow : pow2 (max (ilog2 b) f.emin) ≤ f.roundQ b := by
        apply f.pow2_le_roundQ b _
        · rw [hbeq]
          exact (ilog2_spec b hb).1
        · rw [abs_of_pos hb]
          omega
      have hmid := pow2_le (max (ilog2 a) f.emin + 1) (max (ilog2 b) f.emin) (by omega)
      linarith
  rcases le_or_lt x 0 with hx | hx
  · rcases le_or_lt 0 y with hy | hy
    · have h1 := f.roundQ_nonneg y hy
      have h2 := f.roundQ_nonneg (-x) (by linarith)
      rw [f.roundQ_neg] at h2
      linarith
    · have := hpos (-y) (-x) (by linarith) (by linarith)
      rw [f.roundQ_neg, f.roundQ_neg] at this
      linarith
  · exact hpos x y hx h

/-! ## Facts about the values of `float` arithmetic -/

theorem Format.round_fin (f : Format) (q : ℚ) (h : |f.roundQ q| ≤ f.maxFinite) :
    f.round (Fl.fin q) = Fl.fin (f.roundQ q) := by
  obtain ⟨h1, h2⟩ := abs_le.mp h
  simp only [Format.round]
  rw [if_neg (not_lt.mpr h2), if_neg (not_lt.mpr h1)]

theorem Format.round_of_rep (f : Format) (q : ℚ) (hrep : f.Rep q) (h : |q| ≤ f.maxFinite) :
    f.round (Fl.fin q) = Fl.fin q := by
  rw [f.round_fin q (by rw [f.roundQ_of_rep q hrep]; exact h), f.roundQ_of_rep q hrep]

theorem isFloat_round (x : Fl) : IsFloat (binary32.round x) := by
  cases x with
  | fin q =>
    simp only [Format.round]
    split_ifs with h1 h2
    · trivial
    · trivial
    · exact ⟨binary32.rep_roundQ (by decide) q, abs_le.mpr ⟨not_lt.mp h2, not_lt.mp h1⟩⟩
  | inf s => trivial
  | nan => trivial

theorem isFloat_round_val (x : Fl) : binary32.round (binary32.round x) = binary32.round x := by
  have h := isFloat_round x
  generalize binary32.round x = y at h
  cases y with
  | fin q => exact binary32.round_of_rep q h.1 h.2
  | inf s => rfl
  | nan => rfl

theorem Fl.ltAsymm (x y : Fl) (h : Fl.lt x y = true) : Fl.lt y x = false := by
  cases x <;> cases y <;> simp [Fl.lt] at h ⊢
  · exact le_of_lt h
  · simp [h]
  · simp [h]
  · simp [h]

theorem Fl.ltTrans (x y z : Fl) (h1 : Fl.lt x y = true) (h2 : Fl.lt y z = true) :
    Fl.lt x z = true := by
  cases x <;> cases y <;> cases z <;> simp [Fl.lt] at h1 h2 ⊢
  · exact lt_trans h1 h2
  all_goals simp_all

theorem Fl.leLtTrans (x y z : Fl) (h1 : Fl.le x y = true) (h2 : Fl.lt y z = true) :
    Fl.lt x z = true := by
  cases x <;> cases y <;> cases z <;> simp [Fl.lt, Fl.le] at h1 h2 ⊢
  · exact lt_of_le_of_lt h1 h2
  all_goals simp_all

/-! ## C5: the pruned search in `float` arithmetic -/

theorem Fl.notNeg_round (f : Format) (_hp : 1 ≤ f.prec) (x : Fl) (hx : x.notNeg) :
    (f.round x).notNeg := by
  cases x with
  | fin q =>
    have hq : 0 ≤ q := by
      simp [Fl.notNeg, Fl.lt] at hx
      exact hx
    have hr := f.roundQ_nonneg q hq
    simp only [Format.round]
    split_ifs with h1 h2
    · simp [Fl.notNeg, Fl.lt]
    · exfalso
      have : 0 < f.maxFinite := lt_of_le_of_lt hr (by linarith [h2, hr] : f.roundQ q < f.maxFinite)
      linarith
    · simp [Fl.notNeg, Fl.lt]
      exact hr
  | inf s => exact hx
  | nan => exact hx

/-- A term `diff * diff * mu[i]` with a weight that is not negative is not
negative. -/
theorem term_notNeg (d m : Fl) (hm : m.notNeg) :
    (binary32.mul (binary32.mul d d) m).notNeg := by
  have hsq : (binary32.mul d d).notNeg := by
    apply Fl.notNeg_round binary32 (by decide)
    cases d with
    | fin q =>
      simp [Fl.mul, Fl.notNeg, Fl.lt]
      exact mul_self_nonneg q
    | inf s => cases s <;> simp [Fl.mul, Fl.notNeg, Fl.lt]
    | nan => simp [Fl.mul, Fl.notNeg, Fl.lt]
  apply Fl.notNeg_round binary32 (by decide)
  generalize binary32.mul d d = t at hsq
  cases t with
  | fin a =>
    have ha : 0 ≤ a := by
      simp [Fl.notNeg, Fl.lt] at hsq
      exact hsq
    cases m with
    | fin b =>
      have hb : 0 ≤ b := by
        simp [Fl.notNeg, Fl.lt] at hm
        exact hm
      simp [Fl.mul, Fl.notNeg, Fl.lt]
      exact mul_nonneg ha hb
    | inf s =>
      have hs : s = false := by
        cases s
        · rfl
        · simp [Fl.notNeg, Fl.lt] at hm
      subst hs
      simp only [Fl.mul]
      split_ifs with h0
      · simp [Fl.notNeg, Fl.lt]
      · simp [Fl.notNeg, Fl.lt]
        exact ha
    | nan => simp [Fl.mul, Fl.notNeg, Fl.lt]
  | inf s =>
    have hs : s = false := by
      cases s
      · rfl
      · simp [Fl.notNeg, Fl.lt] at hsq
    subst hs
    cases m with
    | fin b =>
      have hb : 0 ≤ b := by
        simp [Fl.notNeg, Fl.lt] at hm
        exact hm
      simp only [Fl.mul]
      split_ifs with h0
      · simp [Fl.notNeg, Fl.lt]
      · simp [Fl.notNeg, Fl.lt]
        exact hb
    | inf s2 =>
      have hs2 : s2 = false := by
        cases s2
        · rfl
        · simp [Fl.notNeg, Fl.lt] at hm
      subst hs2
      simp [Fl.mul, Fl.notNeg, Fl.lt]
    | nan => simp [Fl.mul, Fl.notNeg, Fl.lt]
  | nan => cases m <;> simp [Fl.mul, Fl.notNeg, Fl.lt]

/-- Adding a term that is not negative to a partial sum above `d` gives NaN or
again a sum above `d`. -/
theorem add_keeps_above (d p t : Fl) (hp : IsFloat p) (ht : t.notNeg)
    (habove : p = Fl.nan ∨ Fl.lt d p = true) :
    binary32.add p t = Fl.nan ∨ Fl.lt d (binary32.add p t) = true := by
  rcases habove with hnan | hlt
  · left
    subst hnan
    cases t <;> rfl
  · cases p with
    | nan => cases d <;> simp [Fl.lt] at hlt
    | inf s =>
      have hs : s = false := by
        cases d <;> cases s <;> simp [Fl.lt] at hlt ⊢
      subst hs
      cases t with
      | fin b => right; exact hlt
      | inf s2 =>
        have hs2 : s2 = false := by
          cases s2
          · rfl
          · simp [Fl.notNeg, Fl.lt] at ht
        subst hs2
        right
        exact hlt
      | nan => left; rfl
    | fin a =>
      obtain ⟨harep, hamax⟩ := hp
      cases t with
      | nan => left; rfl
      | inf s2 =>
        have hs2 : s2 = false := by
          cases s2
          · rfl
          · simp [Fl.notNeg, Fl.lt] at ht
        subst hs2
        right
        cases d <;> simp [Fl.lt, Format.add, Fl.add, Format.round] at hlt ⊢
        exact hlt
      | fin b =>
        have hb : 0 ≤ b := by
          simp [Fl.notNeg, Fl.lt] at ht
          exact ht
        have hr : a ≤ binary32.roundQ (a + b) := by
          have := binary32.roundQ_mono (by decide) a (a + b) (by linarith)
          rwa [binary32.roundQ_of_rep a harep] at this
        right
        simp only [Format.add, Fl.add, Format.round]
        have hal := (abs_le.mp hamax).1
        split_ifs with h1 h2
        · cases d <;> simp [Fl.lt] at hlt ⊢
          exact hlt
        · exfalso
          linarith
        · cases d <;> simp [Fl.lt] at hlt ⊢
          · exact lt_of_lt_of_le hlt hr
          · exact hlt

theorem isFloat_add (p t : Fl) : IsFloat (binary32.add p t) := isFloat_round _

/-- A partial sum above `d` does not come below `d` again. -/
theorem sumLoop_above (codebook sample mu : List Fl) (d : Fl) (dim : Nat)
    (hmu : ∀ j, j < dim → (mu.getD j (Fl.fin 0)).notNeg) :
    ∀ (k i : Nat) (p : Fl), i + k ≤ dim → IsFloat p → (p = Fl.nan ∨ Fl.lt d p = true) →
      Fl.lt (Fp.sumLoop codebook sample mu k i p) d = false := by
  intro k
  induction k with
  | zero =>
    intro i p _ _ habove
    rw [Fp.sumLoop]
    rcases habove with h | h
    · subst h
      rfl
    · exact Fl.ltAsymm d p h
  | succ k ih =>
    intro i p hik hp habove
    rw [Fp.sumLoop]
    exact ih (i + 1) _ (by omega) (isFloat_add _ _)
      (add_keeps_above d p _ hp (term_notNeg _ _ (hmu i (by omega))) habove)

/-- The loop with the early exit decides `difference < diffsf` as the full sum
does, and returns the full sum when the answer is yes. -/
theorem diffLoop_sumLoop (codebook sample mu : List Fl) (d : Fl) (dim : Nat)
    (hmu : ∀ j, j < dim → (mu.getD j (Fl.fin 0)).notNeg) :
    ∀ (k i : Nat) (p : Fl), i + k ≤ dim → IsFloat p →
      Fl.lt (Fp.diffLoop codebook sample mu d k i p) d
        = Fl.lt (Fp.sumLoop codebook sample mu k i p) d ∧
      (Fl.lt (Fp.sumLoop codebook sample mu k i p) d = true →
        Fp.diffLoop codebook sample mu d k i p = Fp.sumLoop codebook sample mu k i p) := by
  intro k
  induction k with
  | zero =>
    intro i p _ _
    rw [Fp.sumLoop, Fp.diffLoop]
    exact ⟨rfl, fun _ => rfl⟩
  | succ k ih =>
    intro i p hik hp
    rw [Fp.sumLoop, Fp.diffLoop]
    split_ifs with hbreak
    · have h1 := sumLoop_above codebook sample mu d dim hmu k (i + 1) _ (by omega)
        (isFloat_add p _) (Or.inr hbreak)
      rw [h1, Fl.ltAsymm _ _ hbreak]
      exact ⟨rfl, fun h => absurd h (by decide)⟩
    · exact ih (i + 1) _ (by omega) (isFloat_add p _)

theorem isFloat_zero : IsFloat (Fl.fin 0) :=
  ⟨binary32.rep_zero, by rw [abs_zero]; decide!⟩

/-- One turn of the pruned search is one turn of the exhaustive scan. -/
theorem findWinnerStep_eq_exhaustive (map : Map Fl) (node : Node Fl) (gptr : Graph Fl)
    (hmu : ∀ j, j < gptr.dimension → (node.mu.getD j (Fl.fin 0)).notNeg) (st : Nat × Fl)
    (n : Nat) :
    Fp.findWinnerStep map node gptr.dimension st n = Fp.exhaustiveStep map node gptr st n := by
  obtain ⟨h1, h2⟩ := diffLoop_sumLoop (Fp.codeAt map n).points node.points node.mu st.2
    gptr.dimension hmu gptr.dimension 0 (Fl.fin 0) (by omega) isFloat_zero
  unfold Fp.findWinnerStep Fp.exhaustiveStep Fp.nodeDist
  dsimp only
  rw [h1]
  split_ifs with h
  · rw [h2 h]
  · rfl

theorem FindWinnerEucledian_eq_exhaustive (map : Map Fl) (node : Node Fl) (gptr : Graph Fl)
    (winner : Winner Fl)
    (hmu : ∀ j, j < gptr.dimension → (node.mu.getD j (Fl.fin 0)).notNeg) :
    Fp.FindWinnerEucledian map node gptr winner = Fp.exhaustiveWinner map node gptr winner := by
  unfold Fp.FindWinnerEucledian Fp.exhaustiveWinner
  have : Fp.findWinnerStep map node gptr.dimension = Fp.exhaustiveStep map node gptr := by
    funext st n
    exact findWinnerStep_eq_exhaustive map node gptr hmu st n
  rw [this]

/-- The state of the exhaustive scan after `k` codebooks: either no computed
distance was below `FLT_MAX` and the state is the initial one, or the state is
the first codebook whose computed distance no other one is below. -/
theorem exhaustive_scan_invariant (map : Map Fl) (node : Node Fl) (gptr : Graph Fl) (c0 : Nat)
    (k : Nat) :
    ∀ st, st = (List.range k).foldl (Fp.exhaustiveStep map node gptr) (c0, Fp.FLT_MAX) →
    (∀ n, n < k → Fl.lt (Fp.nodeDist map node gptr n) st.2 = false) ∧
    (((∀ n, n < k → Fl.lt (Fp.nodeDist map node gptr n) Fp.FLT_MAX = false) ∧
        st = (c0, Fp.FLT_MAX)) ∨
      (st.1 < k ∧ Fp.nodeDist map node gptr st.1 = st.2 ∧
        Fl.lt st.2 Fp.FLT_MAX = true ∧
        ∀ n, n < st.1 → Fl.le (Fp.nodeDist map node gptr n) st.2 = false)) := by
  induction k with
  | zero =>
    intro st hst
    rw [List.range_zero, List.foldl_nil] at hst
    exact ⟨fun n hn => absurd hn (by omega), Or.inl ⟨fun n hn => absurd hn (by omega), hst⟩⟩
  | succ k ih =>
    intro st2 hst2
    rw [List.range_succ, List.foldl_append, List.foldl_cons, List.foldl_nil] at hst2
    obtain ⟨hnone, hcases⟩ := ih _ rfl
    generalize (List.range k).foldl (Fp.exhaustiveStep map node gptr) (c0, Fp.FLT_MAX) = st
      at hst2 hnone hcases
    unfold Fp.exhaustiveStep at hst2
    by_cases hlt : Fl.lt (Fp.nodeDist map node gptr k) st.2 = true
    · rw [if_pos hlt] at hst2
      subst hst2
      refine ⟨fun n hn => ?_, Or.inr ⟨Nat.lt_succ_self k, rfl, ?_, fun n hn => ?_⟩⟩
      · show Fl.lt (Fp.nodeDist map node gptr n) (Fp.nodeDist map node gptr k) = false
        rcases Nat.lt_succ_iff_lt_or_eq.mp hn with h | h
        · by_contra hc
          have h1 := Fl.ltTrans _ _ _ (by simpa using hc) hlt
          rw [hnone n h] at h1
          exact absurd h1 (by decide)
        · rw [h]
          cases hd : Fp.nodeDist map node gptr k <;> simp [Fl.lt]
      · show Fl.lt (Fp.nodeDist map node gptr k) Fp.FLT_MAX = true
        rcases hcases with ⟨_, hst⟩ | ⟨_, _, hmax, _⟩
        · rw [hst] at hlt
          exact hlt
        · exact Fl.ltTrans _ _ _ hlt hmax
      · show Fl.le (Fp.nodeDist map node gptr n) (Fp.nodeDist map node gptr k) = false
        have hn2 : n < k := hn
        by_contra hc
        have h1 := Fl.leLtTrans _ _ _ (by simpa using hc) hlt
        rw [hnone n hn2] at h1
        exact absurd h1 (by decide)
    · rw [if_neg hlt] at hst2
      subst hst2
      have hlt2 : Fl.lt (Fp.nodeDist map node gptr k) st2.2 = false := by simpa using hlt
      refine ⟨fun n hn => ?_, ?_⟩
      · rcases Nat.lt_succ_iff_lt_or_eq.mp hn with h | h
        · exact hnone n h
        · rw [h]
          exact hlt2
      · rcases hcases with ⟨hall, hst⟩ | ⟨h1, h2, h3, h4⟩
        · refine Or.inl ⟨fun n hn => ?_, hst⟩
          rcases Nat.lt_succ_iff_lt_or_eq.mp hn with h | h
          · exact hall n h
          · rw [h]
            rw [hst] at hlt2
            exact hlt2
        · exact Or.inr ⟨Nat.lt_succ_of_lt h1, h2, h3, h4⟩

theorem AdaptVector_float_getD (codebook sample : List Fl) (dim : Nat) (alpha : Fl) (i : Nat)
    (hi : i < dim) (hlen : i < codebook.length) :
    (Fp.AdaptVector codebook sample dim alpha).getD i (Fl.fin 0)
      = binary32.add (codebook.getD i (Fl.fin 0))
          (binary32.mul alpha
            (binary32.sub (sample.getD i (Fl.fin 0)) (codebook.getD i (Fl.fin 0)))) :=
  getD_foldl_set_pointwise (Fl.fin 0)
    (fun i v => binary32.add v (binary32.mul alpha (binary32.sub (sample.getD i (Fl.fin 0)) v)))
    codebook dim i hi hlen

theorem AdaptVector_float_length (codebook sample : List Fl) (dim : Nat) (alpha : Fl) :
    (Fp.AdaptVector codebook sample dim alpha).length = codebook.length :=
  (foldl_set_pointwise (Fl.fin 0)
    (fun i v => binary32.add v (binary32.mul alpha (binary32.sub (sample.getD i (Fl.fin 0)) v)))
    codebook dim).1

theorem GaussianAdapt_float_codeAt (expf : Fl → Fl) (gptr : Graph Fl) (map : Map Fl)
    (node : Node Fl) (winner : Winner Fl) (radius alpha : Fl)
    (hlen : map.codes.length = map.xdim * map.ydim) (n : Nat) (hn : n < map.xdim * map.ydim) :
    Fp.codeAt (Fp.GaussianAdapt expf gptr map node winner radius alpha).1 n
      = { Fp.codeAt map n with
          points := Fp.AdaptVector (Fp.codeAt map n).points node.points map.dim
            (Fp.gaussStep expf
              (Fp.ComputeHexaDistance (Fp.codeAt map winner.codeno).x
                (Fp.codeAt map winner.codeno).y (Fp.codeAt map n).x (Fp.codeAt map n).y)
              radius alpha) } := by
  unfold Fp.GaussianAdapt Fp.codeAt
  exact getD_foldl_set_pointwise Fp.emptyCodebook
    (fun _ c => { c with
      points := Fp.AdaptVector c.points node.points map.dim
        (Fp.gaussStep expf
          (Fp.ComputeHexaDistance (map.codes.getD winner.codeno Fp.emptyCodebook).x
            (map.codes.getD winner.codeno Fp.emptyCodebook).y c.x c.y) radius alpha) })
    map.codes (map.xdim * map.ydim) n hn (by rw [hlen]; exact hn)

theorem bubble_step_float_eq (wx wy : Int) (sample : List Fl) (dim : Nat) (radius alpha : Fl)
    (codes : List (Codebook Fl)) (n : Nat) :
    (if Fl.le (Fp.ComputeHexaDistance wx wy (codes.getD n Fp.emptyCodebook).x
          (codes.getD n Fp.emptyCodebook).y) radius = true
      then Fp.adaptCode codes n sample dim alpha else codes)
      = codes.set n
          ((fun (_ : Nat) (c : Codebook Fl) =>
            if Fl.le (Fp.ComputeHexaDistance wx wy c.x c.y) radius = true
            then { c with points := Fp.AdaptVector c.points sample dim alpha } else c)
            n (codes.getD n Fp.emptyCodebook)) := by
  by_cases h : Fl.le (Fp.ComputeHexaDistance wx wy (codes.getD n Fp.emptyCodebook).x
      (codes.getD n Fp.emptyCodebook).y) radius = true
  · simp only [if_pos h]; rfl
  · simp only [if_neg h]
    exact (set_getD_self codes n Fp.emptyCodebook).symm

theorem BubbleAdapt_float_codeAt (gptr : Graph Fl) (map : Map Fl) (node : Node Fl)
    (winner : Winner Fl) (radius alpha : Fl)
    (hlen : map.codes.length = map.xdim * map.ydim) (n : Nat) (hn : n < map.xdim * map.ydim) :
    Fp.codeAt (Fp.BubbleAdapt gptr map node winner radius alpha).1 n
      = if Fl.le (Fp.ComputeHexaDistance (Fp.codeAt map winner.codeno).x
            (Fp.codeAt map winner.codeno).y (Fp.codeAt map n).x (Fp.codeAt map n).y)
            (binary32.mul radius radius) = true
        then { Fp.codeAt map n with
               points := Fp.AdaptVector (Fp.codeAt map n).points node.points map.dim alpha }
        else Fp.codeAt map n := by
  unfold Fp.BubbleAdapt Fp.codeAt
  simp only [bubble_step_float_eq]
  exact getD_foldl_set_pointwise Fp.emptyCodebook
    (fun _ c =>
      if Fl.le (Fp.ComputeHexaDistance (map.codes.getD winner.codeno Fp.emptyCodebook).x
          (map.codes.getD winner.codeno Fp.emptyCodebook).y c.x c.y)
          (binary32.mul radius radius) = true
      then { c with points := Fp.AdaptVector c.points node.points map.dim alpha } else c)
    map.codes (map.xdim * map.ydim) n hn (by rw [hlen]; exact hn)

/-! ## Exact results of `float` and `double` operations -/

theorem abs_dyadic_le (n e : Int) (k : Nat) (hn : |n| < 2 ^ k) (he : e ≤ 0) :
    |(n : ℚ) * pow2 e| ≤ pow2 (k : Int) := by
  rw [abs_mul, abs_of_pos (pow2_pos e), pow2_natCast]
  have h1 : |(n : ℚ)| ≤ ((2 ^ k : Nat) : ℚ) := by
    have : |n| ≤ 2 ^ k := le_of_lt hn
    rw [← Int.cast_abs]
    exact_mod_cast this
  have h2 : pow2 e ≤ 1 := by
    have := pow2_le e 0 he
    rwa [show pow2 0 = 1 by decide!] at this
  have h3 : (0 : ℚ) ≤ ((2 ^ k : Nat) : ℚ) := by positivity
  calc |(n : ℚ)| * pow2 e ≤ ((2 ^ k : Nat) : ℚ) * 1 :=
        mul_le_mul h1 h2 (le_of_lt (pow2_pos e)) h3
    _ = ((2 ^ k : Nat) : ℚ) := mul_one _

/-- A multiple `n * 2^e` with `|n| < 2^24` and `-149 ≤ e ≤ 0` is a `float`. -/
theorem round32_dyadic (n e : Int) (hn : |n| < 2 ^ 24) (he1 : -149 ≤ e) (he2 : e ≤ 0) :
    binary32.round (Fl.fin ((n : ℚ) * pow2 e)) = Fl.fin ((n : ℚ) * pow2 e) := by
  apply binary32.round_of_rep
  · exact ⟨n, e, hn, by
      have : binary32.emin - ((binary32.prec : Int) - 1) = -149 := by decide
      omega, rfl⟩
  · have h := abs_dyadic_le n e 24 hn he2
    have h2 : pow2 ((24 : Nat) : Int) ≤ binary32.maxFinite := by decide!
    linarith

/-- A multiple `n * 2^e` with `|n| < 2^53` and `-1074 ≤ e ≤ 0` is a `double`. -/
theorem round64_dyadic (n e : Int) (hn : |n| < 2 ^ 53) (he1 : -1074 ≤ e) (he2 : e ≤ 0) :
    binary64.round (Fl.fin ((n : ℚ) * pow2 e)) = Fl.fin ((n : ℚ) * pow2 e) := by
  apply binary64.round_of_rep
  · exact ⟨n, e, hn, by
      have : binary64.emin - ((binary64.prec : Int) - 1) = -1074 := by decide
      omega, rfl⟩
  · have h := abs_dyadic_le n e 53 hn he2
    have h2 : pow2 ((53 : Nat) : Int) ≤ binary64.maxFinite := by decide!
    linarith

/-- For cells whose columns and rows differ by at most 1000 the computed
squared hexagonal distance is the exact one. -/
theorem ComputeHexaDistance_float_exact (bx byy tx ty : Int) (hx : |bx - tx| ≤ 1000)
    (hy : |byy - ty| ≤ 1000) :
    Fp.ComputeHexaDistance bx byy tx ty = Fl.fin (ComputeHexaDistance bx byy tx ty : ℚ) := by
  have hq : pow2 (-2) = 1 / 4 := by decide!
  have hh : pow2 (-1) = 1 / 2 := by decide!
  have h0 : pow2 0 = 1 := by decide!
  obtain ⟨hx1, hx2⟩ := abs_le.mp hx
  obtain ⟨hy1, hy2⟩ := abs_le.mp hy
  generalize hdx : bx - tx = dx at hx1 hx2
  generalize hdy : byy - ty = dy at hy1 hy2
  have hdxsq : dx * dx ≤ 1000000 := by nlinarith
  have hdxsq0 : 0 ≤ dx * dx := mul_self_nonneg dx
  have hdysq : dy * dy ≤ 1000000 := by nlinarith
  have hdysq0 : 0 ≤ dy * dy := mul_self_nonneg dy
  -- the conversions and the products of the column term
  have hofdy : binary32.ofInt dy = Fl.fin (dy : ℚ) := by
    have := round32_dyadic dy 0 (by rw [abs_lt]; constructor <;> omega) (by decide) (by decide)
    rw [h0, mul_one] at this
    exact this
  have hofdx : binary64.ofInt dx = Fl.fin (dx : ℚ) := by
    have := round64_dyadic dx 0 (by rw [abs_lt]; constructor <;> omega) (by decide) (by decide)
    rw [h0, mul_one] at this
    exact this
  have hm1 : binary64.mul (Fl.fin (3 / 4)) (Fl.fin (dx : ℚ)) = Fl.fin (3 / 4 * (dx : ℚ)) := by
    have := round64_dyadic (3 * dx) (-2) (by rw [abs_lt]; constructor <;> omega) (by decide)
      (by decide)
    rw [hq] at this
    have h2 : ((3 * dx : Int) : ℚ) * (1 / 4) = 3 / 4 * (dx : ℚ) := by push_cast; ring
    rw [h2] at this
    exact this
  have hm2 : binary64.mul (Fl.fin (3 / 4 * (dx : ℚ))) (Fl.fin (dx : ℚ))
      = Fl.fin (3 / 4 * (dx : ℚ) * (dx : ℚ)) := by
    have := round64_dyadic (3 * (dx * dx)) (-2) (by rw [abs_lt]; constructor <;> omega)
      (by decide) (by decide)
    rw [hq] at this
    have h2 : ((3 * (dx * dx) : Int) : ℚ) * (1 / 4) = 3 / 4 * (dx : ℚ) * (dx : ℚ) := by
      push_cast; ring
    rw [h2] at this
    exact this
  -- the sum, for a row term `(m / 2)^2` with an integer `m`
  have hsum : ∀ m : Int, m * m ≤ 4004001 → 0 ≤ m * m →
      binary32.round (binary64.add (binary32.mul (Fl.fin ((m : ℚ) / 2)) (Fl.fin ((m : ℚ) / 2)))
        (Fl.fin (3 / 4 * (dx : ℚ) * (dx : ℚ))))
        = Fl.fin ((m : ℚ) / 2 * ((m : ℚ) / 2) + 3 / 4 * (dx : ℚ) * (dx : ℚ)) := by
    intro m hm hm0
    have hsq : binary32.mul (Fl.fin ((m : ℚ) / 2)) (Fl.fin ((m : ℚ) / 2))
        = Fl.fin ((m : ℚ) / 2 * ((m : ℚ) / 2)) := by
      have := round32_dyadic (m * m) (-2) (by rw [abs_lt]; constructor <;> omega) (by decide)
        (by decide)
      rw [hq] at this
      have h2 : ((m * m : Int) : ℚ) * (1 / 4) = (m : ℚ) / 2 * ((m : ℚ) / 2) := by
        push_cast; ring
      rw [h2] at this
      exact this
    rw [hsq]
    have h2 : ((m * m + 3 * (dx * dx) : Int) : ℚ) * (1 / 4)
        = (m : ℚ) / 2 * ((m : ℚ) / 2) + 3 / 4 * (dx : ℚ) * (dx : ℚ) := by
      push_cast; ring
    have h64 := round64_dyadic (m * m + 3 * (dx * dx)) (-2)
      (by rw [abs_lt]; constructor <;> omega) (by decide) (by decide)
    have h32 := round32_dyadic (m * m + 3 * (dx * dx)) (-2)
      (by rw [abs_lt]; constructor <;> omega) (by decide) (by decide)
    rw [hq, h2] at h64 h32
    show binary32.round (binary64.round (Fl.fin _)) = _
    rw [h64, h32]
  have hhalf : ∀ m : Int, |m| ≤ 2001 →
      binary32.round (binary64.round (Fl.fin ((m : ℚ) / 2))) = Fl.fin ((m : ℚ) / 2) := by
    intro m hm
    obtain ⟨hm1', hm2'⟩ := abs_le.mp hm
    have h64 := round64_dyadic m (-1) (by rw [abs_lt]; constructor <;> omega) (by decide)
      (by decide)
    have h32 := round32_dyadic m (-1) (by rw [abs_lt]; constructor <;> omega) (by decide)
      (by decide)
    have h2 : (m : ℚ) * (1 / 2) = (m : ℚ) / 2 := by ring
    rw [hh, h2] at h64 h32
    rw [h64, h32]
  unfold Fp.ComputeHexaDistance ComputeHexaDistance
  simp only [hdx, hdy, hofdy, hofdx, hm1, hm2]
  by_cases hodd : dx % 2 ≠ 0
  · simp only [if_pos hodd]
    by_cases htx : tx % 2 ≠ 0
    · simp only [if_pos htx]
      have hval : (dy : ℚ) + 1 / 2 = ((2 * dy + 1 : Int) : ℚ) / 2 := by push_cast; ring
      have h1 : binary32.round (binary64.add (Fl.fin (dy : ℚ)) (Fl.fin (1 / 2)))
          = Fl.fin (((2 * dy + 1 : Int) : ℚ) / 2) := by
        show binary32.round (binary64.round (Fl.fin ((dy : ℚ) + 1 / 2))) = _
        rw [hval]
        exact hhalf _ (by rw [abs_le]; constructor <;> omega)
      rw [h1, hsum (2 * dy + 1) (by nlinarith) (mul_self_nonneg _), hval]
    · simp only [if_neg htx]
      have hval : (dy : ℚ) - 1 / 2 = ((2 * dy - 1 : Int) : ℚ) / 2 := by push_cast; ring
      have h1 : binary32.round (binary64.sub (Fl.fin (dy : ℚ)) (Fl.fin (1 / 2)))
          = Fl.fin (((2 * dy - 1 : Int) : ℚ) / 2) := by
        show binary32.round (binary64.round (Fl.fin ((dy : ℚ) + -(1 / 2)))) = _
        rw [show (dy : ℚ) + -(1 / 2) = (dy : ℚ) - 1 / 2 by ring, hval]
        exact hhalf _ (by rw [abs_le]; constructor <;> omega)
      rw [h1, hsum (2 * dy - 1) (by nlinarith) (mul_self_nonneg _), hval]
  · simp only [if_neg hodd]
    have hval : (dy : ℚ) = ((2 * dy : Int) : ℚ) / 2 := by push_cast; ring
    rw [hval, hsum (2 * dy) (by nlinarith) (mul_self_nonneg _)]

/-! ## C25: `BubbleAdapt` in `float` arithmetic -/

/-- C25, as amended.  In `float` arithmetic, on a map with `xdim * ydim`
codebooks of `dim` entries each: `BubbleAdapt` sets the position of the node to the grid cell of
the winner; every codebook whose computed squared hexagonal distance to that
cell is `<=` the `float` product `radius * radius` keeps its cell and has every
entry `i < dim` of its vector replaced by `v + alpha * (sample[i] - v)`,
evaluated in `float`; every other codebook is unchanged; and for cells whose
columns and rows differ by at most 1000 the computed distance is exactly
`dy1^2 + 0.75 * dx^2`, where `dy1` is `dy` when `dx` is even and `dy` shifted by
0.5 (up for an odd target column, down for an even one) when `dx` is odd. -/
theorem BubbleAdapt_float_spec (gptr : Graph Fl) (map : Map Fl) (node : Node Fl)
    (winner : Winner Fl) (radius alpha : Fl) (hwf : Fp.WellFormedMap map) :
    ((Fp.BubbleAdapt gptr map node winner radius alpha).2.x = (Fp.codeAt map winner.codeno).x ∧
      (Fp.BubbleAdapt gptr map node winner radius alpha).2.y = (Fp.codeAt map winner.codeno).y ∧
      (Fp.BubbleAdapt gptr map node winner radius alpha).2.points = node.points) ∧
    (∀ n, n < map.xdim * map.ydim →
      Fl.le (Fp.ComputeHexaDistance (Fp.codeAt map winner.codeno).x
        (Fp.codeAt map winner.codeno).y (Fp.codeAt map n).x (Fp.codeAt map n).y)
        (binary32.mul radius radius) = true →
      (Fp.codeAt (Fp.BubbleAdapt gptr map node winner radius alpha).1 n).x
        = (Fp.codeAt map n).x ∧
      (Fp.codeAt (Fp.BubbleAdapt gptr map node winner radius alpha).1 n).y
        = (Fp.codeAt map n).y ∧
      ∀ i, i < map.dim →
        (Fp.codeAt (Fp.BubbleAdapt gptr map node winner radius alpha).1 n).points.getD i
            (Fl.fin 0)
          = binary32.add ((Fp.codeAt map n).points.getD i (Fl.fin 0))
              (binary32.mul alpha (binary32.sub (node.points.getD i (Fl.fin 0))
                ((Fp.codeAt map n).points.getD i (Fl.fin 0))))) ∧
    (∀ n, n < map.xdim * map.ydim →
      Fl.le (Fp.ComputeHexaDistance (Fp.codeAt map winner.codeno).x
        (Fp.codeAt map winner.codeno).y (Fp.codeAt map n).x (Fp.codeAt map n).y)
        (binary32.mul radius radius) = false →
      Fp.codeAt (Fp.BubbleAdapt gptr map node winner radius alpha).1 n = Fp.codeAt map n) ∧
    (∀ bx byy tx ty : Int, |bx - tx| ≤ 1000 → |byy - ty| ≤ 1000 →
      Fp.ComputeHexaDistance bx byy tx ty
        = Fl.fin ((if (bx - tx) % 2 = 0 then ((byy - ty : Int) : ℚ)
            else if tx % 2 = 0 then ((byy - ty : Int) : ℚ) - 1 / 2
            else ((byy - ty : Int) : ℚ) + 1 / 2) ^ 2
          + 3 / 4 * ((bx - tx : Int) : ℚ) ^ 2)) := by
  obtain ⟨hlen, hdim⟩ := hwf
  refine ⟨⟨rfl, rfl, rfl⟩, fun n hn hle => ?_, fun n hn hgt => ?_,
    fun bx byy tx ty hx hy => ?_⟩
  · rw [BubbleAdapt_float_codeAt gptr map node winner radius alpha hlen n hn, if_pos hle]
    refine ⟨rfl, rfl, fun i hi => ?_⟩
    exact AdaptVector_float_getD _ _ _ _ i hi (by rw [hdim _ hn]; exact hi)
  · rw [BubbleAdapt_float_codeAt gptr map node winner radius alpha hlen n hn,
      if_neg (by rw [hgt]; decide)]
  · rw [ComputeHexaDistance_float_exact bx byy tx ty hx hy]
    congr 1
    unfold ComputeHexaDistance
    by_cases h1 : (bx - tx) % 2 = 0
    · simp only [h1, ne_eq, not_true_eq_false, if_false, if_true]
      ring
    · by_cases h2 : tx % 2 = 0
      · simp only [h1, h2, ne_eq, not_false_eq_true, not_true_eq_false, if_true, if_false]
        ring
      · simp only [h1, h2, ne_eq, not_false_eq_true, if_true, if_false]
        ring

theorem mapThree_wellFormed : Fp.WellFormedMap mapThree := by
  refine ⟨rfl, fun n hn => ?_⟩
  have h3 : n < 3 := hn
  interval_cases n <;> rfl

theorem BubbleAdapt_float_spec_witness :
    Fp.WellFormedMap mapThree ∧
    Fl.le (Fp.ComputeHexaDistance (Fp.codeAt mapThree winnerFl0.codeno).x
      (Fp.codeAt mapThree winnerFl0.codeno).y (Fp.codeAt mapThree 1).x (Fp.codeAt mapThree 1).y)
      (binary32.mul (Fl.fin 1) (Fl.fin 1)) = true ∧
    (Fp.codeAt (Fp.BubbleAdapt headerOne mapThree (nodeFl [Fl.fin 3] [Fl.fin 1]) winnerFl0
        (Fl.fin 1) (Fl.fin (1 / 2))).1 1).points.getD 0 (Fl.fin 0)
      = binary32.add ((Fp.codeAt mapThree 1).points.getD 0 (Fl.fin 0))
          (binary32.mul (Fl.fin (1 / 2))
            (binary32.sub ((nodeFl [Fl.fin 3] [Fl.fin 1]).points.getD 0 (Fl.fin 0))
              ((Fp.codeAt mapThree 1).points.getD 0 (Fl.fin 0)))) ∧
    Fp.codeAt (Fp.BubbleAdapt headerOne mapThree (nodeFl [Fl.fin 3] [Fl.fin 1]) winnerFl0
        (Fl.fin 1) (Fl.fin (1 / 2))).1 2 = Fp.codeAt mapThree 2 :=
  ⟨mapThree_wellFormed, by decide!,
    ((BubbleAdapt_float_spec headerOne mapThree (nodeFl [Fl.fin 3] [Fl.fin 1]) winnerFl0
      (Fl.fin 1) (Fl.fin (1 / 2)) mapThree_wellFormed).2.1 1 (by decide) (by decide!)).2.2 0
      (by decide),
    (BubbleAdapt_float_spec headerOne mapThree (nodeFl [Fl.fin 3] [Fl.fin 1]) winnerFl0
      (Fl.fin 1) (Fl.fin (1 / 2)) mapThree_wellFormed).2.2.1 2 (by decide) (by decide!)⟩

/-- C25, counterexample.  The radius `0x1.bb67aep+0` is a `float` whose square
is below 3, and the cells `(0,0)` and `(2,0)` lie at the squared hexagonal
distance 3, so a threshold `radius^2` leaves the codebook of the cell `(2,0)`
as it is when the winner is the codebook of the cell `(0,0)`.  The `float` product
`radius * radius` is 3: `BubbleAdapt` updates that codebook, from `[1]` to
`[2]` for the sample `[3]` and `alpha = 1/2`. -/
theorem BubbleAdapt_float_threshold :
    binary32.round (Fl.fin radiusBelowSqrt3) = Fl.fin radiusBelowSqrt3 ∧
    radiusBelowSqrt3 ^ 2 < 3 ∧
    (ComputeHexaDistance (Fp.codeAt mapThree 0).x (Fp.codeAt mapThree 0).y
      (Fp.codeAt mapThree 2).x (Fp.codeAt mapThree 2).y : ℚ) = 3 ∧
    Fp.ComputeHexaDistance (Fp.codeAt mapThree 0).x (Fp.codeAt mapThree 0).y
      (Fp.codeAt mapThree 2).x (Fp.codeAt mapThree 2).y = Fl.fin 3 ∧
    binary32.mul (Fl.fin radiusBelowSqrt3) (Fl.fin radiusBelowSqrt3) = Fl.fin 3 ∧
    (Fp.codeAt mapThree 2).points = [Fl.fin 1] ∧
    (Fp.codeAt (Fp.BubbleAdapt headerOne mapThree (nodeFl [Fl.fin 3] [Fl.fin 1]) winnerFl0
      (Fl.fin radiusBelowSqrt3) (Fl.fin (1 / 2))).1 2).points = [Fl.fin 2] := by
  decide!

/-! ## C10: `GaussianAdapt` in `float` arithmetic -/

/-- The error of rounding is at most the relative error `2^(-prec)` plus half
the distance between subnormal numbers. -/
theorem Format.roundQ_error_bound (f : Format) (x : ℚ) :
    |f.roundQ x - x| ≤ pow2 (-(f.prec : Int)) * |x| + pow2 (f.emin - (f.prec : Int)) := by
  by_cases hx : x = 0
  · rw [hx, f.roundQ_zero, sub_zero, abs_zero, mul_zero, zero_add]
    exact le_of_lt (pow2_pos _)
  · have hpos : 0 < |x| := abs_pos.mpr hx
    have h1 := f.roundQ_error x
    have h2 := (ilog2_spec |x| hpos).1
    have hq : f.quantum x / 2 = pow2 (max (ilog2 |x|) f.emin - (f.prec : Int)) := by
      unfold Format.quantum
      have : max (ilog2 |x|) f.emin - ((f.prec : Int) - 1)
          = (max (ilog2 |x|) f.emin - (f.prec : Int)) + 1 := by ring
      rw [this, pow2_succ]
      ring
    rw [hq] at h1
    have h3 : (0 : ℚ) ≤ pow2 (-(f.prec : Int)) * |x| :=
      mul_nonneg (le_of_lt (pow2_pos _)) (le_of_lt hpos)
    have h4 := pow2_pos (f.emin - (f.prec : Int))
    rcases max_cases (ilog2 |x|) f.emin with ⟨hm, _⟩ | ⟨hm, _⟩
    · rw [hm] at h1
      have h5 : pow2 (ilog2 |x| - (f.prec : Int)) = pow2 (-(f.prec : Int)) * pow2 (ilog2 |x|) := by
        rw [← pow2_add]
        congr 1
        ring
      have h6 : pow2 (-(f.prec : Int)) * pow2 (ilog2 |x|) ≤ pow2 (-(f.prec : Int)) * |x| :=
        mul_le_mul_of_nonneg_left h2 (le_of_lt (pow2_pos _))
      linarith
    · rw [hm] at h1
      linarith

/-- A nonzero number of the format is at least the smallest subnormal number in
absolute value. -/
theorem Format.rep_abs_ge (f : Format) (x : ℚ) (hx : f.Rep x) (h0 : x ≠ 0) :
    pow2 (f.emin - ((f.prec : Int) - 1)) ≤ |x| := by
  obtain ⟨n, e, _, he, hxe⟩ := hx
  have hn0 : n ≠ 0 := by
    rintro rfl
    apply h0
    rw [hxe]
    simp
  have hn1 : (1 : ℚ) ≤ |(n : ℚ)| := by
    have : (1 : Int) ≤ |n| := Int.one_le_abs hn0
    rw [← Int.cast_abs]
    exact_mod_cast this
  rw [hxe, abs_mul, abs_of_pos (pow2_pos e)]
  calc pow2 (f.emin - ((f.prec : Int) - 1)) ≤ pow2 e := pow2_le _ _ he
    _ = 1 * pow2 e := (one_mul _).symm
    _ ≤ |(n : ℚ)| * pow2 e := mul_le_mul_of_nonneg_right hn1 (le_of_lt (pow2_pos e))

theorem Format.rep_pow2 (f : Format) (hp : 1 ≤ f.prec) (e : Int)
    (he : f.emin - ((f.prec : Int) - 1) ≤ e) : f.Rep (pow2 e) := by
  refine ⟨1, e, ?_, he, by simp⟩
  rw [abs_one]
  exact one_lt_pow₀ (by norm_num) (by omega)

/-- Rounding keeps a number within a bound that is a number of the format. -/
theorem Format.abs_roundQ_le (f : Format) (hp : 1 ≤ f.prec) (x b : ℚ) (hb : f.Rep b)
    (hx : |x| ≤ b) : |f.roundQ x| ≤ b := by
  obtain ⟨h1, h2⟩ := abs_le.mp hx
  rw [abs_le]
  constructor
  · have := f.roundQ_mono hp (-b) x h1
    rwa [f.roundQ_neg, f.roundQ_of_rep b hb] at this
  · have := f.roundQ_mono hp x b h2
    rwa [f.roundQ_of_rep b hb] at this

theorem round32_zero : binary32.round (Fl.fin 0) = Fl.fin 0 :=
  binary32.round_of_rep 0 binary32.rep_zero (by rw [abs_zero]; decide!)

theorem round64_zero : binary64.round (Fl.fin 0) = Fl.fin 0 :=
  binary64.round_of_rep 0 binary64.rep_zero (by rw [abs_zero]; decide!)

/-- The product of a `float` with 1 is that `float`. -/
theorem mul32_one (x : Fl) (hx : IsFloat x) : binary32.mul x (Fl.fin 1) = x := by
  cases x with
  | fin a =>
    show binary32.round (Fl.fin (a * 1)) = Fl.fin a
    rw [mul_one]
    exact binary32.round_of_rep a hx.1 hx.2
  | inf s =>
    show binary32.round (Fl.mul (Fl.inf s) (Fl.fin 1)) = Fl.inf s
    cases s <;> simp [Fl.mul, Format.round]
  | nan => rfl

theorem one_mul32 (x : Fl) (hx : IsFloat x) : binary32.mul (Fl.fin 1) x = x := by
  cases x with
  | fin a =>
    show binary32.round (Fl.fin (1 * a)) = Fl.fin a
    rw [one_mul]
    exact binary32.round_of_rep a hx.1 hx.2
  | inf s =>
    show binary32.round (Fl.mul (Fl.fin 1) (Fl.inf s)) = Fl.inf s
    cases s <;> simp [Fl.mul, Format.round]
  | nan => rfl

/-- For the winner, whose distance to itself is 0, the step of `GaussianAdapt`
with a nonzero finite radius is `alpha`. -/
theorem gaussStep_winner (expf : Fl → Fl) (r : ℚ) (alpha : Fl)
    (hexp : expf (Fl.fin 0) = Fl.fin 1) (hr0 : r ≠ 0) (hr : IsFloat (Fl.fin r))
    (halpha : IsFloat alpha) :
    Fp.gaussStep expf (Fl.fin 0) (Fl.fin r) alpha = alpha := by
  obtain ⟨hrep, hmax⟩ := hr
  have hmax32 : binary32.maxFinite ≤ pow2 128 := by decide!
  have hrabs : |r| ≤ pow2 128 := le_trans hmax hmax32
  have hrmin : pow2 (-149) ≤ |r| := by
    have := binary32.rep_abs_ge r hrep hr0
    have h2 : binary32.emin - ((binary32.prec : Int) - 1) = -149 := by decide
    rwa [h2] at this
  -- the product `-2.0 * radius` is exact
  have h1 : binary64.mul (Fl.fin (-2)) (Fl.fin r) = Fl.fin (-2 * r) := by
    show binary64.round (Fl.fin (-2 * r)) = _
    apply binary64.round_of_rep
    · obtain ⟨n, e, hn, he, hre⟩ := hrep
      refine ⟨-n, e + 1, ?_, ?_, ?_⟩
      · rw [abs_neg]
        exact lt_of_lt_of_le hn (by show (2 : Int) ^ 24 ≤ 2 ^ 53; norm_num)
      · have h2 : binary32.emin - ((binary32.prec : Int) - 1) = -149 := by decide
        have h3 : binary64.emin - ((binary64.prec : Int) - 1) = -1074 := by decide
        omega
      · rw [hre, pow2_succ]
        push_cast
        ring
    · rw [abs_mul]
      have h2 : |(-2 : ℚ)| = 2 := by norm_num
      have h3 : 2 * pow2 128 ≤ binary64.maxFinite := by decide!
      rw [h2]
      linarith
  -- the product with `radius` is finite and not zero
  have hsq1 : pow2 (-297) ≤ 2 * r * r := by
    have h2 : pow2 (-297) = 2 * pow2 (-149) * pow2 (-149) := by decide!
    have h3 : pow2 (-149) * pow2 (-149) ≤ |r| * |r| :=
      mul_le_mul hrmin hrmin (le_of_lt (pow2_pos _)) (abs_nonneg r)
    have h4 : |r| * |r| = r * r := abs_mul_abs_self r
    linarith
  have hsq2 : 2 * r * r ≤ pow2 257 := by
    have h2 : pow2 257 = 2 * pow2 128 * pow2 128 := by decide!
    have h3 : |r| * |r| ≤ pow2 128 * pow2 128 :=
      mul_le_mul hrabs hrabs (abs_nonneg r) (le_of_lt (pow2_pos _))
    have h4 : |r| * |r| = r * r := abs_mul_abs_self r
    linarith
  have hlow : pow2 (-297) ≤ binary64.roundQ (2 * r * r) := by
    have := binary64.roundQ_mono (by decide) _ _ hsq1
    rwa [binary64.roundQ_of_rep _ (binary64.rep_pow2 (by decide) (-297) (by decide))] at this
  have hup : binary64.roundQ (2 * r * r) ≤ pow2 257 := by
    have := binary64.roundQ_mono (by decide) _ _ hsq2
    rwa [binary64.roundQ_of_rep _ (binary64.rep_pow2 (by decide) 257 (by decide))] at this
  have h2 : binary64.mul (Fl.fin (-2 * r)) (Fl.fin r)
      = Fl.fin (-binary64.roundQ (2 * r * r)) := by
    show binary64.round (Fl.fin (-2 * r * r)) = _
    have hneg : -2 * r * r = -(2 * r * r) := by ring
    have h3 : pow2 257 ≤ binary64.maxFinite := by decide!
    have hpos := pow2_pos (-297)
    rw [hneg, binary64.round_fin _ (by
      rw [binary64.roundQ_neg, abs_neg, abs_of_nonneg (by linarith)]
      linarith), binary64.roundQ_neg]
  have hd0 : -binary64.roundQ (2 * r * r) ≠ 0 := by
    have hpos := pow2_pos (-297)
    intro h
    linarith
  have h3 : binary64.div (Fl.fin 0) (Fl.fin (-binary64.roundQ (2 * r * r))) = Fl.fin 0 := by
    show binary64.round (Fl.div (Fl.fin 0) (Fl.fin (-binary64.roundQ (2 * r * r)))) = _
    simp only [Fl.div, if_neg hd0, zero_div]
    exact round64_zero
  unfold Fp.gaussStep
  rw [h1, h2, h3, round32_zero, hexp]
  exact mul32_one alpha halpha

theorem isFloat_of_int (n : Int) (hn : |n| < 2 ^ 24) : IsFloat (Fl.fin (n : ℚ)) := by
  refine ⟨binary32.rep_int (by decide) n hn, ?_⟩
  have h := abs_dyadic_le n 0 24 hn (le_refl _)
  rw [show pow2 0 = 1 by decide!, mul_one] at h
  have h2 : pow2 ((24 : Nat) : Int) ≤ binary32.maxFinite := by decide!
  linarith

/-- The entry `v + 1 * (s - v)` in `float` arithmetic: it is `s` when `s - v` is
a `float`, and within `2^(-22) * (|v| + |s|) + 2^(-148)` of `s` in general. -/
theorem adapt_alpha_one (a b : ℚ) (hb : IsFloat (Fl.fin b))
    (ha2 : |a| ≤ pow2 126) (hb2 : |b| ≤ pow2 126) :
    ∃ c, binary32.add (Fl.fin a)
        (binary32.mul (Fl.fin 1) (binary32.sub (Fl.fin b) (Fl.fin a))) = Fl.fin c ∧
      |c - b| ≤ pow2 (-22) * (|a| + |b|) + pow2 (-148) ∧
      (binary32.Rep (b - a) → c = b) := by
  have hmax127 : pow2 127 ≤ binary32.maxFinite := by decide!
  have hB : pow2 126 + pow2 127 ≤ binary32.maxFinite := by decide!
  have h127 : pow2 127 = 2 * pow2 126 := by
    have := pow2_succ 126
    simpa using this
  have htri1 : |b + -a| ≤ |a| + |b| := by
    have := abs_add b (-a)
    rw [abs_neg] at this
    linarith
  have hd127 : |b + -a| ≤ pow2 127 := by linarith
  have hdabs : |binary32.roundQ (b + -a)| ≤ pow2 127 :=
    binary32.abs_roundQ_le (by decide) _ _ (binary32.rep_pow2 (by decide) 127 (by decide)) hd127
  have hsub : binary32.sub (Fl.fin b) (Fl.fin a) = Fl.fin (binary32.roundQ (b + -a)) := by
    show binary32.round (Fl.fin (b + -a)) = _
    exact binary32.round_fin _ (by linarith)
  have hdfl : IsFloat (Fl.fin (binary32.roundQ (b + -a))) :=
    ⟨binary32.rep_roundQ (by decide) _, by linarith⟩
  have hBrep : binary32.Rep (pow2 126 + pow2 127) :=
    ⟨3, 126, by decide, by decide, by rw [h127]; push_cast; ring⟩
  have hsum : |a + binary32.roundQ (b + -a)| ≤ pow2 126 + pow2 127 := by
    have := abs_add a (binary32.roundQ (b + -a))
    linarith
  have hcabs : |binary32.roundQ (a + binary32.roundQ (b + -a))| ≤ pow2 126 + pow2 127 :=
    binary32.abs_roundQ_le (by decide) _ _ hBrep hsum
  refine ⟨binary32.roundQ (a + binary32.roundQ (b + -a)), ?_, ?_, ?_⟩
  · rw [hsub, one_mul32 _ hdfl]
    show binary32.round (Fl.fin (a + binary32.roundQ (b + -a))) = _
    exact binary32.round_fin _ (by linarith)
  · have he1 := binary32.roundQ_error_bound (b + -a)
    have he2 := binary32.roundQ_error_bound (a + binary32.roundQ (b + -a))
    have hu : pow2 (-((binary32.prec : Nat) : Int)) = 1 / 16777216 := by decide!
    have heta : pow2 (binary32.emin - ((binary32.prec : Nat) : Int))
        = 1 / 1427247692705959881058285969449495136382746624 := by decide!
    have h22 : pow2 (-22) = 1 / 4194304 := by decide!
    have h148 : pow2 (-148) = 1 / 356811923176489970264571492362373784095686656 := by decide!
    rw [hu, heta] at he1 he2
    rw [h22, h148]
    generalize binary32.roundQ (b + -a) = d at he1 he2 hsum hcabs hdabs
    generalize binary32.roundQ (a + d) = c at he2 hcabs
    have htri2 : |c - b| ≤ |c - (a + d)| + |d - (b + -a)| := by
      have := abs_add (c - (a + d)) (d - (b + -a))
      have h2 : c - (a + d) + (d - (b + -a)) = c - b := by ring
      rwa [h2] at this
    have htri3 : |a + d| ≤ |b| + |d - (b + -a)| := by
      have := abs_add b (d - (b + -a))
      have h2 : b + (d - (b + -a)) = a + d := by ring
      rwa [h2] at this
    have hna := abs_nonneg a
    have hnb := abs_nonneg b
    have hn1 := abs_nonneg (d - (b + -a))
    linarith
  · intro hrep
    have h1 : binary32.roundQ (b + -a) = b - a := by
      rw [show b + -a = b - a by ring]
      exact binary32.roundQ_of_rep _ hrep
    rw [h1, show a + (b - a) = b by ring]
    exact binary32.roundQ_of_rep b hb.1

/-- C10, as amended.  In `float` arithmetic, on a map with `xdim * ydim`
codebooks of `dim` entries each, with a winner that is a codebook of the map, a radius that is a
nonzero finite `float`, a `float` `alpha` and `expf 0 = 1`: `GaussianAdapt`
rewrites entry `i < dim` of the vector of every codebook `n` to
`v + h * (sample[i] - v)` with the step
`h = alpha * expf(d n / (-2.0 * radius * radius))`, where `d n` is the computed
squared hexagonal distance between the winner's cell and the cell of `n`; the
step of the winner itself is `alpha`; and with `alpha = 1` an entry `v` of the
winner with a `float` sample entry `s`, both at most `2^126` in absolute
value, becomes a number within `2^(-22) * (|v| + |s|) + 2^(-148)` of `s`, and `s` itself when
`s - v` is a `float`. -/
theorem GaussianAdapt_float_step (expf : Fl → Fl) (gptr : Graph Fl) (map : Map Fl)
    (node : Node Fl) (winner : Winner Fl) (r : ℚ) (alpha : Fl)
    (hwf : Fp.WellFormedMap map) (hw : winner.codeno < map.xdim * map.ydim)
    (hr0 : r ≠ 0) (hr : IsFloat (Fl.fin r)) (halpha : IsFloat alpha)
    (hexp : expf (Fl.fin 0) = Fl.fin 1) :
    (∀ n, n < map.xdim * map.ydim → ∀ i, i < map.dim →
      (Fp.codeAt (Fp.GaussianAdapt expf gptr map node winner (Fl.fin r) alpha).1 n).points.getD
          i (Fl.fin 0)
        = binary32.add ((Fp.codeAt map n).points.getD i (Fl.fin 0))
            (binary32.mul
              (Fp.gaussStep expf
                (Fp.ComputeHexaDistance (Fp.codeAt map winner.codeno).x
                  (Fp.codeAt map winner.codeno).y (Fp.codeAt map n).x (Fp.codeAt map n).y)
                (Fl.fin r) alpha)
              (binary32.sub (node.points.getD i (Fl.fin 0))
                ((Fp.codeAt map n).points.getD i (Fl.fin 0))))) ∧
    Fp.gaussStep expf
        (Fp.ComputeHexaDistance (Fp.codeAt map winner.codeno).x (Fp.codeAt map winner.codeno).y
          (Fp.codeAt map winner.codeno).x (Fp.codeAt map winner.codeno).y)
        (Fl.fin r) alpha = alpha ∧
    (alpha = Fl.fin 1 → ∀ i, i < map.dim → ∀ a b : ℚ,
      (Fp.codeAt map winner.codeno).points.getD i (Fl.fin 0) = Fl.fin a →
      node.points.getD i (Fl.fin 0) = Fl.fin b →
      IsFloat (Fl.fin b) → |a| ≤ pow2 126 → |b| ≤ pow2 126 →
      ∃ c, (Fp.codeAt (Fp.GaussianAdapt expf gptr map node winner (Fl.fin r) alpha).1
              winner.codeno).points.getD i (Fl.fin 0) = Fl.fin c ∧
        |c - b| ≤ pow2 (-22) * (|a| + |b|) + pow2 (-148) ∧
        (binary32.Rep (b - a) → c = b)) := by
  obtain ⟨hlen, hdim⟩ := hwf
  have hentry : ∀ n, n < map.xdim * map.ydim → ∀ i, i < map.dim →
      (Fp.codeAt (Fp.GaussianAdapt expf gptr map node winner (Fl.fin r) alpha).1 n).points.getD
          i (Fl.fin 0)
        = binary32.add ((Fp.codeAt map n).points.getD i (Fl.fin 0))
            (binary32.mul
              (Fp.gaussStep expf
                (Fp.ComputeHexaDistance (Fp.codeAt map winner.codeno).x
                  (Fp.codeAt map winner.codeno).y (Fp.codeAt map n).x (Fp.codeAt map n).y)
                (Fl.fin r) alpha)
              (binary32.sub (node.points.getD i (Fl.fin 0))
                ((Fp.codeAt map n).points.getD i (Fl.fin 0)))) := by
    intro n hn i hi
    rw [GaussianAdapt_float_codeAt expf gptr map node winner (Fl.fin r) alpha hlen n hn]
    exact AdaptVector_float_getD _ _ _ _ i hi (by rw [hdim _ hn]; exact hi)
  have hself : Fp.ComputeHexaDistance (Fp.codeAt map winner.codeno).x
      (Fp.codeAt map winner.codeno).y (Fp.codeAt map winner.codeno).x
      (Fp.codeAt map winner.codeno).y = Fl.fin 0 := by
    rw [ComputeHexaDistance_float_exact _ _ _ _ (by simp) (by simp), ComputeHexaDistance_self]
  have hstep := gaussStep_winner expf r alpha hexp hr0 hr halpha
  refine ⟨hentry, by rw [hself]; exact hstep, fun h1 i hi a b hva hsb hb ha2 hb2 => ?_⟩
  obtain ⟨c, hc, hbound, hexact⟩ := adapt_alpha_one a b hb ha2 hb2
  refine ⟨c, ?_, hbound, hexact⟩
  rw [hentry winner.codeno hw i hi, hself, hstep, h1, hva, hsb]
  exact hc

theorem mapOne_wellFormed : Fp.WellFormedMap mapOne := by
  refine ⟨rfl, fun n hn => ?_⟩
  have h1 : n < 1 := hn
  interval_cases n
  rfl

theorem GaussianAdapt_float_step_witness :
    Fp.gaussStep expfOne
        (Fp.ComputeHexaDistance (Fp.codeAt mapOne winnerFl0.codeno).x
          (Fp.codeAt mapOne winnerFl0.codeno).y (Fp.codeAt mapOne winnerFl0.codeno).x
          (Fp.codeAt mapOne winnerFl0.codeno).y)
        (Fl.fin ((1 : Int) : ℚ)) (Fl.fin ((1 : Int) : ℚ)) = Fl.fin ((1 : Int) : ℚ) :=
  (GaussianAdapt_float_step expfOne headerOne mapOne (nodeFl [Fl.fin 1] [Fl.fin 1]) winnerFl0
    ((1 : Int) : ℚ) (Fl.fin ((1 : Int) : ℚ)) mapOne_wellFormed (by decide)
    (by norm_num) (isFloat_of_int 1 (by decide)) (isFloat_of_int 1 (by decide)) rfl).2.1

/-- C10, counterexample.  One codebook `[3]`, the sample `[0.1f]` (the `float`
nearest to 0.1), `radius = 1`, `alpha = 1` and a function `expf` with
`expf 0 = 1`: the winner's entry becomes `3 + 1 * (0.1f - 3)` in `float`
arithmetic, which is `0x1.99998p-4 = 0.0999999046...`, not the sample entry
`0.1f = 0x1.99999ap-4`. -/
theorem GaussianAdapt_float_not_sample :
    binary32.round (Fl.fin tenth32) = Fl.fin tenth32 ∧
    expfOne (Fl.fin 0) = Fl.fin 1 ∧
    (Fp.codeAt mapOne 0).points = [Fl.fin 3] ∧
    (Fp.codeAt (Fp.GaussianAdapt expfOne headerOne mapOne (nodeFl [Fl.fin tenth32] [Fl.fin 1])
      winnerFl0 (Fl.fin 1) (Fl.fin 1)).1 0).points = [Fl.fin (209715 / 2097152)] ∧
    (209715 / 2097152 : ℚ) ≠ tenth32 := by
  decide!

/-! ## C27: the learning-rate functions in `float` arithmetic -/

/-- A finite value within a bound that is a `float` rounds to a finite `float`. -/
theorem round32_fin_le (x b : ℚ) (hb : binary32.Rep b) (hbmax : b ≤ binary32.maxFinite)
    (hx : |x| ≤ b) : binary32.round (Fl.fin x) = Fl.fin (binary32.roundQ x) :=
  binary32.round_fin x (le_trans (binary32.abs_roundQ_le (by decide) x b hb hx) hbmax)

theorem round64_fin_le (x b : ℚ) (hb : binary64.Rep b) (hbmax : b ≤ binary64.maxFinite)
    (hx : |x| ≤ b) : binary64.round (Fl.fin x) = Fl.fin (binary64.roundQ x) :=
  binary64.round_fin x (le_trans (binary64.abs_roundQ_le (by decide) x b hb hx) hbmax)

theorem rep32_pow2 (e : Int) (he : -149 ≤ e) : binary32.Rep (pow2 e) :=
  binary32.rep_pow2 (by decide) e (by
    have : binary32.emin - ((binary32.prec : Int) - 1) = -149 := by decide
    omega)

theorem rep64_pow2 (e : Int) (he : -1074 ≤ e) : binary64.Rep (pow2 e) :=
  binary64.rep_pow2 (by decide) e (by
    have : binary64.emin - ((binary64.prec : Int) - 1) = -1074 := by decide
    omega)

/-- Bounds of a rounded number between two powers of two. -/
theorem roundQ32_between (x : ℚ) (e1 e2 : Int) (he1 : -149 ≤ e1) (he2 : -149 ≤ e2)
    (h1 : pow2 e1 ≤ x) (h2 : x ≤ pow2 e2) :
    pow2 e1 ≤ binary32.roundQ x ∧ binary32.roundQ x ≤ pow2 e2 := by
  constructor
  · have := binary32.roundQ_mono (by decide) _ _ h1
    rwa [binary32.roundQ_of_rep _ (rep32_pow2 e1 he1)] at this
  · have := binary32.roundQ_mono (by decide) _ _ h2
    rwa [binary32.roundQ_of_rep _ (rep32_pow2 e2 he2)] at this

theorem roundQ64_between (x : ℚ) (e1 e2 : Int) (he1 : -1074 ≤ e1) (he2 : -1074 ≤ e2)
    (h1 : pow2 e1 ≤ x) (h2 : x ≤ pow2 e2) :
    pow2 e1 ≤ binary64.roundQ x ∧ binary64.roundQ x ≤ pow2 e2 := by
  constructor
  · have := binary64.roundQ_mono (by decide) _ _ h1
    rwa [binary64.roundQ_of_rep _ (rep64_pow2 e1 he1)] at this
  · have := binary64.roundQ_mono (by decide) _ _ h2
    rwa [binary64.roundQ_of_rep _ (rep64_pow2 e2 he2)] at this

theorem roundQ32_nonneg_le (x : ℚ) (e2 : Int) (he2 : -149 ≤ e2) (h1 : 0 ≤ x) (h2 : x ≤ pow2 e2) :
    0 ≤ binary32.roundQ x ∧ binary32.roundQ x ≤ pow2 e2 := by
  refine ⟨binary32.roundQ_nonneg x h1, ?_⟩
  have := binary32.roundQ_mono (by decide) _ _ h2
  rwa [binary32.roundQ_of_rep _ (rep32_pow2 e2 he2)] at this

/-- The conversion `(FLOAT)n` of an `int` that is not negative. -/
theorem ofInt32_nat (n : Nat) (hn : n < 2 ^ 31) :
    binary32.ofInt (n : Int) = Fl.fin (binary32.roundQ (n : ℚ)) ∧
    0 ≤ binary32.roundQ (n : ℚ) ∧ binary32.roundQ (n : ℚ) ≤ pow2 31 ∧
    (1 ≤ n → 1 ≤ binary32.roundQ (n : ℚ)) := by
  have h0 : (0 : ℚ) ≤ (n : ℚ) := Nat.cast_nonneg n
  have h31 : (n : ℚ) ≤ pow2 31 := by
    have : pow2 31 = ((2 ^ 31 : Nat) : ℚ) := by decide!
    rw [this]
    exact_mod_cast le_of_lt hn
  obtain ⟨hr0, hr1⟩ := roundQ32_nonneg_le (n : ℚ) 31 (by decide) h0 h31
  refine ⟨?_, hr0, hr1, fun h1 => ?_⟩
  · show binary32.round (Fl.fin (((n : Int) : ℚ))) = _
    rw [Int.cast_natCast]
    exact round32_fin_le _ (pow2 31) (rep32_pow2 31 (by decide)) (by decide!)
      (by rw [abs_of_nonneg h0]; exact h31)
  · have h1q : pow2 0 ≤ (n : ℚ) := by
      rw [show pow2 0 = 1 by decide!]
      exact_mod_cast h1
    have := (roundQ32_between (n : ℚ) 0 31 (by decide) (by decide) h1q h31).1
    rwa [show pow2 0 = 1 by decide!] at this

/-- The value of `LinearDecrease` for a step up to `length`. -/
theorem LinearDecrease_float_val (i L : Nat) (a : ℚ) (hiL : i ≤ L) (hL0 : 0 < L)
    (hL : L < 2 ^ 31) (ha0 : 0 ≤ a) (ha : a ≤ pow2 96) :
    Fp.LinearDecrease i L (Fl.fin a)
      = Fl.fin (binary32.roundQ (binary32.roundQ (a * binary32.roundQ ((L - i : Nat) : ℚ))
          / binary32.roundQ (L : ℚ))) ∧
    0 ≤ binary32.roundQ (a * binary32.roundQ ((L - i : Nat) : ℚ)) ∧
    1 ≤ binary32.roundQ (L : ℚ) := by
  obtain ⟨hcL, hL1, hL2, hL3⟩ := ofInt32_nat L hL
  obtain ⟨hcm, hm1, hm2, _⟩ := ofInt32_nat (L - i) (by omega)
  have hLge := hL3 hL0
  have hprod0 : 0 ≤ a * binary32.roundQ ((L - i : Nat) : ℚ) := mul_nonneg ha0 hm1
  have hprod1 : a * binary32.roundQ ((L - i : Nat) : ℚ) ≤ pow2 127 := by
    have : pow2 127 = pow2 96 * pow2 31 := by decide!
    rw [this]
    exact mul_le_mul ha hm2 hm1 (le_of_lt (pow2_pos _))
  obtain ⟨hP0, hP1⟩ := roundQ32_nonneg_le _ 127 (by decide) hprod0 hprod1
  have hmul : binary32.mul (Fl.fin a) (Fl.fin (binary32.roundQ ((L - i : Nat) : ℚ)))
      = Fl.fin (binary32.roundQ (a * binary32.roundQ ((L - i : Nat) : ℚ))) := by
    show binary32.round (Fl.fin _) = _
    exact round32_fin_le _ (pow2 127) (rep32_pow2 127 (by decide)) (by decide!)
      (by rw [abs_of_nonneg hprod0]; exact hprod1)
  have hquot0 : 0 ≤ binary32.roundQ (a * binary32.roundQ ((L - i : Nat) : ℚ))
      / binary32.roundQ (L : ℚ) := div_nonneg hP0 (by linarith)
  have hquot1 : binary32.roundQ (a * binary32.roundQ ((L - i : Nat) : ℚ))
      / binary32.roundQ (L : ℚ) ≤ pow2 127 := by
    rw [div_le_iff₀ (by linarith)]
    have hp := pow2_pos 127
    nlinarith
  have hne : binary32.roundQ (L : ℚ) ≠ 0 := by linarith
  refine ⟨?_, hP0, hLge⟩
  unfold Fp.LinearDecrease
  have hsub : ((L : Int) - (i : Int)) = ((L - i : Nat) : Int) := by omega
  rw [hsub, hcm, hcL, hmul]
  show binary32.round (Fl.div _ _) = _
  simp only [Fl.div, if_neg hne]
  exact round32_fin_le _ (pow2 127) (rep32_pow2 127 (by decide)) (by decide!)
    (by rw [abs_of_nonneg hquot0]; exact hquot1)

theorem Fl.le_fin (a b : ℚ) : Fl.le (Fl.fin a) (Fl.fin b) = true ↔ a ≤ b := by
  simp [Fl.le]

theorem Fl.lt_fin (a b : ℚ) : Fl.lt (Fl.fin a) (Fl.fin b) = true ↔ a < b := by
  simp [Fl.lt]

/-- `LinearDecrease` in `float` arithmetic: it does not increase with the step,
it is 0 at step `length`, it is positive before when `alphastart` is at least
`2^(-118)`, and at step 0 it is within the relative error `2^(-22)` of
`alphastart` when `alphastart` is at least `2^(-100)`. -/
theorem LinearDecrease_float (L : Nat) (a : ℚ) (hL0 : 0 < L) (hL : L < 2 ^ 31) (ha0 : 0 ≤ a)
    (ha : a ≤ pow2 96) (harep : binary32.Rep a) :
    (∀ i j, i ≤ j → j ≤ L →
      Fl.le (Fp.LinearDecrease j L (Fl.fin a)) (Fp.LinearDecrease i L (Fl.fin a)) = true) ∧
    Fp.LinearDecrease L L (Fl.fin a) = Fl.fin 0 ∧
    (pow2 (-118) ≤ a → ∀ i, i < L →
      Fl.lt (Fl.fin 0) (Fp.LinearDecrease i L (Fl.fin a)) = true) ∧
    (pow2 (-100) ≤ a → ∃ c, Fp.LinearDecrease 0 L (Fl.fin a) = Fl.fin c ∧
      |c - a| ≤ pow2 (-22) * a) := by
  obtain ⟨_, hL1, hL2, hL3⟩ := ofInt32_nat L hL
  have hLge := hL3 hL0
  refine ⟨fun i j hij hjL => ?_, ?_, fun hamin i hi => ?_, fun hamin => ?_⟩
  · obtain ⟨hvi, _, _⟩ := LinearDecrease_float_val i L a (by omega) hL0 hL ha0 ha
    obtain ⟨hvj, _, _⟩ := LinearDecrease_float_val j L a hjL hL0 hL ha0 ha
    rw [hvi, hvj, Fl.le_fin]
    apply binary32.roundQ_mono (by decide)
    apply div_le_div_of_nonneg_right _ (by linarith)
    apply binary32.roundQ_mono (by decide)
    apply mul_le_mul_of_nonneg_left _ ha0
    apply binary32.roundQ_mono (by decide)
    have : L - j ≤ L - i := by omega
    exact_mod_cast this
  · obtain ⟨hv, _, _⟩ := LinearDecrease_float_val L L a (le_refl _) hL0 hL ha0 ha
    rw [hv]
    simp [binary32.roundQ_zero]
  · obtain ⟨hv, _, _⟩ := LinearDecrease_float_val i L a (by omega) hL0 hL ha0 ha
    rw [hv, Fl.lt_fin]
    obtain ⟨_, hm1, _, hm3⟩ := ofInt32_nat (L - i) (by omega)
    have hmge := hm3 (by omega)
    have hP : a ≤ binary32.roundQ (a * binary32.roundQ ((L - i : Nat) : ℚ)) := by
      have h1 : a ≤ a * binary32.roundQ ((L - i : Nat) : ℚ) := by nlinarith
      have := binary32.roundQ_mono (by decide) _ _ h1
      rwa [binary32.roundQ_of_rep a harep] at this
    have hq : pow2 (-149) ≤ binary32.roundQ (a * binary32.roundQ ((L - i : Nat) : ℚ))
        / binary32.roundQ (L : ℚ) := by
      rw [le_div_iff₀ (by linarith)]
      have h1 : pow2 (-118) = pow2 (-149) * pow2 31 := by decide!
      have h2 : pow2 (-149) * binary32.roundQ (L : ℚ) ≤ pow2 (-149) * pow2 31 :=
        mul_le_mul_of_nonneg_left hL2 (le_of_lt (pow2_pos _))
      linarith
    have := binary32.roundQ_mono (by decide) _ _ hq
    rw [binary32.roundQ_of_rep _ (rep32_pow2 (-149) (by decide))] at this
    exact lt_of_lt_of_le (pow2_pos _) this
  · obtain ⟨hv, _, _⟩ := LinearDecrease_float_val 0 L a (by omega) hL0 hL ha0 ha
    refine ⟨_, hv, ?_⟩
    simp only [Nat.sub_zero]
    generalize binary32.roundQ (L : ℚ) = f at hLge hL2
    have hf0 : 0 < f := by linarith
    have hemin : pow2 binary32.emin = pow2 (-126) := congrArg pow2 (by decide)
    have hu : pow2 (-((binary32.prec : Nat) : Int)) = 1 / 16777216 := by decide!
    have h100 : pow2 (-100) = 1 / 1267650600228229401496703205376 := by decide!
    have h126 : pow2 (-126) = 1 / 85070591730234615865843651857942052864 := by decide!
    have h22 : pow2 (-22) = 1 / 4194304 := by decide!
    rw [h100] at hamin
    have hx1 : pow2 binary32.emin ≤ |a * f| := by
      rw [hemin, h126, abs_of_nonneg (by positivity)]
      nlinarith
    have he1 := binary32.roundQ_relative (a * f) hx1
    rw [hu, abs_of_nonneg (by positivity : (0 : ℚ) ≤ a * f)] at he1
    generalize binary32.roundQ (a * f) = P at he1
    obtain ⟨he1a, he1b⟩ := abs_le.mp he1
    have hPf1 : a * (1 - 1 / 16777216) ≤ P / f := by
      rw [le_div_iff₀ hf0]
      nlinarith
    have hPf2 : P / f ≤ a * (1 + 1 / 16777216) := by
      rw [div_le_iff₀ hf0]
      nlinarith
    have hPf0 : 0 ≤ P / f := by nlinarith
    have hx2 : pow2 binary32.emin ≤ |P / f| := by
      rw [hemin, h126, abs_of_nonneg hPf0]
      nlinarith
    have he2 := binary32.roundQ_relative (P / f) hx2
    rw [hu, abs_of_nonneg hPf0] at he2
    generalize binary32.roundQ (P / f) = c at he2
    generalize P / f = t at hPf1 hPf2 hPf0 he2
    obtain ⟨he2a, he2b⟩ := abs_le.mp he2
    rw [h22, abs_le]
    constructor <;> linarith

theorem Format.rep_mul_pow2 (f : Format) (x : ℚ) (e : Int) (he : 0 ≤ e) (hx : f.Rep x) :
    f.Rep (pow2 e * x) := by
  obtain ⟨n, k, hn, hk, hxe⟩ := hx
  exact ⟨n, k + e, hn, by omega, by rw [hxe, pow2_add]; ring⟩

/-- The quotient `fl(a * f) / f`, rounded, is within `2^(-22) * a` of `a`. -/
theorem round_mul_div (a f : ℚ) (hf : pow2 (-7) ≤ f) (ha : pow2 (-100) ≤ a) :
    |binary32.roundQ (binary32.roundQ (a * f) / f) - a| ≤ pow2 (-22) * a := by
  have hemin : pow2 binary32.emin = pow2 (-126) := congrArg pow2 (by decide)
  have hu : pow2 (-((binary32.prec : Nat) : Int)) = 1 / 16777216 := by decide!
  have h100 : pow2 (-100) = 1 / 1267650600228229401496703205376 := by decide!
  have h126 : pow2 (-126) = 1 / 85070591730234615865843651857942052864 := by decide!
  have h22 : pow2 (-22) = 1 / 4194304 := by decide!
  have h7 : pow2 (-7) = 1 / 128 := by decide!
  rw [h100] at ha
  rw [h7] at hf
  have hf0 : 0 < f := by linarith
  have ha0 : 0 < a := by linarith
  have haf : (1 / 1267650600228229401496703205376 : ℚ) * (1 / 128) ≤ a * f :=
    mul_le_mul ha hf (by norm_num) (le_of_lt ha0)
  have hx1 : pow2 binary32.emin ≤ |a * f| := by
    rw [hemin, h126, abs_of_nonneg (by positivity)]
    linarith
  have he1 := binary32.roundQ_relative (a * f) hx1
  rw [hu, abs_of_nonneg (by positivity : (0 : ℚ) ≤ a * f)] at he1
  generalize binary32.roundQ (a * f) = P at he1
  obtain ⟨he1a, he1b⟩ := abs_le.mp he1
  have hPf1 : a * (1 - 1 / 16777216) ≤ P / f := by
    rw [le_div_iff₀ hf0]
    linarith
  have hPf2 : P / f ≤ a * (1 + 1 / 16777216) := by
    rw [div_le_iff₀ hf0]
    linarith
  have hPf0 : 0 ≤ P / f := by linarith
  have hx2 : pow2 binary32.emin ≤ |P / f| := by
    rw [hemin, h126, abs_of_nonneg hPf0]
    linarith
  have he2 := binary32.roundQ_relative (P / f) hx2
  rw [hu, abs_of_nonneg hPf0] at he2
  generalize binary32.roundQ (P / f) = c at he2
  generalize P / f = t at hPf1 hPf2 hPf0 he2
  obtain ⟨he2a, he2b⟩ := abs_le.mp he2
  rw [h22, abs_le]
  constructor <;> linarith

/-- The `float` `c = length / 100.0` of `ExponentialAlpha`. -/
theorem expAlpha_c (L : Nat) (hL0 : 0 < L) (hL : L < 2 ^ 31) :
    binary32.round (binary64.div (binary64.ofInt (L : Int)) Fp.INV_ALPHA_CONSTANT)
      = Fl.fin (binary32.roundQ (binary64.roundQ ((L : ℚ) / 100))) ∧
    pow2 (-7) ≤ binary32.roundQ (binary64.roundQ ((L : ℚ) / 100)) ∧
    binary32.roundQ (binary64.roundQ ((L : ℚ) / 100)) ≤ pow2 31 ∧
    pow2 (-7) ≤ binary64.roundQ ((L : ℚ) / 100) := by
  have h7 : pow2 (-7) = 1 / 128 := by decide!
  have hL1 : (1 : ℚ) ≤ (L : ℚ) := by exact_mod_cast hL0
  have h31 : (L : ℚ) ≤ pow2 31 := by
    have : pow2 31 = ((2 ^ 31 : Nat) : ℚ) := by decide!
    rw [this]
    exact_mod_cast le_of_lt hL
  have hp31 := pow2_pos 31
  have hx1 : pow2 (-7) ≤ (L : ℚ) / 100 := by
    rw [h7, le_div_iff₀ (by norm_num)]
    linarith
  have hx2 : (L : ℚ) / 100 ≤ pow2 31 := by
    rw [div_le_iff₀ (by norm_num)]
    linarith
  obtain ⟨hq1, hq2⟩ := roundQ64_between _ (-7) 31 (by decide) (by decide) hx1 hx2
  obtain ⟨hc1, hc2⟩ := roundQ32_between _ (-7) 31 (by decide) (by decide) hq1 hq2
  refine ⟨?_, hc1, hc2, hq1⟩
  have hof : binary64.ofInt (L : Int) = Fl.fin (L : ℚ) := by
    have := round64_dyadic (L : Int) 0 (by
      rw [abs_lt]
      constructor <;> omega) (by decide) (by decide)
    rw [show pow2 0 = 1 by decide!, mul_one, Int.cast_natCast] at this
    exact this
  rw [hof]
  have hdiv : binary64.div (Fl.fin (L : ℚ)) Fp.INV_ALPHA_CONSTANT
      = Fl.fin (binary64.roundQ ((L : ℚ) / 100)) := by
    show binary64.round (Fl.div (Fl.fin (L : ℚ)) (Fl.fin 100)) = _
    simp only [Fl.div, if_neg (by norm_num : (100 : ℚ) ≠ 0)]
    exact round64_fin_le _ (pow2 31) (rep64_pow2 31 (by decide)) (by decide!)
      (by rw [abs_of_nonneg (by positivity)]; exact hx2)
  rw [hdiv]
  have hq0 : 0 ≤ binary64.roundQ ((L : ℚ) / 100) := by
    have := pow2_pos (-7)
    linarith
  exact round32_fin_le _ (pow2 31) (rep32_pow2 31 (by decide)) (by decide!)
    (by rw [abs_of_nonneg hq0]; exact hq2)

/-- The value of `ExponentialAlpha`. -/
theorem ExponentialAlpha_float_val (i L : Nat) (a : ℚ) (hi : i < 2 ^ 31) (hL0 : 0 < L)
    (hL : L < 2 ^ 31) (ha0 : 0 ≤ a) (ha : a ≤ pow2 96) :
    Fp.ExponentialAlpha i L (Fl.fin a)
      = Fl.fin (binary32.roundQ
          (binary32.roundQ (a * binary32.roundQ (binary64.roundQ ((L : ℚ) / 100)))
            / binary32.roundQ (binary32.roundQ (binary64.roundQ ((L : ℚ) / 100))
                + binary32.roundQ (i : ℚ)))) ∧
    0 ≤ binary32.roundQ (a * binary32.roundQ (binary64.roundQ ((L : ℚ) / 100))) ∧
    binary32.roundQ (binary64.roundQ ((L : ℚ) / 100))
      ≤ binary32.roundQ (binary32.roundQ (binary64.roundQ ((L : ℚ) / 100))
          + binary32.roundQ (i : ℚ)) := by
  obtain ⟨hc, hc1, hc2, _⟩ := expAlpha_c L hL0 hL
  obtain ⟨hci, hi0, hi1, _⟩ := ofInt32_nat i hi
  have hCrep : binary32.Rep (binary32.roundQ (binary64.roundQ ((L : ℚ) / 100))) :=
    binary32.rep_roundQ (by decide) _
  generalize binary32.roundQ (binary64.roundQ ((L : ℚ) / 100)) = C at hc hc1 hc2 hCrep
  generalize binary32.roundQ (i : ℚ) = Fi at hci hi0 hi1
  have hC0 : 0 < C := lt_of_lt_of_le (pow2_pos _) hc1
  have hprod0 : 0 ≤ a * C := mul_nonneg ha0 (le_of_lt hC0)
  have hprod1 : a * C ≤ pow2 127 := by
    have : pow2 127 = pow2 96 * pow2 31 := by decide!
    rw [this]
    exact mul_le_mul ha hc2 (le_of_lt hC0) (le_of_lt (pow2_pos _))
  have hN0 := binary32.roundQ_nonneg _ hprod0
  have hNle : binary32.roundQ (a * C) ≤ pow2 96 * C := by
    have h1 : a * C ≤ pow2 96 * C := mul_le_mul_of_nonneg_right ha (le_of_lt hC0)
    have := binary32.roundQ_mono (by decide) _ _ h1
    rwa [binary32.roundQ_of_rep _ (binary32.rep_mul_pow2 C 96 (by decide) hCrep)] at this
  have hmul : binary32.mul (Fl.fin a) (Fl.fin C) = Fl.fin (binary32.roundQ (a * C)) := by
    show binary32.round (Fl.fin _) = _
    exact round32_fin_le _ (pow2 127) (rep32_pow2 127 (by decide)) (by decide!)
      (by rw [abs_of_nonneg hprod0]; exact hprod1)
  have hsum0 : 0 ≤ C + Fi := by linarith
  have hsum1 : C + Fi ≤ pow2 32 := by
    have : pow2 32 = pow2 31 + pow2 31 := by decide!
    linarith
  have hadd : binary32.add (Fl.fin C) (Fl.fin Fi) = Fl.fin (binary32.roundQ (C + Fi)) := by
    show binary32.round (Fl.fin _) = _
    exact round32_fin_le _ (pow2 32) (rep32_pow2 32 (by decide)) (by decide!)
      (by rw [abs_of_nonneg hsum0]; exact hsum1)
  have hDge : C ≤ binary32.roundQ (C + Fi) := by
    have := binary32.roundQ_mono (by decide) C (C + Fi) (by linarith)
    rwa [binary32.roundQ_of_rep C hCrep] at this
  have hD0 : 0 < binary32.roundQ (C + Fi) := by linarith
  have hquot0 : 0 ≤ binary32.roundQ (a * C) / binary32.roundQ (C + Fi) :=
    div_nonneg hN0 (le_of_lt hD0)
  have hquot1 : binary32.roundQ (a * C) / binary32.roundQ (C + Fi) ≤ pow2 96 := by
    rw [div_le_iff₀ hD0]
    have h1 : pow2 96 * C ≤ pow2 96 * binary32.roundQ (C + Fi) :=
      mul_le_mul_of_nonneg_left hDge (le_of_lt (pow2_pos _))
    linarith
  refine ⟨?_, hN0, hDge⟩
  show binary32.div (binary32.mul (Fl.fin a) (binary32.round (binary64.div
      (binary64.ofInt (L : Int)) Fp.INV_ALPHA_CONSTANT)))
    (binary32.add (binary32.round (binary64.div (binary64.ofInt (L : Int))
      Fp.INV_ALPHA_CONSTANT)) (binary32.ofInt (i : Int))) = _
  rw [hc, hci, hmul, hadd]
  show binary32.round (Fl.div _ _) = _
  simp only [Fl.div, if_neg (ne_of_gt hD0)]
  exact round32_fin_le _ (pow2 96) (rep32_pow2 96 (by decide)) (by decide!)
    (by rw [abs_of_nonneg hquot0]; exact hquot1)

/-- The relative error of rounding to `float` in the normal range, as two
inequalities. -/
theorem roundQ32_rel (x : ℚ) (hx : pow2 (-126) ≤ x) :
    x * (1 - 1 / 16777216) ≤ binary32.roundQ x ∧ binary32.roundQ x ≤ x * (1 + 1 / 16777216) := by
  have hemin : pow2 binary32.emin = pow2 (-126) := congrArg pow2 (by decide)
  have hu : pow2 (-((binary32.prec : Nat) : Int)) = 1 / 16777216 := by decide!
  have hx0 : 0 < x := lt_of_lt_of_le (pow2_pos _) hx
  have h := binary32.roundQ_relative x (by rw [hemin, abs_of_pos hx0]; exact hx)
  rw [hu, abs_of_pos hx0] at h
  obtain ⟨h1, h2⟩ := abs_le.mp h
  constructor <;> linarith

theorem roundQ64_rel (x : ℚ) (hx : pow2 (-1022) ≤ x) :
    x * (1 - 1 / 9007199254740992) ≤ binary64.roundQ x ∧
    binary64.roundQ x ≤ x * (1 + 1 / 9007199254740992) := by
  have hemin : pow2 binary64.emin = pow2 (-1022) := congrArg pow2 (by decide)
  have hu : pow2 (-((binary64.prec : Nat) : Int)) = 1 / 9007199254740992 := by decide!
  have hx0 : 0 < x := lt_of_lt_of_le (pow2_pos _) hx
  have h := binary64.roundQ_relative x (by rw [hemin, abs_of_pos hx0]; exact hx)
  rw [hu, abs_of_pos hx0] at h
  obtain ⟨h1, h2⟩ := abs_le.mp h
  constructor <;> linarith

/-- `ExponentialAlpha` in `float` arithmetic: it does not increase with the
step; for `alphastart` at least `2^(-100)` it is within the relative error
`2^(-22)` of `alphastart` at step 0 and within the relative error `2^(-20)` of
`alphastart / 101` at step `length`. -/
theorem ExponentialAlpha_float (L : Nat) (a : ℚ) (hL0 : 0 < L) (hL : L < 2 ^ 31) (ha0 : 0 ≤ a)
    (ha : a ≤ pow2 96) :
    (∀ i j, i ≤ j → j < 2 ^ 31 →
      Fl.le (Fp.ExponentialAlpha j L (Fl.fin a)) (Fp.ExponentialAlpha i L (Fl.fin a)) = true) ∧
    (pow2 (-100) ≤ a → ∃ c, Fp.ExponentialAlpha 0 L (Fl.fin a) = Fl.fin c ∧
      |c - a| ≤ pow2 (-22) * a) ∧
    (pow2 (-100) ≤ a → ∃ c, Fp.ExponentialAlpha L L (Fl.fin a) = Fl.fin c ∧
      |c - a / 101| ≤ pow2 (-20) * (a / 101)) := by
  obtain ⟨_, hc1, hc2, hq1⟩ := expAlpha_c L hL0 hL
  have hCrep : binary32.Rep (binary32.roundQ (binary64.roundQ ((L : ℚ) / 100))) :=
    binary32.rep_roundQ (by decide) _
  refine ⟨fun i j hij hj => ?_, fun hamin => ?_, fun hamin => ?_⟩
  · obtain ⟨hvi, hN0, hDi⟩ := ExponentialAlpha_float_val i L a (by omega) hL0 hL ha0 ha
    obtain ⟨hvj, _, _⟩ := ExponentialAlpha_float_val j L a hj hL0 hL ha0 ha
    rw [hvi, hvj, Fl.le_fin]
    apply binary32.roundQ_mono (by decide)
    have hDi0 : 0 < binary32.roundQ (binary32.roundQ (binary64.roundQ ((L : ℚ) / 100))
        + binary32.roundQ (i : ℚ)) := by
      have := pow2_pos (-7)
      linarith
    apply div_le_div_of_nonneg_left hN0 hDi0
    apply binary32.roundQ_mono (by decide)
    have h1 : binary32.roundQ (i : ℚ) ≤ binary32.roundQ (j : ℚ) :=
      binary32.roundQ_mono (by decide) _ _ (by exact_mod_cast hij)
    linarith
  · obtain ⟨hv, _, _⟩ := ExponentialAlpha_float_val 0 L a (by decide) hL0 hL ha0 ha
    refine ⟨_, hv, ?_⟩
    simp only [Nat.cast_zero, binary32.roundQ_zero, add_zero]
    rw [binary32.roundQ_of_rep _ hCrep]
    exact round_mul_div a _ hc1 hamin
  · obtain ⟨hv, _, _⟩ := ExponentialAlpha_float_val L L a hL hL0 hL ha0 ha
    refine ⟨_, hv, ?_⟩
    have h100 : pow2 (-100) = 1 / 1267650600228229401496703205376 := by decide!
    have h126 : pow2 (-126) = 1 / 85070591730234615865843651857942052864 := by decide!
    have h7 : pow2 (-7) = 1 / 128 := by decide!
    have h20 : pow2 (-20) = 1 / 1048576 := by decide!
    have hL1 : (1 : ℚ) ≤ (L : ℚ) := by exact_mod_cast hL0
    have hx0 : pow2 (-7) ≤ (L : ℚ) / 100 := by
      rw [h7, le_div_iff₀ (by norm_num)]
      linarith
    obtain ⟨hqa, hqb⟩ := roundQ64_rel ((L : ℚ) / 100)
      (le_trans (pow2_le (-1022) (-7) (by decide)) hx0)
    obtain ⟨hCa, hCb⟩ := roundQ32_rel (binary64.roundQ ((L : ℚ) / 100))
      (le_trans (pow2_le (-126) (-7) (by decide)) hq1)
    obtain ⟨hFa, hFb⟩ := roundQ32_rel (L : ℚ) (by rw [h126]; linarith)
    generalize binary64.roundQ ((L : ℚ) / 100) = q at hqa hqb hCa hCb hc1 hq1
    generalize binary32.roundQ q = C at hCa hCb hc1
    generalize binary32.roundQ (L : ℚ) = F at hFa hFb
    rw [h7] at hc1
    have hxl : (L : ℚ) / 100 * 100 = (L : ℚ) := by field_simp
    generalize (L : ℚ) / 100 = x0 at hqa hqb hxl
    generalize (L : ℚ) = l at hL1 hFa hFb hxl
    obtain ⟨hDa, hDb⟩ := roundQ32_rel (C + F) (by rw [h126]; linarith)
    generalize binary32.roundQ (C + F) = D at hDa hDb
    rw [h100] at hamin
    have ha1 : 0 < a := by linarith
    have hC0 : 0 < C := by linarith
    have haC : (1 / 1267650600228229401496703205376 : ℚ) * (1 / 128) ≤ a * C :=
      mul_le_mul hamin hc1 (by norm_num) (le_of_lt ha1)
    obtain ⟨hNa, hNb⟩ := roundQ32_rel (a * C) (by rw [h126]; linarith)
    generalize binary32.roundQ (a * C) = N at hNa hNb
    -- bounds of `C` and `D` as multiples of `l`
    have hCl1 : (1 - 1 / 16777216) * (1 - 1 / 9007199254740992) / 100 * l ≤ C := by linarith
    have hCl2 : C ≤ (1 + 1 / 16777216) * (1 + 1 / 9007199254740992) / 100 * l := by linarith
    have hDl1 : (1 - 1 / 16777216)
        * ((1 - 1 / 16777216) * (1 - 1 / 9007199254740992) / 100 + (1 - 1 / 16777216)) * l
        ≤ D := by linarith
    have hDl2 : D ≤ (1 + 1 / 16777216)
        * ((1 + 1 / 16777216) * (1 + 1 / 9007199254740992) / 100 + (1 + 1 / 16777216)) * l := by
      linarith
    have hD0 : 0 < D := by linarith
    -- the same bounds multiplied by `a`
    have haC1 := mul_le_mul_of_nonneg_left hCl1 ha0
    have haC2 := mul_le_mul_of_nonneg_left hCl2 ha0
    have hNl1 : (1 - 1 / 16777216) * ((1 - 1 / 16777216) * (1 - 1 / 9007199254740992) / 100)
        * (a * l) ≤ N := by linarith
    have hNl2 : N ≤ (1 + 1 / 16777216)
        * ((1 + 1 / 16777216) * (1 + 1 / 9007199254740992) / 100) * (a * l) := by linarith
    have hN0 : 0 ≤ N := by
      have : 0 ≤ a * C := by positivity
      linarith
    -- the quotient
    have htD : N / D * D = N := div_mul_cancel₀ N (ne_of_gt hD0)
    have ht0 : 0 ≤ N / D := div_nonneg hN0 (le_of_lt hD0)
    generalize N / D = t at htD ht0
    have htD1 := mul_le_mul_of_nonneg_left hDl1 ht0
    have htD2 := mul_le_mul_of_nonneg_left hDl2 ht0
    have hl0 : 0 < l := by linarith
    have hT2 : (1 - 1 / 16777216)
        * ((1 - 1 / 16777216) * (1 - 1 / 9007199254740992) / 100 + (1 - 1 / 16777216)) * t
        ≤ (1 + 1 / 16777216)
          * ((1 + 1 / 16777216) * (1 + 1 / 9007199254740992) / 100) * a := by
      apply le_of_mul_le_mul_right _ hl0
      linarith
    have hT1 : (1 - 1 / 16777216) * ((1 - 1 / 16777216) * (1 - 1 / 9007199254740992) / 100) * a
        ≤ (1 + 1 / 16777216)
          * ((1 + 1 / 16777216) * (1 + 1 / 9007199254740992) / 100 + (1 + 1 / 16777216)) * t := by
      apply le_of_mul_le_mul_right _ hl0
      linarith
    obtain ⟨hca, hcb⟩ := roundQ32_rel t (by rw [h126]; linarith)
    generalize binary32.roundQ t = c at hca hcb
    rw [h20, abs_le]
    constructor <;> linarith

/-- The argument of `exp` in `SigmoidalAlpha`: a finite `double` that is not
positive. -/
theorem sigmoidal_arg (i L : Nat) (hi : i < 2 ^ 31) (hL0 : 0 < L) (hL : L < 2 ^ 31) :
    binary64.div
        (Fl.neg (binary64.mul
          (binary32.mul (binary32.ofInt (i : Int)) (binary32.ofInt (i : Int)))
          Fp.GAUSS_ALPHA_CONSTANT))
        (binary32.mul (binary32.ofInt (L : Int)) (binary32.ofInt (L : Int)))
      = Fl.fin (binary64.roundQ
          (-binary64.roundQ
              (binary32.roundQ (binary32.roundQ (i : ℚ) * binary32.roundQ (i : ℚ)) * 4)
            / binary32.roundQ (binary32.roundQ (L : ℚ) * binary32.roundQ (L : ℚ)))) ∧
    binary64.roundQ
        (-binary64.roundQ
            (binary32.roundQ (binary32.roundQ (i : ℚ) * binary32.roundQ (i : ℚ)) * 4)
          / binary32.roundQ (binary32.roundQ (L : ℚ) * binary32.roundQ (L : ℚ))) ≤ 0 ∧
    0 < binary32.roundQ (binary32.roundQ (L : ℚ) * binary32.roundQ (L : ℚ)) := by
  obtain ⟨hci, hi0, hi1, _⟩ := ofInt32_nat i hi
  obtain ⟨hcL, hL1, hL2, hL3⟩ := ofInt32_nat L hL
  have hLge := hL3 hL0
  generalize binary32.roundQ (i : ℚ) = Fi at hci hi0 hi1
  generalize binary32.roundQ (L : ℚ) = FL at hcL hL1 hL2 hLge
  have h62 : pow2 62 = pow2 31 * pow2 31 := by decide!
  have h64 : pow2 64 = pow2 62 * 4 := by decide!
  have hp31 := pow2_pos 31
  have hsq0 : 0 ≤ Fi * Fi := mul_nonneg hi0 hi0
  have hsq1 : Fi * Fi ≤ pow2 62 := by
    rw [h62]
    exact mul_le_mul hi1 hi1 hi0 (le_of_lt hp31)
  obtain ⟨hG0, hG1⟩ := roundQ32_nonneg_le _ 62 (by decide) hsq0 hsq1
  have hmul1 : binary32.mul (Fl.fin Fi) (Fl.fin Fi) = Fl.fin (binary32.roundQ (Fi * Fi)) := by
    show binary32.round (Fl.fin _) = _
    exact round32_fin_le _ (pow2 62) (rep32_pow2 62 (by decide)) (by decide!)
      (by rw [abs_of_nonneg hsq0]; exact hsq1)
  generalize binary32.roundQ (Fi * Fi) = Gi at hmul1 hG0 hG1
  have hH0 : 0 ≤ Gi * 4 := by linarith
  have hH1 : Gi * 4 ≤ pow2 64 := by rw [h64]; linarith
  have hHr0 : 0 ≤ binary64.roundQ (Gi * 4) := binary64.roundQ_nonneg _ hH0
  have hHr1 : binary64.roundQ (Gi * 4) ≤ pow2 64 :=
    (abs_le.mp (binary64.abs_roundQ_le (by decide) _ _ (rep64_pow2 64 (by decide))
      (by rw [abs_of_nonneg hH0]; exact hH1))).2
  have hmul2 : binary64.mul (Fl.fin Gi) Fp.GAUSS_ALPHA_CONSTANT
      = Fl.fin (binary64.roundQ (Gi * 4)) := by
    show binary64.round (Fl.fin (Gi * 4)) = _
    exact round64_fin_le _ (pow2 64) (rep64_pow2 64 (by decide)) (by decide!)
      (by rw [abs_of_nonneg hH0]; exact hH1)
  generalize binary64.roundQ (Gi * 4) = Hi at hmul2 hHr0 hHr1
  have hLsq0 : 1 ≤ FL * FL := by nlinarith
  have hLsq1 : FL * FL ≤ pow2 62 := by
    rw [h62]
    exact mul_le_mul hL2 hL2 hL1 (le_of_lt hp31)
  have hGq := roundQ32_between (FL * FL) 0 62 (by decide) (by decide)
    (by rw [show pow2 0 = 1 by decide!]; exact hLsq0) hLsq1
  rw [show pow2 0 = 1 by decide!] at hGq
  have hmul3 : binary32.mul (Fl.fin FL) (Fl.fin FL) = Fl.fin (binary32.roundQ (FL * FL)) := by
    show binary32.round (Fl.fin _) = _
    exact round32_fin_le _ (pow2 62) (rep32_pow2 62 (by decide)) (by decide!)
      (by rw [abs_of_nonneg (by linarith)]; exact hLsq1)
  generalize binary32.roundQ (FL * FL) = Gq at hmul3 hGq
  have hGq0 : 0 < Gq := by linarith [hGq.1]
  have hq0 : -Hi / Gq ≤ 0 := div_nonpos_of_nonpos_of_nonneg (by linarith) (le_of_lt hGq0)
  have hq1 : -pow2 64 ≤ -Hi / Gq := by
    rw [le_div_iff₀ hGq0]
    have hp64 := pow2_pos 64
    nlinarith [hGq.1]
  have harg0 : binary64.roundQ (-Hi / Gq) ≤ 0 := by
    have := binary64.roundQ_mono (by decide) _ _ hq0
    rwa [binary64.roundQ_zero] at this
  refine ⟨?_, harg0, hGq0⟩
  rw [hci, hcL, hmul1, hmul2, hmul3]
  show binary64.round (Fl.div (Fl.fin (-Hi)) (Fl.fin Gq)) = _
  simp only [Fl.div, if_neg (ne_of_gt hGq0)]
  exact round64_fin_le _ (pow2 64) (rep64_pow2 64 (by decide)) (by decide!)
    (by rw [abs_le]; constructor <;> linarith [pow2_pos 64])

/-- `SigmoidalAlpha` in `float` arithmetic, for a library function `exp` that is
finite, not negative and monotone on the finite arguments `x ≤ 0` with
`exp 0 = 1`: it returns `alphastart` at step 0 and does not increase with the
step. -/
theorem SigmoidalAlpha_float (exp : Fl → Fl) (L : Nat) (a : ℚ) (hL0 : 0 < L) (hL : L < 2 ^ 31)
    (ha0 : 0 ≤ a) (ha : a ≤ pow2 96) (harep : binary32.Rep a)
    (hexp0 : exp (Fl.fin 0) = Fl.fin 1)
    (hexpm : ∀ x y : ℚ, x ≤ y → y ≤ 0 →
      ∃ p q : ℚ, exp (Fl.fin x) = Fl.fin p ∧ exp (Fl.fin y) = Fl.fin q ∧ 0 ≤ p ∧ p ≤ q) :
    Fp.SigmoidalAlpha exp 0 L (Fl.fin a) = Fl.fin a ∧
    (∀ i j, i ≤ j → j < 2 ^ 31 →
      Fl.le (Fp.SigmoidalAlpha exp j L (Fl.fin a)) (Fp.SigmoidalAlpha exp i L (Fl.fin a))
        = true) := by
  have h96 : pow2 96 ≤ binary32.maxFinite := by decide!
  have h96b : pow2 96 ≤ binary64.maxFinite := by decide!
  -- the value for an argument `A ≤ 0` of `exp` with `exp A = p`
  have hval : ∀ p : ℚ, 0 ≤ p → p ≤ 1 →
      binary32.round (binary64.mul (Fl.fin a) (Fl.fin p))
        = Fl.fin (binary32.roundQ (binary64.roundQ (a * p))) := by
    intro p hp0 hp1
    have hap0 : 0 ≤ a * p := mul_nonneg ha0 hp0
    have hap1 : a * p ≤ pow2 96 := by nlinarith
    have hr0 := binary64.roundQ_nonneg _ hap0
    have hr1 : binary64.roundQ (a * p) ≤ pow2 96 :=
      (abs_le.mp (binary64.abs_roundQ_le (by decide) _ _ (rep64_pow2 96 (by decide))
        (by rw [abs_of_nonneg hap0]; exact hap1))).2
    have h1 : binary64.mul (Fl.fin a) (Fl.fin p) = Fl.fin (binary64.roundQ (a * p)) := by
      show binary64.round (Fl.fin (a * p)) = _
      exact round64_fin_le _ (pow2 96) (rep64_pow2 96 (by decide)) h96b
        (by rw [abs_of_nonneg hap0]; exact hap1)
    rw [h1]
    exact round32_fin_le _ (pow2 96) (rep32_pow2 96 (by decide)) h96
      (by rw [abs_of_nonneg hr0]; exact hr1)
  constructor
  · obtain ⟨harg, _, hGL0⟩ := sigmoidal_arg 0 L (by decide) hL0 hL
    unfold Fp.SigmoidalAlpha
    rw [harg]
    simp only [Nat.cast_zero, binary32.roundQ_zero, mul_zero, zero_mul, binary64.roundQ_zero,
      neg_zero, zero_div]
    rw [hexp0, hval 1 (by norm_num) (le_refl _), mul_one,
      binary64.roundQ_of_rep a (rep_binary32_binary64 a harep), binary32.roundQ_of_rep a harep]
  · intro i j hij hj
    obtain ⟨hargi, hAi0, hGL0⟩ := sigmoidal_arg i L (by omega) hL0 hL
    obtain ⟨hargj, hAj0, _⟩ := sigmoidal_arg j L hj hL0 hL
    have hFij : binary32.roundQ (i : ℚ) ≤ binary32.roundQ (j : ℚ) :=
      binary32.roundQ_mono (by decide) _ _ (by exact_mod_cast hij)
    have hFi0 : 0 ≤ binary32.roundQ (i : ℚ) := binary32.roundQ_nonneg _ (Nat.cast_nonneg i)
    have hAji : binary64.roundQ
          (-binary64.roundQ
              (binary32.roundQ (binary32.roundQ (j : ℚ) * binary32.roundQ (j : ℚ)) * 4)
            / binary32.roundQ (binary32.roundQ (L : ℚ) * binary32.roundQ (L : ℚ)))
        ≤ binary64.roundQ
          (-binary64.roundQ
              (binary32.roundQ (binary32.roundQ (i : ℚ) * binary32.roundQ (i : ℚ)) * 4)
            / binary32.roundQ (binary32.roundQ (L : ℚ) * binary32.roundQ (L : ℚ))) := by
      apply binary64.roundQ_mono (by decide)
      apply div_le_div_of_nonneg_right _ (le_of_lt hGL0)
      apply neg_le_neg
      apply binary64.roundQ_mono (by decide)
      apply mul_le_mul_of_nonneg_right _ (by norm_num)
      apply binary32.roundQ_mono (by decide)
      exact mul_le_mul hFij hFij hFi0 (le_trans hFi0 hFij)
    obtain ⟨p, q, hp, hq, hp0, hpq⟩ := hexpm _ _ hAji hAi0
    obtain ⟨q2, one, hq2, hone, hq20, hq21⟩ := hexpm _ 0 hAi0 (le_refl _)
    rw [hexp0] at hone
    have hone1 : one = 1 := by
      injection hone with h
      exact h.symm
    rw [hq] at hq2
    have hqq : q = q2 := by
      injection hq2
    rw [hone1, ← hqq] at hq21
    unfold Fp.SigmoidalAlpha
    rw [hargi, hargj, hp, hq, hval p hp0 (le_trans hpq hq21), hval q (le_trans hp0 hpq) hq21,
      Fl.le_fin]
    apply binary32.roundQ_mono (by decide)
    apply binary64.roundQ_mono (by decide)
    exact mul_le_mul_of_nonneg_left hpq ha0

theorem Fl.le_self_fin (a : ℚ) : Fl.le (Fl.fin a) (Fl.fin a) = true := by
  simp [Fl.le]

/-- C27, as amended.  In `float` arithmetic, for `0 < length < 2^31`, a `float`
`alphastart` with `0 <= alphastart <= 2^96` and a library function `exp` that
is finite, not negative and monotone on the finite arguments `x <= 0` with
`exp 0 = 1`: `ConstantAlpha` and `SigmoidalAlpha` return `alphastart` at step
0; for `alphastart >= 2^(-100)`, `LinearDecrease` and `ExponentialAlpha` return
at step 0 a number within the relative error `2^(-22)` of `alphastart`; each of
the four functions is non-increasing in the step on `0..length`;
`LinearDecrease` is 0 at step `length` and, for `alphastart >= 2^(-118)`,
positive at every earlier step; and for `alphastart >= 2^(-100)`
`ExponentialAlpha` is within the relative error `2^(-20)` of `alphastart / 101`
at step `length`. -/
theorem alpha_functions_float (exp : Fl → Fl) (L : Nat) (a : ℚ) (hL0 : 0 < L) (hL : L < 2 ^ 31)
    (ha0 : 0 ≤ a) (ha : a ≤ pow2 96) (harep : binary32.Rep a)
    (hexp0 : exp (Fl.fin 0) = Fl.fin 1)
    (hexpm : ∀ x y : ℚ, x ≤ y → y ≤ 0 →
      ∃ p q : ℚ, exp (Fl.fin x) = Fl.fin p ∧ exp (Fl.fin y) = Fl.fin q ∧ 0 ≤ p ∧ p ≤ q) :
    (Fp.ConstantAlpha 0 L (Fl.fin a) = Fl.fin a ∧
      Fp.SigmoidalAlpha exp 0 L (Fl.fin a) = Fl.fin a) ∧
    (pow2 (-100) ≤ a →
      (∃ c, Fp.LinearDecrease 0 L (Fl.fin a) = Fl.fin c ∧ |c - a| ≤ pow2 (-22) * a) ∧
      (∃ c, Fp.ExponentialAlpha 0 L (Fl.fin a) = Fl.fin c ∧ |c - a| ≤ pow2 (-22) * a)) ∧
    (∀ i j, i ≤ j → j ≤ L →
      Fl.le (Fp.LinearDecrease j L (Fl.fin a)) (Fp.LinearDecrease i L (Fl.fin a)) = true ∧
      Fl.le (Fp.ExponentialAlpha j L (Fl.fin a)) (Fp.ExponentialAlpha i L (Fl.fin a)) = true ∧
      Fl.le (Fp.SigmoidalAlpha exp j L (Fl.fin a)) (Fp.SigmoidalAlpha exp i L (Fl.fin a))
        = true ∧
      Fl.le (Fp.ConstantAlpha j L (Fl.fin a)) (Fp.ConstantAlpha i L (Fl.fin a)) = true) ∧
    Fp.LinearDecrease L L (Fl.fin a) = Fl.fin 0 ∧
    (pow2 (-118) ≤ a → ∀ i, i < L →
      Fl.lt (Fl.fin 0) (Fp.LinearDecrease i L (Fl.fin a)) = true) ∧
    (pow2 (-100) ≤ a → ∃ c, Fp.ExponentialAlpha L L (Fl.fin a) = Fl.fin c ∧
      |c - a / 101| ≤ pow2 (-20) * (a / 101)) := by
  obtain ⟨hl1, hl2, hl3, hl4⟩ := LinearDecrease_float L a hL0 hL ha0 ha harep
  obtain ⟨he1, he2, he3⟩ := ExponentialAlpha_float L a hL0 hL ha0 ha
  obtain ⟨hs1, hs2⟩ := SigmoidalAlpha_float exp L a hL0 hL ha0 ha harep hexp0 hexpm
  exact ⟨⟨rfl, hs1⟩, fun h => ⟨hl4 h, he2 h⟩,
    fun i j hij hjL => ⟨hl1 i j hij hjL, he1 i j hij (by omega), hs2 i j hij (by omega),
      Fl.le_self_fin a⟩,
    hl2, hl3, he3⟩

theorem alpha_functions_float_witness :
    (Fp.ConstantAlpha 0 10 (Fl.fin 1) = Fl.fin 1 ∧
      Fp.SigmoidalAlpha expfOne 0 10 (Fl.fin 1) = Fl.fin 1) ∧
    Fp.LinearDecrease 10 10 (Fl.fin 1) = Fl.fin 0 ∧
    (pow2 (-118) ≤ 1 → ∀ i, i < 10 →
      Fl.lt (Fl.fin 0) (Fp.LinearDecrease i 10 (Fl.fin 1)) = true) ∧
    (pow2 (-100) ≤ 1 → ∃ c, Fp.ExponentialAlpha 10 10 (Fl.fin 1) = Fl.fin c ∧
      |c - 1 / 101| ≤ pow2 (-20) * (1 / 101)) :=
  ⟨(alpha_functions_float expfOne 10 1 (by decide) (by decide) (by norm_num) (by decide!)
      ⟨1, 0, by decide, by decide, by decide!⟩ rfl
      (fun _ _ _ _ => ⟨1, 1, rfl, rfl, by norm_num, le_refl _⟩)).1,
    (alpha_functions_float expfOne 10 1 (by decide) (by decide) (by norm_num) (by decide!)
      ⟨1, 0, by decide, by decide, by decide!⟩ rfl
      (fun _ _ _ _ => ⟨1, 1, rfl, rfl, by norm_num, le_refl _⟩)).2.2.2.1,
    (alpha_functions_float expfOne 10 1 (by decide) (by decide) (by norm_num) (by decide!)
      ⟨1, 0, by decide, by decide, by decide!⟩ rfl
      (fun _ _ _ _ => ⟨1, 1, rfl, rfl, by norm_num, le_refl _⟩)).2.2.2.2.1,
    (alpha_functions_float expfOne 10 1 (by decide) (by decide) (by norm_num) (by decide!)
      ⟨1, 0, by decide, by decide, by decide!⟩ rfl
      (fun _ _ _ _ => ⟨1, 1, rfl, rfl, by norm_num, le_refl _⟩)).2.2.2.2.2⟩

/-- C27, counterexample.  In `float` arithmetic: `LinearDecrease(0, 13, 0.1f)`
is `0x1.99999cp-4`, not `alphastart = 0.1f = 0x1.99999ap-4`;
`ExponentialAlpha(0, 11, 3)` is `3 - 2^(-22)`, not 3;
`ExponentialAlpha(13, 13, 101)` is `1 - 2^(-24)`, not `101 / 101`; and
`LinearDecrease(2, 3, 2^(-149))` is 0 although `alphastart` is positive and the
step is before `length`. -/
theorem alpha_functions_float_inexact :
    binary32.round (Fl.fin tenth32) = Fl.fin tenth32 ∧
    Fp.LinearDecrease 0 13 (Fl.fin tenth32) = Fl.fin (6710887 / 67108864) ∧
    (6710887 / 67108864 : ℚ) ≠ tenth32 ∧
    Fp.ExponentialAlpha 0 11 (Fl.fin 3) = Fl.fin (12582911 / 4194304) ∧
    (12582911 / 4194304 : ℚ) ≠ 3 ∧
    Fp.ExponentialAlpha 13 13 (Fl.fin 101) = Fl.fin (16777215 / 16777216) ∧
    (16777215 / 16777216 : ℚ) ≠ 101 / 101 ∧
    binary32.round (Fl.fin (pow2 (-149))) = Fl.fin (pow2 (-149)) ∧
    0 < pow2 (-149) ∧
    Fp.LinearDecrease 2 3 (Fl.fin (pow2 (-149))) = Fl.fin 0 := by
  decide!

/-! ## C3: the reverse trace with bounded level arrays -/

theorem traceParents_some {K : Type} (mem d : Nat) :
    ∀ (ps : List Nat) (st st2 : List (Node K) × List Nat × Nat),
      st.2.1.length ≤ st.2.2 → st.2.2 ≤ Arr.INT_MAX →
      ps.foldlM (Arr.traceParent mem d) st = some st2 →
      (st2.1, st2.2.1) = ps.foldl (fun s p => (setDepth s.1 p d, s.2 ++ [p])) (st.1, st.2.1) ∧
      st2.2.1.length ≤ st2.2.2 ∧ st2.2.2 ≤ Arr.INT_MAX := by
  intro ps
  induction ps with
  | nil =>
    intro st st2 h1 h2 h
    simp only [List.foldlM_nil, Option.pure_def, Option.some.injEq] at h
    subst h
    exact ⟨rfl, h1, h2⟩
  | cons p ps ih =>
    intro st st2 h1 h2 h
    simp only [List.foldlM_cons, Option.bind_eq_bind] at h
    cases hs : Arr.traceParent mem d st p with
    | none => rw [hs] at h; simp at h
    | some s1 =>
      rw [hs] at h
      simp only [Option.some_bind] at h
      have hs1 : s1.1 = setDepth st.1 p d ∧ s1.2.1 = st.2.1 ++ [p] ∧
          s1.2.1.length ≤ s1.2.2 ∧ s1.2.2 ≤ Arr.INT_MAX := by
        unfold Arr.traceParent at hs
        simp only at hs
        split_ifs at hs with c1 c2 c3
        · simp only [Option.some.injEq] at hs
          subst hs
          refine ⟨rfl, rfl, ?_, ?_⟩
          · simp only [List.length_append, List.length_singleton]; omega
          · simp only; omega
        · simp only [Option.some.injEq] at hs
          subst hs
          refine ⟨rfl, rfl, ?_, ?_⟩
          · simp only [List.length_append, List.length_singleton]; omega
          · exact h2
      obtain ⟨e1, e2, e3, e4⟩ := hs1
      obtain ⟨r1, r2, r3⟩ := ih s1 st2 e3 e4 h
      refine ⟨?_, r2, r3⟩
      rw [r1, e1, e2]
      rfl

theorem traceLevels_some {K : Type} (mem d : Nat) :
    ∀ (onlevel : List Nat) (st st2 : List (Node K) × List Nat × Nat),
      st.2.1.length ≤ st.2.2 → st.2.2 ≤ Arr.INT_MAX →
      onlevel.foldlM
        (fun st n => (nodeAt st.1 n).parents.foldlM (Arr.traceParent mem d) st) st = some st2 →
      (st2.1, st2.2.1) = onlevel.foldl
        (fun st n =>
          (nodeAt st.1 n).parents.foldl (fun st p => (setDepth st.1 p d, st.2 ++ [p])) st)
        (st.1, st.2.1) ∧
      st2.2.1.length ≤ st2.2.2 ∧ st2.2.2 ≤ Arr.INT_MAX := by
  intro onlevel
  induction onlevel with
  | nil =>
    intro st st2 h1 h2 h
    simp only [List.foldlM_nil, Option.pure_def, Option.some.injEq] at h
    subst h
    exact ⟨rfl, h1, h2⟩
  | cons n ns ih =>
    intro st st2 h1 h2 h
    simp only [List.foldlM_cons, Option.bind_eq_bind] at h
    cases hs : (nodeAt st.1 n).parents.foldlM (Arr.traceParent mem d) st with
    | none => rw [hs] at h; simp at h
    | some s1 =>
      rw [hs] at h
      simp only [Option.some_bind] at h
      obtain ⟨e1, e2, e3⟩ := traceParents_some mem d _ st s1 h1 h2 hs
      obtain ⟨r1, r2, r3⟩ := ih s1 st2 e2 e3 h
      refine ⟨?_, r2, r3⟩
      rw [r1, List.foldl_cons, ← e1]

/-- When the level array stays within its bounds, `Arr.traceLevel` gives the
nodes and the level of `traceLevel`, and the level has at most `INT_MAX`
entries. -/
theorem traceLevel_bounded_some {K : Type} (mem d : Nat) (nodes : List (Node K))
    (onlevel : List Nat) (r : List (Node K) × List Nat)
    (h : Arr.traceLevel mem nodes onlevel d = some r) :
    r = traceLevel nodes onlevel d ∧ r.2.length ≤ Arr.INT_MAX := by
  unfold Arr.traceLevel at h
  split_ifs at h with c
  cases hs : onlevel.foldlM
      (fun st n => (nodeAt st.1 n).parents.foldlM (Arr.traceParent mem d) st)
      ((nodes, [], 16) : List (Node K) × List Nat × Nat) with
  | none => rw [hs] at h; simp at h
  | some s1 =>
    rw [hs] at h
    simp only [Option.map_some', Option.some.injEq] at h
    obtain ⟨e1, e2, e3⟩ := traceLevels_some mem d onlevel (nodes, [], 16) s1
      (by simp) (by simp [Arr.INT_MAX]) hs
    subst h
    refine ⟨e1, ?_⟩
    simp only
    omega

/-- A run of the bounded loop that returns is a run of the loop on unbounded
lists. -/
theorem traceLoop_bounded_refines {K : Type} (mem : Nat) :
    ∀ fuel (nodes : List (Node K)) (onlevel : List Nat) (depth : Nat)
      (r : List (Node K) × Nat),
      Arr.traceLoop mem fuel nodes onlevel depth = some r →
      traceLoop fuel nodes onlevel depth = some r := by
  intro fuel
  induction fuel with
  | zero => intro nodes onlevel depth r h; simp [Arr.traceLoop] at h
  | succ fuel ih =>
    intro nodes onlevel depth r h
    unfold Arr.traceLoop at h
    unfold traceLoop
    by_cases hpos : onlevel.length > 0
    · rw [if_pos hpos] at h
      rw [if_pos hpos]
      cases hs : Arr.traceLevel mem nodes onlevel depth with
      | none => rw [hs] at h; simp at h
      | some st =>
        rw [hs] at h
        simp only at h
        split_ifs at h with c
        obtain ⟨e1, _⟩ := traceLevel_bounded_some mem depth nodes onlevel st hs
        simp only
        rw [← e1]
        exact ih _ _ _ _ h
    · rw [if_neg hpos] at h
      rw [if_neg hpos]
      exact h

/-- A run of `Arr.SetNodeDepth_UsingReverseTrace` that returns gives the graph
of `SetNodeDepth_UsingReverseTrace` on unbounded lists. -/
theorem reverseTrace_bounded_refines {K : Type} (mem fuel : Nat) (g g2 : Graph K)
    (h : Arr.SetNodeDepth_UsingReverseTrace mem fuel g = some g2) :
    SetNodeDepth_UsingReverseTrace fuel g = some g2 := by
  unfold Arr.SetNodeDepth_UsingReverseTrace at h
  unfold SetNodeDepth_UsingReverseTrace
  split_ifs at h with c
  cases hs : Arr.traceLoop mem fuel g.nodes (leafLevel g) 1 with
  | none => rw [hs] at h; simp at h
  | some r =>
    rw [hs] at h
    rw [traceLoop_bounded_refines mem fuel _ _ _ r hs]
    exact h

theorem traceParents_fit {K : Type} (mem d : Nat) :
    ∀ (ps : List Nat) (nodes : List (Node K)) (lvl : List Nat) (size : Nat),
      lvl.length + ps.length + 15 ≤ mem → lvl.length + ps.length + 15 ≤ Arr.INT_MAX →
      ∃ size2, ps.foldlM (Arr.traceParent mem d) (nodes, lvl, size)
        = some (setDepths nodes ps d, lvl ++ ps, size2) := by
  intro ps
  induction ps with
  | nil => intro nodes lvl size _ _; exact ⟨size, by simp [setDepths]⟩
  | cons p ps ih =>
    intro nodes lvl size h1 h2
    simp only [List.length_cons] at h1 h2
    simp only [List.foldlM_cons, Option.bind_eq_bind]
    by_cases c1 : size ≤ lvl.length
    · have hs : Arr.traceParent mem d (nodes, lvl, size) p
          = some (setDepth nodes p d, lvl ++ [p], size + 16) := by
        unfold Arr.traceParent
        simp only
        rw [if_pos c1, if_neg (by omega), if_neg (by omega)]
      rw [hs]
      simp only [Option.some_bind]
      obtain ⟨s2, hs2⟩ := ih (setDepth nodes p d) (lvl ++ [p]) (size + 16)
        (by simp only [List.length_append, List.length_singleton]; omega)
        (by simp only [List.length_append, List.length_singleton]; omega)
      exact ⟨s2, by rw [hs2]; simp [setDepths]⟩
    · have hs : Arr.traceParent mem d (nodes, lvl, size) p
          = some (setDepth nodes p d, lvl ++ [p], size) := by
        unfold Arr.traceParent
        simp only
        rw [if_neg c1]
      rw [hs]
      simp only [Option.some_bind]
      obtain ⟨s2, hs2⟩ := ih (setDepth nodes p d) (lvl ++ [p]) size
        (by simp only [List.length_append, List.length_singleton]; omega)
        (by simp only [List.length_append, List.length_singleton]; omega)
      exact ⟨s2, by rw [hs2]; simp [setDepths]⟩

theorem traceLevels_fit {K : Type} (g : Graph K) (mem d : Nat) :
    ∀ (onlevel : List Nat) (nodes : List (Node K)) (lvl : List Nat) (size : Nat),
      (∀ v, (nodeAt nodes v).parents = (nodeAt g.nodes v).parents) →
      lvl.length + (onlevel.flatMap (fun n => (nodeAt g.nodes n).parents)).length + 15 ≤ mem →
      lvl.length + (onlevel.flatMap (fun n => (nodeAt g.nodes n).parents)).length + 15
        ≤ Arr.INT_MAX →
      ∃ size2, onlevel.foldlM
          (fun st n => (nodeAt st.1 n).parents.foldlM (Arr.traceParent mem d) st)
          (nodes, lvl, size)
        = some (setDepths nodes (onlevel.flatMap (fun n => (nodeAt g.nodes n).parents)) d,
                lvl ++ onlevel.flatMap (fun n => (nodeAt g.nodes n).parents), size2) := by
  intro onlevel
  induction onlevel with
  | nil => intro nodes lvl size _ _ _; exact ⟨size, by simp [setDepths]⟩
  | cons n ns ih =>
    intro nodes lvl size hpar h1 h2
    simp only [List.flatMap_cons, List.length_append] at h1 h2
    simp only [List.foldlM_cons, Option.bind_eq_bind, List.flatMap_cons]
    obtain ⟨s1, hs1⟩ := traceParents_fit mem d (nodeAt g.nodes n).parents nodes lvl size
      (by omega) (by omega)
    rw [hpar n, hs1]
    simp only [Option.some_bind]
    obtain ⟨s2, hs2⟩ := ih (setDepths nodes (nodeAt g.nodes n).parents d)
      (lvl ++ (nodeAt g.nodes n).parents) s1
      (fun v => by rw [(links_setDepths _ _ _ v).2]; exact hpar v)
      (by simp only [List.length_append]; omega)
      (by simp only [List.length_append]; omega)
    exact ⟨s2, by rw [hs2]; simp [setDepths, List.foldl_append]⟩

/-- A level that fits: `Arr.traceLevel` returns the nodes with the new depths
and the list of the parents. -/
theorem traceLevel_bounded_eq {K : Type} (g : Graph K) (mem d : Nat) (onlevel : List Nat)
    (nodes : List (Node K))
    (hpar : ∀ v, (nodeAt nodes v).parents = (nodeAt g.nodes v).parents)
    (hmem : 16 ≤ mem)
    (h1 : (onlevel.flatMap (fun n => (nodeAt g.nodes n).parents)).length + 15 ≤ mem)
    (h2 : (onlevel.flatMap (fun n => (nodeAt g.nodes n).parents)).length + 15 ≤ Arr.INT_MAX) :
    Arr.traceLevel mem nodes onlevel d
      = some (setDepths nodes (onlevel.flatMap (fun n => (nodeAt g.nodes n).parents)) d,
              onlevel.flatMap (fun n => (nodeAt g.nodes n).parents)) := by
  unfold Arr.traceLevel
  rw [if_neg (by omega)]
  obtain ⟨s, hs⟩ := traceLevels_fit g mem d onlevel nodes [] 16 hpar
    (by simpa using h1) (by simpa using h2)
  rw [hs]
  simp

theorem traceLoop_bounded_spec {K : Type} (g : Graph K) (hwl : WellLinked g)
    (hpc : ParentsConsistent g) (H : Nat → Nat)
    (hH : ∀ v, v < g.nodes.length →
      H v = heightStep H (liveChildren (nodeAt g.nodes v) g.FanOut))
    (mem : Nat) (hmem : 16 ≤ mem) (hN : g.nodes.length < Arr.INT_MAX)
    (hlev : ∀ k, k ≤ g.nodes.length → (levelOf g k).length + 15 ≤ min mem Arr.INT_MAX) :
    ∀ fuel k (nodes : List (Node K)),
      g.nodes.length < k + fuel → 0 < fuel →
      nodes.length = g.nodes.length →
      (∀ v, (nodeAt nodes v).children = (nodeAt g.nodes v).children ∧
            (nodeAt nodes v).parents = (nodeAt g.nodes v).parents) →
      (∀ v, v < g.nodes.length → H v ≤ k → (nodeAt nodes v).depth = H v) →
      (∀ j, j < k → levelOf g j ≠ []) →
      ∃ r, Arr.traceLoop mem fuel nodes (levelOf g k) (k + 1) = some r ∧
        r.1.length = g.nodes.length ∧
        (∀ v, (nodeAt r.1 v).children = (nodeAt g.nodes v).children ∧
              (nodeAt r.1 v).parents = (nodeAt g.nodes v).parents) ∧
        (∀ v, v < g.nodes.length → (nodeAt r.1 v).depth = H v) := by
  intro fuel
  induction fuel with
  | zero => intro k nodes _ hpos; omega
  | succ fuel ih =>
    intro k nodes hfuel _ hlen hlinks hdep hne
    by_cases hlevk : levelOf g k = []
    · refine ⟨(nodes, k + 1), ?_, hlen, hlinks, ?_⟩
      · simp [Arr.traceLoop, hlevk]
      · intro v hv
        apply hdep v hv
        by_contra hgt
        have hmem2 := levelOf_height g hwl hpc H hH (H v) v hv rfl
        rw [levelOf_nil_of_le g k hlevk (H v) (by omega)] at hmem2
        cases hmem2
    · obtain ⟨u, hu⟩ := List.exists_mem_of_ne_nil _ hlevk
      obtain ⟨huN, hku⟩ := mem_levelOf g hpc H hH k u hu
      have huH := height_lt_numnodes g hwl H hH u huN
      have hposlen : (levelOf g k).length > 0 := List.length_pos.2 hlevk
      have hb := hlev (k + 1) (by omega)
      have hstep : Arr.traceLoop mem (fuel + 1) nodes (levelOf g k) (k + 1)
          = Arr.traceLoop mem fuel (setDepths nodes (levelOf g (k + 1)) (k + 1))
              (levelOf g (k + 1)) (k + 1 + 1) := by
        rw [Arr.traceLoop, if_pos hposlen,
          traceLevel_bounded_eq g mem _ _ _ (fun v => (hlinks v).2) hmem
            (le_trans hb (min_le_left _ _)) (le_trans hb (min_le_right _ _))]
        simp only
        rw [if_neg (by omega)]
        rfl
      rw [hstep]
      apply ih (k + 1) _ (by omega) (by omega)
      · rw [length_setDepths]; exact hlen
      · intro v
        rw [(links_setDepths _ _ _ v).1, (links_setDepths _ _ _ v).2]
        exact hlinks v
      · intro v hv hHv
        by_cases hmem2 : v ∈ levelOf g (k + 1)
        · have := (mem_levelOf g hpc H hH (k + 1) v hmem2).2
          rw [depth_setDepths_mem _ _ _ _ hmem2 (by rw [hlen]; exact hv)]
          omega
        · rw [depth_setDepths_not_mem _ _ _ _ hmem2]
          apply hdep v hv
          by_contra hgt
          exact hmem2 (levelOf_height g hwl hpc H hH (k + 1) v hv (by omega))
      · intro j hj
        rcases Nat.eq_or_lt_of_le (Nat.le_of_lt_succ hj) with h | h
        · subst h; exact hlevk
        · exact hne j h

/-- A level of more than `INT_MAX` entries is never completed: the bounded loop
does not return, whatever the memory and the fuel. -/
theorem traceLoop_bounded_overflow {K : Type} (g : Graph K) (mem top : Nat)
    (hbig : Arr.INT_MAX < (levelOf g (top + 1)).length) :
    ∀ d k, k + d = top → ∀ fuel (nodes : List (Node K)),
      (∀ v, (nodeAt nodes v).parents = (nodeAt g.nodes v).parents) →
      Arr.traceLoop mem fuel nodes (levelOf g k) (k + 1) = none := by
  have hpos : ∀ k, k ≤ top → (levelOf g k).length > 0 := by
    intro k hk
    by_contra c
    have hnil : levelOf g k = [] := List.length_eq_zero.1 (by omega)
    rw [levelOf_nil_of_le g k hnil (top + 1) (by omega)] at hbig
    simp at hbig
  intro d
  induction d with
  | zero =>
    intro k hk fuel nodes hpar
    have hk2 : k = top := by omega
    subst hk2
    cases fuel with
    | zero => rfl
    | succ fuel =>
      cases hs : Arr.traceLevel mem nodes (levelOf g k) (k + 1) with
      | none => rw [Arr.traceLoop, if_pos (hpos k (le_refl _)), hs]
      | some st =>
        exfalso
        obtain ⟨e1, e2⟩ := traceLevel_bounded_some mem _ nodes _ st hs
        rw [traceLevel_eq g _ _ _ hpar] at e1
        have e3 : st.2 = levelOf g (k + 1) := by rw [e1]; rfl
        rw [e3] at e2
        omega
  | succ d ih =>
    intro k hk fuel nodes hpar
    cases fuel with
    | zero => rfl
    | succ fuel =>
      cases hs : Arr.traceLevel mem nodes (levelOf g k) (k + 1) with
      | none => rw [Arr.traceLoop, if_pos (hpos k (by omega)), hs]
      | some st =>
        obtain ⟨e1, e2⟩ := traceLevel_bounded_some mem _ nodes _ st hs
        rw [traceLevel_eq g _ _ _ hpar] at e1
        rw [Arr.traceLoop, if_pos (hpos k (by omega)), hs]
        simp only
        by_cases c2 : Arr.INT_MAX ≤ k + 1
        · rw [if_pos c2]
        · rw [if_neg c2, e1]
          exact ih (k + 1) (by omega) fuel _
            (fun v => by rw [(links_setDepths _ _ _ v).2]; exact hpar v)

theorem nodeAt_gLadder (v : Nat) (hv : v < 62) : nodeAt gLadder.nodes v = ladderNode 31 v := by
  simp [nodeAt, gLadder, List.getD_eq_getElem?_getD, hv]

theorem length_flatMap_two (f : Nat → List Nat) :
    ∀ l : List Nat, (∀ v, v ∈ l → (f v).length = 2) → (l.flatMap f).length = 2 * l.length := by
  intro l
  induction l with
  | nil => intro _; rfl
  | cons a l ih =>
    intro h
    simp only [List.flatMap_cons, List.length_append, List.length_cons]
    rw [ih (fun v hv => h v (List.mem_cons_of_mem _ hv)), h a (List.mem_cons_self _ _)]
    omega

set_option maxRecDepth 100000 in
theorem gLadder_leaves : levelOf gLadder 0 = [60, 61] := by decide

/-- Level `j` of the trace of `gLadder` is made of `2^(j+1)` entries, all of
layer `30 - j`. -/
theorem gLadder_level : ∀ j, j ≤ 30 →
    (levelOf gLadder j).length = 2 ^ (j + 1) ∧
    ∀ v, v ∈ levelOf gLadder j → v / 2 = 30 - j ∧ v < 62 := by
  intro j
  induction j with
  | zero =>
    intro _
    rw [gLadder_leaves]
    refine ⟨rfl, ?_⟩
    intro v hv
    simp only [List.mem_cons, List.mem_singleton, List.not_mem_nil, or_false] at hv
    rcases hv with h | h <;> subst h <;> decide
  | succ j ih =>
    intro hj
    obtain ⟨hl, hm⟩ := ih (by omega)
    have hpar : ∀ v, v ∈ levelOf gLadder j →
        (nodeAt gLadder.nodes v).parents = [2 * (v / 2) - 2, 2 * (v / 2) - 1] := by
      intro v hv
      obtain ⟨h1, h2⟩ := hm v hv
      rw [nodeAt_gLadder v h2]
      simp only [ladderNode, linkNode]
      rw [if_pos (by omega)]
    constructor
    · simp only [levelOf]
      rw [length_flatMap_two _ _ (fun v hv => by rw [hpar v hv]; rfl), hl]
      ring
    · intro w hw
      simp only [levelOf, List.mem_flatMap] at hw
      obtain ⟨v, hv, hwv⟩ := hw
      obtain ⟨h1, h2⟩ := hm v hv
      rw [hpar v hv] at hwv
      simp only [List.mem_cons, List.mem_singleton, List.not_mem_nil, or_false] at hwv
      rcases hwv with h | h <;> subst h <;> omega

set_option maxRecDepth 100000 in
theorem gLadder_checks :
    rankCheck gLadder rankLadder ∧ parentsCheck gLadder ∧ depthsZeroCheck gLadder ∧
    gLadder.nodes.length = 62 := by
  decide

theorem reverseTrace_bounded_small_returns :
    (Arr.SetNodeDepth_UsingReverseTrace 16 6 gIter).isSome = true ∧
    (Arr.SetNodeDepth_UsingReverseTrace 16 6 gFork).isSome = true := by
  decide

/-- On the two small graphs `gIter` and `gFork` the bounded arrays with room for
16 pointers give the result of the unbounded lists. -/
theorem reverseTrace_bounded_small :
    Arr.SetNodeDepth_UsingReverseTrace 16 6 gIter = SetNodeDepth_UsingReverseTrace 6 gIter ∧
    Arr.SetNodeDepth_UsingReverseTrace 16 6 gFork = SetNodeDepth_UsingReverseTrace 6 gFork := by
  constructor
  · obtain ⟨g2, h⟩ := Option.isSome_iff_exists.1 reverseTrace_bounded_small_returns.1
    rw [h, reverseTrace_bounded_refines 16 6 gIter g2 h]
  · obtain ⟨g2, h⟩ := Option.isSome_iff_exists.1 reverseTrace_bounded_small_returns.2
    rw [h, reverseTrace_bounded_refines 16 6 gFork g2 h]

/-! ## C7: contextual rounds when the parent state has weight 0 -/

theorem diffLoop_congr_weights {K : Type} [LinearOrderedField K]
    (codebook sample sample2 mu : List K) (diffsf : K)
    (hs : ∀ j, mu.getD j 0 ≠ 0 → sample2.getD j 0 = sample.getD j 0) :
    ∀ k i (a : K), diffLoop codebook sample2 mu diffsf k i a
      = diffLoop codebook sample mu diffsf k i a := by
  intro k
  induction k with
  | zero => intro i a; rfl
  | succ k ih =>
    intro i a
    have hterm : (codebook.getD i 0 - sample2.getD i 0) * (codebook.getD i 0 - sample2.getD i 0)
          * mu.getD i 0
        = (codebook.getD i 0 - sample.getD i 0) * (codebook.getD i 0 - sample.getD i 0)
          * mu.getD i 0 := by
      by_cases h0 : mu.getD i 0 = 0
      · rw [h0, mul_zero, mul_zero]
      · rw [hs i h0]
    simp only [diffLoop]
    rw [hterm, ih]

/-- The winner search depends on the sample only through the entries whose
weight is not 0. -/
theorem FindWinnerEucledian_congr_weights {K : Type} [LinearOrderedField K] (map : Map K)
    (node node2 : Node K) (gptr gptr2 : Graph K) (w : Winner K)
    (hm : node2.mu = node.mu) (hd : gptr2.dimension = gptr.dimension)
    (hs : ∀ j, node.mu.getD j 0 ≠ 0 → node2.points.getD j 0 = node.points.getD j 0) :
    FindWinnerEucledian map node2 gptr2 w = FindWinnerEucledian map node gptr w := by
  unfold FindWinnerEucledian
  have : findWinnerStep map node2 gptr2.dimension = findWinnerStep map node gptr.dimension := by
    funext st n
    simp only [findWinnerStep, hm, hd]
    rw [diffLoop_congr_weights (codeAt map n).points node.points node2.points node.mu st.2 hs]
  rw [this]

/-- In contextual mode with parent weights 0, the winner of a node of depth `d`
is the same in every round after round `d`. -/
theorem roundWinner_stable_contextual {K : Type} [LinearOrderedField K] (map : Map K)
    (g0 : Graph K) (hwl : WellLinked g0) (hd : IsLongestPathDepth g0 (depthOf g0))
    (hpz : ParentWeightsZero g0) :
    ∀ h v, v < g0.nodes.length → depthOf g0 v ≤ h → ∀ r, depthOf g0 v ≤ r →
      roundWinner map 1 (roundIter map 1 (r + 1) g0) v
        = roundWinner map 1 (roundIter map 1 r g0) v := by
  have key : ∀ v, v < g0.nodes.length → ∀ r,
      (∀ c, c ∈ liveChildren (nodeAt g0.nodes v) g0.FanOut →
        (nodeAt (roundIter map 1 (r + 1) g0).nodes c).x = (nodeAt (roundIter map 1 r g0).nodes c).x ∧
        (nodeAt (roundIter map 1 (r + 1) g0).nodes c).y
          = (nodeAt (roundIter map 1 r g0).nodes c).y) →
      roundWinner map 1 (roundIter map 1 (r + 1) g0) v
        = roundWinner map 1 (roundIter map 1 r g0) v := by
    intro v hv r hpos
    have hfr := frameOf_roundIter map 1 g0 r
    have hfr2 := frameOf_roundIter map 1 g0 (r + 1)
    unfold roundWinner
    apply FindWinnerEucledian_congr_weights
    · show (nodeAt (roundIter map 1 (r + 1) g0).nodes v).mu = (nodeAt (roundIter map 1 r g0).nodes v).mu
      rw [(hfr2.2.2.2.2.2 v).2.2.1, (hfr.2.2.2.2.2 v).2.2.1]
    · rw [hfr2.2.2.1, hfr.2.2.1]
    · intro j hj
      show (encPoints 1 (roundIter map 1 (r + 1) g0) v).getD j 0
        = (encPoints 1 (roundIter map 1 r g0) v).getD j 0
      have hmu : (nodeAt g0.nodes v).mu.getD j 0 ≠ 0 := by
        have : (nodeAt (roundIter map 1 r g0).nodes v).mu.getD j 0 ≠ 0 := hj
        rw [(hfr.2.2.2.2.2 v).2.2.1] at this
        exact this
      have hjout : j ∉ (parentWrites g0 (nodeAt g0.nodes v)).map Prod.fst :=
        fun hmem => hmu (hpz v hv j hmem)
      rw [encPoints_frame 1 g0 _ hfr v, encPoints_frame 1 g0 _ hfr2 v]
      unfold stateWrites
      rw [if_pos rfl, if_pos rfl, applyWrites_append, applyWrites_append]
      rw [List.getD_eq_getElem?_getD, List.getD_eq_getElem?_getD]
      have e2 := applyWrites_outside
        (parentWrites (roundIter map 1 (r + 1) g0) (nodeAt g0.nodes v))
        (applyWrites (childWrites (roundIter map 1 (r + 1) g0) (nodeAt g0.nodes v))
          (nodeAt g0.nodes v).points) j (by
          rw [parentWrites_fst_congr g0 _ (nodeAt g0.nodes v) (nodeAt g0.nodes v) hfr2.1 hfr2.2.1
            rfl]
          exact hjout)
      have e1 := applyWrites_outside
        (parentWrites (roundIter map 1 r g0) (nodeAt g0.nodes v))
        (applyWrites (childWrites (roundIter map 1 r g0) (nodeAt g0.nodes v))
          (nodeAt g0.nodes v).points) j (by
          rw [parentWrites_fst_congr g0 _ (nodeAt g0.nodes v) (nodeAt g0.nodes v) hfr.1 hfr.2.1
            rfl]
          exact hjout)
      rw [e2, e1]
      rw [childWrites_congr (roundIter map 1 r g0) (roundIter map 1 (r + 1) g0)
        (nodeAt g0.nodes v) (nodeAt g0.nodes v) (by rw [hfr2.1, hfr.1])
        (by rw [hfr2.2.1, hfr.2.1]) rfl (by
          intro c hc
          rw [hfr.2.1] at hc
          exact hpos c hc)]
  intro h
  induction h with
  | zero =>
    intro v hv hdv r _
    apply key v hv r
    intro c hc
    exfalso
    have := depth_child_lt g0 _ hd c v ⟨hv, hc⟩
    omega
  | succ h ih =>
    intro v hv hdv r hr
    apply key v hv r
    intro c hc
    have hcv : IsChild g0 c v := ⟨hv, hc⟩
    have hlt := depth_child_lt g0 _ hd c v hcv
    have hcN := hwl c v hcv
    obtain ⟨r2, rfl⟩ : ∃ r2, r = r2 + 1 := ⟨r - 1, by omega⟩
    have hw := ih c hcN (by omega) r2 (by omega)
    have hlen1 : c < (roundIter map 1 (r2 + 1) g0).nodes.length := by
      rw [(frameOf_roundIter map 1 g0 (r2 + 1)).2.2.2.2.1]; exact hcN
    have hlen0 : c < (roundIter map 1 r2 g0).nodes.length := by
      rw [(frameOf_roundIter map 1 g0 r2).2.2.2.2.1]; exact hcN
    have e1 : nodeAt (roundIter map 1 (r2 + 1 + 1) g0).nodes c
        = roundNode map 1 (roundIter map 1 (r2 + 1) g0) c :=
      nodeAt_roundGraph map 1 _ c hlen1
    have e0 : nodeAt (roundIter map 1 (r2 + 1) g0).nodes c
        = roundNode map 1 (roundIter map 1 r2 g0) c :=
      nodeAt_roundGraph map 1 _ c hlen0
    rw [e1, e0]
    constructor <;> simp only [roundNode, hw]

theorem getD_abs_le {K : Type} [LinearOrderedField K] (l : List K) (B : K) (hB : 0 ≤ B)
    (h : ∀ c, c ∈ l → |c| ≤ B) (i : Nat) : |l.getD i 0| ≤ B := by
  rw [List.getD_eq_getElem?_getD]
  cases hi : l[i]? with
  | none => simpa using hB
  | some a => exact h a (List.getElem?_mem hi)

theorem getD_weight_bounds {K : Type} [LinearOrderedField K] (l : List K) (M : K) (hM : 0 ≤ M)
    (h : ∀ m, m ∈ l → 0 ≤ m ∧ m ≤ M) (i : Nat) : 0 ≤ l.getD i 0 ∧ l.getD i 0 ≤ M := by
  rw [List.getD_eq_getElem?_getD]
  cases hi : l[i]? with
  | none => exact ⟨le_refl _, hM⟩
  | some a => exact h a (List.getElem?_mem hi)

theorem applyWrites_forall {K : Type} (P : K → Prop) (ws : List (Nat × K)) :
    ∀ p : List K, (∀ c, c ∈ p → P c) → (∀ w, w ∈ ws → P w.2) →
      ∀ c, c ∈ applyWrites ws p → P c := by
  induction ws with
  | nil => intro p hp _ c hc; exact hp c hc
  | cons w ws ih =>
    intro p hp hw c hc
    simp only [applyWrites, List.foldl_cons] at ih hc
    apply ih (p.set w.1 w.2) _ (fun w2 hw2 => hw w2 (List.mem_cons_of_mem _ hw2)) c hc
    intro a ha
    rcases List.mem_or_eq_of_mem_set ha with h | h
    · exact hp a h
    · rw [h]; exact hw w (List.mem_cons_self _ _)

theorem weightedDist_le {K : Type} [LinearOrderedField K] (codebook sample mu : List K)
    (dim : Nat) (B M : K)
    (hc : ∀ i, |codebook.getD i 0| ≤ B) (hs : ∀ i, |sample.getD i 0| ≤ B)
    (hm : ∀ i, 0 ≤ mu.getD i 0 ∧ mu.getD i 0 ≤ M) :
    weightedDist codebook sample mu dim ≤ (dim : K) * (M * (2 * B) ^ 2) := by
  unfold weightedDist
  have h := List.sum_le_card_nsmul
    ((List.range dim).map
      (fun i => mu.getD i 0 * (codebook.getD i 0 - sample.getD i 0) ^ 2))
    (M * (2 * B) ^ 2) (by
      intro x hx
      obtain ⟨i, _, rfl⟩ := List.mem_map.1 hx
      have h1 := abs_le.1 (hc i)
      have h2 := abs_le.1 (hs i)
      have habs : |codebook.getD i 0 - sample.getD i 0| ≤ 2 * B := by
        rw [abs_le]; constructor <;> linarith
      have hsq : (codebook.getD i 0 - sample.getD i 0) ^ 2 ≤ (2 * B) ^ 2 := by
        rw [← sq_abs (codebook.getD i 0 - sample.getD i 0)]
        exact pow_le_pow_left₀ (abs_nonneg _) habs 2
      exact mul_le_mul (hm i).2 hsq (sq_nonneg _) (le_trans (hm i).1 (hm i).2))
  simpa [nsmul_eq_mul] using h

theorem stateWrites_values {K : Type} [LinearOrderedField K] (g : Graph K) (node : Node K)
    (w : Nat × K) (hw : w ∈ stateWrites 1 g node) :
    ∃ c, w.2 = ((nodeAt g.nodes c).x : K) ∨ w.2 = ((nodeAt g.nodes c).y : K) := by
  unfold stateWrites at hw
  rw [if_pos rfl, List.mem_append] at hw
  rcases hw with hw | hw
  · unfold childWrites at hw
    obtain ⟨i, _, hi⟩ := List.mem_flatMap.1 hw
    cases hch : childAt node i with
    | none => rw [hch] at hi; cases hi
    | some c =>
      rw [hch] at hi
      simp only [List.mem_cons, List.mem_singleton, List.not_mem_nil, or_false] at hi
      rcases hi with h | h
      · exact ⟨c, Or.inl (by rw [h])⟩
      · exact ⟨c, Or.inr (by rw [h])⟩
  · unfold parentWrites at hw
    obtain ⟨i, _, hi⟩ := List.mem_flatMap.1 hw
    simp only [List.mem_cons, List.mem_singleton, List.not_mem_nil, or_false] at hi
    rcases hi with h | h
    · exact ⟨_, Or.inl (by rw [h])⟩
    · exact ⟨_, Or.inr (by rw [h])⟩

theorem encPoints_within {K : Type} [LinearOrderedField K] (B M : K) (g : Graph K)
    (hin : ValuesWithin B M g) (v : Nat) :
    ∀ c, c ∈ encPoints 1 g v → |c| ≤ B := by
  unfold encPoints
  apply applyWrites_forall (fun c => |c| ≤ B)
  · exact (hin v).1
  · intro w hw
    obtain ⟨c, h | h⟩ := stateWrites_values g _ w hw
    · show |w.2| ≤ B
      rw [h]; exact (hin c).2.2.1
    · show |w.2| ≤ B
      rw [h]; exact (hin c).2.2.2

/-- With moderate values every winner search of a round finds a codebook of the
map. -/
theorem roundWinner_finds {K : Type} [LinearOrderedField K] (B M : K) (map : Map K)
    (g : Graph K) (hB : 0 ≤ B) (hM : 0 ≤ M)
    (hmap : ∀ n, n < map.xdim * map.ydim → ∀ c, c ∈ (codeAt map n).points → |c| ≤ B)
    (hnoc : 0 < map.xdim * map.ydim)
    (hsmall : (g.dimension : K) * (M * (2 * B) ^ 2) < FLT_MAX)
    (hin : ValuesWithin B M g) (v : Nat) :
    (roundWinner map 1 g v).diff < FLT_MAX ∧
    (roundWinner map 1 g v).codeno < map.xdim * map.ydim := by
  have hmu : ∀ i, 0 ≤ (nodeAt g.nodes v).mu.getD i 0 ∧ (nodeAt g.nodes v).mu.getD i 0 ≤ M :=
    fun i => getD_weight_bounds _ M hM (hin v).2.1 i
  unfold roundWinner
  rw [FindWinnerEucledian_eq_exhaustiveWinner map
    { nodeAt g.nodes v with points := encPoints 1 g v } g { codeno := 0, diff := 0 }
    (fun i _ => (hmu i).1)]
  obtain ⟨hle, hcase⟩ := exhaustive_invariant map
    { nodeAt g.nodes v with points := encPoints 1 g v } g 0 (map.xdim * map.ydim)
  have hd0 : nodeDist map { nodeAt g.nodes v with points := encPoints 1 g v } g 0 < FLT_MAX := by
    refine lt_of_le_of_lt ?_ hsmall
    unfold nodeDist
    exact weightedDist_le _ _ _ _ B M
      (fun i => getD_abs_le _ B hB (hmap 0 hnoc) i)
      (fun i => getD_abs_le _ B hB (encPoints_within B M g hin v) i) hmu
  simp only [exhaustiveWinner]
  rcases hcase with ⟨h, _⟩ | ⟨h1, _, h3, _⟩
  · exfalso
    have := hle 0 hnoc
    rw [h] at this
    exact absurd hd0 (not_lt.2 this)
  · exact ⟨h3, h1⟩

theorem valuesWithin_roundGraph {K : Type} [LinearOrderedField K] (B M : K) (map : Map K)
    (g : Graph K) (hB : 0 ≤ B) (hM : 0 ≤ M)
    (hmap : ∀ n, n < map.xdim * map.ydim →
      (∀ c, c ∈ (codeAt map n).points → |c| ≤ B) ∧
      |((codeAt map n).x : K)| ≤ B ∧ |((codeAt map n).y : K)| ≤ B)
    (hnoc : 0 < map.xdim * map.ydim)
    (hsmall : (g.dimension : K) * (M * (2 * B) ^ 2) < FLT_MAX)
    (hin : ValuesWithin B M g) : ValuesWithin B M (roundGraph map 1 g) := by
  intro v
  by_cases hv : v < g.nodes.length
  · rw [nodeAt_roundGraph map 1 g v hv]
    obtain ⟨_, hcode⟩ := roundWinner_finds B M map g hB hM (fun n hn => (hmap n hn).1) hnoc
      hsmall hin v
    exact ⟨encPoints_within B M g hin v, (hin v).2.1, (hmap _ hcode).2.1, (hmap _ hcode).2.2⟩
  · have h1 : nodeAt (roundGraph map 1 g).nodes v = emptyNode :=
      nodeAt_of_length_le _ _ (by rw [length_roundGraph]; omega)
    have h2 : nodeAt g.nodes v = emptyNode := nodeAt_of_length_le _ _ (by omega)
    rw [h1, ← h2]
    exact hin v

theorem valuesWithin_of_moderate {K : Type} [LinearOrderedField K] (B M : K) (map : Map K)
    (g : Graph K) (hmod : ModerateValues B M map g) : ValuesWithin B M g := by
  obtain ⟨hB, hM, _, hg⟩ := hmod
  intro v
  by_cases hv : v < g.nodes.length
  · exact hg v hv
  · have h2 : nodeAt g.nodes v = emptyNode := nodeAt_of_length_le _ _ (by omega)
    rw [h2]
    refine ⟨fun c hc => ?_, fun m hm => ?_, ?_, ?_⟩
    · simp [emptyNode] at hc
    · simp [emptyNode] at hm
    · simpa [emptyNode] using hB
    · simpa [emptyNode] using hB

theorem valuesWithin_roundIter {K : Type} [LinearOrderedField K] (B M : K) (map : Map K)
    (g : Graph K) (hmod : ModerateValues B M map g) (hnoc : 0 < map.xdim * map.ydim)
    (hsmall : (g.dimension : K) * (M * (2 * B) ^ 2) < FLT_MAX) (r : Nat) :
    ValuesWithin B M (roundIter map 1 r g) := by
  induction r with
  | zero => exact valuesWithin_of_moderate B M map g hmod
  | succ r ih =>
    exact valuesWithin_roundGraph B M map _ hmod.1 hmod.2.1 hmod.2.2.1 hnoc
      (by rw [(frameOf_roundIter map 1 g r).2.2.1]; exact hsmall) ih

theorem roundFinds_roundIter_moderate {K : Type} [LinearOrderedField K] (B M : K) (map : Map K)
    (g : Graph K) (hmod : ModerateValues B M map g) (hnoc : 0 < map.xdim * map.ydim)
    (hsmall : (g.dimension : K) * (M * (2 * B) ^ 2) < FLT_MAX) (r : Nat) :
    RoundFinds map 1 (roundIter map 1 r g) := by
  intro n _
  exact (roundWinner_finds B M map _ hmod.1 hmod.2.1 (fun n hn => (hmod.2.2.1 n hn).1) hnoc
    (by rw [(frameOf_roundIter map 1 g r).2.2.1]; exact hsmall)
    (valuesWithin_roundIter B M map g hmod hnoc hsmall r) n).1

theorem kStepRounds_gptr_moderate {K : Type} [LinearOrderedField K] (B M : K) (map : Map K)
    (st : RoundState K) (hx : st.gptr.nodes.length ≤ st.xstates.length)
    (hy : st.gptr.nodes.length ≤ st.ystates.length)
    (hmod : ModerateValues B M map st.gptr) (hnoc : 0 < map.xdim * map.ydim)
    (hsmall : (st.gptr.dimension : K) * (M * (2 * B) ^ 2) < FLT_MAX) (r : Nat) :
    (kStepRounds map 1 r st).gptr = roundIter map 1 r st.gptr := by
  induction r using Nat.strong_induction_on with
  | _ r ih =>
    apply kStepRounds_gptr map 1 st hx hy r
    intro j hj
    rw [ih j hj]
    exact roundFinds_roundIter_moderate B M map st.gptr hmod hnoc hsmall j

/-- The rounds of the contextual K-step approximation on `gCtxZero`: both nodes
move in round 1, node 0 moves again in round 2, and round 3 moves no node. -/
theorem kStep_contextual_converges_rounds :
    (List.range 4).map
        (fun r => nodePositions (kStepRounds mapCtx 1 r (roundInit gCtxZero)).gptr)
      = [[(0, 0), (1, 1)], [(1, 0), (0, 1)], [(0, 0), (0, 1)], [(0, 0), (0, 1)]] := by
  decide!

end Somsd
